import Mathlib

/-!
# ApertureKV: a shallow embedding of the storage engine

The development follows the Go sources of the repository:

* `data/log_record.go`  : the record codec (`EncodeLogRecord`, `decodeLogRecordHeader`,
  `getLogRecordCRC`, `EncodeLogRecordPos`, `DecodeLogRecordPos`);
* `data/data_file.go`   : `DataFile.ReadLogRecord`, `DataFile.Write`;
* `batch.go`            : `WriteBatch`, `logRecordKeyWithSeq`, `parseLogRecordKey`;
* `db.go`               : `DB.Put`, `DB.Get`, `DB.Delete`, `appendLogRecord`,
  `loadDataFiles`, `loadIndexFromDataFiles`.

Conventions.  A byte is a `Fin 256`, a byte slice a `List Byte`.  Machine integers are
natural numbers or integers with an explicit reduction modulo `2 ^ w` wherever the
Go code can wrap.  A Go runtime panic (nil dereference, slice bounds, negative `make`)
is the distinguished error `Err.Panic`.  Operating-system failures of `open`, `write`
and `fsync` are not part of the model: those calls always succeed, and `Sync` has no
effect on the modelled state.
-/

namespace ApertureKV

/-! ## Bytes and the Go standard library pieces the codec uses -/

abbrev Byte := Fin 256

abbrev Bytes := List Byte

/-- Go conversion `byte(x)`: the low eight bits of an unsigned integer. -/
def byteOf (x : Nat) : Byte := ⟨x % 256, Nat.mod_lt _ (by decide)⟩

/-- Loop of `binary.PutUvarint`: `for x >= 0x80 { buf[i] = byte(x) | 0x80; x >>= 7; i++ }`
followed by `buf[i] = byte(x)`.  A `uint64` leaves the loop after at most nine rounds,
which is the fuel `PutUvarint` passes. -/
def putUvarintLoop : Nat → Nat → Bytes
  | 0, x => [byteOf x]
  | fuel + 1, x =>
    if 0x80 ≤ x then byteOf (x % 256 ||| 0x80) :: putUvarintLoop fuel (x >>> 7)
    else [byteOf x]

/-- Go `binary.PutUvarint` on a `uint64`: the bytes written (their number is the
returned count). -/
def PutUvarint (x : Nat) : Bytes := putUvarintLoop 9 (x % 2 ^ 64)

/-- Go `binary.PutVarint` on an `int64`: zig-zag (`ux := uint64(x) << 1`, complemented
when `x < 0`) and then `PutUvarint`. -/
def PutVarint (x : Int) : Bytes :=
  let ux := ((x % 2 ^ 64).toNat <<< 1) % 2 ^ 64
  PutUvarint (if x < 0 then ux ^^^ (2 ^ 64 - 1) else ux)

/-- Loop of Go `binary.Uvarint` over `buf` with loop index `i`, accumulator `x` and
shift `s`.  The result is the value and the number of bytes read; the count is `0`
when the buffer ends inside the varint and `-(i+1)` on a 64-bit overflow. -/
def uvarintLoop : Bytes → Nat → Nat → Nat → Nat × Int
  | [], _, _, _ => (0, 0)
  | b :: rest, i, x, s =>
    if i = 10 then (0, -((i : Int) + 1))
    else if b.val < 0x80 then
      if i = 9 ∧ 1 < b.val then (0, -((i : Int) + 1))
      else ((x ||| (b.val <<< s)) % 2 ^ 64, (i : Int) + 1)
    else uvarintLoop rest (i + 1) ((x ||| ((b.val &&& 0x7f) <<< s)) % 2 ^ 64) (s + 7)

/-- Go `binary.Uvarint`. -/
def Uvarint (buf : Bytes) : Nat × Int := uvarintLoop buf 0 0 0

/-- Go `binary.Varint`: `Uvarint` followed by the inverse zig-zag step
(`x := int64(ux >> 1); if ux&1 != 0 { x = ^x }`). -/
def Varint (buf : Bytes) : Int × Int :=
  let r := Uvarint buf
  let x : Int := ((r.1 >>> 1 : Nat) : Int)
  (if r.1 &&& 1 ≠ 0 then -x - 1 else x, r.2)

/-- Go conversion `uint32(x)` of an `int64`. -/
def toUint32 (x : Int) : Nat := (x % 2 ^ 32).toNat

/-- One round of the table construction of Go `crc32.simplePopulateTable`. -/
def crcRound (c : Nat) : Nat :=
  if c &&& 1 = 1 then (c >>> 1) ^^^ 0xedb88320 else c >>> 1

/-- Entry `i` of `crc32.IEEETable` (eight rounds starting from `i`). -/
def crcTable (i : Nat) : Nat := crcRound^[8] i

/-- Loop body of Go `crc32.simpleUpdate`: `crc = tab[byte(crc)^v] ^ (crc >> 8)`. -/
def crcStep (crc : Nat) (v : Byte) : Nat :=
  crcTable ((crc % 256) ^^^ v.val) ^^^ (crc >>> 8)

/-- Go `crc32.Update(crc, crc32.IEEETable, p)`. -/
def crc32Update (crc : Nat) (p : Bytes) : Nat :=
  (p.foldl crcStep (crc ^^^ 0xffffffff)) ^^^ 0xffffffff

/-- Go `crc32.ChecksumIEEE`. -/
def ChecksumIEEE (p : Bytes) : Nat := crc32Update 0 p

/-- Go `binary.LittleEndian.PutUint32`. -/
def putUint32LE (v : Nat) : Bytes :=
  [byteOf v, byteOf (v >>> 8), byteOf (v >>> 16), byteOf (v >>> 24)]

/-- Go `binary.LittleEndian.Uint32` on a four-byte slice. -/
def uint32LE (b0 b1 b2 b3 : Byte) : Nat :=
  b0.val ||| (b1.val <<< 8) ||| (b2.val <<< 16) ||| (b3.val <<< 24)

/-! ## `data/log_record.go` -/

abbrev LogRecordType := Byte

def LogRecordNormal : LogRecordType := 0

def LogRecordDeleted : LogRecordType := 1

def LogRecordTxnFinished : LogRecordType := 2

/-- Constant `maxLogRecordHeaderSize = binary.MaxVarintLen32*2 + 5`. -/
def maxLogRecordHeaderSize : Nat := 15

structure LogRecord where
  Key : Bytes
  Value : Bytes
  Typ : LogRecordType
  deriving DecidableEq, Repr

structure logRecordHeader where
  crc : Nat
  recordType : LogRecordType
  keySize : Nat
  valueSize : Nat
  deriving DecidableEq, Repr

structure LogRecordPos where
  Fid : Nat
  Offset : Int
  Size : Nat
  deriving DecidableEq, Repr

/-- The errors of `errors.go` and `data_file.go`, `io.EOF`, an operating-system read
error, the anonymous errors of `checkOptions`, and the runtime panic. -/
inductive Err where
  | KeyIsEmpty
  | IndexUpdateFailed
  | KeyNotFound
  | DataFileNotFound
  | DataDirectoryCorrupted
  | ExceedMaxBatchNum
  | MergeInProgress
  | MergeRatioUnreached
  | NoEnoughSpaceForMerge
  | InvalidCRC
  | EOF
  | IOError
  | InvalidOptions
  | Panic
  deriving DecidableEq, Repr

deriving instance DecidableEq for Except

/-- The bytes after the crc field of an encoded record:
`type || keySize || valueSize || key || value`. -/
def recordBody (r : LogRecord) : Bytes :=
  r.Typ :: (PutVarint r.Key.length ++ PutVarint r.Value.length ++ r.Key ++ r.Value)

/-- Go `EncodeLogRecord`.  The header is built in a 15-byte buffer; the second
`PutVarint` indexes past it (a runtime panic, `none`) when the two size varints need
more than ten bytes.  Otherwise the result is the encoded bytes and their count. -/
def EncodeLogRecord (r : LogRecord) : Option (Bytes × Nat) :=
  let index := 5 + (PutVarint r.Key.length).length + (PutVarint r.Value.length).length
  if maxLogRecordHeaderSize < index then none
  else
    let size := index + r.Key.length + r.Value.length
    let crc := ChecksumIEEE (recordBody r)
    some (putUint32LE crc ++ recordBody r, size)

/-- Go `decodeLogRecordHeader`.  `none` is the nil header; the inner `Option` is
`none` when slicing `buf[index:]` panics because the first varint overflowed and made
`index` negative.  The header length is an `int64`. -/
def decodeLogRecordHeader (buf : Bytes) : Option (Option (logRecordHeader × Int)) :=
  match buf with
  | b0 :: b1 :: b2 :: b3 :: t :: rest =>
    let k := Varint rest
    let index : Int := 5 + k.2
    if index < 0 then some none
    else
      let v := Varint (buf.drop index.toNat)
      some (some ({ crc := uint32LE b0 b1 b2 b3, recordType := t,
                    keySize := toUint32 k.1, valueSize := toUint32 v.1 }, index + v.2))
  | _ => none

/-- Go `getLogRecordCRC` for a non-nil record: the checksum of the header bytes after
the crc field, updated with the key and then with the value. -/
def getLogRecordCRC (lr : LogRecord) (header : Bytes) : Nat :=
  crc32Update (crc32Update (ChecksumIEEE header) lr.Key) lr.Value

/-! ## `data/data_file.go` -/

/-- Modelled from the spec: `fio.IOManager.Read` of the file-descriptor backend
(`fio/file_io.go` is not among the sources), a positional read that fills the whole
buffer or reports `io.EOF` when fewer than the requested bytes exist; a negative
offset is an I/O error.  Composed with `make([]byte, n)` as in `DataFile.ReadNBytes`,
whose `make` panics on a negative `n`. -/
def ReadNBytes (file : Bytes) (n : Int) (offset : Int) : Except Err Bytes :=
  if n < 0 then .error .Panic
  else if offset < 0 then .error .IOError
  else if n = 0 then .ok []
  else if offset + n ≤ file.length then .ok ((file.drop offset.toNat).take n.toNat)
  else .error .EOF

/-- Go `DataFile.ReadLogRecord` on a file with contents `file`: the record and its
encoded size, or an error. -/
def ReadLogRecord (file : Bytes) (offset : Int) : Except Err (LogRecord × Int) :=
  let fileSize : Int := file.length
  let headerBytes : Int :=
    if offset + maxLogRecordHeaderSize > fileSize then fileSize - offset
    else maxLogRecordHeaderSize
  match ReadNBytes file headerBytes offset with
  | .error e => .error e
  | .ok headerBuf =>
    match decodeLogRecordHeader headerBuf with
    | none => .error .EOF
    | some none => .error .Panic
    | some (some (header, headerSize)) =>
      if header.crc = 0 ∧ header.keySize = 0 ∧ header.valueSize = 0 then .error .EOF
      else
        let keySize : Int := header.keySize
        let valueSize : Int := header.valueSize
        let recordSize := headerSize + keySize + valueSize
        let kv : Except Err (Bytes × Bytes) :=
          if keySize > 0 ∨ valueSize > 0 then
            match ReadNBytes file (keySize + valueSize) (offset + headerSize) with
            | .error e => .error e
            | .ok kvBuf => .ok (kvBuf.take header.keySize, kvBuf.drop header.keySize)
          else .ok ([], [])
        match kv with
        | .error e => .error e
        | .ok (key, value) =>
          if headerSize < 4 ∨ (headerBuf.length : Int) < headerSize then .error .Panic
          else
            let logRecord : LogRecord :=
              { Key := key, Value := value, Typ := header.recordType }
            let crc := getLogRecordCRC logRecord
              ((headerBuf.drop 4).take (headerSize.toNat - 4))
            if crc ≠ header.crc then .error .InvalidCRC
            else .ok (logRecord, recordSize)

/-! ## `batch.go`: keys with a sequence number -/

def nonTransactionSeqNo : Nat := 0

/-- The bytes of `txnFinKey = []byte("txn-fin")`. -/
def txnFinKey : Bytes := [116, 120, 110, 45, 102, 105, 110]

/-- Go `logRecordKeyWithSeq`: `PutUvarint(seqNo)` followed by the key. -/
def logRecordKeyWithSeq (key : Bytes) (seqNo : Nat) : Bytes :=
  PutUvarint seqNo ++ key

/-- Go `parseLogRecordKey`: `seqNo, n := binary.Uvarint(key); realKey := key[n:]`.
Slicing with a negative `n` (varint overflow) panics: `none`. -/
def parseLogRecordKey (key : Bytes) : Option (Bytes × Nat) :=
  let r := Uvarint key
  if r.2 < 0 then none else some (key.drop r.2.toNat, r.1)

/-! ## The memory index -/

/-- Modelled from the spec: the memory index behind `index.Indexer`.  The B-tree and
B+ tree backends (`index/btree.go`, `index/bptree.go`) are not among the sources and
`index/art.go` delegates to an external radix tree; the engine relies only on an
ordered map from keys to positions with unique keys.  The map is the list of its
entries in ascending lexicographic key order. -/
abbrev Index := List (Bytes × LogRecordPos)

/-- `Indexer.Get`: the position stored for `key`, `none` for Go `nil`. -/
def Index.Get : Index → Bytes → Option LogRecordPos
  | [], _ => none
  | (k, p) :: rest, key => if k = key then some p else Index.Get rest key

/-- Entries after storing `pos` under `key`, kept in ascending key order. -/
def Index.insert : Index → Bytes → LogRecordPos → Index
  | [], key, pos => [(key, pos)]
  | (k, p) :: rest, key, pos =>
    if key = k then (key, pos) :: rest
    else if key < k then (key, pos) :: (k, p) :: rest
    else (k, p) :: Index.insert rest key pos

/-- Entries after removing `key`. -/
def Index.erase (idx : Index) (key : Bytes) : Index :=
  idx.filter (fun e => e.1 ≠ key)

/-- `Indexer.Put`: the displaced position (or `nil`) and the new index. -/
def Index.Put (idx : Index) (key : Bytes) (pos : LogRecordPos) :
    Option LogRecordPos × Index :=
  (idx.Get key, idx.insert key pos)

/-- `Indexer.Delete`: the removed position (or `nil`), whether an entry was removed,
and the new index. -/
def Index.Delete (idx : Index) (key : Bytes) : (Option LogRecordPos × Bool) × Index :=
  ((idx.Get key, (idx.Get key).isSome), idx.erase key)

/-! ## The data directory and `db.go` -/

/-- The data directory: the contents of the segment `<%09d id>.data` for every
segment present, keyed by its numeric id. -/
abbrev Disk := List (Nat × Bytes)

/-- Contents of segment `fid`, `none` when the file does not exist. -/
def Disk.contents : Disk → Nat → Option Bytes
  | [], _ => none
  | (f, c) :: rest, fid => if f = fid then some c else Disk.contents rest fid

/-- Bytes of segment `fid` as seen through an open handle. -/
def Disk.bytes (d : Disk) (fid : Nat) : Bytes := (d.contents fid).getD []

/-- Modelled from the spec: opening a segment through `fio.NewFileIOManager`
(`fio/file_io.go` is not among the sources): the file is created empty when it does
not exist and left as it is otherwise. -/
def Disk.openFile (d : Disk) (fid : Nat) : Disk :=
  if (d.contents fid).isSome then d else d ++ [(fid, [])]

/-- Modelled from the spec: `fio.IOManager.Write` of the file-descriptor backend
(`fio/file_io.go` is not among the sources), an append to the end of the file. -/
def Disk.write : Disk → Nat → Bytes → Disk
  | [], _, _ => []
  | (f, c) :: rest, fid, buf =>
    if f = fid then (f, c ++ buf) :: rest else (f, c) :: Disk.write rest fid buf

/-- Go `data.DataFile`; the `IoManager` is the handle of segment `FileId` of the
data directory. -/
structure DataFile where
  FileId : Nat
  WriteOff : Int
  deriving DecidableEq, Repr

/-- The fields of `Options` the engine core reads. -/
structure Options where
  DataFileSize : Int
  SyncWrites : Bool
  deriving DecidableEq, Repr

/-- Go `DB`, together with the contents of its data directory. -/
structure DB where
  options : Options
  disk : Disk
  fileIds : List Int
  activeFile : Option DataFile
  olderFiles : List (Nat × DataFile)
  index : Index
  seqNo : Nat
  reclaimSize : Int
  isMerging : Bool
  deriving DecidableEq, Repr

/-- Lookup `db.olderFiles[fid]`. -/
def olderGet : List (Nat × DataFile) → Nat → Option DataFile
  | [], _ => none
  | (f, df) :: rest, fid => if f = fid then some df else olderGet rest fid

/-- Assignment `db.olderFiles[fid] = df`. -/
def olderSet : List (Nat × DataFile) → Nat → DataFile → List (Nat × DataFile)
  | [], fid, df => [(fid, df)]
  | (f, d) :: rest, fid, df =>
    if f = fid then (fid, df) :: rest else (f, d) :: olderSet rest fid df

/-- Go `DB.setActiveDataFile` (`OpenDataFile` on the id after the active one, with
`uint32` wrap-around, or on id 0). -/
def DB.setActiveDataFile (db : DB) : DB :=
  let initialFileId : Nat :=
    match db.activeFile with
    | some f => (f.FileId + 1) % 2 ^ 32
    | none => 0
  { db with disk := db.disk.openFile initialFileId,
            activeFile := some { FileId := initialFileId, WriteOff := 0 } }

/-- Go `DB.appendLogRecord`: the new state and the position of the record. -/
def DB.appendLogRecord (db : DB) (logRecord : LogRecord) : DB × Except Err LogRecordPos :=
  let db1 := if db.activeFile.isNone then db.setActiveDataFile else db
  match EncodeLogRecord logRecord, db1.activeFile with
  | none, _ => (db1, .error .Panic)
  | _, none => (db1, .error .Panic)
  | some (encRecord, size), some af =>
    let db2 :=
      if af.WriteOff + size > db1.options.DataFileSize then
        DB.setActiveDataFile { db1 with olderFiles := olderSet db1.olderFiles af.FileId af }
      else db1
    match db2.activeFile with
    | none => (db2, .error .Panic)
    | some af2 =>
      let writeOff := af2.WriteOff
      let db3 : DB :=
        { db2 with disk := db2.disk.write af2.FileId encRecord,
                   activeFile := some { af2 with WriteOff := af2.WriteOff + encRecord.length } }
      (db3, .ok { Fid := af2.FileId, Offset := writeOff, Size := size % 2 ^ 32 })

/-- Go `DB.Put`. -/
def DB.Put (db : DB) (key value : Bytes) : DB × Option Err :=
  if key.length = 0 then (db, some .KeyIsEmpty)
  else
    match db.appendLogRecord
        { Key := logRecordKeyWithSeq key nonTransactionSeqNo, Value := value,
          Typ := LogRecordNormal } with
    | (db1, .error e) => (db1, some e)
    | (db1, .ok pos) =>
      match db1.index.Put key pos with
      | (some oldPos, idx) =>
        ({ db1 with index := idx, reclaimSize := db1.reclaimSize + oldPos.Size }, none)
      | (none, idx) => ({ db1 with index := idx }, none)

/-- Go `DB.Delete`. -/
def DB.Delete (db : DB) (key : Bytes) : DB × Option Err :=
  if key.length = 0 then (db, some .KeyIsEmpty)
  else if (db.index.Get key).isNone then (db, none)
  else
    match db.appendLogRecord
        { Key := logRecordKeyWithSeq key nonTransactionSeqNo, Value := [],
          Typ := LogRecordDeleted } with
    | (db1, .error e) => (db1, some e)
    | (db1, .ok pos) =>
      let db2 : DB := { db1 with reclaimSize := db1.reclaimSize + pos.Size }
      match db2.index.Delete key with
      | ((_, false), idx) => ({ db2 with index := idx }, some .IndexUpdateFailed)
      | ((some oldPos, true), idx) =>
        ({ db2 with index := idx, reclaimSize := db2.reclaimSize + oldPos.Size }, none)
      | ((none, true), idx) => ({ db2 with index := idx }, none)

/-- Go `DB.getValueByPosition`. -/
def DB.getValueByPosition (db : DB) (logRecordPos : LogRecordPos) : Except Err Bytes :=
  match db.activeFile with
  | none => .error .Panic
  | some af =>
    let dataFile : Option DataFile :=
      if af.FileId = logRecordPos.Fid then some af else olderGet db.olderFiles logRecordPos.Fid
    match dataFile with
    | none => .error .DataFileNotFound
    | some df =>
      match ReadLogRecord (db.disk.bytes df.FileId) logRecordPos.Offset with
      | .error e => .error e
      | .ok (logRecord, _) =>
        if logRecord.Typ = LogRecordDeleted then .error .KeyNotFound
        else .ok logRecord.Value

/-- Go `DB.Get`. -/
def DB.Get (db : DB) (key : Bytes) : Except Err Bytes :=
  if key.length = 0 then .error .KeyIsEmpty
  else
    match db.index.Get key with
    | none => .error .KeyNotFound
    | some logRecordPos => db.getValueByPosition logRecordPos

/-- Loop of Go `DB.loadDataFiles` over the sorted ids: every segment is opened under
`uint32(fid)`, the last one becomes the active file and the others go to
`olderFiles`. -/
def loadDataFilesLoop : List Int → DB → DB
  | [], db => db
  | [fid], db =>
    { db with disk := db.disk.openFile (toUint32 fid),
              activeFile := some { FileId := toUint32 fid, WriteOff := 0 } }
  | fid :: rest, db =>
    loadDataFilesLoop rest
      { db with disk := db.disk.openFile (toUint32 fid),
                olderFiles := olderSet db.olderFiles (toUint32 fid)
                  { FileId := toUint32 fid, WriteOff := 0 } }

/-- Go `DB.loadDataFiles` on a directory whose segment names are decimal ids: the ids
are sorted as `int` and kept in `fileIds`. -/
def DB.loadDataFiles (db : DB) : DB :=
  let fileIds := (db.disk.map (fun e => (e.1 : Int))).insertionSort (fun a b => a ≤ b)
  loadDataFilesLoop fileIds { db with fileIds := fileIds }

structure TransactionRecord where
  Record : LogRecord
  Pos : LogRecordPos
  deriving DecidableEq, Repr

/-- The local state of Go `DB.loadIndexFromDataFiles`: the index and `reclaimSize` of
the engine, the map `transactionRecords` and `currentSeqNo`. -/
structure LoadState where
  index : Index
  reclaimSize : Int
  transactionRecords : List (Nat × List TransactionRecord)
  currentSeqNo : Nat
  deriving DecidableEq, Repr

/-- Lookup `transactionRecords[seqNo]` (the nil slice when absent). -/
def txnGet : List (Nat × List TransactionRecord) → Nat → List TransactionRecord
  | [], _ => []
  | (s, l) :: rest, seqNo => if s = seqNo then l else txnGet rest seqNo

/-- Assignment `transactionRecords[seqNo] = l`. -/
def txnSet : List (Nat × List TransactionRecord) → Nat → List TransactionRecord →
    List (Nat × List TransactionRecord)
  | [], seqNo, l => [(seqNo, l)]
  | (s, l0) :: rest, seqNo, l =>
    if s = seqNo then (seqNo, l) :: rest else (s, l0) :: txnSet rest seqNo l

/-- Go `delete(transactionRecords, seqNo)`. -/
def txnErase (m : List (Nat × List TransactionRecord)) (seqNo : Nat) :
    List (Nat × List TransactionRecord) :=
  m.filter (fun e => e.1 ≠ seqNo)

/-- The closure `updateIndex` of Go `DB.loadIndexFromDataFiles`.  For a `Deleted`
record the size of the removed position is read before the nil check, a nil
dereference (`none`) when the key is not in the index. -/
def updateIndex (st : LoadState) (key : Bytes) (typ : LogRecordType) (pos : LogRecordPos) :
    Option LoadState :=
  if typ = LogRecordDeleted then
    match st.index.Delete key with
    | ((none, _), _) => none
    | ((some oldPos, _), idx) =>
      some { st with index := idx,
                     reclaimSize := st.reclaimSize + oldPos.Size + oldPos.Size }
  else
    match st.index.Put key pos with
    | (none, idx) => some { st with index := idx }
    | (some oldPos, idx) =>
      some { st with index := idx, reclaimSize := st.reclaimSize + oldPos.Size }

/-- The loop `for _, txnRecord := range transactionRecords[seqNo]` of recovery. -/
def applyTxnRecords : List TransactionRecord → LoadState → Option LoadState
  | [], st => some st
  | t :: rest, st =>
    match updateIndex st t.Record.Key t.Record.Typ t.Pos with
    | none => none
    | some st1 => applyTxnRecords rest st1

/-- Body of the scan loop of Go `DB.loadIndexFromDataFiles` for one record read at
`logRecordPos`; `none` is a runtime panic. -/
def processRecord (st : LoadState) (logRecord : LogRecord) (logRecordPos : LogRecordPos) :
    Option LoadState :=
  match parseLogRecordKey logRecord.Key with
  | none => none
  | some (realKey, seqNo) =>
    let st1 : Option LoadState :=
      if seqNo = nonTransactionSeqNo then
        updateIndex st realKey logRecord.Typ logRecordPos
      else if logRecord.Typ = LogRecordTxnFinished then
        (match applyTxnRecords (txnGet st.transactionRecords seqNo) st with
         | none => none
         | some s => some { s with transactionRecords := txnErase s.transactionRecords seqNo })
      else
        let txnRecord : TransactionRecord :=
          { Record := { logRecord with Key := realKey }, Pos := logRecordPos }
        let txns := txnSet st.transactionRecords seqNo
          (txnGet st.transactionRecords seqNo ++ [txnRecord])
        some { st with transactionRecords := txns }
    match st1 with
    | none => none
    | some s => some (if seqNo > s.currentSeqNo then { s with currentSeqNo := seqNo } else s)

/-- The inner loop `for { ReadLogRecord(offset) ... offset += size }` of Go
`DB.loadIndexFromDataFiles` on one segment.  The outer `none` means the fuel ran out;
every record read advances the offset by at least five bytes inside the file, so the
fuel `file.length + 1` passed by `loadIndexFiles` is never exhausted. -/
def scanFile (file : Bytes) (fileId : Nat) :
    Nat → Int → LoadState → Option (Except Err (Int × LoadState))
  | 0, _, _ => none
  | fuel + 1, offset, st =>
    match ReadLogRecord file offset with
    | .error .EOF => some (.ok (offset, st))
    | .error e => some (.error e)
    | .ok (logRecord, size) =>
      match processRecord st logRecord
          { Fid := fileId, Offset := offset, Size := toUint32 size } with
      | none => some (.error .Panic)
      | some st1 => scanFile file fileId fuel (offset + size) st1

/-- The outer loop `for i, fid := range db.fileIds` of Go `DB.loadIndexFromDataFiles`;
the result carries the final scan offset of the last segment. -/
def loadIndexFiles (db : DB) (af : DataFile) :
    List Int → LoadState → Option (Except Err (LoadState × Int))
  | [], st => some (.ok (st, 0))
  | fid :: rest, st =>
    let fileId := toUint32 fid
    let dataFile : Option DataFile :=
      if af.FileId = fileId then some af else olderGet db.olderFiles fileId
    match dataFile with
    | none => some (.error .Panic)
    | some df =>
      let file := db.disk.bytes df.FileId
      match scanFile file fileId (file.length + 1) 0 st with
      | none => none
      | some (.error e) => some (.error e)
      | some (.ok (offset, st1)) =>
        match rest with
        | [] => some (.ok (st1, offset))
        | _ :: _ => loadIndexFiles db af rest st1

/-- Go `DB.loadIndexFromDataFiles`. -/
def DB.loadIndexFromDataFiles (db : DB) : Option (Except Err DB) :=
  if db.fileIds.length = 0 then some (.ok db)
  else
    match db.activeFile with
    | none => some (.error .Panic)
    | some af =>
      match loadIndexFiles db af db.fileIds
          { index := db.index, reclaimSize := db.reclaimSize, transactionRecords := [],
            currentSeqNo := nonTransactionSeqNo } with
      | none => none
      | some (.error e) => some (.error e)
      | some (.ok (st, offset)) =>
        some (.ok { db with index := st.index, reclaimSize := st.reclaimSize,
                            seqNo := st.currentSeqNo,
                            activeFile := some { af with WriteOff := offset } })

/-- Go `checkOptions`, for the options of the model. -/
def checkOptions (options : Options) : Option Err :=
  if options.DataFileSize ≤ 0 then some .InvalidOptions else none

/-- Go `Open` on a data directory with contents `disk`. -/
def Open (options : Options) (disk : Disk) : Option (Except Err DB) :=
  match checkOptions options with
  | some e => some (.error e)
  | none =>
    DB.loadIndexFromDataFiles
      (DB.loadDataFiles
        { options := options, disk := disk, fileIds := [], activeFile := none,
          olderFiles := [], index := [], seqNo := 0, reclaimSize := 0, isMerging := false })

/-! ## `batch.go`: write batches -/

structure WriteBatchOptions where
  MaxBatchNum : Nat
  SyncWrites : Bool
  deriving DecidableEq, Repr

/-- Go `WriteBatch`.  The map `pendingWrites` is the list of its entries; the order
of the list is the order in which a `range` over the map visits them, which Go leaves
unspecified. -/
structure WriteBatch where
  options : WriteBatchOptions
  pendingWrites : List (Bytes × LogRecord)
  deriving DecidableEq, Repr

/-- Lookup `pendingWrites[string(key)]`. -/
def pendingGet : List (Bytes × LogRecord) → Bytes → Option LogRecord
  | [], _ => none
  | (k, r) :: rest, key => if k = key then some r else pendingGet rest key

/-- Assignment `pendingWrites[string(key)] = r`. -/
def pendingSet : List (Bytes × LogRecord) → Bytes → LogRecord → List (Bytes × LogRecord)
  | [], key, r => [(key, r)]
  | (k, r0) :: rest, key, r =>
    if k = key then (key, r) :: rest else (k, r0) :: pendingSet rest key r

/-- Go `delete(pendingWrites, string(key))`. -/
def pendingErase (m : List (Bytes × LogRecord)) (key : Bytes) : List (Bytes × LogRecord) :=
  m.filter (fun e => e.1 ≠ key)

/-- Go `DB.NewWriteBatch`. -/
def NewWriteBatch (opts : WriteBatchOptions) : WriteBatch :=
  { options := opts, pendingWrites := [] }

/-- Go `WriteBatch.Put`. -/
def WriteBatch.Put (wb : WriteBatch) (key value : Bytes) : WriteBatch × Option Err :=
  if key.length = 0 then (wb, some .KeyIsEmpty)
  else
    ({ wb with pendingWrites :=
        pendingSet wb.pendingWrites key { Key := key, Value := value, Typ := LogRecordNormal } },
     none)

/-- Go `WriteBatch.Delete`, reading the index of the engine `db`. -/
def WriteBatch.Delete (wb : WriteBatch) (db : DB) (key : Bytes) : WriteBatch × Option Err :=
  if key.length = 0 then (wb, some .KeyIsEmpty)
  else
    match db.index.Get key with
    | none =>
      if (pendingGet wb.pendingWrites key).isSome then
        ({ wb with pendingWrites := pendingErase wb.pendingWrites key }, none)
      else (wb, none)
    | some _ =>
      ({ wb with pendingWrites :=
          pendingSet wb.pendingWrites key { Key := key, Value := [], Typ := LogRecordDeleted } },
       none)

/-- First loop of Go `WriteBatch.Commit`: every buffered record is appended with the
sequence number in its key and its position is stored in the map `postions`. -/
def commitAppend (seqNo : Nat) :
    List (Bytes × LogRecord) → DB → List (Bytes × LogRecordPos) →
      DB × Except Err (List (Bytes × LogRecordPos))
  | [], db, positions => (db, .ok positions)
  | (_, record) :: rest, db, positions =>
    match db.appendLogRecord
        { Key := logRecordKeyWithSeq record.Key seqNo, Value := record.Value,
          Typ := record.Typ } with
    | (db1, .error e) => (db1, .error e)
    | (db1, .ok logRecordPos) =>
      commitAppend seqNo rest db1 (Index.insert positions record.Key logRecordPos)

/-- Second loop of Go `WriteBatch.Commit`: the index is updated from the buffered
records and the stored positions.  A missing position is Go `nil`, which
`index.Put` would store; every buffered key has a position after the first loop. -/
def commitApply (positions : List (Bytes × LogRecordPos)) :
    List (Bytes × LogRecord) → DB → DB
  | [], db => db
  | (_, record) :: rest, db =>
    let pos := (Index.Get positions record.Key).getD { Fid := 0, Offset := 0, Size := 0 }
    let r1 : Option LogRecordPos × Index :=
      if record.Typ = LogRecordNormal then db.index.Put record.Key pos else (none, db.index)
    let r2 : Option LogRecordPos × Index :=
      if record.Typ = LogRecordDeleted then
        ((Index.Delete r1.2 record.Key).1.1, (Index.Delete r1.2 record.Key).2)
      else r1
    let db1 : DB :=
      match r2.1 with
      | some oldPos => { db with index := r2.2, reclaimSize := db.reclaimSize + oldPos.Size }
      | none => { db with index := r2.2 }
    commitApply positions rest db1

/-- Go `WriteBatch.Commit`: the engine after the call, the batch after the call and
the returned error. -/
def WriteBatch.Commit (wb : WriteBatch) (db : DB) : (DB × WriteBatch) × Option Err :=
  if wb.pendingWrites.length = 0 then ((db, wb), none)
  else if wb.pendingWrites.length > wb.options.MaxBatchNum then
    ((db, wb), some .ExceedMaxBatchNum)
  else
    let seqNo := (db.seqNo + 1) % 2 ^ 64
    match commitAppend seqNo wb.pendingWrites { db with seqNo := seqNo } [] with
    | (db1, .error e) => ((db1, wb), some e)
    | (db1, .ok positions) =>
      match db1.appendLogRecord
          { Key := logRecordKeyWithSeq txnFinKey seqNo, Value := [],
            Typ := LogRecordTxnFinished } with
      | (db2, .error e) => ((db2, wb), some e)
      | (db2, .ok _) =>
        ((commitApply positions wb.pendingWrites db2, { wb with pendingWrites := [] }), none)


/-! ## Positions in the hint file (`data/log_record.go`, `data/data_file.go`) -/

/-- Go `EncodeLogRecordPos`: three `PutVarint` into a buffer of
`binary.MaxVarintLen32*2 + binary.MaxVarintLen64 = 20` bytes, cut at the bytes
written. -/
def EncodeLogRecordPos (pos : LogRecordPos) : Bytes :=
  PutVarint pos.Fid ++ PutVarint pos.Offset ++ PutVarint pos.Size

/-- Go `DecodeLogRecordPos`; `none` when a slice expression `buf[idx:]` panics
(negative `idx` after a varint overflow). -/
def DecodeLogRecordPos (buf : Bytes) : Option LogRecordPos :=
  let f := Varint buf
  if f.2 < 0 then none
  else
    let o := Varint (buf.drop f.2.toNat)
    if f.2 + o.2 < 0 then none
    else
      let s := Varint (buf.drop (f.2 + o.2).toNat)
      some { Fid := toUint32 f.1, Offset := o.1, Size := toUint32 s.1 }

/-- Go `DataFile.WriteHintRecord`: the bytes appended to the hint file (`none` when
`EncodeLogRecord` panics). -/
def WriteHintRecord (key : Bytes) (pos : LogRecordPos) : Option Bytes :=
  (EncodeLogRecord { Key := key, Value := EncodeLogRecordPos pos, Typ := LogRecordNormal }).map
    (fun e => e.1)

/-- The loop of Go `DB.loadIndexFromHintFile` over a hint file with contents `file`;
the outer `none` means the fuel ran out. -/
def loadHintLoop (file : Bytes) : Nat → Int → Index → Option (Except Err Index)
  | 0, _, _ => none
  | fuel + 1, offset, idx =>
    match ReadLogRecord file offset with
    | .error .EOF => some (.ok idx)
    | .error e => some (.error e)
    | .ok (logRecord, size) =>
      match DecodeLogRecordPos logRecord.Value with
      | none => some (.error .Panic)
      | some pos => loadHintLoop file fuel (offset + size) (idx.Put logRecord.Key pos).2

/-- Go `DB.loadIndexFromHintFile`; `hint` is `none` when the file `hint-index` does
not exist. -/
def DB.loadIndexFromHintFile (db : DB) (hint : Option Bytes) : Option (Except Err DB) :=
  match hint with
  | none => some (.ok db)
  | some file =>
    match loadHintLoop file (file.length + 1) 0 db.index with
    | none => none
    | some (.error e) => some (.error e)
    | some (.ok idx) => some (.ok { db with index := idx })

/-! ## `DB.Sync`, `DB.Close` and `merge.go` -/

/-- Go `DB.Sync`: the ids of the segments that were fsynced and the returned error.
The guard returns `nil` when an active file exists; without one the call goes on to
`db.activeFile.Sync()` on the nil pointer. -/
def DB.Sync (db : DB) : List Nat × Option Err :=
  match db.activeFile with
  | some _ => ([], none)
  | none => ([], some .Panic)

/-- Go `DB.Close`: the ids of the segments that were closed and the returned error.
The guard returns `nil` when an active file exists; without one the call goes on to
`db.activeFile.Close()` on the nil pointer. -/
def DB.Close (db : DB) : List Nat × Option Err :=
  match db.activeFile with
  | some _ => ([], none)
  | none => ([], some .Panic)

/-- What `Merge` reads from its environment: `utils.DirSize` of the data directory,
the outcome of the `float32` comparison
`float32(reclaimSize) / float32(totalSize) < DataFileMergeRatio`, and
`utils.AvailableDiskSize` (a `uint64`).  The package `utils` is not among the sources. -/
structure MergeEnv where
  totalSize : Int
  ratioUnreached : Bool
  availableDiskSize : Nat
  deriving DecidableEq, Repr

/-- What `Merge` leaves in the merge directory: the engine opened there, the bytes of
the hint file, and the bytes of the `merge-finished` file when it was written. -/
structure MergeOutput where
  mergeDB : DB
  hintFile : Bytes
  mergeFinishedFile : Option Bytes
  deriving DecidableEq, Repr

/-- Go conversion `uint64(x)` of an `int64`. -/
def toUint64 (x : Int) : Nat := (x % 2 ^ 64).toNat

/-- Go `strconv.Itoa` of a non-negative number, as bytes. -/
def itoa (n : Nat) : Bytes := (Nat.toDigits 10 n).map (fun c => byteOf c.toNat)

/-- The bytes of `mergeFinishedKey = "merge.finished"`. -/
def mergeFinishedKey : Bytes :=
  [109, 101, 114, 103, 101, 46, 102, 105, 110, 105, 115, 104, 101, 100]

/-- The inner loop of Go `DB.Merge` over one segment: every record whose position is
the one the live index holds for its key is appended to the merge engine with
sequence number 0 and gets a hint record.  The outer `none` means the fuel ran out. -/
def mergeScanFile (db : DB) (fileId : Nat) (file : Bytes) :
    Nat → Int → DB → Bytes → Option (Except Err (DB × Bytes))
  | 0, _, _, _ => none
  | fuel + 1, offset, mergeDB, hint =>
    match ReadLogRecord file offset with
    | .error .EOF => some (.ok (mergeDB, hint))
    | .error e => some (.error e)
    | .ok (logRecord, size) =>
      match parseLogRecordKey logRecord.Key with
      | none => some (.error .Panic)
      | some (realKey, _) =>
        let live : Bool :=
          match db.index.Get realKey with
          | some pos => decide (pos.Fid = fileId ∧ pos.Offset = offset)
          | none => false
        if live then
          match mergeDB.appendLogRecord
              { logRecord with Key := logRecordKeyWithSeq realKey nonTransactionSeqNo } with
          | (_, .error e) => some (.error e)
          | (mergeDB1, .ok pos) =>
            match WriteHintRecord realKey pos with
            | none => some (.error .Panic)
            | some enc => mergeScanFile db fileId file fuel (offset + size) mergeDB1 (hint ++ enc)
        else mergeScanFile db fileId file fuel (offset + size) mergeDB hint

/-- The outer loop `for _, dataFile := range mergeFiles` of Go `DB.Merge`. -/
def mergeFilesLoop (db : DB) :
    List DataFile → DB → Bytes → Option (Except Err (DB × Bytes))
  | [], mergeDB, hint => some (.ok (mergeDB, hint))
  | dataFile :: rest, mergeDB, hint =>
    let file := db.disk.bytes dataFile.FileId
    match mergeScanFile db dataFile.FileId file (file.length + 1) 0 mergeDB hint with
    | none => none
    | some (.error e) => some (.error e)
    | some (.ok (mergeDB1, hint1)) => mergeFilesLoop db rest mergeDB1 hint1

/-- Go `DB.Merge`: the live engine after the call, what was written to the merge
directory, and the returned error.  The outer `none` means a scan ran out of fuel. -/
def DB.Merge (db : DB) (env : MergeEnv) : Option ((DB × Option MergeOutput) × Option Err) :=
  match db.activeFile with
  | none => some ((db, none), none)
  | some af =>
    if db.isMerging then some ((db, none), some .MergeInProgress)
    else if env.ratioUnreached then some ((db, none), some .MergeRatioUnreached)
    else if toUint64 (env.totalSize - db.reclaimSize) ≥ env.availableDiskSize then
      some ((db, none), some .NoEnoughSpaceForMerge)
    else
      let db1 : DB :=
        DB.setActiveDataFile
          { db with olderFiles := olderSet db.olderFiles af.FileId af, isMerging := false }
      let nonMergeFileId : Nat :=
        match db1.activeFile with
        | some a => a.FileId
        | none => 0
      let mergeFiles : List DataFile :=
        (db1.olderFiles.map (fun e => e.2)).insertionSort (fun a b => a.FileId ≤ b.FileId)
      match Open { db.options with SyncWrites := false } [] with
      | none => none
      | some (.error e) => some ((db1, none), some e)
      | some (.ok mergeDB) =>
        match mergeFilesLoop db1 mergeFiles mergeDB [] with
        | none => none
        | some (.error e) => some ((db1, none), some e)
        | some (.ok (mergeDB1, hint)) =>
          match mergeDB1.Sync with
          | (_, some e) => some ((db1, some { mergeDB := mergeDB1, hintFile := hint,
                                              mergeFinishedFile := none }), some e)
          | (_, none) =>
            match EncodeLogRecord
                { Key := mergeFinishedKey, Value := itoa nonMergeFileId,
                  Typ := LogRecordNormal } with
            | none => some ((db1, some { mergeDB := mergeDB1, hintFile := hint,
                                         mergeFinishedFile := none }), some .Panic)
            | some (enc, _) =>
              some ((db1, some { mergeDB := mergeDB1, hintFile := hint,
                                 mergeFinishedFile := some enc }), none)

/-! ## The index as a map, its iterator and `ListKeys` -/

/-- The entries of an index are in strictly ascending key order (in particular every
key occurs once). -/
def Index.WF (idx : Index) : Prop := idx.Pairwise (fun a b => a.1 < b.1)

instance (idx : Index) : Decidable idx.WF := by
  unfold Index.WF
  exact inferInstance

/-- `Indexer.Size`: the number of entries. -/
def Index.Size (idx : Index) : Nat := idx.length

/-- Go `index.Item`. -/
structure Item where
  key : Bytes
  pos : LogRecordPos
  deriving DecidableEq, Repr

/-- Go `artIterator`; an entry of `values` that was never assigned is `nil`. -/
structure artIterator where
  currIndex : Nat
  reverse : Bool
  values : List (Option Item)
  deriving DecidableEq, Repr

/-- The item `saveValues` stores for an entry. -/
def itemOf (e : Bytes × LogRecordPos) : Option Item := some { key := e.1, pos := e.2 }

/-- The closure `saveValues` of `NewARTIterator`: `values[idx] = item` and then `idx--`
or `idx++`.  An index outside `values` is a panic (`none`). -/
def saveValues (reverse : Bool) (st : Option (List (Option Item) × Int))
    (node : Bytes × LogRecordPos) : Option (List (Option Item) × Int) :=
  match st with
  | none => none
  | some (values, idx) =>
    if idx < 0 ∨ (values.length : Int) ≤ idx then none
    else
      some (values.set idx.toNat (some { key := node.1, pos := node.2 }),
        if reverse then idx - 1 else idx + 1)

/-- Go `NewARTIterator`; `tree.ForEach` visits the entries in ascending key order,
which is the order of the list. -/
def NewARTIterator (tree : Index) (reverse : Bool) : Option artIterator :=
  let idx : Int := if reverse then (tree.Size : Int) - 1 else 0
  let values : List (Option Item) := List.replicate tree.Size none
  match tree.foldl (saveValues reverse) (some (values, idx)) with
  | none => none
  | some r => some { currIndex := 0, reverse := reverse, values := r.1 }

/-- Go `artIterator.Rewind`. -/
def artIterator.Rewind (ai : artIterator) : artIterator := { ai with currIndex := 0 }

/-- Go `artIterator.Next`. -/
def artIterator.Next (ai : artIterator) : artIterator :=
  { ai with currIndex := ai.currIndex + 1 }

/-- Go `artIterator.Valid`. -/
def artIterator.Valid (ai : artIterator) : Bool := ai.currIndex < ai.values.length

/-- Go `artIterator.Key`; `none` is the panic of an index out of range or of a `nil`
item. -/
def artIterator.Key (ai : artIterator) : Option Bytes :=
  match ai.values[ai.currIndex]? with
  | some (some item) => some item.key
  | _ => none

/-- The loop of `DB.ListKeys`:
`for ...; iterator.Valid(); iterator.Next() { keys[idx] = iterator.Key(); idx++ }`.
The outer `none` is an exhausted fuel, the inner one a panic. -/
def listKeysLoop : Nat → artIterator → List Bytes → Nat → Option (Option (List Bytes))
  | 0, _, _, _ => none
  | fuel + 1, iterator, keys, idx =>
    if iterator.Valid then
      match iterator.Key with
      | none => some none
      | some k =>
        if idx < keys.length then listKeysLoop fuel iterator.Next (keys.set idx k) (idx + 1)
        else some none
    else some (some keys)

/-- The keys an iterator yields from `Rewind` on, collected as `DB.ListKeys` does. -/
def iteratorKeys (size : Nat) (iterator : Option artIterator) : Option (Option (List Bytes)) :=
  match iterator with
  | none => some none
  | some it => listKeysLoop (it.values.length + 1) it.Rewind (List.replicate size []) 0

/-- Go `DB.ListKeys` on the index of the engine. -/
def Index.ListKeys (idx : Index) : Option (Option (List Bytes)) :=
  iteratorKeys idx.Size (NewARTIterator idx false)

/-! ## Segment names: the first loop of `loadDataFiles` -/

/-- Go `data.DataFileNameSuffix`, the string ".data". -/
def DataFileNameSuffix : List Char := ['.', 'd', 'a', 't', 'a']

/-- Go `strings.HasSuffix`. -/
def HasSuffix (s suffix : List Char) : Bool :=
  decide (suffix.length ≤ s.length) && decide (s.drop (s.length - suffix.length) = suffix)

/-- Go `strings.Split(s, ".")`: the pieces of `s` between the dots. -/
def SplitDot : List Char → List (List Char)
  | [] => [[]]
  | c :: rest =>
    if c = '.' then [] :: SplitDot rest
    else
      match SplitDot rest with
      | [] => [[c]]
      | piece :: pieces => (c :: piece) :: pieces

/-- The loop of `strconv.Atoi` over the digits: `ch -= '0'; if ch > 9 { error }`,
`n = n*10 + int(ch)`. -/
def atoiDigits : List Char → Nat → Option Nat
  | [], n => some n
  | ch :: rest, n =>
    if 48 ≤ ch.toNat ∧ ch.toNat ≤ 57 then atoiDigits rest (n * 10 + (ch.toNat - 48)) else none

/-- Go `strconv.Atoi` with a 64-bit `int`: an optional sign and at least one decimal
digit; `none` is a syntax or range error. -/
def Atoi (s : List Char) : Option Int :=
  match s with
  | [] => none
  | c :: rest =>
    if c = '-' then
      if rest = [] then none
      else
        match atoiDigits rest 0 with
        | some n => if n ≤ 2 ^ 63 then some (-(n : Int)) else none
        | none => none
    else
      let digits := if c = '+' then rest else c :: rest
      if digits = [] then none
      else
        match atoiDigits digits 0 with
        | some n => if n < 2 ^ 63 then some (n : Int) else none
        | none => none

/-- The first loop of Go `DB.loadDataFiles` over the directory entries: every name
with the suffix ".data" gives the id `strconv.Atoi(strings.Split(name, ".")[0])`. -/
def loadFileIds : List (List Char) → List Int → Except Err (List Int)
  | [], fileIds => .ok fileIds
  | name :: entries, fileIds =>
    if HasSuffix name DataFileNameSuffix then
      match Atoi ((SplitDot name).headD []) with
      | none => .error .DataDirectoryCorrupted
      | some fileId => loadFileIds entries (fileIds ++ [fileId])
    else loadFileIds entries fileIds

/-- Go `DB.loadDataFiles` on a directory listing given by its file names: the parsed
ids are sorted as `int` and kept in `fileIds`, and every segment is opened under
`uint32(fid)`. -/
def DB.loadDataFilesOfNames (db : DB) (names : List (List Char)) : Except Err DB :=
  match loadFileIds names [] with
  | .error e => .error e
  | .ok ids =>
    let fileIds := ids.insertionSort (fun a b => a ≤ b)
    .ok (loadDataFilesLoop fileIds { db with fileIds := fileIds })

/-- The number a string of decimal digits denotes. -/
def decimalValue (ds : List Char) : Nat := ds.foldl (fun m c => m * 10 + (c.toNat - 48)) 0

/-! ## Reachable engine states and the invariants stated about them -/

/-- The id of the active file, 0 when there is none (the id the first append opens). -/
def DB.activeId (db : DB) : Nat :=
  match db.activeFile with
  | some af => af.FileId
  | none => 0

/-- The active file's id is greater than every key of `olderFiles`, and every file in
`olderFiles` is stored under its own `FileId`. -/
def DB.FilesOrdered (db : DB) : Prop :=
  ∀ e ∈ db.olderFiles, e.2.FileId = e.1 ∧ ∃ af, db.activeFile = some af ∧ e.1 < af.FileId

/-- A data directory of well-named segments: every id is a `uint32` and names one
file. -/
def Disk.WellNamed (d : Disk) : Prop :=
  (d.map (fun e => e.1)).Nodup ∧ ∀ e ∈ d, e.1 < 2 ^ 32

/-- The engine states reached from `Open` by `Put`, `Delete`, `Commit` and `Merge`
while the segment ids stay below 2^32: every step leaves room for the segments it can
create (one per appended record, one for the rotation of `Merge`). -/
inductive Reachable : DB → Prop
  | opened (options : Options) (disk : Disk) (db : DB) :
      disk.WellNamed → Open options disk = some (.ok db) → Reachable db
  | put (db : DB) (key value : Bytes) :
      Reachable db → db.activeId + 1 < 2 ^ 32 → Reachable (db.Put key value).1
  | delete (db : DB) (key : Bytes) :
      Reachable db → db.activeId + 1 < 2 ^ 32 → Reachable (db.Delete key).1
  | commit (db : DB) (wb : WriteBatch) :
      Reachable db → db.activeId + (wb.pendingWrites.length + 1) < 2 ^ 32 →
      Reachable (wb.Commit db).1.1
  | merge (db db1 : DB) (env : MergeEnv) (out : Option MergeOutput) (err : Option Err) :
      Reachable db → db.activeId + 1 < 2 ^ 32 →
      db.Merge env = some ((db1, out), err) → Reachable db1

/-- A sequence of appends: `appendLogRecord` for every record of the list in turn. -/
def appendAll (db : DB) (rs : List LogRecord) : DB :=
  rs.foldl (fun d r => (d.appendLogRecord r).1) db

/-- The invariant of the segments under appends: the active file's `WriteOff` is the
length of its segment, every segment with a larger id is empty or absent, and a
segment is either no longer than `DataFileSize` or holds exactly one of the records
`rs`.  Without an active file every segment is empty or absent. -/
def DB.SegmentsBounded (db : DB) (rs : List LogRecord) : Prop :=
  (∀ f, ((db.disk.bytes f).length : Int) ≤ db.options.DataFileSize ∨
    ∃ r ∈ rs, EncodeLogRecord r = some (db.disk.bytes f, (db.disk.bytes f).length)) ∧
  match db.activeFile with
  | some af =>
    (db.disk.contents af.FileId).isSome = true ∧
    af.WriteOff = ((db.disk.bytes af.FileId).length : Int) ∧
    ∀ f, af.FileId < f → db.disk.bytes f = []
  | none => ∀ f, db.disk.bytes f = []

/-- A call of `Put` or `Delete`. -/
inductive Op where
  | put (key value : Bytes)
  | delete (key : Bytes)
  deriving DecidableEq, Repr

/-- The engine after the call and the error the call returns. -/
def DB.applyOp (db : DB) : Op → DB × Option Err
  | .put key value => db.Put key value
  | .delete key => db.Delete key

/-- A sequence of successful calls: the engine after the last one, `none` as soon as a
call returns an error. -/
def DB.runOps (db : DB) : List Op → Option DB
  | [] => some db
  | op :: rest =>
    match db.applyOp op with
    | (db1, none) => DB.runOps db1 rest
    | (_, some _) => none

/-- The number of bytes in all segments of the data directory. -/
def Disk.totalSize (d : Disk) : Int := (d.map (fun e => (e.2.length : Int))).sum

/-- The sum of the sizes of the positions held in the index. -/
def Index.totalSize (idx : Index) : Int := (idx.map (fun e => (e.2.Size : Int))).sum

/-- The handle of the active file refers to a segment of the data directory. -/
def DB.ActiveExists (db : DB) : Prop :=
  ∀ af, db.activeFile = some af → (db.disk.contents af.FileId).isSome = true

/-- The accounting invariant of `reclaimSize`: the bytes in all segments minus the
sizes of the positions held in the index (whose keys are unique and ordered). -/
def DB.Accounted (db : DB) : Prop :=
  db.index.WF ∧ db.ActiveExists ∧
  db.reclaimSize = db.disk.totalSize - db.index.totalSize

/-- The record a call appends has fewer than 2^32 bytes: its `Size` is not cut by the
conversion to `uint32`. -/
def Op.Small : Op → Prop
  | .put key value => key.length + value.length + 16 < 2 ^ 32
  | .delete key => key.length + 16 < 2 ^ 32

/-- A sequence of appends that stops at the first error: the engine after the last
append made and the positions returned. -/
def appendEach : DB → List LogRecord → DB × Except Err (List LogRecordPos)
  | db, [] => (db, .ok [])
  | db, r :: rest =>
    match db.appendLogRecord r with
    | (db1, .error e) => (db1, .error e)
    | (db1, .ok pos) =>
      match appendEach db1 rest with
      | (db2, .error e) => (db2, .error e)
      | (db2, .ok ps) => (db2, .ok (pos :: ps))

/-- The records of a batch with sequence number `s`, as the specification lists them:
for every buffered record the record with key `uvarint(s) ++ key` and the buffered
value and type, followed by one `TxnFinished` record with key `uvarint(s) ++ "txn-fin"`
and empty value. -/
def batchRecords (s : Nat) (pending : List (Bytes × LogRecord)) : List LogRecord :=
  pending.map (fun e => { Key := PutUvarint s ++ e.2.Key, Value := e.2.Value, Typ := e.2.Typ }) ++
    [{ Key := PutUvarint s ++ txnFinKey, Value := [], Typ := LogRecordTxnFinished }]

/-! ## Auxiliary definitions of the proofs -/

/-- Used in the proof that the checksum detects a changed byte: left inverse of `i ↦ crcTable i >>> 24` on bytes: bit `k` of the top byte selects
the `k`-th constant. -/
def crcTopInv (y : Nat) : Nat :=
  (if y.testBit 0 then 65 else 0) ^^^ (if y.testBit 1 then 195 else 0) ^^^
  (if y.testBit 2 then 134 else 0) ^^^ (if y.testBit 3 then 77 else 0) ^^^
  (if y.testBit 4 then 154 else 0) ^^^ (if y.testBit 5 then 117 else 0) ^^^
  (if y.testBit 6 then 234 else 0) ^^^ (if y.testBit 7 then 149 else 0)

/-! ## Example data used by the witnesses -/

/-- The record `Put("n", [1, 2])` appends, between two foreign bytes. -/
def witnessFile : Bytes := [9, 239, 141, 33, 70, 0, 4, 4, 0, 110, 1, 2, 7]

/-- The header of the record inside `witnessFile`. -/
def witnessHeader : logRecordHeader :=
  { crc := 1176604143, recordType := 0, keySize := 2, valueSize := 2 }

/-! ## State conditions used in the statements -/

/-- The condition on a state under which an append lands at the offset the engine
records for it: the offset recorded for the active segment is the length of that
segment on disk, and the segment a rotation would open next is empty or absent;
without an active segment, segments 0 and 1 are empty or absent.  It holds after
`Open` on an empty directory and after every `Put`, `Delete` and `Commit` that follows,
as long as segment ids do not wrap around at 2^32. -/
def DB.Consistent (db : DB) : Prop :=
  match db.activeFile with
  | some af =>
    (db.disk.contents af.FileId).isSome = true ∧
    af.WriteOff = ((db.disk.bytes af.FileId).length : Int) ∧
    db.disk.bytes ((af.FileId + 1) % 2 ^ 32) = []
  | none => db.disk.bytes 0 = [] ∧ db.disk.bytes 1 = []

/-- The engine `Open` returns on an empty data directory. -/
def freshDB (dataFileSize : Int) : DB :=
  { options := { DataFileSize := dataFileSize, SyncWrites := false }, disk := [], fileIds := [],
    activeFile := none, olderFiles := [], index := [], seqNo := 0, reclaimSize := 0,
    isMerging := false }

/-- The engine `Open` returns on a directory whose only segment holds the three
bytes `01 02 03`, a record cut inside its header. -/
def crashDB : DB :=
  { options := { DataFileSize := 100, SyncWrites := false }, disk := [(0, [1, 2, 3])],
    fileIds := [0], activeFile := some { FileId := 0, WriteOff := 0 }, olderFiles := [],
    index := [], seqNo := 0, reclaimSize := 0, isMerging := false }

/-- A value of 2^32 bytes. -/
def hugeValue : Bytes := List.replicate (2 ^ 32) 0

/-- The engine `Open` returns on a directory whose only segment holds one record
with key `00` (sequence number 0, empty user key) and value `05`. -/
def emptyKeyDB : DB :=
  { options := { DataFileSize := 100, SyncWrites := false },
    disk := [(0, [119, 31, 197, 31, 0, 2, 2, 0, 5])], fileIds := [0],
    activeFile := some { FileId := 0, WriteOff := 9 }, olderFiles := [],
    index := [([], { Fid := 0, Offset := 0, Size := 9 })], seqNo := 0, reclaimSize := 0,
    isMerging := false }

/-- The record `Put("n", [1, 2])` appends. -/
def witnessRecord : LogRecord := { Key := [0, 110], Value := [1, 2], Typ := LogRecordNormal }

/-- The encoding of `witnessRecord`. -/
def witnessEnc : Bytes := [239, 141, 33, 70, 0, 4, 4, 0, 110, 1, 2]

/-- Options of the example engines. -/
def witnessOptions : Options := { DataFileSize := 100, SyncWrites := false }

/-- Options of the example batches. -/
def witnessBatchOptions : WriteBatchOptions := { MaxBatchNum := 10, SyncWrites := true }

/-- The engine after `Put("n", [1, 2])` on a fresh store. -/
def onePutDB : DB := ((freshDB 100).Put [110] [1, 2]).1

/-- The history of the nil dereference in recovery: `Put("n", [1, 2])`, then a batch
buffers `Delete("n")`, then `DB.Delete("n")`, then the batch commits. -/
def tombstoneHistory : (DB × WriteBatch) × Option Err :=
  WriteBatch.Commit ((NewWriteBatch witnessBatchOptions).Delete onePutDB [110]).1
    (onePutDB.Delete [110]).1

/-! ## `redis/types.go`: the String type on top of the engine -/

/-- Go constant `String` of `redisDataType`. -/
def redisString : Byte := 0

/-- The errors of `RedisDS.Get`: an error of the engine or `ErrWrongTypeOperation`. -/
inductive RedisErr where
  | engine (e : Err)
  | WrongTypeOperation
  deriving DecidableEq, Repr

/-- Go `RedisDS.Set` at time `now` (`time.Now().UnixNano()`), with `ttl` in nanoseconds
and `none` for a nil value.  The header is built in `buf`, ten bytes long, and then
copied with `copy(encValue[:idx], buf[idx:])`: `copy` moves the shorter of the two
lengths and leaves the rest of `encValue[:idx]` zero.  `binary.PutVarint` into the
nine bytes `buf[1:]` panics when the varint needs ten. -/
def RedisDS.Set (db : DB) (now : Int) (key : Bytes) (ttl : Int) (value : Option Bytes) :
    DB × Option Err :=
  match value with
  | none => (db, none)
  | some value =>
    let expire : Int := if ttl ≠ 0 then now + ttl else 0
    let varint := PutVarint expire
    if varint.length > 9 then (db, some .Panic)
    else
      let buf : Bytes := (redisString :: varint) ++ List.replicate (9 - varint.length) 0
      let idx := 1 + varint.length
      let src := buf.drop idx
      let n := min idx src.length
      let header : Bytes := src.take n ++ List.replicate (idx - n) 0
      db.Put key (header ++ value)

/-- Go `RedisDS.Get` at time `now`; the result `none` is the nil slice returned for an
expired key. -/
def RedisDS.Get (db : DB) (now : Int) (key : Bytes) : Except RedisErr (Option Bytes) :=
  match db.Get key with
  | .error e => .error (.engine e)
  | .ok encValue =>
    match encValue with
    | [] => .error (.engine .Panic)
    | dataType :: rest =>
      if dataType ≠ redisString then .error .WrongTypeOperation
      else
        let r := Varint rest
        let idx : Int := 1 + r.2
        if r.1 > 0 ∧ r.1 ≤ now then .ok none
        else if idx < 0 then .error (.engine .Panic)
        else .ok (some (encValue.drop idx.toNat))

/-! ## Segments as sequences of records -/

/-- The bytes `EncodeLogRecord` returns for a record. -/
def encodeRecord (r : LogRecord) : Bytes :=
  putUint32LE (ChecksumIEEE (recordBody r)) ++ recordBody r

/-- The contents of a file to which the records were written one after the other. -/
def encodeAll : List LogRecord → Bytes
  | [] => []
  | r :: rest => encodeRecord r ++ encodeAll rest

/-- A record whose sizes fit the `uint32` fields of the header and whose key is not
empty (the engine prefixes every key with a sequence number; hint keys are user
keys). -/
def LogRecord.Framed (r : LogRecord) : Prop :=
  r.Key ≠ [] ∧ r.Key.length < 2 ^ 32 ∧ r.Value.length < 2 ^ 32

/-- The hint file written by `WriteHintRecord` for every pair in turn; `none` when an
encoding panics. -/
def writeHintRecords : List (Bytes × LogRecordPos) → Option Bytes
  | [] => some []
  | (key, pos) :: rest =>
    (WriteHintRecord key pos).bind (fun enc =>
      (writeHintRecords rest).map (fun file => enc ++ file))

/-- The position of the last pair with key `key`, if any. -/
def lastPosition : List (Bytes × LogRecordPos) → Bytes → Option LogRecordPos
  | [], _ => none
  | (k, p) :: rest, key =>
    match lastPosition rest key with
    | some q => some q
    | none => if k = key then some p else none
/-! ## The log as recovery reads it -/

/-- The records the loop `for { ReadLogRecord(offset) ... offset += size }` of Go
`DB.loadIndexFromDataFiles` reads from one segment before the first error, each with
the position the loop builds for it. -/
def scanRecords (file : Bytes) (fileId : Nat) : Nat → Int → List (LogRecord × LogRecordPos)
  | 0, _ => []
  | fuel + 1, offset =>
    match ReadLogRecord file offset with
    | .error _ => []
    | .ok (logRecord, size) =>
      (logRecord, { Fid := fileId, Offset := offset, Size := toUint32 size }) ::
        scanRecords file fileId fuel (offset + size)

/-- The records of the segments Go `DB.loadIndexFromDataFiles` scans, in scan order:
for every entry of `fileIds` the records of the data file the loop selects. -/
def DB.scannedRecords (db : DB) : List (LogRecord × LogRecordPos) :=
  match db.activeFile with
  | none => []
  | some af =>
    db.fileIds.flatMap (fun fid =>
      match (if af.FileId = toUint32 fid then some af
             else olderGet db.olderFiles (toUint32 fid)) with
      | none => []
      | some df =>
        scanRecords (db.disk.bytes df.FileId) (toUint32 fid)
          ((db.disk.bytes df.FileId).length + 1) 0)

/-- The sequence number a record carries in its key: the first result of
`binary.Uvarint(key)` in Go `parseLogRecordKey`. -/
def seqNoOf (r : LogRecord) : Nat := (Uvarint r.Key).1

/-- The loop body of recovery when the records that carry the sequence number `s` are
skipped: such a record changes nothing, every other record is processed as in
`processRecord`. -/
def processRecordSkipping (s : Nat) (st : LoadState) (logRecord : LogRecord)
    (logRecordPos : LogRecordPos) : Option LoadState :=
  if seqNoOf logRecord = s then some st else processRecord st logRecord logRecordPos

/-- The scan of one segment that skips the records carrying `s` (`scanFile` with
`processRecordSkipping`). -/
def scanFileSkipping (s : Nat) (file : Bytes) (fileId : Nat) :
    Nat → Int → LoadState → Option (Except Err (Int × LoadState))
  | 0, _, _ => none
  | fuel + 1, offset, st =>
    match ReadLogRecord file offset with
    | .error .EOF => some (.ok (offset, st))
    | .error e => some (.error e)
    | .ok (logRecord, size) =>
      match processRecordSkipping s st logRecord
          { Fid := fileId, Offset := offset, Size := toUint32 size } with
      | none => some (.error .Panic)
      | some st1 => scanFileSkipping s file fileId fuel (offset + size) st1

/-- The scan of all segments that skips the records carrying `s` (`loadIndexFiles` with
`scanFileSkipping`). -/
def loadIndexFilesSkipping (s : Nat) (db : DB) (af : DataFile) :
    List Int → LoadState → Option (Except Err (LoadState × Int))
  | [], st => some (.ok (st, 0))
  | fid :: rest, st =>
    let fileId := toUint32 fid
    let dataFile : Option DataFile :=
      if af.FileId = fileId then some af else olderGet db.olderFiles fileId
    match dataFile with
    | none => some (.error .Panic)
    | some df =>
      let file := db.disk.bytes df.FileId
      match scanFileSkipping s file fileId (file.length + 1) 0 st with
      | none => none
      | some (.error e) => some (.error e)
      | some (.ok (offset, st1)) =>
        match rest with
        | [] => some (.ok (st1, offset))
        | _ :: _ => loadIndexFilesSkipping s db af rest st1

/-- Recovery that skips the records carrying `s` (`DB.loadIndexFromDataFiles` with
`loadIndexFilesSkipping`). -/
def DB.loadIndexFromDataFilesSkipping (s : Nat) (db : DB) : Option (Except Err DB) :=
  if db.fileIds.length = 0 then some (.ok db)
  else
    match db.activeFile with
    | none => some (.error .Panic)
    | some af =>
      match loadIndexFilesSkipping s db af db.fileIds
          { index := db.index, reclaimSize := db.reclaimSize, transactionRecords := [],
            currentSeqNo := nonTransactionSeqNo } with
      | none => none
      | some (.error e) => some (.error e)
      | some (.ok (st, offset)) =>
        some (.ok { db with index := st.index, reclaimSize := st.reclaimSize,
                            seqNo := st.currentSeqNo,
                            activeFile := some { af with WriteOff := offset } })

/-- Used in the proof about unfinished batches: two scan states with the same index
and `reclaimSize` whose stored transaction records agree for every sequence number
other than `s`. -/
def LoadState.AgreeOff (s : Nat) (a b : LoadState) : Prop :=
  a.index = b.index ∧ a.reclaimSize = b.reclaimSize ∧
  ∀ q, q ≠ s → txnGet a.transactionRecords q = txnGet b.transactionRecords q

/-- The engine `loadDataFiles` prepares on the directory left by a `Commit` of the
batch `Put("n", [1, 2])` that was cut after its first append, before the sentinel. -/
def cutBatchDB : DB :=
  DB.loadDataFiles
    { options := witnessOptions,
      disk := (commitAppend 1 [([110], ⟨[110], [1, 2], 0⟩)] { freshDB 100 with seqNo := 1 } []).1.disk,
      fileIds := [], activeFile := none, olderFiles := [], index := [], seqNo := 0,
      reclaimSize := 0, isMerging := false }

/-- The loop body of recovery applied to a list of records with their positions, one
after the other; `none` is a runtime panic. -/
def processAll : List (LogRecord × LogRecordPos) → LoadState → Option LoadState
  | [], st => some st
  | e :: rest, st =>
    match processRecord st e.1 e.2 with
    | none => none
    | some st1 => processAll rest st1

/-- The directory left by a committed batch `Put("n", [1, 2])` on a fresh store
whose `seqNo` was 2^64 - 2: the two records carry the sequence number 2^64 - 1. -/
def lastSeqNoDisk : Disk :=
  (WriteBatch.Commit ⟨witnessBatchOptions, [([110], ⟨[110], [1, 2], 0⟩)]⟩
    { freshDB 100 with seqNo := 2 ^ 64 - 2 }).1.1.disk

/-- The directory left by a committed batch `Put("n", [1, 2])` on a fresh store: the
two records carry the sequence number 1. -/
def oneBatchDisk : Disk :=
  (WriteBatch.Commit ⟨witnessBatchOptions, [([110], ⟨[110], [1, 2], 0⟩)]⟩ (freshDB 100)).1.1.disk

/-- The engine `Open` returns on `oneBatchDisk`. -/
def reopenedBatchDB : DB :=
  match Open witnessOptions oneBatchDisk with
  | some (.ok db) => db
  | _ => freshDB 100

/-! ## Stored records -/

/-- The condition on a state under which the next `n` appends land at the offsets the
engine records for them: the offset recorded for the active segment is the length of
that segment on disk, and the `n` segments that rotations can open next are empty or
absent; without an active segment, segments `0, ..., n` are empty or absent. -/
def DB.RoomFor (db : DB) (n : Nat) : Prop :=
  n < 2 ^ 32 ∧
  match db.activeFile with
  | some af =>
    (db.disk.contents af.FileId).isSome = true ∧
    af.WriteOff = ((db.disk.bytes af.FileId).length : Int) ∧
    ∀ j, 1 ≤ j → j ≤ n → db.disk.bytes ((af.FileId + j) % 2 ^ 32) = []
  | none => ∀ j, j ≤ n → db.disk.bytes j = []

/-- The record `r` is stored at the position `pos`: the segment `pos.Fid` holds the
encoding of `r` at the offset `pos.Offset`, and the engine finds a handle of that
segment the way `getValueByPosition` looks for it. -/
def DB.HasRecordAt (db : DB) (pos : LogRecordPos) (r : LogRecord) : Prop :=
  (∃ pre post : Bytes, db.disk.bytes pos.Fid = pre ++ (encodeRecord r ++ post) ∧
    pos.Offset = (pre.length : Int)) ∧
  ∃ af df : DataFile, db.activeFile = some af ∧
    (if af.FileId = pos.Fid then some af else olderGet db.olderFiles pos.Fid) = some df ∧
    df.FileId = pos.Fid

/-- The buffer of a batch as `NewWriteBatch`, `Put` and `Delete` build it: a map (no
key twice) from non-empty keys to records that carry their key and are `Normal` or
`Deleted`. -/
def WriteBatch.Buffered (wb : WriteBatch) : Prop :=
  (wb.pendingWrites.map (fun e => e.1)).Nodup ∧
  ∀ e ∈ wb.pendingWrites, e.2.Key = e.1 ∧ e.1 ≠ [] ∧
    (e.2.Typ = LogRecordNormal ∨ e.2.Typ = LogRecordDeleted)

/-- A directory with the segments 0 and 2^32 - 1: the first holds the record of
`Put("a", [9])`, the second, the active one after `Open`, is empty. -/
def lastSegmentDisk : Disk := ((freshDB 100).Put [97] [9]).1.disk ++ [(4294967295, [])]

/-- The batch built by `Put("n", [1])`, `Put("n", [2])`, `Put("o", [3])`. -/
def witnessBatch : WriteBatch :=
  ((((NewWriteBatch witnessBatchOptions).Put [110] [1]).1.Put [110] [2]).1.Put [111] [3]).1

/-! ## Data directories as lists of segments -/

/-- The data directory whose segments `i, i + 1, ...` hold the given lists of records,
one encoded record after the other. -/
def diskFrom : Nat → List (List LogRecord) → Disk
  | _, [] => []
  | i, rs :: rest => (i, encodeAll rs) :: diskFrom (i + 1) rest

/-- The records of one segment with the positions recovery builds for them, the first
record lying at `offset`. -/
def positionsFrom (fileId : Nat) : Int → List LogRecord → List (LogRecord × LogRecordPos)
  | _, [] => []
  | offset, r :: rest =>
    (r, { Fid := fileId, Offset := offset, Size := toUint32 (encodeRecord r).length }) ::
      positionsFrom fileId (offset + (encodeRecord r).length) rest

/-- The records of the segments `i, i + 1, ...` with their positions, in scan order. -/
def scanListFrom : Nat → List (List LogRecord) → List (LogRecord × LogRecordPos)
  | _, [] => []
  | i, rs :: rest => positionsFrom i 0 rs ++ scanListFrom (i + 1) rest

/-- The engine stores the segments `olds` (under the ids `0, 1, ...`) and, in its
active file, the segment `cur`: the directory holds exactly these segments, the active
file is the last one with its length as `WriteOff`, and every record fits the header
fields. -/
def DB.Stores (db : DB) (olds : List (List LogRecord)) (cur : List LogRecord) : Prop :=
  db.disk = diskFrom 0 (olds ++ [cur]) ∧
  db.activeFile = some { FileId := olds.length, WriteOff := ((encodeAll cur).length : Int) } ∧
  olds.length < 2 ^ 32 ∧
  (∀ rs ∈ olds, ∀ r ∈ rs, r.Framed) ∧ (∀ r ∈ cur, r.Framed)

/-- The state in which the scan of recovery starts on a new engine. -/
def initialLoadState : LoadState :=
  { index := [], reclaimSize := 0, transactionRecords := [], currentSeqNo := nonTransactionSeqNo }

/-- The record of a call fits the header fields of the log: the key with its
one-byte sequence number and the value are shorter than 2^32 bytes. -/
def Op.Framed : Op → Prop
  | .put key value => key.length + 1 < 2 ^ 32 ∧ value.length < 2 ^ 32
  | .delete key => key.length + 1 < 2 ^ 32

/-- The effect of a call on the expected contents of the store: `Put` sets the value
of its key, `Delete` removes its key. -/
def Op.update (model : Bytes → Option Bytes) : Op → Bytes → Option Bytes
  | .put k v => fun key => if key = k then some v else model key
  | .delete k => fun key => if key = k then none else model key

/-- The value the specification expects for a key after a sequence of calls on an
empty store: the value of the last `Put` of the key, `none` when the key was never put
or its last call is a `Delete`. -/
def lastValue (ops : List Op) : Bytes → Option Bytes :=
  ops.foldl Op.update (fun _ => none)

/-- Used in the proof of recovery after `Put` and `Delete`: the engine is the one
`Open` returns on an empty directory, or it stores at most `n + 1` framed segments
whose replay gives its index; and the index holds exactly the keys of `model`, each
at a position that stores a `Normal` record with the key and the value of `model`. -/
def DB.Replays (db : DB) (model : Bytes → Option Bytes) (n : Nat) : Prop :=
  ((db.disk = [] ∧ db.activeFile = none ∧ db.index = []) ∨
    ∃ olds cur st, db.Stores olds cur ∧ olds.length ≤ n ∧
      processAll (scanListFrom 0 (olds ++ [cur])) initialLoadState = some st ∧
      st.index = db.index) ∧
  ∀ key, match model key with
    | none => db.index.Get key = none
    | some v =>
      key ≠ [] ∧ key.length + 1 < 2 ^ 32 ∧ v.length < 2 ^ 32 ∧
      ∃ p, db.index.Get key = some p ∧
        db.HasRecordAt p { Key := 0 :: key, Value := v, Typ := LogRecordNormal }

/-- The calls `Put("n", [1, 2])`, `Put("o", [3])`, `Delete("n")`, `Put("n", [4])`,
`Delete("p")`. -/
def witnessOps : List Op :=
  [.put [110] [1, 2], .put [111] [3], .delete [110], .put [110] [4], .delete [112]]

/-- The engine after the calls `witnessOps` on a fresh store whose segments take 30
bytes. -/
def witnessOpsDB : DB :=
  match (freshDB 30).runOps witnessOps with
  | some db => db
  | none => freshDB 30

/-! ## The scan of `Merge` on stored segments -/

/-- The key of a record without its sequence number: the first result of
`parseLogRecordKey`, the empty key when the parse panics. -/
def realKeyOf (r : LogRecord) : Bytes :=
  match parseLogRecordKey r.Key with
  | some (realKey, _) => realKey
  | none => []

/-- The test of the scan loop of Go `DB.Merge` on a record read at the position
`e.2`: the index holds for the key of the record a position with the same segment and
offset. -/
def DB.isLive (db : DB) (e : LogRecord × LogRecordPos) : Bool :=
  match parseLogRecordKey e.1.Key with
  | none => false
  | some (realKey, _) =>
    match db.index.Get realKey with
    | some pos => decide (pos.Fid = e.2.Fid ∧ pos.Offset = e.2.Offset)
    | none => false

/-- The body of the scan loop of Go `DB.Merge` applied to a list of records with the
positions they were read at, one after the other. -/
def mergeRecords (db : DB) :
    List (LogRecord × LogRecordPos) → DB → Bytes → Except Err (DB × Bytes)
  | [], mergeDB, hint => .ok (mergeDB, hint)
  | e :: rest, mergeDB, hint =>
    match parseLogRecordKey e.1.Key with
    | none => .error .Panic
    | some (realKey, _) =>
      let live : Bool :=
        match db.index.Get realKey with
        | some pos => decide (pos.Fid = e.2.Fid ∧ pos.Offset = e.2.Offset)
        | none => false
      if live then
        match mergeDB.appendLogRecord
            { e.1 with Key := logRecordKeyWithSeq realKey nonTransactionSeqNo } with
        | (_, .error err) => .error err
        | (mergeDB1, .ok pos) =>
          match WriteHintRecord realKey pos with
          | none => .error .Panic
          | some enc => mergeRecords db rest mergeDB1 (hint ++ enc)
      else mergeRecords db rest mergeDB hint

/-- The calls of `Put` that write what `Merge` copies: one for every live record, with
its key and value. -/
def mergeOps (db : DB) (l : List (LogRecord × LogRecordPos)) : List Op :=
  (l.filter (fun e => db.isLive e)).map (fun e => Op.put (realKeyOf e.1) e.1.Value)

/-- Two engines with the same data directory, file handles and options. -/
def DB.SameFiles (a b : DB) : Prop :=
  a.disk = b.disk ∧ a.activeFile = b.activeFile ∧ a.olderFiles = b.olderFiles ∧
  a.options = b.options

/-- An engine state that stores framed segments (`olds` and, in the active file,
`cur`) with a valid `DataFileSize`, in which the older files are exactly the segments
below the active one, every record has a key that parses and, without its sequence
number, is shorter than 2^32 - 1 bytes, and every index entry belongs to a non-empty
key and holds the segment and offset of a `Normal` record with that key.  Every
sequence of successful `Put` and `Delete` calls on a fresh store leads to such a
state. -/
def DB.Sound (db : DB) (olds : List (List LogRecord)) (cur : List LogRecord) : Prop :=
  db.Stores olds cur ∧ 0 < db.options.DataFileSize ∧
  (db.olderFiles.map (fun e => e.1)).Perm (List.range' 0 olds.length) ∧
  (∀ e ∈ db.olderFiles, e.2.FileId = e.1) ∧
  (∀ e ∈ scanListFrom 0 (olds ++ [cur]),
    (parseLogRecordKey e.1.Key).isSome = true ∧ (realKeyOf e.1).length + 1 < 2 ^ 32) ∧
  ∀ k p, db.index.Get k = some p →
    k ≠ [] ∧ ∃ e ∈ scanListFrom 0 (olds ++ [cur]),
      e.2.Fid = p.Fid ∧ e.2.Offset = p.Offset ∧ realKeyOf e.1 = k ∧ e.1.Typ = LogRecordNormal


/-- The engine after `Put("n", [1, 2])` on the engine `Open` returns, with segments
of 5 bytes, on the directory `lastSegmentDisk`, whose last segment has the id
4294967295. -/
def wrapLiveDB : DB :=
  match Open { DataFileSize := 5, SyncWrites := false } lastSegmentDisk with
  | some (.ok d) => (d.Put [110] [1, 2]).1
  | _ => freshDB 5

/-- The engine after `Put("n", [1, 2])` on the engine `Open` returns, with segments
of 5 bytes, on the directory whose only segment is the empty segment 4294967295. -/
def lastIdPutDB : DB :=
  match Open { DataFileSize := 5, SyncWrites := false } [(4294967295, [])] with
  | some (.ok d) => (d.Put [110] [1, 2]).1
  | _ => freshDB 5
/-! ## Varint lemmas -/

theorem or_shift_eq_add {acc s : Nat} (y : Nat) (h : acc < 2 ^ s) :
    acc ||| (y <<< s) = acc + y * 2 ^ s := by
  rw [Nat.shiftLeft_eq, Nat.lor_comm, Nat.mul_comm y, ← Nat.mul_add_lt_is_or h y, Nat.add_comm]

set_option maxRecDepth 100000 in
theorem byte_or_cont : ∀ y, y < 256 → (y ||| 0x80) % 256 = 128 + y % 128 := by
  decide

set_option maxRecDepth 100000 in
theorem byte_and_low : ∀ y, y < 256 → (y &&& 0x7f) = y % 128 := by
  decide

theorem byteOf_cont_val (x : Nat) : (byteOf (x % 256 ||| 0x80)).val = 128 + x % 128 := by
  have h := byte_or_cont (x % 256) (Nat.mod_lt _ (by decide))
  simp only [byteOf]
  rw [h]
  omega

theorem byteOf_val_of_lt {x : Nat} (h : x < 256) : (byteOf x).val = x := by
  simp [byteOf, Nat.mod_eq_of_lt h]

theorem uvarintLoop_put (rest : Bytes) :
    ∀ (fuel x i acc : Nat), i + fuel = 9 → acc < 2 ^ (7 * i) → x < 2 ^ (64 - 7 * i) →
      uvarintLoop (putUvarintLoop fuel x ++ rest) i acc (7 * i) =
        (acc + x * 2 ^ (7 * i), ((i + (putUvarintLoop fuel x).length : Nat) : Int)) := by
  intro fuel
  induction fuel with
  | zero =>
    intro x i acc hi hacc hx
    have hi9 : i = 9 := by omega
    subst hi9
    have hx2 : x < 2 := by simpa using hx
    have hb : (byteOf x).val = x := byteOf_val_of_lt (by omega)
    simp only [putUvarintLoop, List.singleton_append, uvarintLoop, hb]
    have h1 : ¬ ((9 : Nat) = 10) := by decide
    rw [if_neg h1, if_pos (by omega), if_neg (by omega), or_shift_eq_add x hacc]
    have : acc + x * 2 ^ (7 * 9) < 2 ^ 64 := by
      have : x * 2 ^ (7 * 9) ≤ 1 * 2 ^ (7 * 9) := Nat.mul_le_mul_right _ (by omega)
      have e : (2:Nat) ^ 64 = 2 ^ (7 * 9) + 1 * 2 ^ (7 * 9) := by norm_num
      omega
    rw [Nat.mod_eq_of_lt this]
    simp
  | succ fuel ih =>
    intro x i acc hi hacc hx
    have hi8 : i ≤ 8 := by omega
    by_cases hge : 0x80 ≤ x
    · have hput : putUvarintLoop (fuel + 1) x =
          byteOf (x % 256 ||| 0x80) :: putUvarintLoop fuel (x >>> 7) := by
        simp [putUvarintLoop, hge]
      rw [hput]
      simp only [List.cons_append, uvarintLoop, byteOf_cont_val, List.append_eq]
      rw [if_neg (by omega), if_neg (by omega)]
      have hand : (128 + x % 128) &&& 0x7f = x % 128 := by
        rw [byte_and_low _ (by omega)]
        omega
      rw [hand, or_shift_eq_add _ hacc]
      have hpow : (2:Nat) ^ (7 * (i + 1)) = 2 ^ (7 * i) * 128 := by
        rw [Nat.mul_add, Nat.pow_add]
      have hacc' : acc + x % 128 * 2 ^ (7 * i) < 2 ^ (7 * (i + 1)) := by
        rw [hpow]
        have : x % 128 * 2 ^ (7 * i) ≤ 127 * 2 ^ (7 * i) := Nat.mul_le_mul_right _ (by omega)
        nlinarith
      have hlt64 : acc + x % 128 * 2 ^ (7 * i) < 2 ^ 64 := by
        have : (2:Nat) ^ (7 * (i + 1)) ≤ 2 ^ 64 := Nat.pow_le_pow_right (by decide) (by omega)
        omega
      rw [Nat.mod_eq_of_lt hlt64]
      have hx' : x >>> 7 < 2 ^ (64 - 7 * (i + 1)) := by
        rw [Nat.shiftRight_eq_div_pow]
        have e : (2:Nat) ^ (64 - 7 * i) = 2 ^ (64 - 7 * (i + 1)) * 2 ^ 7 := by
          rw [← Nat.pow_add]; congr 1; omega
        rw [e] at hx
        exact Nat.div_lt_of_lt_mul (by rw [Nat.mul_comm]; exact hx)
      have hs : 7 * i + 7 = 7 * (i + 1) := by ring
      rw [hs, ih (x >>> 7) (i + 1) _ (by omega) hacc' hx']
      rw [Nat.shiftRight_eq_div_pow, hpow]
      have hdm : x = x % 128 + 128 * (x / 128) := by omega
      simp only [List.length_cons]
      refine Prod.ext ?_ ?_
      · simp only
        have e7 : (2:Nat) ^ 7 = 128 := by norm_num
        rw [e7]
        nlinarith [hdm]
      · simp only
        push_cast
        ring
    · have hput : putUvarintLoop (fuel + 1) x = [byteOf x] := by
        simp [putUvarintLoop, hge]
      have hb : (byteOf x).val = x := byteOf_val_of_lt (by omega)
      rw [hput]
      simp only [List.singleton_append, uvarintLoop, hb]
      rw [if_neg (by omega), if_pos (by omega), if_neg (by omega), or_shift_eq_add x hacc]
      have : acc + x * 2 ^ (7 * i) < 2 ^ 64 := by
        have h1 : x * 2 ^ (7 * i) ≤ (2 ^ (64 - 7 * i) - 1) * 2 ^ (7 * i) :=
          Nat.mul_le_mul_right _ (by omega)
        have e : (2:Nat) ^ 64 = 2 ^ (64 - 7 * i) * 2 ^ (7 * i) := by
          rw [← Nat.pow_add]; congr 1; omega
        have hp : 0 < 2 ^ (64 - 7 * i) := Nat.two_pow_pos _
        rw [e]
        have := Nat.sub_mul (2 ^ (64 - 7 * i)) 1 (2 ^ (7 * i))
        nlinarith
      rw [Nat.mod_eq_of_lt this]
      simp
theorem Uvarint_PutUvarint (x : Nat) (hx : x < 2 ^ 64) (rest : Bytes) :
    Uvarint (PutUvarint x ++ rest) = (x, ((PutUvarint x).length : Int)) := by
  have h := uvarintLoop_put rest 9 x 0 0 (by decide) (by decide) (by simpa using hx)
  simp only [Nat.mul_zero, Nat.pow_zero, Nat.mul_one, Nat.zero_add] at h
  simp only [Uvarint, PutUvarint, Nat.mod_eq_of_lt hx]
  exact h

theorem putUvarintLoop_length_pos (fuel x : Nat) : 1 ≤ (putUvarintLoop fuel x).length := by
  cases fuel with
  | zero => simp [putUvarintLoop]
  | succ f =>
    simp only [putUvarintLoop]
    split <;> simp

theorem putUvarintLoop_length_le :
    ∀ (fuel x k : Nat), x < 2 ^ (7 * (k + 1)) → (putUvarintLoop fuel x).length ≤ k + 1 := by
  intro fuel
  induction fuel with
  | zero => intro x k _; simp [putUvarintLoop]
  | succ f ih =>
    intro x k hx
    simp only [putUvarintLoop]
    split
    · rename_i hge
      cases k with
      | zero => simp at hx; omega
      | succ k =>
        have hx' : x >>> 7 < 2 ^ (7 * (k + 1)) := by
          rw [Nat.shiftRight_eq_div_pow]
          have e : (2:Nat) ^ (7 * (k + 1 + 1)) = 2 ^ (7 * (k + 1)) * 2 ^ 7 := by
            rw [← Nat.pow_add]; congr 1
          rw [e] at hx
          exact Nat.div_lt_of_lt_mul (by rw [Nat.mul_comm]; exact hx)
        have := ih (x >>> 7) k hx'
        simp only [List.length_cons]
        omega
    · simp

theorem PutUvarint_length_pos (x : Nat) : 1 ≤ (PutUvarint x).length :=
  putUvarintLoop_length_pos _ _

theorem PutUvarint_length_le (x k : Nat) (hx : x < 2 ^ (7 * (k + 1))) (h64 : x < 2 ^ 64) :
    (PutUvarint x).length ≤ k + 1 := by
  simp only [PutUvarint, Nat.mod_eq_of_lt h64]
  exact putUvarintLoop_length_le 9 x k hx

theorem PutVarint_nat (n : Nat) (hn : n < 2 ^ 63) : PutVarint (n : Int) = PutUvarint (2 * n) := by
  have h1 : ((n : Int) % 2 ^ 64).toNat = n := by
    have : ((n : Int) % 2 ^ 64) = ((n % 2 ^ 64 : Nat) : Int) := by push_cast; rfl
    rw [this, Int.toNat_ofNat, Nat.mod_eq_of_lt (by omega)]
  have h2 : ¬ ((n : Int) < 0) := by omega
  simp only [PutVarint, h1, if_neg h2, Nat.shiftLeft_eq]
  rw [Nat.mod_eq_of_lt (by omega)]
  congr 1
  omega

theorem Varint_PutVarint_nat (n : Nat) (hn : n < 2 ^ 63) (rest : Bytes) :
    Varint (PutVarint (n : Int) ++ rest) = ((n : Int), ((PutVarint (n : Int)).length : Int)) := by
  rw [PutVarint_nat n hn]
  simp only [Varint, Uvarint_PutUvarint (2 * n) (by omega) rest]
  have h1 : (2 * n) >>> 1 = n := by rw [Nat.shiftRight_eq_div_pow]; omega
  have h2 : (2 * n) &&& 1 = 0 := by
    have := Nat.and_pow_two_sub_one_eq_mod (2 * n) 1
    simp only [Nat.pow_one, Nat.add_one_sub_one] at this
    rw [this]; omega
  simp [h1, h2]

theorem PutVarint_nat_length_le5 (n : Nat) (hn : n < 2 ^ 34) :
    (PutVarint (n : Int)).length ≤ 5 := by
  rw [PutVarint_nat n (by omega)]
  exact PutUvarint_length_le (2 * n) 4 (by norm_num; omega) (by omega)

theorem PutVarint_length_pos (x : Int) : 1 ≤ (PutVarint x).length := by
  simp only [PutVarint]
  exact PutUvarint_length_pos _
/-! ## CRC-32 lemmas -/

theorem crcRound_lt {c : Nat} (h : c < 2 ^ 32) : crcRound c < 2 ^ 32 := by
  have h1 : c >>> 1 < 2 ^ 32 := by
    rw [Nat.shiftRight_eq_div_pow]
    exact Nat.lt_of_le_of_lt (Nat.div_le_self _ _) h
  simp only [crcRound]
  split
  · exact Nat.xor_lt_two_pow h1 (by decide)
  · exact h1

theorem crcTable_lt {i : Nat} (h : i < 2 ^ 32) : crcTable i < 2 ^ 32 := by
  simp only [crcTable, Function.iterate_succ, Function.iterate_zero, Function.comp_apply, id_eq]
  exact crcRound_lt (crcRound_lt (crcRound_lt (crcRound_lt (crcRound_lt (crcRound_lt
    (crcRound_lt (crcRound_lt h)))))))

theorem crcStep_lt {c : Nat} (v : Byte) (h : c < 2 ^ 32) : crcStep c v < 2 ^ 32 := by
  have h1 : c >>> 8 < 2 ^ 32 := by
    rw [Nat.shiftRight_eq_div_pow]
    exact Nat.lt_of_le_of_lt (Nat.div_le_self _ _) h
  have h2 : (c % 256) ^^^ v.val < 2 ^ 8 :=
    Nat.xor_lt_two_pow (Nat.mod_lt _ (by decide)) v.isLt
  have h3 : (c % 256) ^^^ v.val < 2 ^ 32 := Nat.lt_of_lt_of_le h2 (by decide)
  exact Nat.xor_lt_two_pow (crcTable_lt h3) h1

theorem foldl_crcStep_lt (p : Bytes) : ∀ {c : Nat}, c < 2 ^ 32 → p.foldl crcStep c < 2 ^ 32 := by
  induction p with
  | nil => intro c h; simpa using h
  | cons v p ih => intro c h; simpa using ih (crcStep_lt v h)

theorem crc32Update_lt {c : Nat} (p : Bytes) (h : c < 2 ^ 32) : crc32Update c p < 2 ^ 32 := by
  simp only [crc32Update]
  exact Nat.xor_lt_two_pow (foldl_crcStep_lt p (Nat.xor_lt_two_pow h (by decide))) (by decide)

theorem ChecksumIEEE_lt (p : Bytes) : ChecksumIEEE p < 2 ^ 32 :=
  crc32Update_lt p (by decide)

theorem xor_xor_cancel (a m : Nat) : a ^^^ m ^^^ m = a := by
  rw [Nat.xor_assoc, Nat.xor_self, Nat.xor_zero]

/-- `crc32.Update` over two slices in turn is `crc32.Update` over their concatenation. -/
theorem crc32Update_append (c : Nat) (p q : Bytes) :
    crc32Update (crc32Update c p) q = crc32Update c (p ++ q) := by
  simp only [crc32Update, xor_xor_cancel, List.foldl_append]

/-- The incremental checksum of `getLogRecordCRC` is the one-shot checksum of the
header bytes followed by key and value. -/
theorem getLogRecordCRC_eq (lr : LogRecord) (header : Bytes) :
    getLogRecordCRC lr header = ChecksumIEEE (header ++ lr.Key ++ lr.Value) := by
  simp only [getLogRecordCRC, ChecksumIEEE, crc32Update_append]

theorem uint32LE_putUint32LE (v : Nat) (h : v < 2 ^ 32) :
    uint32LE (byteOf v) (byteOf (v >>> 8)) (byteOf (v >>> 16)) (byteOf (v >>> 24)) = v := by
  simp only [uint32LE, byteOf, Nat.shiftRight_eq_div_pow]
  have h0 : v % 256 < 2 ^ 8 := Nat.mod_lt _ (by decide)
  rw [or_shift_eq_add _ h0]
  have h1 : v % 256 + v / 2 ^ 8 % 256 * 2 ^ 8 < 2 ^ 16 := by
    have := Nat.mod_lt (v / 2 ^ 8) (show 0 < 256 by decide)
    omega
  rw [or_shift_eq_add _ h1]
  have h2 : v % 256 + v / 2 ^ 8 % 256 * 2 ^ 8 + v / 2 ^ 16 % 256 * 2 ^ 16 < 2 ^ 24 := by
    have := Nat.mod_lt (v / 2 ^ 16) (show 0 < 256 by decide)
    omega
  rw [or_shift_eq_add _ h2]
  omega
/-! ## Bounds on what `Uvarint` reads -/

theorem uvarintLoop_count (buf : Bytes) :
    ∀ (i x s : Nat), i ≤ 10 →
      ((uvarintLoop buf i x s).2 = 0) ∨
      ((i : Int) < (uvarintLoop buf i x s).2 ∧ (uvarintLoop buf i x s).2 ≤ (i : Int) + buf.length) ∨
      ((uvarintLoop buf i x s).2 ≤ -10 ∧ 10 ≤ i + buf.length) := by
  induction buf with
  | nil => intro i x s _; left; rfl
  | cons b rest ih =>
    intro i x s hi
    simp only [uvarintLoop]
    by_cases h10 : i = 10
    · rw [if_pos h10]
      right; right
      subst h10
      simp
    · rw [if_neg h10]
      by_cases hb : b.val < 0x80
      · rw [if_pos hb]
        by_cases h9 : i = 9 ∧ 1 < b.val
        · rw [if_pos h9]
          right; right
          obtain ⟨h9, _⟩ := h9
          subst h9
          simp only [List.length_cons]
          constructor
          · norm_num
          · omega
        · rw [if_neg h9]
          right; left
          simp only [List.length_cons]
          push_cast
          omega
      · rw [if_neg hb]
        rcases ih (i + 1) ((x ||| ((b.val &&& 0x7f) <<< s)) % 2 ^ 64) (s + 7) (by omega) with h | h | h
        · left; exact h
        · right; left
          simp only [List.length_cons]
          push_cast at h ⊢
          omega
        · right; right
          simp only [List.length_cons]
          omega

theorem Varint_count (buf : Bytes) :
    (Varint buf).2 = 0 ∨ (0 < (Varint buf).2 ∧ (Varint buf).2 ≤ buf.length) ∨
      ((Varint buf).2 ≤ -10 ∧ 10 ≤ buf.length) := by
  have h := uvarintLoop_count buf 0 0 0 (by decide)
  simpa [Varint, Uvarint] using h

theorem toUint32_nonneg_lt (x : Int) : toUint32 x < 2 ^ 32 := by
  simp only [toUint32]
  have h1 : 0 ≤ x % 2 ^ 32 := Int.emod_nonneg _ (by norm_num)
  have h2 : x % 2 ^ 32 < 2 ^ 32 := Int.emod_lt_of_pos _ (by norm_num)
  omega

theorem toUint32_ofNat (n : Nat) (h : n < 2 ^ 32) : toUint32 (n : Int) = n := by
  simp only [toUint32]
  have : ((n : Int) % 2 ^ 32) = (n : Int) := Int.emod_eq_of_lt (by omega) (by omega)
  rw [this]
  simp

/-- What a successful `decodeLogRecordHeader` on a buffer of at most 15 bytes returns:
the header length lies between 5 and the buffer length. -/
theorem decodeLogRecordHeader_size (buf : Bytes) (hlen : buf.length ≤ 15)
    (h : logRecordHeader) (hs : Int)
    (hdec : decodeLogRecordHeader buf = some (some (h, hs))) :
    5 ≤ hs ∧ hs ≤ buf.length := by
  match buf, hlen, hdec with
  | b0 :: b1 :: b2 :: b3 :: t :: rest, hlen, hdec =>
    simp only [decodeLogRecordHeader] at hdec
    simp only [List.length_cons] at hlen
    have hk := Varint_count rest
    by_cases hneg : (5 : Int) + (Varint rest).2 < 0
    · rw [if_pos hneg] at hdec
      simp at hdec
    · rw [if_neg hneg] at hdec
      simp only [Option.some.injEq, Prod.mk.injEq] at hdec
      obtain ⟨_, hhs⟩ := hdec
      have hk0 : 0 ≤ (Varint rest).2 := by
        rcases hk with h | h | h <;> omega
      have hk1 : (Varint rest).2 ≤ rest.length := by
        rcases hk with h | h | h <;> omega
      have hdrop : (b0 :: b1 :: b2 :: b3 :: t :: rest).drop (5 + (Varint rest).2).toNat =
          rest.drop (Varint rest).2.toNat := by
        have : (5 + (Varint rest).2).toNat = (Varint rest).2.toNat + 5 := by omega
        rw [this]
        simp [List.drop_succ_cons]
      rw [hdrop] at hhs
      have hv := Varint_count (rest.drop (Varint rest).2.toNat)
      have hl : (rest.drop (Varint rest).2.toNat).length = rest.length - (Varint rest).2.toNat :=
        List.length_drop _ _
      by_cases hz : (Varint rest).2 = 0
      · have : rest.drop (Varint rest).2.toNat = rest := by rw [hz]; simp
        rw [this, hz] at hhs
        simp only [List.length_cons]
        omega
      · simp only [List.length_cons]
        rcases hv with h | h | h <;> omega
  | [], _, hdec => simp [decodeLogRecordHeader] at hdec
  | [_], _, hdec => simp [decodeLogRecordHeader] at hdec
  | [_, _], _, hdec => simp [decodeLogRecordHeader] at hdec
  | [_, _, _], _, hdec => simp [decodeLogRecordHeader] at hdec
  | [_, _, _, _], _, hdec => simp [decodeLogRecordHeader] at hdec

theorem decodeLogRecordHeader_short (buf : Bytes) (h : buf.length ≤ 4) :
    decodeLogRecordHeader buf = none := by
  match buf, h with
  | [], _ => rfl
  | [_], _ => rfl
  | [_, _], _ => rfl
  | [_, _, _], _ => rfl
  | [_, _, _, _], _ => rfl
  | _ :: _ :: _ :: _ :: _ :: _, h => simp at h

/-! ## What `ReadLogRecord` returns -/

theorem take_split3 {α : Type} (g : List α) (a b c : Nat) :
    g.take a ++ (g.drop a).take b ++ (g.drop (a + b)).take c = g.take (a + b + c) := by
  rw [List.take_add (l := g) (m := a + b) (n := c), List.take_add (l := g) (m := a) (n := b)]

/-- The header read of `ReadLogRecord` at an offset inside the file returns the next
15 bytes, or all the bytes that remain when there are fewer. -/
theorem ReadNBytes_header (file : Bytes) (offset : Nat) (hoff : offset ≤ file.length) :
    ReadNBytes file
      (if (offset : Int) + (maxLogRecordHeaderSize : Nat) > (file.length : Int)
        then (file.length : Int) - offset else (maxLogRecordHeaderSize : Nat)) offset =
      .ok ((file.drop offset).take 15) := by
  simp only [maxLogRecordHeaderSize]
  by_cases h : (offset : Int) + (15 : Nat) > (file.length : Int)
  · rw [if_pos h]
    simp only [ReadNBytes]
    rw [if_neg (by omega), if_neg (by omega)]
    by_cases hz : (file.length : Int) - offset = 0
    · rw [if_pos hz]
      have : file.drop offset = [] := by
        apply List.drop_eq_nil_of_le; omega
      simp [this]
    · rw [if_neg hz, if_pos (by omega)]
      have e1 : ((offset : Int)).toNat = offset := by simp
      have e2 : ((file.length : Int) - offset).toNat = file.length - offset := by omega
      rw [e1, e2]
      congr 1
      rw [List.take_of_length_le, List.take_of_length_le]
      · simp only [List.length_drop]; push_cast at h; omega
      · simp only [List.length_drop]; omega
  · rw [if_neg h]
    simp only [ReadNBytes]
    rw [if_neg (by omega), if_neg (by omega), if_neg (by omega), if_pos (by omega)]
    simp

theorem ReadNBytes_ok (file : Bytes) (n off : Nat) (hn : 0 < n) (h : off + n ≤ file.length) :
    ReadNBytes file (n : Int) (off : Int) = .ok ((file.drop off).take n) := by
  simp only [ReadNBytes]
  rw [if_neg (by omega), if_neg (by omega), if_neg (by omega), if_pos (by omega)]
  simp

theorem ReadNBytes_eof (file : Bytes) (n off : Nat) (hn : 0 < n) (h : file.length < off + n) :
    ReadNBytes file (n : Int) (off : Int) = .error .EOF := by
  simp only [ReadNBytes]
  rw [if_neg (by omega), if_neg (by omega), if_neg (by omega), if_neg (by omega)]

/-- `ReadLogRecord` at an offset where the header decodes, is not the end-of-log
header, and announces bytes that are all in the file: the result is decided by
comparing the stored crc with the checksum of the bytes after the crc field. -/
theorem ReadLogRecord_eq (file : Bytes) (offset : Nat) (hoff : offset ≤ file.length)
    (h : logRecordHeader) (hs : Nat)
    (hdec : decodeLogRecordHeader ((file.drop offset).take 15) = some (some (h, (hs : Int))))
    (hnz : ¬ (h.crc = 0 ∧ h.keySize = 0 ∧ h.valueSize = 0))
    (hpres : offset + hs + h.keySize + h.valueSize ≤ file.length) :
    ReadLogRecord file (offset : Int) =
      if ChecksumIEEE ((file.drop (offset + 4)).take (hs - 4 + h.keySize + h.valueSize)) ≠ h.crc
      then .error .InvalidCRC
      else .ok ({ Key := (file.drop (offset + hs)).take h.keySize,
                  Value := (file.drop (offset + hs + h.keySize)).take h.valueSize,
                  Typ := h.recordType }, ((hs + h.keySize + h.valueSize : Nat) : Int)) := by
  have hsz := decodeLogRecordHeader_size _ (by simp) h hs hdec
  obtain ⟨hs5, hsle⟩ := hsz
  have hs5' : 5 ≤ hs := by omega
  have hsle' : hs ≤ ((file.drop offset).take 15).length := by omega
  have hcrcbuf : (((file.drop offset).take 15).drop 4).take (hs - 4) =
      (file.drop (offset + 4)).take (hs - 4) := by
    rw [List.drop_take, List.take_take, List.drop_drop]
    have : min (hs - 4) (15 - 4) = hs - 4 := by
      simp only [List.length_take] at hsle'
      omega
    rw [this, Nat.add_comm]
  simp only [ReadLogRecord]
  rw [ReadNBytes_header file offset hoff]
  simp only [hdec]
  rw [if_neg hnz]
  have hslice : ¬ ((hs : Int) < 4 ∨ ((((file.drop offset).take 15).length : Nat) : Int) < (hs : Int)) := by
    omega
  by_cases hkv : ((h.keySize : Nat) : Int) > 0 ∨ ((h.valueSize : Nat) : Int) > 0
  · rw [if_pos hkv]
    have hread : ReadNBytes file ((h.keySize : Int) + (h.valueSize : Int)) ((offset : Int) + (hs : Int)) =
        .ok ((file.drop (offset + hs)).take (h.keySize + h.valueSize)) := by
      have := ReadNBytes_ok file (h.keySize + h.valueSize) (offset + hs) (by omega) (by omega)
      push_cast at this
      exact this
    rw [hread]
    simp only
    rw [if_neg hslice]
    have hkey : ((file.drop (offset + hs)).take (h.keySize + h.valueSize)).take h.keySize =
        (file.drop (offset + hs)).take h.keySize := by
      rw [List.take_take]; congr 1; omega
    have hval : ((file.drop (offset + hs)).take (h.keySize + h.valueSize)).drop h.keySize =
        (file.drop (offset + hs + h.keySize)).take h.valueSize := by
      rw [List.drop_take, List.drop_drop]
      congr 1
      omega
    rw [hkey, hval, getLogRecordCRC_eq]
    simp only [Int.toNat_ofNat, hcrcbuf]
    have hregion : (file.drop (offset + 4)).take (hs - 4) ++
        (file.drop (offset + hs)).take h.keySize ++
        (file.drop (offset + hs + h.keySize)).take h.valueSize =
        (file.drop (offset + 4)).take (hs - 4 + h.keySize + h.valueSize) := by
      rw [← take_split3, List.drop_drop, List.drop_drop]
      have e1 : offset + 4 + (hs - 4) = offset + hs := by omega
      have e2 : offset + 4 + (hs - 4 + h.keySize) = offset + hs + h.keySize := by omega
      rw [e1, e2]
    rw [hregion]
    push_cast
    rfl
  · rw [if_neg hkv]
    simp only
    rw [if_neg hslice]
    have hk0 : h.keySize = 0 := by omega
    have hv0 : h.valueSize = 0 := by omega
    rw [getLogRecordCRC_eq]
    simp only [Int.toNat_ofNat, hcrcbuf, hk0, hv0, List.take_zero, List.append_nil, Nat.add_zero]
    push_cast
    rfl
/-! ## Round trip of the record codec -/

theorem EncodeLogRecord_some (r : LogRecord) (hk : r.Key.length < 2 ^ 34)
    (hv : r.Value.length < 2 ^ 34) :
    EncodeLogRecord r =
      some (putUint32LE (ChecksumIEEE (recordBody r)) ++ recordBody r,
        5 + (PutVarint r.Key.length).length + (PutVarint r.Value.length).length +
          r.Key.length + r.Value.length) := by
  have h1 := PutVarint_nat_length_le5 r.Key.length hk
  have h2 := PutVarint_nat_length_le5 r.Value.length hv
  simp only [EncodeLogRecord, maxLogRecordHeaderSize]
  rw [if_neg (by omega)]

theorem EncodeLogRecord_length (r : LogRecord) (enc : Bytes) (size : Nat)
    (h : EncodeLogRecord r = some (enc, size)) :
    enc.length = size ∧
    enc = putUint32LE (ChecksumIEEE (recordBody r)) ++ recordBody r ∧
    size = 5 + (PutVarint r.Key.length).length + (PutVarint r.Value.length).length +
          r.Key.length + r.Value.length ∧
    (PutVarint r.Key.length).length + (PutVarint r.Value.length).length ≤ 10 := by
  simp only [EncodeLogRecord, maxLogRecordHeaderSize] at h
  split at h
  · simp at h
  · rename_i hle
    simp only [Option.some.injEq, Prod.mk.injEq] at h
    obtain ⟨h1, h2⟩ := h
    subst h1 h2
    refine ⟨?_, rfl, rfl, by omega⟩
    simp [recordBody, putUint32LE]
    omega

theorem drop_append_len {α : Type} {X Y : List α} {n : Nat} (i : Nat) (h : X.length = n) :
    (X ++ Y).drop (n + i) = Y.drop i := by
  subst h
  exact List.drop_append i

theorem slice_key {α : Type} (X kvb post : List α) (n klen : Nat) (hX : X.length = n)
    (hk : klen ≤ kvb.length) : ((X ++ (kvb ++ post)).drop n).take klen = kvb.take klen := by
  rw [List.drop_left' hX, List.take_append_of_le_length hk]

theorem slice_val {α : Type} (X kvb post : List α) (n klen vlen : Nat) (hX : X.length = n)
    (hlen : kvb.length = klen + vlen) :
    ((X ++ (kvb ++ post)).drop (n + klen)).take vlen = kvb.drop klen := by
  rw [drop_append_len klen hX, List.drop_append_of_le_length (by omega),
    List.take_left' (by simp; omega)]

/-- Decoding the first 15 bytes of a frame `crc || type || varint klen || varint vlen`
followed by anything. -/
theorem decodeLogRecordHeader_framed (c0 c1 c2 c3 t : Byte) (klen vlen : Nat)
    (hk : klen < 2 ^ 32) (hv : vlen < 2 ^ 32) (tail : Bytes) :
    decodeLogRecordHeader
        ((c0 :: c1 :: c2 :: c3 :: t :: (PutVarint klen ++ (PutVarint vlen ++ tail))).take 15) =
      some (some ({ crc := uint32LE c0 c1 c2 c3, recordType := t,
                    keySize := klen, valueSize := vlen },
        ((5 + (PutVarint klen).length + (PutVarint vlen).length : Nat) : Int))) := by
  have h1 := PutVarint_nat_length_le5 klen (by omega)
  have h2 := PutVarint_nat_length_le5 vlen (by omega)
  have hbuf : (c0 :: c1 :: c2 :: c3 :: t :: (PutVarint klen ++ (PutVarint vlen ++ tail))).take 15 =
      c0 :: c1 :: c2 :: c3 :: t :: (PutVarint klen ++ (PutVarint vlen ++
        tail.take (10 - (PutVarint klen).length - (PutVarint vlen).length))) := by
    rw [show (15 : Nat) = 10 + 1 + 1 + 1 + 1 + 1 from rfl]
    simp only [List.take_succ_cons]
    rw [List.take_append_eq_append_take, List.take_of_length_le (by omega),
      List.take_append_eq_append_take, List.take_of_length_le (by omega)]
  rw [hbuf]
  simp only [decodeLogRecordHeader]
  rw [Varint_PutVarint_nat klen (by omega)]
  simp only
  have hidx : ¬ ((5 : Int) + ((PutVarint (klen : Int)).length : Int) < 0) := by omega
  rw [if_neg hidx]
  have hdrop : ∀ (l : Bytes),
      (c0 :: c1 :: c2 :: c3 :: t :: (PutVarint (klen : Int) ++ l)).drop
        ((5 : Int) + ((PutVarint (klen : Int)).length : Int)).toNat = l := by
    intro l
    have : ((5 : Int) + ((PutVarint (klen : Int)).length : Int)).toNat =
        (PutVarint (klen : Int)).length + 5 := by omega
    rw [this]
    simp [List.drop_succ_cons]
  rw [hdrop, Varint_PutVarint_nat vlen (by omega)]
  simp only [toUint32_ofNat _ hk, toUint32_ofNat _ hv]
  push_cast
  rfl

/-- `ReadLogRecord` returns `io.EOF` on a header with crc, keySize and valueSize zero. -/
theorem ReadLogRecord_header_eof (file : Bytes) (offset : Nat) (hoff : offset ≤ file.length)
    (h : logRecordHeader) (hs : Int)
    (hdec : decodeLogRecordHeader ((file.drop offset).take 15) = some (some (h, hs)))
    (hz : h.crc = 0 ∧ h.keySize = 0 ∧ h.valueSize = 0) :
    ReadLogRecord file (offset : Int) = .error .EOF := by
  simp only [ReadLogRecord]
  rw [ReadNBytes_header file offset hoff]
  simp only [hdec]
  rw [if_pos hz]

/-- Reading a frame `crc || type || varint klen || varint vlen || kvb` found at offset
`pre.length` of a file, whatever the stored crc and the bytes around the frame. -/
theorem ReadLogRecord_framed (c0 c1 c2 c3 t : Byte) (klen vlen : Nat) (kvb : Bytes)
    (hlen : kvb.length = klen + vlen) (hk : klen < 2 ^ 32) (hv : vlen < 2 ^ 32)
    (pre post : Bytes) :
    ReadLogRecord
        (pre ++ (c0 :: c1 :: c2 :: c3 :: t :: (PutVarint klen ++ (PutVarint vlen ++ kvb))) ++ post)
        (pre.length : Int) =
      if uint32LE c0 c1 c2 c3 = 0 ∧ klen = 0 ∧ vlen = 0 then .error .EOF
      else if ChecksumIEEE (t :: (PutVarint klen ++ (PutVarint vlen ++ kvb))) ≠
          uint32LE c0 c1 c2 c3 then .error .InvalidCRC
      else .ok ({ Key := kvb.take klen, Value := kvb.drop klen, Typ := t },
        ((5 + (PutVarint klen).length + (PutVarint vlen).length + klen + vlen : Nat) : Int)) := by
  have h1 := PutVarint_nat_length_le5 klen (by omega)
  have h2 := PutVarint_nat_length_le5 vlen (by omega)
  have hfile0 : pre ++ (c0 :: c1 :: c2 :: c3 :: t ::
      (PutVarint klen ++ (PutVarint vlen ++ kvb))) ++ post =
      pre ++ (c0 :: c1 :: c2 :: c3 :: t ::
        (PutVarint klen ++ (PutVarint vlen ++ (kvb ++ post)))) := by
    simp [List.append_assoc]
  have hdrop0 : (pre ++ (c0 :: c1 :: c2 :: c3 :: t ::
      (PutVarint klen ++ (PutVarint vlen ++ kvb))) ++ post).drop pre.length =
      c0 :: c1 :: c2 :: c3 :: t :: (PutVarint klen ++ (PutVarint vlen ++ (kvb ++ post))) := by
    rw [hfile0, List.drop_left]
  have hdec := decodeLogRecordHeader_framed c0 c1 c2 c3 t klen vlen hk hv (kvb ++ post)
  rw [← hdrop0] at hdec
  have hoff : pre.length ≤ (pre ++ (c0 :: c1 :: c2 :: c3 :: t ::
      (PutVarint klen ++ (PutVarint vlen ++ kvb))) ++ post).length := by simp
  by_cases hz : uint32LE c0 c1 c2 c3 = 0 ∧ klen = 0 ∧ vlen = 0
  · rw [if_pos hz]
    exact ReadLogRecord_header_eof _ _ hoff _ _ hdec hz
  · rw [if_neg hz]
    have hmain := ReadLogRecord_eq _ pre.length hoff _ _ hdec hz
      (by simp only [List.length_append, List.length_cons, hlen]; omega)
    rw [hmain]
    simp only
    have hfile1 : pre ++ (c0 :: c1 :: c2 :: c3 :: t ::
        (PutVarint klen ++ (PutVarint vlen ++ kvb))) ++ post =
        (pre ++ [c0, c1, c2, c3]) ++ ((t :: (PutVarint klen ++ (PutVarint vlen ++ kvb))) ++ post) := by
      simp [List.append_assoc]
    have hfile2 : pre ++ (c0 :: c1 :: c2 :: c3 :: t ::
        (PutVarint klen ++ (PutVarint vlen ++ kvb))) ++ post =
        (pre ++ (c0 :: c1 :: c2 :: c3 :: t :: (PutVarint klen ++ PutVarint vlen))) ++
          (kvb ++ post) := by
      simp [List.append_assoc]
    have hcrc : ((pre ++ (c0 :: c1 :: c2 :: c3 :: t ::
        (PutVarint klen ++ (PutVarint vlen ++ kvb))) ++ post).drop (pre.length + 4)).take
          (5 + (PutVarint klen).length + (PutVarint vlen).length - 4 + klen + vlen) =
        t :: (PutVarint klen ++ (PutVarint vlen ++ kvb)) := by
      rw [hfile1, List.drop_left' (by simp), List.take_left']
      simp [hlen]; omega
    have hkey : ((pre ++ (c0 :: c1 :: c2 :: c3 :: t ::
        (PutVarint klen ++ (PutVarint vlen ++ kvb))) ++ post).drop
        (pre.length + (5 + (PutVarint klen).length + (PutVarint vlen).length))).take klen =
        kvb.take klen := by
      rw [hfile2]
      exact slice_key _ _ _ _ _ (by simp; omega) (by omega)
    have hval : ((pre ++ (c0 :: c1 :: c2 :: c3 :: t ::
        (PutVarint klen ++ (PutVarint vlen ++ kvb))) ++ post).drop
        (pre.length + (5 + (PutVarint klen).length + (PutVarint vlen).length) + klen)).take vlen =
        kvb.drop klen := by
      rw [hfile2]
      exact slice_val _ _ _ _ _ _ (by simp; omega) hlen
    rw [hcrc, hkey, hval]

/-- Reading back an encoded record found at offset `pre.length` of a file, whatever
bytes precede and follow it. -/
theorem ReadLogRecord_encoded (r : LogRecord) (hk : r.Key.length < 2 ^ 32)
    (hv : r.Value.length < 2 ^ 32)
    (hnz : ¬ (ChecksumIEEE (recordBody r) = 0 ∧ r.Key.length = 0 ∧ r.Value.length = 0))
    (pre post : Bytes) :
    ReadLogRecord (pre ++ (putUint32LE (ChecksumIEEE (recordBody r)) ++ recordBody r) ++ post)
        (pre.length : Int) =
      .ok (r, ((5 + (PutVarint r.Key.length).length + (PutVarint r.Value.length).length +
          r.Key.length + r.Value.length : Nat) : Int)) := by
  have h := ReadLogRecord_framed (byteOf (ChecksumIEEE (recordBody r)))
    (byteOf (ChecksumIEEE (recordBody r) >>> 8)) (byteOf (ChecksumIEEE (recordBody r) >>> 16))
    (byteOf (ChecksumIEEE (recordBody r) >>> 24)) r.Typ r.Key.length r.Value.length
    (r.Key ++ r.Value) (by simp) hk hv pre post
  rw [uint32LE_putUint32LE _ (ChecksumIEEE_lt _)] at h
  have hbody : r.Typ :: (PutVarint r.Key.length ++ (PutVarint r.Value.length ++ (r.Key ++ r.Value))) =
      recordBody r := by
    simp [recordBody, List.append_assoc]
  rw [hbody, if_neg hnz, if_neg (by simp)] at h
  have hfile : pre ++ (putUint32LE (ChecksumIEEE (recordBody r)) ++ recordBody r) ++ post =
      pre ++ (byteOf (ChecksumIEEE (recordBody r)) :: byteOf (ChecksumIEEE (recordBody r) >>> 8) ::
        byteOf (ChecksumIEEE (recordBody r) >>> 16) :: byteOf (ChecksumIEEE (recordBody r) >>> 24) ::
        recordBody r) ++ post := rfl
  rw [hfile, h]
  simp
/-! ## `crc32.Update` detects a change of one byte -/

theorem shiftRight_xor (a b n : Nat) : (a ^^^ b) >>> n = (a >>> n) ^^^ (b >>> n) := by
  apply Nat.eq_of_testBit_eq
  intro i
  simp only [Nat.testBit_shiftRight, Nat.testBit_xor]

set_option maxRecDepth 1000000 in
theorem crcTopInv_table : ∀ i, i < 256 → crcTopInv (crcTable i >>> 24) = i := by
  decide!

theorem crcTable_top_inj {i j : Nat} (hi : i < 256) (hj : j < 256)
    (h : crcTable i >>> 24 = crcTable j >>> 24) : i = j := by
  rw [← crcTopInv_table i hi, ← crcTopInv_table j hj, h]

theorem byte_xor_lt {c : Nat} (v : Byte) : (c % 256) ^^^ v.val < 256 :=
  Nat.xor_lt_two_pow (n := 8) (Nat.mod_lt _ (by decide)) v.isLt

/-- One step of the checksum loop is injective in the byte. -/
theorem crcStep_inj_byte (c : Nat) {v w : Byte} (h : crcStep c v = crcStep c w) : v = w := by
  simp only [crcStep] at h
  have h1 : crcTable ((c % 256) ^^^ v.val) = crcTable ((c % 256) ^^^ w.val) :=
    Nat.xor_left_inj.mp h
  have h2 := crcTable_top_inj (byte_xor_lt v) (byte_xor_lt w) (by rw [h1])
  exact Fin.ext (Nat.xor_right_inj.mp h2)

/-- One step of the checksum loop is injective in the 32-bit state. -/
theorem crcStep_inj_state {c d : Nat} (v : Byte) (hc : c < 2 ^ 32) (hd : d < 2 ^ 32)
    (h : crcStep c v = crcStep d v) : c = d := by
  simp only [crcStep] at h
  have hc8 : c >>> 8 >>> 24 = 0 := by
    rw [Nat.shiftRight_eq_div_pow, Nat.shiftRight_eq_div_pow]; omega
  have hd8 : d >>> 8 >>> 24 = 0 := by
    rw [Nat.shiftRight_eq_div_pow, Nat.shiftRight_eq_div_pow]; omega
  have htop := congrArg (fun x => x >>> 24) h
  simp only [shiftRight_xor, hc8, hd8, Nat.xor_zero] at htop
  have hidx := crcTable_top_inj (byte_xor_lt v) (byte_xor_lt v) htop
  have hlow : c % 256 = d % 256 := Nat.xor_left_inj.mp hidx
  rw [hidx] at h
  have hhigh : c >>> 8 = d >>> 8 := Nat.xor_right_inj.mp h
  rw [Nat.shiftRight_eq_div_pow, Nat.shiftRight_eq_div_pow] at hhigh
  omega

theorem foldl_crcStep_inj (p : Bytes) :
    ∀ {c d : Nat}, c < 2 ^ 32 → d < 2 ^ 32 → p.foldl crcStep c = p.foldl crcStep d → c = d := by
  induction p with
  | nil => intro c d _ _ h; simpa using h
  | cons v p ih =>
    intro c d hc hd h
    simp only [List.foldl_cons] at h
    exact crcStep_inj_state v hc hd (ih (crcStep_lt v hc) (crcStep_lt v hd) h)

/-- Two inputs that differ in exactly one byte have different checksums. -/
theorem ChecksumIEEE_change_byte (p q : Bytes) {v w : Byte} (h : v ≠ w) :
    ChecksumIEEE (p ++ v :: q) ≠ ChecksumIEEE (p ++ w :: q) := by
  intro heq
  simp only [ChecksumIEEE, crc32Update, List.foldl_append, List.foldl_cons] at heq
  have h1 := Nat.xor_left_inj.mp heq
  have hinit : (0 ^^^ 0xffffffff : Nat) < 2 ^ 32 := by decide
  have h2 := foldl_crcStep_inj q (crcStep_lt v (foldl_crcStep_lt p hinit))
    (crcStep_lt w (foldl_crcStep_lt p hinit)) h1
  exact h (crcStep_inj_byte _ h2)

theorem ChecksumIEEE_set_ne (l : Bytes) (i : Nat) (hi : i < l.length) (b : Byte)
    (hb : b ≠ l.get ⟨i, hi⟩) : ChecksumIEEE (l.set i b) ≠ ChecksumIEEE l := by
  have hl : l = l.take i ++ l.get ⟨i, hi⟩ :: l.drop (i + 1) := by
    rw [List.get_eq_getElem]
    simp
  have hs : l.set i b = l.take i ++ b :: l.drop (i + 1) := by
    rw [List.set_eq_take_append_cons_drop]
    simp [hi]
  rw [hs]
  conv_rhs => rw [hl]
  exact ChecksumIEEE_change_byte _ _ hb

/-! ## Reading a frame whose checksum does not match -/

theorem uint32LE_eq (b0 b1 b2 b3 : Byte) :
    uint32LE b0 b1 b2 b3 = b0.val + b1.val * 2 ^ 8 + b2.val * 2 ^ 16 + b3.val * 2 ^ 24 := by
  have h0 := b0.isLt
  have h1 := b1.isLt
  have h2 := b2.isLt
  simp only [uint32LE]
  rw [or_shift_eq_add _ (show b0.val < 2 ^ 8 by omega),
    or_shift_eq_add _ (show b0.val + b1.val * 2 ^ 8 < 2 ^ 16 by omega),
    or_shift_eq_add _ (show b0.val + b1.val * 2 ^ 8 + b2.val * 2 ^ 16 < 2 ^ 24 by omega)]

/-- A frame whose stored crc differs from the checksum of its body is never read as a
record. -/
theorem ReadLogRecord_framed_bad (c0 c1 c2 c3 t : Byte) (klen vlen : Nat) (kvb : Bytes)
    (hlen : kvb.length = klen + vlen) (hk : klen < 2 ^ 32) (hv : vlen < 2 ^ 32)
    (pre post : Bytes)
    (hbad : ChecksumIEEE (t :: (PutVarint klen ++ (PutVarint vlen ++ kvb))) ≠ uint32LE c0 c1 c2 c3) :
    ReadLogRecord
        (pre ++ (c0 :: c1 :: c2 :: c3 :: t :: (PutVarint klen ++ (PutVarint vlen ++ kvb))) ++ post)
        (pre.length : Int) = .error .InvalidCRC ∨
    (ReadLogRecord
        (pre ++ (c0 :: c1 :: c2 :: c3 :: t :: (PutVarint klen ++ (PutVarint vlen ++ kvb))) ++ post)
        (pre.length : Int) = .error .EOF ∧
      ∃ h hs, decodeLogRecordHeader
        (((pre ++ (c0 :: c1 :: c2 :: c3 :: t :: (PutVarint klen ++ (PutVarint vlen ++ kvb))) ++
          post).drop pre.length).take 15) = some (some (h, hs)) ∧
        h.crc = 0 ∧ h.keySize = 0 ∧ h.valueSize = 0) := by
  rw [ReadLogRecord_framed c0 c1 c2 c3 t klen vlen kvb hlen hk hv pre post]
  by_cases hz : uint32LE c0 c1 c2 c3 = 0 ∧ klen = 0 ∧ vlen = 0
  · right
    rw [if_pos hz]
    refine ⟨rfl, ⟨uint32LE c0 c1 c2 c3, t, klen, vlen⟩,
      ((5 + (PutVarint klen).length + (PutVarint vlen).length : Nat) : Int), ?_, hz.1, hz.2.1, hz.2.2⟩
    have hdrop0 : (pre ++ (c0 :: c1 :: c2 :: c3 :: t ::
        (PutVarint klen ++ (PutVarint vlen ++ kvb))) ++ post).drop pre.length =
        c0 :: c1 :: c2 :: c3 :: t :: (PutVarint klen ++ (PutVarint vlen ++ (kvb ++ post))) := by
      rw [List.append_assoc, List.drop_left]
      simp [List.append_assoc]
    rw [hdrop0]
    exact decodeLogRecordHeader_framed c0 c1 c2 c3 t klen vlen hk hv (kvb ++ post)
  · left
    rw [if_neg hz, if_pos hbad]

theorem ChecksumIEEE_set_ne_right (p l : Bytes) (j : Nat) (hj : j < l.length) (b : Byte)
    (hb : l[j]? ≠ some b) : ChecksumIEEE (p ++ l.set j b) ≠ ChecksumIEEE (p ++ l) := by
  have hne : b ≠ l[j] := by
    intro e
    apply hb
    rw [List.getElem?_eq_getElem hj, e]
  have hs : l.set j b = l.take j ++ b :: l.drop (j + 1) := by
    rw [List.set_eq_take_append_cons_drop]
    simp [hj]
  have hl : l = l.take j ++ l[j] :: l.drop (j + 1) := by simp
  rw [hs]
  conv_rhs => rw [hl]
  rw [← List.append_assoc, ← List.append_assoc]
  exact ChecksumIEEE_change_byte _ _ hne

/-! ## `Open` on an empty directory -/

theorem Open_empty (options : Options) :
    Open options [] = some (.error .InvalidOptions) ∨
    Open options [] = some (.ok
      { options := options, disk := [], fileIds := [], activeFile := none, olderFiles := [],
        index := [], seqNo := 0, reclaimSize := 0, isMerging := false }) := by
  simp only [Open, checkOptions]
  split
  · rename_i e he
    split at he
    · simp only [Option.some.injEq] at he
      left; rw [← he]
    · simp at he
  · right
    rfl

/-! ## The data directory -/

theorem Disk.contents_append (d : Disk) (fid f : Nat) (c : Bytes) :
    Disk.contents (d ++ [(f, c)]) fid =
      if (Disk.contents d fid).isSome then Disk.contents d fid
      else if f = fid then some c else none := by
  induction d with
  | nil => simp [Disk.contents]
  | cons e rest ih =>
    obtain ⟨f0, c0⟩ := e
    simp only [List.cons_append, Disk.contents]
    by_cases h : f0 = fid
    · simp [h]
    · simp [h, ih]

theorem Disk.contents_openFile_self (d : Disk) (fid : Nat) :
    ((d.openFile fid).contents fid).isSome = true := by
  simp only [Disk.openFile]
  by_cases h : (d.contents fid).isSome
  · simp [h]
  · simp [h, Disk.contents_append]

theorem Disk.bytes_openFile (d : Disk) (fid f : Nat) :
    (d.openFile fid).bytes f = d.bytes f := by
  simp only [Disk.openFile, Disk.bytes]
  by_cases h : (d.contents fid).isSome
  · simp [h]
  · simp only [h, Bool.false_eq_true, ↓reduceIte, Disk.contents_append]
    by_cases h2 : (d.contents f).isSome
    · simp [h2]
    · by_cases h3 : fid = f
      · subst h3
        simp only [Bool.not_eq_true, Option.not_isSome, Option.isNone_iff_eq_none] at h
        simp [h]
      · simp only [Bool.not_eq_true, Option.not_isSome, Option.isNone_iff_eq_none] at h2
        simp [h2, h3]

theorem Disk.contents_openFile_isSome (d : Disk) (fid f : Nat)
    (h : (d.contents f).isSome = true) : ((d.openFile fid).contents f).isSome = true := by
  simp only [Disk.openFile]
  by_cases h1 : (d.contents fid).isSome
  · simp [h1, h]
  · simp [h1, Disk.contents_append, h]

theorem Disk.contents_write (d : Disk) (fid f : Nat) (buf : Bytes) :
    (d.write fid buf).contents f =
      if f = fid then (d.contents f).map (fun c => c ++ buf) else d.contents f := by
  induction d with
  | nil => simp [Disk.write, Disk.contents]
  | cons e rest ih =>
    obtain ⟨f0, c0⟩ := e
    simp only [Disk.write]
    by_cases h : f0 = fid
    · subst h
      by_cases h2 : f0 = f
      · subst h2; simp [Disk.contents]
      · have h3 : ¬ f = f0 := fun e => h2 e.symm
        simp [Disk.contents, h2, h3]
    · simp only [h, ↓reduceIte, Disk.contents]
      by_cases h2 : f0 = f
      · subst h2
        simp [h]
      · simp [h2, ih]

theorem Disk.bytes_write_self (d : Disk) (fid : Nat) (buf : Bytes)
    (h : (d.contents fid).isSome = true) : (d.write fid buf).bytes fid = d.bytes fid ++ buf := by
  simp only [Disk.bytes, Disk.contents_write, ↓reduceIte]
  obtain ⟨c, hc⟩ := Option.isSome_iff_exists.mp h
  simp [hc]

theorem Disk.bytes_write_other (d : Disk) (fid f : Nat) (buf : Bytes) (h : f ≠ fid) :
    (d.write fid buf).bytes f = d.bytes f := by
  simp [Disk.bytes, Disk.contents_write, h]

theorem Disk.contents_write_isSome (d : Disk) (fid f : Nat) (buf : Bytes) :
    ((d.write fid buf).contents f).isSome = (d.contents f).isSome := by
  rw [Disk.contents_write]
  by_cases h : f = fid <;> simp [h]
/-! ## The append path -/

/-- What `appendLogRecord` does for a record that `EncodeLogRecord` accepts, when an
active file exists. -/
theorem appendLogRecord_active (db : DB) (r : LogRecord) (enc : Bytes) (size : Nat)
    (af : DataFile) (haf : db.activeFile = some af)
    (henc : EncodeLogRecord r = some (enc, size)) :
    db.appendLogRecord r =
      if af.WriteOff + (size : Int) > db.options.DataFileSize then
        ({ db with
            disk := (db.disk.openFile ((af.FileId + 1) % 2 ^ 32)).write ((af.FileId + 1) % 2 ^ 32) enc,
            olderFiles := olderSet db.olderFiles af.FileId af,
            activeFile := some { FileId := (af.FileId + 1) % 2 ^ 32, WriteOff := 0 + (enc.length : Int) } },
         .ok { Fid := (af.FileId + 1) % 2 ^ 32, Offset := 0, Size := size % 2 ^ 32 })
      else
        ({ db with
            disk := db.disk.write af.FileId enc,
            activeFile := some { FileId := af.FileId, WriteOff := af.WriteOff + (enc.length : Int) } },
         .ok { Fid := af.FileId, Offset := af.WriteOff, Size := size % 2 ^ 32 }) := by
  simp only [DB.appendLogRecord, haf, Option.isNone_some, Bool.false_eq_true, ↓reduceIte, henc]
  by_cases hrot : af.WriteOff + (size : Int) > db.options.DataFileSize
  · simp only [hrot, ↓reduceIte, DB.setActiveDataFile]
  · simp only [hrot, ↓reduceIte, haf]

/-- Without an active file `appendLogRecord` first opens segment 0. -/
theorem appendLogRecord_noactive (db : DB) (r : LogRecord) (haf : db.activeFile = none) :
    db.appendLogRecord r =
      DB.appendLogRecord
        { db with disk := db.disk.openFile 0, activeFile := some { FileId := 0, WriteOff := 0 } } r := by
  simp only [DB.appendLogRecord, haf, Option.isNone_none, ↓reduceIte, DB.setActiveDataFile,
    Option.isNone_some, Bool.false_eq_true]
theorem ReadLogRecord_encoded_end (r : LogRecord) (hk : r.Key.length < 2 ^ 32)
    (hv : r.Value.length < 2 ^ 32) (hkey : r.Key ≠ []) (enc : Bytes) (size : Nat)
    (henc : EncodeLogRecord r = some (enc, size)) (pre : Bytes) :
    ReadLogRecord (pre ++ enc) (pre.length : Int) = .ok (r, (size : Int)) := by
  have h := ReadLogRecord_encoded r hk hv
    (by rintro ⟨_, h0, _⟩; exact hkey (List.length_eq_zero.mp h0)) pre []
  rw [EncodeLogRecord_some r (by omega) (by omega)] at henc
  simp only [Option.some.injEq, Prod.mk.injEq] at henc
  obtain ⟨h1, h2⟩ := henc
  subst h1 h2
  simpa using h

/-- The value found at a position whose record is a given encoded record. -/
theorem getValueByPosition_active (db : DB) (fid : Nat) (w : Int)
    (haf : db.activeFile = some { FileId := fid, WriteOff := w })
    (r : LogRecord) (size : Int) (off : Int)
    (hread : ReadLogRecord (db.disk.bytes fid) off = .ok (r, size)) (sz : Nat) :
    db.getValueByPosition { Fid := fid, Offset := off, Size := sz } =
      if r.Typ = LogRecordDeleted then .error .KeyNotFound else .ok r.Value := by
  simp only [DB.getValueByPosition, haf, ↓reduceIte, hread]

/-- An append in a consistent state with an active file returns a position at which
the record is read back. -/
theorem appendLogRecord_read_active (db : DB) (af : DataFile) (haf : db.activeFile = some af)
    (hex : (db.disk.contents af.FileId).isSome = true)
    (hoff : af.WriteOff = ((db.disk.bytes af.FileId).length : Int))
    (hnext : db.disk.bytes ((af.FileId + 1) % 2 ^ 32) = [])
    (r : LogRecord) (hk : r.Key.length < 2 ^ 32) (hv : r.Value.length < 2 ^ 32)
    (hkey : r.Key ≠ []) :
    ∃ pos, (db.appendLogRecord r).2 = .ok pos ∧
      (db.appendLogRecord r).1.index = db.index ∧
      ∀ (idx : Index) (rs : Int),
        DB.getValueByPosition { (db.appendLogRecord r).1 with index := idx, reclaimSize := rs } pos =
          if r.Typ = LogRecordDeleted then .error .KeyNotFound else .ok r.Value := by
  have henc := EncodeLogRecord_some r (by omega) (by omega)
  rw [appendLogRecord_active db r _ _ af haf henc]
  by_cases hrot : af.WriteOff +
      ((5 + (PutVarint r.Key.length).length + (PutVarint r.Value.length).length +
          r.Key.length + r.Value.length : Nat) : Int) > db.options.DataFileSize
  · rw [if_pos hrot]
    refine ⟨_, rfl, rfl, ?_⟩
    intro idx rs
    exact getValueByPosition_active _ _ _ rfl r _ _ (by
      simp only
      rw [Disk.bytes_write_self _ _ _ (Disk.contents_openFile_self _ _), Disk.bytes_openFile, hnext]
      exact ReadLogRecord_encoded_end r hk hv hkey _ _ henc []) _
  · rw [if_neg hrot]
    refine ⟨_, rfl, rfl, ?_⟩
    intro idx rs
    exact getValueByPosition_active _ _ _ rfl r _ _ (by
      simp only
      rw [Disk.bytes_write_self _ _ _ hex, hoff]
      exact ReadLogRecord_encoded_end r hk hv hkey _ _ henc _) _

/-- An append in a consistent state returns a position at which the record is read
back. -/
theorem appendLogRecord_read (db : DB) (hc : db.Consistent)
    (r : LogRecord) (hk : r.Key.length < 2 ^ 32) (hv : r.Value.length < 2 ^ 32)
    (hkey : r.Key ≠ []) :
    ∃ pos, (db.appendLogRecord r).2 = .ok pos ∧
      (db.appendLogRecord r).1.index = db.index ∧
      ∀ (idx : Index) (rs : Int),
        DB.getValueByPosition { (db.appendLogRecord r).1 with index := idx, reclaimSize := rs } pos =
          if r.Typ = LogRecordDeleted then .error .KeyNotFound else .ok r.Value := by
  cases haf : db.activeFile with
  | some af =>
    simp only [DB.Consistent, haf] at hc
    exact appendLogRecord_read_active db af haf hc.1 hc.2.1 hc.2.2 r hk hv hkey
  | none =>
    simp only [DB.Consistent, haf] at hc
    rw [appendLogRecord_noactive db r haf]
    exact appendLogRecord_read_active _ { FileId := 0, WriteOff := 0 } rfl
      (Disk.contents_openFile_self _ _)
      (by simp only; rw [Disk.bytes_openFile, hc.1]; rfl)
      (by simp only; rw [Disk.bytes_openFile]; exact hc.2) r hk hv hkey

theorem Index.Get_insert_self (idx : Index) (k : Bytes) (p : LogRecordPos) :
    Index.Get (Index.insert idx k p) k = some p := by
  induction idx with
  | nil => simp [Index.insert, Index.Get]
  | cons e rest ih =>
    obtain ⟨k0, p0⟩ := e
    simp only [Index.insert]
    by_cases h1 : k = k0
    · simp [h1, Index.Get]
    · by_cases h2 : k < k0
      · simp [h1, h2, Index.Get]
      · have h3 : ¬ k0 = k := fun e => h1 e.symm
        simp [h1, h2, Index.Get, h3, ih]

theorem Index.Get_insert_other (idx : Index) (k k' : Bytes) (p : LogRecordPos) (h : k' ≠ k) :
    Index.Get (Index.insert idx k p) k' = Index.Get idx k' := by
  have h' : ¬ k = k' := fun e => h e.symm
  induction idx with
  | nil => simp [Index.insert, Index.Get, h']
  | cons e rest ih =>
    obtain ⟨k0, p0⟩ := e
    simp only [Index.insert]
    by_cases h1 : k = k0
    · subst h1
      simp [Index.Get, h']
    · by_cases h2 : k < k0
      · simp [h1, h2, Index.Get, h']
      · simp only [h1, h2, ↓reduceIte, Index.Get, ih]

theorem Index.erase_cons_eq (rest : Index) (k : Bytes) (p0 : LogRecordPos) :
    Index.erase ((k, p0) :: rest) k = Index.erase rest k := by
  simp only [Index.erase]
  exact List.filter_cons_of_neg (by simp)

theorem Index.erase_cons_ne (rest : Index) (k k0 : Bytes) (p0 : LogRecordPos) (h : k0 ≠ k) :
    Index.erase ((k0, p0) :: rest) k = (k0, p0) :: Index.erase rest k := by
  simp only [Index.erase]
  exact List.filter_cons_of_pos (by simpa using h)

theorem Index.Get_erase_self (idx : Index) (k : Bytes) :
    Index.Get (Index.erase idx k) k = none := by
  induction idx with
  | nil => simp [Index.erase, Index.Get]
  | cons e rest ih =>
    obtain ⟨k0, p0⟩ := e
    by_cases h : k0 = k
    · subst h
      rw [Index.erase_cons_eq]; exact ih
    · rw [Index.erase_cons_ne _ _ _ _ h]
      simp only [Index.Get, if_neg h, ih]

theorem Index.Get_erase_other (idx : Index) (k k' : Bytes) (h : k' ≠ k) :
    Index.Get (Index.erase idx k) k' = Index.Get idx k' := by
  induction idx with
  | nil => simp [Index.erase, Index.Get]
  | cons e rest ih =>
    obtain ⟨k0, p0⟩ := e
    by_cases h1 : k0 = k
    · subst h1
      have : ¬ k0 = k' := fun e => h e.symm
      rw [Index.erase_cons_eq]
      simp only [Index.Get, if_neg this, ih]
    · rw [Index.erase_cons_ne _ _ _ _ h1]
      simp only [Index.Get, ih]

theorem PutUvarint_zero : PutUvarint 0 = [0] := by decide

theorem logRecordKeyWithSeq_zero (key : Bytes) :
    logRecordKeyWithSeq key nonTransactionSeqNo = 0 :: key := by
  simp [logRecordKeyWithSeq, nonTransactionSeqNo, PutUvarint_zero]

/-- `Put` followed by `Get` in a consistent state. -/
theorem Put_then_Get (db : DB) (hc : db.Consistent) (k v : Bytes) (hk : k ≠ [])
    (hkl : k.length + 1 < 2 ^ 32) (hvl : v.length < 2 ^ 32) :
    (db.Put k v).2 = none ∧ (db.Put k v).1.Get k = .ok v := by
  have hk0 : ¬ k.length = 0 := fun e => hk (List.length_eq_zero.mp e)
  obtain ⟨pos, hres, _, hget⟩ := appendLogRecord_read db hc
    { Key := logRecordKeyWithSeq k nonTransactionSeqNo, Value := v, Typ := LogRecordNormal }
    (by rw [logRecordKeyWithSeq_zero]; simpa using hkl) hvl
    (by rw [logRecordKeyWithSeq_zero]; simp)
  simp only [DB.Put, if_neg hk0]
  have hpair : db.appendLogRecord
      { Key := logRecordKeyWithSeq k nonTransactionSeqNo, Value := v, Typ := LogRecordNormal } =
      ((db.appendLogRecord
        { Key := logRecordKeyWithSeq k nonTransactionSeqNo, Value := v, Typ := LogRecordNormal }).1,
        .ok pos) := by
    rw [← hres]
  rw [hpair]
  simp only [Index.Put]
  have hnd : ¬ (LogRecordNormal = LogRecordDeleted) := by decide
  cases hold : Index.Get (db.appendLogRecord
      { Key := logRecordKeyWithSeq k nonTransactionSeqNo, Value := v,
        Typ := LogRecordNormal }).1.index k with
  | none =>
    refine ⟨rfl, ?_⟩
    simp only [DB.Get, if_neg hk0, Index.Get_insert_self]
    have := hget (Index.insert (db.appendLogRecord
      { Key := logRecordKeyWithSeq k nonTransactionSeqNo, Value := v,
        Typ := LogRecordNormal }).1.index k pos) (db.appendLogRecord
      { Key := logRecordKeyWithSeq k nonTransactionSeqNo, Value := v,
        Typ := LogRecordNormal }).1.reclaimSize
    rw [if_neg hnd] at this
    exact this
  | some old =>
    refine ⟨rfl, ?_⟩
    simp only [DB.Get, if_neg hk0, Index.Get_insert_self]
    have := hget (Index.insert (db.appendLogRecord
      { Key := logRecordKeyWithSeq k nonTransactionSeqNo, Value := v,
        Typ := LogRecordNormal }).1.index k pos) ((db.appendLogRecord
      { Key := logRecordKeyWithSeq k nonTransactionSeqNo, Value := v,
        Typ := LogRecordNormal }).1.reclaimSize + old.Size)
    rw [if_neg hnd] at this
    exact this
/-! ## Sizes of what `ReadLogRecord` returns -/

theorem decodeLogRecordHeader_sizes_lt (buf : Bytes) (h : logRecordHeader) (hs : Int)
    (hdec : decodeLogRecordHeader buf = some (some (h, hs))) :
    h.keySize < 2 ^ 32 ∧ h.valueSize < 2 ^ 32 := by
  match buf, hdec with
  | b0 :: b1 :: b2 :: b3 :: t :: rest, hdec =>
    simp only [decodeLogRecordHeader] at hdec
    split at hdec
    · simp at hdec
    · simp only [Option.some.injEq, Prod.mk.injEq] at hdec
      obtain ⟨hh, _⟩ := hdec
      subst hh
      exact ⟨toUint32_nonneg_lt _, toUint32_nonneg_lt _⟩
  | [], hdec => simp [decodeLogRecordHeader] at hdec
  | [_], hdec => simp [decodeLogRecordHeader] at hdec
  | [_, _], hdec => simp [decodeLogRecordHeader] at hdec
  | [_, _, _], hdec => simp [decodeLogRecordHeader] at hdec
  | [_, _, _, _], hdec => simp [decodeLogRecordHeader] at hdec

theorem ReadNBytes_length (file : Bytes) (n off : Int) (b : Bytes)
    (h : ReadNBytes file n off = .ok b) : (b.length : Int) ≤ n := by
  simp only [ReadNBytes] at h
  split at h
  · simp at h
  · split at h
    · simp at h
    · split at h
      · simp only [Except.ok.injEq] at h
        subst h
        simp; omega
      · split at h
        · simp only [Except.ok.injEq] at h
          subst h
          have := List.length_take_le n.toNat (file.drop off.toNat)
          omega
        · simp at h

/-- A record returned by `ReadLogRecord` has a key and a value shorter than 2^32
bytes: their lengths are the `uint32` fields of the header. -/
theorem ReadLogRecord_lengths_lt (file : Bytes) (offset : Int) (rec : LogRecord) (sz : Int)
    (h : ReadLogRecord file offset = .ok (rec, sz)) :
    rec.Key.length < 2 ^ 32 ∧ rec.Value.length < 2 ^ 32 := by
  simp only [ReadLogRecord] at h
  split at h
  · simp at h
  · rename_i headerBuf _
    split at h
    · simp at h
    · simp at h
    · rename_i header headerSize hdec
      have hlt := decodeLogRecordHeader_sizes_lt _ _ _ hdec
      split at h
      · simp at h
      · split at h
        · simp at h
        · rename_i key value hkv
          split at h
          · simp at h
          · split at h
            · simp at h
            · simp only [Except.ok.injEq, Prod.mk.injEq] at h
              obtain ⟨hrec, _⟩ := h
              subst hrec
              simp only
              split at hkv
              · split at hkv
                · simp at hkv
                · rename_i kvBuf hread
                  simp only [Except.ok.injEq, Prod.mk.injEq] at hkv
                  obtain ⟨h1, h2⟩ := hkv
                  subst h1 h2
                  have hl := ReadNBytes_length _ _ _ _ hread
                  constructor
                  · have := List.length_take_le header.keySize kvBuf
                    omega
                  · simp only [List.length_drop]
                    omega
              · simp only [Except.ok.injEq, Prod.mk.injEq] at hkv
                obtain ⟨h1, h2⟩ := hkv
                subst h1 h2
                simp

/-- `Get` never returns a value of 2^32 bytes or more. -/
theorem Get_value_length_lt (db : DB) (k v : Bytes) (h : db.Get k = .ok v) :
    v.length < 2 ^ 32 := by
  simp only [DB.Get] at h
  split at h
  · simp at h
  · split at h
    · simp at h
    · simp only [DB.getValueByPosition] at h
      split at h
      · simp at h
      · split at h
        · simp at h
        · split at h
          · simp at h
          · rename_i logRecord _ hread
            split at h
            · simp at h
            · simp only [Except.ok.injEq] at h
              subst h
              exact (ReadLogRecord_lengths_lt _ _ _ _ hread).2

/-- `appendLogRecord` returns a position whenever `EncodeLogRecord` accepts the
record. -/
theorem appendLogRecord_ok (db : DB) (r : LogRecord) (enc : Bytes) (size : Nat)
    (henc : EncodeLogRecord r = some (enc, size)) :
    ∃ pos, (db.appendLogRecord r).2 = .ok pos := by
  cases haf : db.activeFile with
  | some af =>
    rw [appendLogRecord_active db r enc size af haf henc]
    split <;> exact ⟨_, rfl⟩
  | none =>
    rw [appendLogRecord_noactive db r haf,
      appendLogRecord_active _ r enc size { FileId := 0, WriteOff := 0 } rfl henc]
    split <;> exact ⟨_, rfl⟩

/-- `Put` returns no error for a non-empty key when the record can be encoded. -/
theorem Put_no_error (db : DB) (k v : Bytes) (hk : k ≠ [])
    (hkl : k.length + 1 < 2 ^ 34) (hvl : v.length < 2 ^ 34) : (db.Put k v).2 = none := by
  have hk0 : ¬ k.length = 0 := fun e => hk (List.length_eq_zero.mp e)
  have henc := EncodeLogRecord_some
    { Key := logRecordKeyWithSeq k nonTransactionSeqNo, Value := v, Typ := LogRecordNormal }
    (by rw [logRecordKeyWithSeq_zero]; simpa using hkl) hvl
  obtain ⟨pos, hpos⟩ := appendLogRecord_ok db _ _ _ henc
  simp only [DB.Put, if_neg hk0]
  have hpair : db.appendLogRecord
      { Key := logRecordKeyWithSeq k nonTransactionSeqNo, Value := v, Typ := LogRecordNormal } =
      ((db.appendLogRecord
        { Key := logRecordKeyWithSeq k nonTransactionSeqNo, Value := v, Typ := LogRecordNormal }).1,
        .ok pos) := by
    rw [← hpos]
  rw [hpair]
  simp only
  split <;> rfl
theorem xor_all_ones (y : Nat) (hy : y < 2 ^ 64) :
    (2 ^ 64 - (y + 1)) ^^^ (2 ^ 64 - 1) = y := by
  apply Nat.eq_of_testBit_eq
  intro i
  rw [Nat.testBit_xor, Nat.testBit_two_pow_sub_succ hy, Nat.testBit_two_pow_sub_one]
  by_cases hi : i < 64
  · simp [hi]
  · have : y.testBit i = false :=
      Nat.testBit_lt_two_pow (Nat.lt_of_lt_of_le hy (Nat.pow_le_pow_right (by decide) (by omega)))
    simp [hi, this]

theorem PutVarint_neg (m : Nat) (hm : m < 2 ^ 63) :
    PutVarint (-(m : Int) - 1) = PutUvarint (2 * m + 1) := by
  have h1 : ((-(m : Int) - 1) % 2 ^ 64).toNat = 2 ^ 64 - (m + 1) := by omega
  have h2 : (-(m : Int) - 1) < 0 := by omega
  simp only [PutVarint, h1, if_pos h2, Nat.shiftLeft_eq]
  have h3 : (2 ^ 64 - (m + 1)) * 2 ^ 1 % 2 ^ 64 = 2 ^ 64 - (2 * m + 1 + 1) := by omega
  rw [h3, xor_all_ones _ (by omega)]

theorem Varint_PutVarint_neg (m : Nat) (hm : m < 2 ^ 63) (rest : Bytes) :
    Varint (PutVarint (-(m : Int) - 1) ++ rest) =
      (-(m : Int) - 1, ((PutVarint (-(m : Int) - 1)).length : Int)) := by
  rw [PutVarint_neg m hm]
  simp only [Varint, Uvarint_PutUvarint (2 * m + 1) (by omega) rest]
  have h1 : (2 * m + 1) >>> 1 = m := by rw [Nat.shiftRight_eq_div_pow]; omega
  have h2 : (2 * m + 1) &&& 1 = 1 := by
    have := Nat.and_pow_two_sub_one_eq_mod (2 * m + 1) 1
    simp only [Nat.pow_one, Nat.add_one_sub_one] at this
    rw [this]; omega
  simp [h1, h2]

/-- Round trip of `binary.PutVarint` and `binary.Varint` on every `int64`. -/
theorem Varint_PutVarint (x : Int) (hlo : -(2 ^ 63) ≤ x) (hhi : x < 2 ^ 63) (rest : Bytes) :
    Varint (PutVarint x ++ rest) = (x, ((PutVarint x).length : Int)) := by
  by_cases h : 0 ≤ x
  · obtain ⟨n, rfl⟩ := Int.eq_ofNat_of_zero_le h
    exact Varint_PutVarint_nat n (by omega) rest
  · obtain ⟨m, hm⟩ : ∃ m : Nat, x = -(m : Int) - 1 := ⟨(-x - 1).toNat, by omega⟩
    subst hm
    exact Varint_PutVarint_neg m (by omega) rest

theorem PutVarint_length_le10 (x : Int) : (PutVarint x).length ≤ 10 := by
  simp only [PutVarint, PutUvarint]
  apply putUvarintLoop_length_le 9 _ 9
  have : ∀ y : Nat, y % 2 ^ 64 < 2 ^ (7 * (9 + 1)) := by
    intro y
    have := Nat.mod_lt y (show 0 < 2 ^ 64 by norm_num)
    have h2 : (2 : Nat) ^ 64 ≤ 2 ^ (7 * (9 + 1)) := Nat.pow_le_pow_right (by decide) (by decide)
    omega
  exact this _


/-- Round trip of the position codec, and the length of the encoding. -/
theorem LogRecordPos_roundtrip (p : LogRecordPos) (hf : p.Fid < 2 ^ 32)
    (hlo : -(2 ^ 63) ≤ p.Offset) (hhi : p.Offset < 2 ^ 63) (hs : p.Size < 2 ^ 32) :
    DecodeLogRecordPos (EncodeLogRecordPos p) = some p ∧
    EncodeLogRecordPos p = PutVarint p.Fid ++ PutVarint p.Offset ++ PutVarint p.Size ∧
    (EncodeLogRecordPos p).length ≤ 20 := by
  have hlf := PutVarint_nat_length_le5 p.Fid (by omega)
  have hls := PutVarint_nat_length_le5 p.Size (by omega)
  have hlo10 := PutVarint_length_le10 p.Offset
  refine ⟨?_, rfl, ?_⟩
  · simp only [DecodeLogRecordPos, EncodeLogRecordPos, List.append_assoc]
    rw [Varint_PutVarint_nat p.Fid (by omega)]
    simp only
    rw [if_neg (by omega)]
    have hd1 : (PutVarint (p.Fid : Int) ++ (PutVarint p.Offset ++ PutVarint (p.Size : Int))).drop
        ((PutVarint (p.Fid : Int)).length : Int).toNat =
        PutVarint p.Offset ++ PutVarint (p.Size : Int) := by
      rw [Int.toNat_ofNat, List.drop_left]
    rw [hd1, Varint_PutVarint p.Offset hlo hhi]
    simp only
    rw [if_neg (by omega)]
    have hd2 : (PutVarint (p.Fid : Int) ++ (PutVarint p.Offset ++ PutVarint (p.Size : Int))).drop
        (((PutVarint (p.Fid : Int)).length : Int) + ((PutVarint p.Offset).length : Int)).toNat =
        PutVarint (p.Size : Int) ++ [] := by
      have : (((PutVarint (p.Fid : Int)).length : Int) + ((PutVarint p.Offset).length : Int)).toNat =
          (PutVarint (p.Fid : Int) ++ PutVarint p.Offset).length := by
        simp only [List.length_append]; omega
      rw [this, ← List.append_assoc, List.drop_left, List.append_nil]
    rw [hd2, Varint_PutVarint_nat p.Size (by omega)]
    simp only [toUint32_ofNat _ hf, toUint32_ofNat _ hs]
  · simp only [EncodeLogRecordPos, List.length_append]
    omega

/-- Where the bytes of an appended record are, when the active file's `WriteOff` is
the length of its segment and the next segment is empty. -/
theorem appendLogRecord_bytes_active (db : DB) (af : DataFile) (haf : db.activeFile = some af)
    (hex : (db.disk.contents af.FileId).isSome = true)
    (hoff : af.WriteOff = ((db.disk.bytes af.FileId).length : Int))
    (hnext : db.disk.bytes ((af.FileId + 1) % 2 ^ 32) = [])
    (r : LogRecord) (enc : Bytes) (size : Nat) (henc : EncodeLogRecord r = some (enc, size))
    (db1 : DB) (pos : LogRecordPos) (h : db.appendLogRecord r = (db1, .ok pos)) :
    (db1.disk.bytes pos.Fid).drop pos.Offset.toNat = enc ∧ 0 ≤ pos.Offset := by
  rw [appendLogRecord_active db r enc size af haf henc] at h
  by_cases hrot : af.WriteOff + (size : Int) > db.options.DataFileSize
  · rw [if_pos hrot] at h
    simp only [Prod.mk.injEq, Except.ok.injEq] at h
    obtain ⟨h1, h2⟩ := h
    subst h1; subst h2
    simp only
    rw [Disk.bytes_write_self _ _ _ (Disk.contents_openFile_self _ _), Disk.bytes_openFile, hnext]
    simp
  · rw [if_neg hrot] at h
    simp only [Prod.mk.injEq, Except.ok.injEq] at h
    obtain ⟨h1, h2⟩ := h
    subst h1; subst h2
    simp only
    rw [Disk.bytes_write_self _ _ _ hex, hoff]
    simp

/-! ## The index as a finite map -/

theorem Index.mem_insert (idx : Index) (k : Bytes) (p : LogRecordPos) (e : Bytes × LogRecordPos)
    (h : e ∈ Index.insert idx k p) : e = (k, p) ∨ e ∈ idx := by
  induction idx with
  | nil =>
    simp only [Index.insert, List.mem_singleton] at h
    exact Or.inl h
  | cons a rest ih =>
    obtain ⟨k0, p0⟩ := a
    simp only [Index.insert] at h
    by_cases h1 : k = k0
    · rw [if_pos h1] at h
      rcases List.mem_cons.mp h with h | h
      · exact Or.inl h
      · exact Or.inr (List.mem_cons_of_mem _ h)
    · rw [if_neg h1] at h
      by_cases h2 : k < k0
      · rw [if_pos h2] at h
        rcases List.mem_cons.mp h with h | h
        · exact Or.inl h
        · exact Or.inr h
      · rw [if_neg h2] at h
        rcases List.mem_cons.mp h with h | h
        · exact Or.inr (h ▸ List.mem_cons_self _ _)
        · rcases ih h with h | h
          · exact Or.inl h
          · exact Or.inr (List.mem_cons_of_mem _ h)

theorem Index.WF_insert (idx : Index) (hwf : idx.WF) (k : Bytes) (p : LogRecordPos) :
    (Index.insert idx k p).WF := by
  induction idx with
  | nil => simp [Index.insert, Index.WF]
  | cons a rest ih =>
    obtain ⟨k0, p0⟩ := a
    unfold Index.WF at hwf ih ⊢
    rw [List.pairwise_cons] at hwf
    simp only [Index.insert]
    by_cases h1 : k = k0
    · rw [if_pos h1, List.pairwise_cons]
      subst h1
      exact ⟨hwf.1, hwf.2⟩
    · rw [if_neg h1]
      by_cases h2 : k < k0
      · rw [if_pos h2, List.pairwise_cons, List.pairwise_cons]
        refine ⟨?_, hwf.1, hwf.2⟩
        intro e he
        rcases List.mem_cons.mp he with he | he
        · subst he
          exact h2
        · exact lt_trans h2 (hwf.1 e he)
      · rw [if_neg h2, List.pairwise_cons]
        refine ⟨?_, ih hwf.2⟩
        intro e he
        rcases Index.mem_insert rest k p e he with he | he
        · subst he
          rcases lt_trichotomy k k0 with h | h | h
          · exact absurd h h2
          · exact absurd h h1
          · exact h
        · exact hwf.1 e he

theorem Index.WF_erase (idx : Index) (hwf : idx.WF) (k : Bytes) : (Index.erase idx k).WF := by
  unfold Index.WF Index.erase at *
  exact hwf.filter _

theorem Index.WF_nodup (idx : Index) (hwf : idx.WF) : (idx.map Prod.fst).Nodup := by
  unfold Index.WF at hwf
  unfold List.Nodup
  rw [List.pairwise_map]
  exact hwf.imp (fun h => ne_of_lt h)

theorem Index.Get_isSome_iff (idx : Index) (k : Bytes) :
    (Index.Get idx k).isSome = true ↔ k ∈ idx.map Prod.fst := by
  induction idx with
  | nil => simp [Index.Get]
  | cons a rest ih =>
    obtain ⟨k0, p0⟩ := a
    simp only [Index.Get, List.map_cons, List.mem_cons]
    by_cases h : k0 = k
    · simp [h]
    · rw [if_neg h, ih]
      constructor
      · exact Or.inr
      · rintro (h1 | h1)
        · exact absurd h1.symm h
        · exact h1

theorem Index.Get_mem (idx : Index) (hwf : idx.WF) (k : Bytes) (p : LogRecordPos) :
    Index.Get idx k = some p ↔ (k, p) ∈ idx := by
  induction idx with
  | nil => simp [Index.Get]
  | cons a rest ih =>
    obtain ⟨k0, p0⟩ := a
    unfold Index.WF at hwf ih
    rw [List.pairwise_cons] at hwf
    simp only [Index.Get, List.mem_cons, Prod.mk.injEq]
    by_cases h : k0 = k
    · rw [if_pos h]
      subst h
      constructor
      · intro hp
        simp only [Option.some.injEq] at hp
        exact Or.inl ⟨rfl, hp.symm⟩
      · rintro (h1 | h1)
        · rw [h1.2]
        · exact absurd (hwf.1 _ h1) (lt_irrefl _)
    · rw [if_neg h, ih hwf.2]
      constructor
      · exact Or.inr
      · rintro (h1 | h1)
        · exact absurd h1.1.symm h
        · exact h1

theorem Index.filter_key (idx : Index) (hwf : idx.WF) (k : Bytes) (p : LogRecordPos)
    (h : Index.Get idx k = some p) : idx.filter (fun e => e.1 = k) = [(k, p)] := by
  induction idx with
  | nil => simp [Index.Get] at h
  | cons a rest ih =>
    obtain ⟨k0, p0⟩ := a
    unfold Index.WF at hwf ih
    rw [List.pairwise_cons] at hwf
    simp only [Index.Get] at h
    by_cases h0 : k0 = k
    · rw [if_pos h0] at h
      simp only [Option.some.injEq] at h
      subst h0; subst h
      rw [List.filter_cons_of_pos (by simp)]
      congr 1
      rw [List.filter_eq_nil_iff]
      intro e he
      simp only [decide_eq_true_eq]
      exact fun hk => absurd (hk ▸ hwf.1 e he) (lt_irrefl _)
    · rw [if_neg h0] at h
      rw [List.filter_cons_of_neg (by simpa using h0)]
      exact ih hwf.2 h

/-! ## The snapshot of the radix-tree iterator -/

theorem saveValues_forward (es : List (Bytes × LogRecordPos)) :
    ∀ (pre xs suf : List (Option Item)), xs.length = es.length →
      es.foldl (saveValues false) (some (pre ++ xs ++ suf, (pre.length : Int))) =
        some (pre ++ es.map itemOf ++ suf, (pre.length : Int) + (es.length : Int)) := by
  induction es with
  | nil =>
    intro pre xs suf h
    have : xs = [] := List.length_eq_zero.mp h
    subst this
    simp
  | cons e rest ih =>
    intro pre xs suf h
    match xs, h with
    | x :: xs1, h =>
      simp only [List.length_cons, Nat.add_right_cancel_iff] at h
      simp only [List.foldl_cons, saveValues]
      have hlt : ¬ ((pre.length : Int) < 0 ∨
          (((pre ++ x :: xs1 ++ suf).length : Nat) : Int) ≤ (pre.length : Int)) := by
        simp only [List.length_append, List.length_cons]
        omega
      rw [if_neg hlt]
      have hset : (pre ++ x :: xs1 ++ suf).set (pre.length : Int).toNat (itemOf e) =
          (pre ++ [itemOf e]) ++ xs1 ++ suf := by
        rw [Int.toNat_ofNat, List.append_assoc, List.set_append_right _ _ (Nat.le_refl _)]
        simp
      have hidx : (pre.length : Int) + 1 = ((pre ++ [itemOf e]).length : Int) := by
        simp
      change List.foldl (saveValues false)
        (some ((pre ++ x :: xs1 ++ suf).set (pre.length : Int).toNat (itemOf e),
          if false = true then (pre.length : Int) - 1 else (pre.length : Int) + 1)) rest = _
      rw [hset, if_neg (by decide), hidx, ih _ _ _ h]
      have e1 : pre ++ [itemOf e] ++ rest.map itemOf ++ suf =
          pre ++ (e :: rest).map itemOf ++ suf := by simp
      have e2 : ((pre ++ [itemOf e]).length : Int) + (rest.length : Int) =
          (pre.length : Int) + ((e :: rest).length : Int) := by
        simp only [List.length_append, List.length_singleton, List.length_cons, List.length_nil]
        push_cast
        omega
      rw [e1, e2]

theorem saveValues_reverse (es : List (Bytes × LogRecordPos)) :
    ∀ (pre xs suf : List (Option Item)), xs.length = es.length →
      es.foldl (saveValues true)
          (some (pre ++ xs ++ suf, ((pre.length + xs.length : Nat) : Int) - 1)) =
        some (pre ++ es.reverse.map itemOf ++ suf, (pre.length : Int) - 1) := by
  induction es with
  | nil =>
    intro pre xs suf h
    have : xs = [] := List.length_eq_zero.mp h
    subst this
    simp
  | cons e rest ih =>
    intro pre xs suf h
    rcases List.eq_nil_or_concat xs with hx | ⟨xs1, x, hx⟩
    · subst hx
      simp at h
    · rw [List.concat_eq_append] at hx
      subst hx
      have h2 : xs1.length = rest.length := by simpa using h
      simp only [List.foldl_cons, saveValues]
      have hi : ((pre.length + (xs1 ++ [x]).length : Nat) : Int) - 1 =
          ((pre.length + xs1.length : Nat) : Int) := by
        simp only [List.length_append, List.length_singleton]
        omega
      rw [hi]
      have hlt : ¬ (((pre.length + xs1.length : Nat) : Int) < 0 ∨
          (((pre ++ (xs1 ++ [x]) ++ suf).length : Nat) : Int) ≤
            ((pre.length + xs1.length : Nat) : Int)) := by
        simp only [List.length_append, List.length_singleton]
        omega
      rw [if_neg hlt]
      have hset : (pre ++ (xs1 ++ [x]) ++ suf).set ((pre.length + xs1.length : Nat) : Int).toNat
          (itemOf e) = pre ++ xs1 ++ (itemOf e :: suf) := by
        rw [Int.toNat_ofNat]
        have : pre ++ (xs1 ++ [x]) ++ suf = (pre ++ xs1) ++ (x :: suf) := by simp
        rw [this, List.set_append_right _ _ (by simp)]
        simp
      change List.foldl (saveValues true)
        (some ((pre ++ (xs1 ++ [x]) ++ suf).set ((pre.length + xs1.length : Nat) : Int).toNat
          (itemOf e),
          if true = true then ((pre.length + xs1.length : Nat) : Int) - 1
          else ((pre.length + xs1.length : Nat) : Int) + 1)) rest = _
      rw [hset, if_pos rfl, ih _ _ _ h2]
      simp

theorem NewARTIterator_forward (tree : Index) :
    NewARTIterator tree false =
      some { currIndex := 0, reverse := false, values := tree.map itemOf } := by
  have h := saveValues_forward tree [] (List.replicate tree.Size none) []
    (by simp [Index.Size])
  simp only [List.nil_append, List.append_nil, List.length_nil] at h
  simp only [NewARTIterator, Bool.false_eq_true, ↓reduceIte]
  rw [show ((0 : Int)) = ((0 : Nat) : Int) from rfl, h]

theorem NewARTIterator_reverse (tree : Index) :
    NewARTIterator tree true =
      some { currIndex := 0, reverse := true, values := tree.reverse.map itemOf } := by
  have h := saveValues_reverse tree [] (List.replicate tree.Size none) []
    (by simp [Index.Size])
  simp only [List.nil_append, List.append_nil, List.length_nil, Nat.zero_add,
    List.length_replicate] at h
  simp only [NewARTIterator, ↓reduceIte]
  rw [h]

theorem getElem?_append_length {α : Type} (pre : List α) (a : α) (l : List α) :
    (pre ++ a :: l)[pre.length]? = some a := by
  rw [List.getElem?_append_right (Nat.le_refl _), Nat.sub_self]
  simp

theorem listKeysLoop_items (items : List (Bytes × LogRecordPos)) :
    ∀ (fuel : Nat) (pre : List (Option Item)) (rev : Bool) (kpre xs : List Bytes),
      items.length < fuel → xs.length = items.length →
      listKeysLoop fuel { currIndex := pre.length, reverse := rev, values := pre ++ items.map itemOf }
          (kpre ++ xs) kpre.length =
        some (some (kpre ++ items.map Prod.fst)) := by
  induction items with
  | nil =>
    intro fuel pre rev kpre xs hf hx
    have : xs = [] := List.length_eq_zero.mp hx
    subst this
    match fuel, hf with
    | f + 1, _ =>
      simp [listKeysLoop, artIterator.Valid]
  | cons e rest ih =>
    intro fuel pre rev kpre xs hf hx
    match fuel, hf, xs, hx with
    | f + 1, hf, x :: xs1, hx =>
      simp only [List.length_cons, Nat.add_lt_add_iff_right, Nat.add_right_cancel_iff] at hf hx
      have hv : artIterator.Valid ⟨pre.length, rev, pre ++ (e :: rest).map itemOf⟩ = true := by
        simp [artIterator.Valid]
      have hk : artIterator.Key ⟨pre.length, rev, pre ++ (e :: rest).map itemOf⟩ = some e.1 := by
        simp only [artIterator.Key, List.map_cons]
        rw [getElem?_append_length]
        rfl
      simp only [listKeysLoop, hv, ↓reduceIte, hk]
      rw [if_pos (by simp)]
      have hset : (kpre ++ x :: xs1).set kpre.length e.1 = (kpre ++ [e.1]) ++ xs1 := by
        rw [List.set_append_right _ _ (Nat.le_refl _)]
        simp
      have hit : artIterator.Next ⟨pre.length, rev, pre ++ (e :: rest).map itemOf⟩ =
          ⟨(pre ++ [itemOf e]).length, rev, (pre ++ [itemOf e]) ++ rest.map itemOf⟩ := by
        simp [artIterator.Next]
      have hidx : kpre.length + 1 = (kpre ++ [e.1]).length := by simp
      rw [hset, hit, hidx, ih f _ rev _ xs1 hf hx]
      simp

theorem iteratorKeys_items (items : List (Bytes × LogRecordPos)) (rev : Bool) :
    iteratorKeys items.length
        (some { currIndex := 0, reverse := rev, values := items.map itemOf }) =
      some (some (items.map Prod.fst)) := by
  have h := listKeysLoop_items items (items.length + 1) [] rev [] (List.replicate items.length [])
    (Nat.lt_succ_self _) (by simp)
  simp only [List.nil_append, List.length_nil] at h
  simp only [iteratorKeys, artIterator.Rewind, List.length_map]
  exact h
/-! ## Segment names and the segments `loadDataFiles` opens -/

theorem HasSuffix_append (s suffix : List Char) : HasSuffix (s ++ suffix) suffix = true := by
  simp [HasSuffix]

theorem SplitDot_ne_nil (s : List Char) : SplitDot s ≠ [] := by
  induction s with
  | nil => simp [SplitDot]
  | cons c rest ih =>
    simp only [SplitDot]
    split
    · simp
    · split <;> simp

theorem SplitDot_head (ds rest : List Char) (h : ∀ c ∈ ds, c ≠ '.') :
    (SplitDot (ds ++ '.' :: rest)).headD [] = ds := by
  induction ds with
  | nil => simp [SplitDot]
  | cons c cs ih =>
    have hc : c ≠ '.' := h c (List.mem_cons_self _ _)
    have ih1 := ih (fun x hx => h x (List.mem_cons_of_mem _ hx))
    simp only [List.cons_append, SplitDot, if_neg hc]
    cases hs : SplitDot (cs ++ '.' :: rest) with
    | nil => exact absurd hs (SplitDot_ne_nil _)
    | cons piece pieces =>
      rw [hs] at ih1
      simp only [List.headD_cons] at ih1
      simp only [List.headD_cons, ih1]

theorem atoiDigits_digits (ds : List Char) (h : ∀ c ∈ ds, 48 ≤ c.toNat ∧ c.toNat ≤ 57) (n : Nat) :
    atoiDigits ds n = some (ds.foldl (fun m c => m * 10 + (c.toNat - 48)) n) := by
  induction ds generalizing n with
  | nil => rfl
  | cons c cs ih =>
    simp only [atoiDigits, if_pos (h c (List.mem_cons_self _ _)), List.foldl_cons]
    exact ih (fun x hx => h x (List.mem_cons_of_mem _ hx)) _

theorem Atoi_digits (ds : List Char) (hne : ds ≠ [])
    (h : ∀ c ∈ ds, 48 ≤ c.toNat ∧ c.toNat ≤ 57)
    (hv : decimalValue ds < 2 ^ 63) : Atoi ds = some (decimalValue ds : Int) := by
  match ds, hne with
  | c :: cs, _ =>
    have hc := h c (List.mem_cons_self _ _)
    have h1 : c ≠ '-' := by
      intro e
      rw [e] at hc
      exact absurd hc.1 (by decide)
    have h2 : c ≠ '+' := by
      intro e
      rw [e] at hc
      exact absurd hc.1 (by decide)
    simp only [Atoi, if_neg h1, if_neg h2]
    rw [if_neg (by simp), atoiDigits_digits _ h]
    unfold decimalValue at hv ⊢
    simp only
    rw [if_pos hv]

theorem loadFileIds_ok (names : List (List Char)) :
    ∀ acc : List Int,
      (∀ n ∈ names, HasSuffix n DataFileNameSuffix = true →
        Atoi ((SplitDot n).headD []) ≠ none) →
      loadFileIds names acc =
        .ok (acc ++ (names.filter (fun n => HasSuffix n DataFileNameSuffix)).filterMap
          (fun n => Atoi ((SplitDot n).headD []))) := by
  induction names with
  | nil =>
    intro acc _
    simp [loadFileIds]
  | cons n rest ih =>
    intro acc h
    have hrest := fun m hm => h m (List.mem_cons_of_mem _ hm)
    simp only [loadFileIds]
    by_cases hs : HasSuffix n DataFileNameSuffix = true
    · rw [if_pos hs, List.filter_cons, if_pos hs]
      cases ha : Atoi ((SplitDot n).headD []) with
      | none => exact absurd ha (h n (List.mem_cons_self _ _) hs)
      | some v =>
        simp only
        rw [ih _ hrest, List.filterMap_cons]
        simp only [ha, List.append_assoc, List.singleton_append]
    · rw [if_neg hs, List.filter_cons, if_neg hs]
      exact ih _ hrest

theorem loadFileIds_error (names : List (List Char)) :
    ∀ acc : List Int,
      (∃ n ∈ names, HasSuffix n DataFileNameSuffix = true ∧
        Atoi ((SplitDot n).headD []) = none) →
      loadFileIds names acc = .error .DataDirectoryCorrupted := by
  induction names with
  | nil =>
    intro acc h
    obtain ⟨n, hn, _⟩ := h
    simp at hn
  | cons n rest ih =>
    intro acc h
    simp only [loadFileIds]
    by_cases hs : HasSuffix n DataFileNameSuffix = true
    · rw [if_pos hs]
      cases ha : Atoi ((SplitDot n).headD []) with
      | none => rfl
      | some v =>
        simp only
        apply ih
        obtain ⟨m, hm, hm1, hm2⟩ := h
        rcases List.mem_cons.mp hm with e | e
        · subst e
          rw [ha] at hm2
          simp at hm2
        · exact ⟨m, e, hm1, hm2⟩
    · rw [if_neg hs]
      apply ih
      obtain ⟨m, hm, hm1, hm2⟩ := h
      rcases List.mem_cons.mp hm with e | e
      · subst e
        exact absurd hm1 hs
      · exact ⟨m, e, hm1, hm2⟩

theorem olderGet_olderSet (o : List (Nat × DataFile)) (fid f : Nat) (df : DataFile) :
    olderGet (olderSet o fid df) f = if f = fid then some df else olderGet o f := by
  induction o with
  | nil =>
    simp only [olderSet, olderGet]
    by_cases h : fid = f
    · simp [h]
    · rw [if_neg h, if_neg (fun e => h e.symm)]
  | cons a rest ih =>
    obtain ⟨f0, d0⟩ := a
    simp only [olderSet]
    by_cases h0 : f0 = fid
    · rw [if_pos h0]
      simp only [olderGet]
      by_cases h : fid = f
      · simp [h]
      · rw [if_neg h, if_neg (fun e => h e.symm), if_neg (by rw [h0]; exact h)]
    · rw [if_neg h0]
      simp only [olderGet]
      by_cases h1 : f0 = f
      · rw [if_pos h1, if_pos h1, if_neg (by rw [← h1]; exact h0)]
      · rw [if_neg h1, if_neg h1, ih]

theorem loadDataFilesLoop_single (fid : Int) (db : DB) :
    loadDataFilesLoop [fid] db =
      { db with disk := db.disk.openFile (toUint32 fid),
                activeFile := some { FileId := toUint32 fid, WriteOff := 0 } } := rfl

theorem loadDataFilesLoop_cons2 (fid a : Int) (rest : List Int) (db : DB) :
    loadDataFilesLoop (fid :: a :: rest) db =
      loadDataFilesLoop (a :: rest)
        { db with disk := db.disk.openFile (toUint32 fid),
                  olderFiles := olderSet db.olderFiles (toUint32 fid)
                    { FileId := toUint32 fid, WriteOff := 0 } } := rfl

/-- What the second loop of `loadDataFiles` leaves behind for ids below 2^32. -/
theorem loadDataFilesLoop_spec (ids : List Nat) (hne : ids ≠ []) (hlt : ∀ i ∈ ids, i < 2 ^ 32) :
    ∀ db : DB,
      (loadDataFilesLoop (ids.map (fun (i : Nat) => (i : Int))) db).activeFile =
        some { FileId := ids.getLast hne, WriteOff := 0 } ∧
      (∀ f, olderGet (loadDataFilesLoop (ids.map (fun (i : Nat) => (i : Int))) db).olderFiles f =
        if f ∈ ids.dropLast then some { FileId := f, WriteOff := 0 }
        else olderGet db.olderFiles f) ∧
      (∀ f, (loadDataFilesLoop (ids.map (fun (i : Nat) => (i : Int))) db).disk.bytes f =
        db.disk.bytes f) ∧
      (∀ f, f ∈ ids →
        ((loadDataFilesLoop (ids.map (fun (i : Nat) => (i : Int))) db).disk.contents f).isSome =
          true) ∧
      (∀ f, (db.disk.contents f).isSome = true →
        ((loadDataFilesLoop (ids.map (fun (i : Nat) => (i : Int))) db).disk.contents f).isSome =
          true) ∧
      (loadDataFilesLoop (ids.map (fun (i : Nat) => (i : Int))) db).fileIds = db.fileIds ∧
      (loadDataFilesLoop (ids.map (fun (i : Nat) => (i : Int))) db).index = db.index ∧
      (loadDataFilesLoop (ids.map (fun (i : Nat) => (i : Int))) db).options = db.options := by
  induction ids with
  | nil => exact absurd rfl hne
  | cons fid rest ih =>
    intro db
    have hfid : toUint32 (fid : Int) = fid := toUint32_ofNat _ (hlt fid (List.mem_cons_self _ _))
    cases rest with
    | nil =>
      simp only [List.map_cons, List.map_nil]
      rw [loadDataFilesLoop_single, hfid]
      refine ⟨rfl, ?_, ?_, ?_, ?_, rfl, rfl, rfl⟩
      · intro f
        simp
      · intro f
        exact Disk.bytes_openFile _ _ _
      · intro f hf
        simp only [List.mem_singleton] at hf
        subst hf
        exact Disk.contents_openFile_self _ _
      · intro f hf
        exact Disk.contents_openFile_isSome _ _ _ hf
    | cons a rest1 =>
      obtain ⟨h1, h2, h3, h4, h5, h6, h7, h8⟩ :=
        ih (by simp) (fun i hi => hlt i (List.mem_cons_of_mem _ hi))
          { db with disk := db.disk.openFile fid,
                    olderFiles := olderSet db.olderFiles fid { FileId := fid, WriteOff := 0 } }
      simp only [List.map_cons] at h1 h2 h3 h4 h5 h6 h7 h8 ⊢
      rw [loadDataFilesLoop_cons2, hfid]
      refine ⟨?_, ?_, ?_, ?_, ?_, h6, h7, h8⟩
      · rw [h1]
        simp
      · intro f
        rw [h2 f]
        simp only [olderGet_olderSet, List.dropLast_cons₂, List.mem_cons]
        by_cases hf1 : f ∈ (a :: rest1).dropLast
        · simp [hf1]
        · by_cases hf2 : f = fid
          · simp [hf2]
          · simp [hf1, hf2]
      · intro f
        rw [h3 f]
        exact Disk.bytes_openFile _ _ _
      · intro f hf
        rcases List.mem_cons.mp hf with e | e
        · subst e
          exact h5 _ (Disk.contents_openFile_self _ _)
        · exact h4 f e
      · intro f hf
        exact h5 f (Disk.contents_openFile_isSome _ _ _ hf)

/-- Sorting ids as `int` is sorting them as natural numbers. -/
theorem insertionSort_natCast (l : List Nat) :
    (l.map (fun (i : Nat) => (i : Int))).insertionSort (fun a b => a ≤ b) =
      (l.insertionSort (fun a b => a ≤ b)).map (fun (i : Nat) => (i : Int)) := by
  have hins : ∀ (a : Nat) (m : List Nat),
      List.orderedInsert (fun x y : Int => x ≤ y) (a : Int) (m.map (fun (i : Nat) => (i : Int))) =
        (List.orderedInsert (fun x y : Nat => x ≤ y) a m).map (fun (i : Nat) => (i : Int)) := by
    intro a m
    induction m with
    | nil => rfl
    | cons b rest ih =>
      simp only [List.map_cons, List.orderedInsert]
      by_cases hab : a ≤ b
      · rw [if_pos hab, if_pos (Int.ofNat_le.mpr hab)]
        rfl
      · rw [if_neg hab, if_neg (fun h => hab (Int.ofNat_le.mp h)), ih]
        rfl
  induction l with
  | nil => rfl
  | cons a rest ih =>
    simp only [List.map_cons, List.insertionSort]
    rw [ih, hins]

theorem sorted_le_getLast (l : List Nat) (h : l.Pairwise (fun a b => a ≤ b)) (hne : l ≠ []) :
    ∀ x ∈ l, x ≤ l.getLast hne := by
  induction l with
  | nil => exact absurd rfl hne
  | cons a rest ih =>
    intro x hx
    rw [List.pairwise_cons] at h
    cases rest with
    | nil =>
      simp only [List.mem_singleton] at hx
      simp [hx]
    | cons b rest1 =>
      rw [List.getLast_cons (by simp)]
      rcases List.mem_cons.mp hx with e | e
      · subst e
        exact h.1 _ (List.getLast_mem _)
      · exact ih h.2 (by simp) x e

/-! ## Ordering of the segment ids -/

theorem mem_olderSet (o : List (Nat × DataFile)) (fid : Nat) (df : DataFile)
    (e : Nat × DataFile) (h : e ∈ olderSet o fid df) : e = (fid, df) ∨ e ∈ o := by
  induction o with
  | nil =>
    simp only [olderSet, List.mem_singleton] at h
    exact Or.inl h
  | cons a rest ih =>
    obtain ⟨f0, d0⟩ := a
    simp only [olderSet] at h
    by_cases h0 : f0 = fid
    · rw [if_pos h0] at h
      rcases List.mem_cons.mp h with h | h
      · exact Or.inl h
      · exact Or.inr (List.mem_cons_of_mem _ h)
    · rw [if_neg h0] at h
      rcases List.mem_cons.mp h with h | h
      · exact Or.inr (h ▸ List.mem_cons_self _ _)
      · rcases ih h with h | h
        · exact Or.inl h
        · exact Or.inr (List.mem_cons_of_mem _ h)

/-- Rotation keeps the ids ordered while the next id does not wrap. -/
theorem FilesOrdered_rotate (db : DB) (af : DataFile) (haf : db.activeFile = some af)
    (hinv : db.FilesOrdered) (hroom : af.FileId + 1 < 2 ^ 32) (older : List (Nat × DataFile))
    (holder : older = olderSet db.olderFiles af.FileId af)
    (db1 : DB) (w : Int) (h1 : db1.olderFiles = older)
    (h2 : db1.activeFile = some { FileId := (af.FileId + 1) % 2 ^ 32, WriteOff := w }) :
    db1.FilesOrdered := by
  intro e he
  rw [h1, holder] at he
  rw [Nat.mod_eq_of_lt hroom] at h2
  rcases mem_olderSet _ _ _ _ he with h | h
  · subst h
    exact ⟨rfl, _, h2, Nat.lt_succ_self _⟩
  · obtain ⟨h3, af0, h4, h5⟩ := hinv e h
    rw [haf] at h4
    simp only [Option.some.injEq] at h4
    subst h4
    exact ⟨h3, _, h2, Nat.lt_succ_of_lt h5⟩

/-- A state that differs from an ordered one only in the offset of the active file (and
in fields other than the files) is ordered. -/
theorem FilesOrdered_same (db db1 : DB) (hinv : db.FilesOrdered)
    (h1 : db1.olderFiles = db.olderFiles)
    (h2 : ∀ af, db.activeFile = some af → ∃ w, db1.activeFile = some { FileId := af.FileId, WriteOff := w }) :
    db1.FilesOrdered := by
  intro e he
  rw [h1] at he
  obtain ⟨h3, af0, h4, h5⟩ := hinv e he
  obtain ⟨w, hw⟩ := h2 af0 h4
  exact ⟨h3, _, hw, h5⟩

theorem FilesOrdered_no_active (db : DB) (hinv : db.FilesOrdered) (h : db.activeFile = none) :
    db.olderFiles = [] := by
  cases ho : db.olderFiles with
  | nil => rfl
  | cons e rest =>
    obtain ⟨_, af, haf, _⟩ := hinv e (by rw [ho]; exact List.mem_cons_self _ _)
    rw [h] at haf
    simp at haf

/-- One append keeps the ids ordered and moves the active id up by at most one. -/
theorem appendLogRecord_files (db : DB) (r : LogRecord) (hinv : db.FilesOrdered)
    (hroom : db.activeId + 1 < 2 ^ 32) :
    (db.appendLogRecord r).1.FilesOrdered ∧
    db.activeId ≤ (db.appendLogRecord r).1.activeId ∧
    (db.appendLogRecord r).1.activeId ≤ db.activeId + 1 := by
  cases henc : EncodeLogRecord r with
  | none =>
    cases haf : db.activeFile with
    | some af =>
      have : (db.appendLogRecord r).1 = db := by
        simp only [DB.appendLogRecord, haf, henc, Option.isNone_some, Bool.false_eq_true,
          ↓reduceIte]
      rw [this]
      exact ⟨hinv, Nat.le_refl _, Nat.le_succ _⟩
    | none =>
      have : (db.appendLogRecord r).1 = db.setActiveDataFile := by
        simp only [DB.appendLogRecord, haf, henc, Option.isNone_none, ↓reduceIte]
      rw [this]
      have ho := FilesOrdered_no_active db hinv haf
      refine ⟨?_, ?_, ?_⟩
      · intro e he
        simp only [DB.setActiveDataFile, ho, List.not_mem_nil] at he
      · simp [DB.activeId, haf]
      · simp [DB.activeId, DB.setActiveDataFile, haf]
  | some p =>
    obtain ⟨enc, size⟩ := p
    cases haf : db.activeFile with
    | some af =>
      have hid : db.activeId = af.FileId := by simp [DB.activeId, haf]
      rw [hid] at hroom
      rw [appendLogRecord_active db r enc size af haf henc, hid]
      by_cases hrot : af.WriteOff + (size : Int) > db.options.DataFileSize
      · rw [if_pos hrot]
        refine ⟨FilesOrdered_rotate db af haf hinv hroom _ rfl _ _ rfl rfl, ?_, ?_⟩
        · simp only [DB.activeId, Nat.mod_eq_of_lt hroom]
          exact Nat.le_succ _
        · simp only [DB.activeId, Nat.mod_eq_of_lt hroom]
          exact Nat.le_refl _
      · rw [if_neg hrot]
        refine ⟨FilesOrdered_same db _ hinv rfl ?_, ?_, ?_⟩
        · intro af0 h0
          rw [haf] at h0
          simp only [Option.some.injEq] at h0
          subst h0
          exact ⟨_, rfl⟩
        · simp [DB.activeId]
        · simp [DB.activeId]
    | none =>
      have hid : db.activeId = 0 := by simp [DB.activeId, haf]
      have ho := FilesOrdered_no_active db hinv haf
      rw [appendLogRecord_noactive db r haf,
        appendLogRecord_active _ r enc size ⟨0, 0⟩ rfl henc, hid]
      by_cases hrot : (0 : Int) + (size : Int) > db.options.DataFileSize
      · rw [if_pos hrot]
        refine ⟨?_, by simp [DB.activeId], by simp [DB.activeId]⟩
        intro e he
        simp only [ho, olderSet, List.mem_singleton] at he
        subst he
        exact ⟨rfl, _, rfl, by simp⟩
      · rw [if_neg hrot]
        refine ⟨?_, by simp [DB.activeId], by simp [DB.activeId]⟩
        intro e he
        simp only [ho, List.not_mem_nil] at he

theorem FilesOrdered_congr (a b : DB) (h1 : a.olderFiles = b.olderFiles)
    (h2 : a.activeFile = b.activeFile) (h : b.FilesOrdered) : a.FilesOrdered := by
  intro e he
  rw [h1] at he
  rw [h2]
  exact h e he

theorem activeId_congr (a b : DB) (h2 : a.activeFile = b.activeFile) :
    a.activeId = b.activeId := by
  simp only [DB.activeId, h2]

theorem Put_files (db : DB) (key value : Bytes) :
    ((db.Put key value).1.olderFiles = db.olderFiles ∧
      (db.Put key value).1.activeFile = db.activeFile) ∨
    ((db.Put key value).1.olderFiles =
        (db.appendLogRecord
          ⟨logRecordKeyWithSeq key nonTransactionSeqNo, value, LogRecordNormal⟩).1.olderFiles ∧
      (db.Put key value).1.activeFile =
        (db.appendLogRecord
          ⟨logRecordKeyWithSeq key nonTransactionSeqNo, value, LogRecordNormal⟩).1.activeFile) := by
  unfold DB.Put
  by_cases hk : key.length = 0
  · rw [if_pos hk]
    exact Or.inl ⟨rfl, rfl⟩
  · rw [if_neg hk]
    right
    generalize db.appendLogRecord ⟨logRecordKeyWithSeq key nonTransactionSeqNo, value, LogRecordNormal⟩ = res
    obtain ⟨db1, e⟩ := res
    cases e with
    | error e => exact ⟨rfl, rfl⟩
    | ok pos =>
      simp only
      generalize db1.index.Put key pos = ip
      obtain ⟨o, idx⟩ := ip
      cases o <;> exact ⟨rfl, rfl⟩

theorem Delete_files (db : DB) (key : Bytes) :
    ((db.Delete key).1.olderFiles = db.olderFiles ∧
      (db.Delete key).1.activeFile = db.activeFile) ∨
    ((db.Delete key).1.olderFiles =
        (db.appendLogRecord
          ⟨logRecordKeyWithSeq key nonTransactionSeqNo, [], LogRecordDeleted⟩).1.olderFiles ∧
      (db.Delete key).1.activeFile =
        (db.appendLogRecord
          ⟨logRecordKeyWithSeq key nonTransactionSeqNo, [], LogRecordDeleted⟩).1.activeFile) := by
  unfold DB.Delete
  by_cases hk : key.length = 0
  · rw [if_pos hk]
    exact Or.inl ⟨rfl, rfl⟩
  · rw [if_neg hk]
    by_cases hg : (db.index.Get key).isNone = true
    · rw [if_pos hg]
      exact Or.inl ⟨rfl, rfl⟩
    · rw [if_neg hg]
      right
      generalize db.appendLogRecord ⟨logRecordKeyWithSeq key nonTransactionSeqNo, [], LogRecordDeleted⟩ = res
      obtain ⟨db1, e⟩ := res
      cases e with
      | error e => exact ⟨rfl, rfl⟩
      | ok pos =>
        simp only
        generalize Index.Delete db1.index key = ip
        obtain ⟨⟨o, b⟩, idx⟩ := ip
        cases o <;> cases b <;> exact ⟨rfl, rfl⟩

theorem commitApply_files (positions : List (Bytes × LogRecordPos))
    (pending : List (Bytes × LogRecord)) :
    ∀ db : DB, (commitApply positions pending db).olderFiles = db.olderFiles ∧
      (commitApply positions pending db).activeFile = db.activeFile ∧
      (commitApply positions pending db).disk = db.disk ∧
      (commitApply positions pending db).seqNo = db.seqNo ∧
      (commitApply positions pending db).options = db.options := by
  induction pending with
  | nil =>
    intro db
    exact ⟨rfl, rfl, rfl, rfl, rfl⟩
  | cons a rest ih =>
    intro db
    obtain ⟨k, record⟩ := a
    simp only [commitApply]
    split
    · obtain ⟨h1, h2, h3, h4, h5⟩ := ih
        { db with index := _, reclaimSize := _ }
      exact ⟨h1, h2, h3, h4, h5⟩
    · obtain ⟨h1, h2, h3, h4, h5⟩ := ih { db with index := _ }
      exact ⟨h1, h2, h3, h4, h5⟩

theorem commitAppend_files (seqNo : Nat) (pending : List (Bytes × LogRecord)) :
    ∀ (db : DB) (positions : List (Bytes × LogRecordPos)), db.FilesOrdered →
      db.activeId + pending.length < 2 ^ 32 →
      (commitAppend seqNo pending db positions).1.FilesOrdered ∧
      (commitAppend seqNo pending db positions).1.activeId ≤ db.activeId + pending.length := by
  induction pending with
  | nil =>
    intro db positions hinv _
    exact ⟨hinv, Nat.le_refl _⟩
  | cons a rest ih =>
    intro db positions hinv hroom
    obtain ⟨k, record⟩ := a
    simp only [List.length_cons] at hroom
    obtain ⟨h1, h2, h3⟩ := appendLogRecord_files db
      { Key := logRecordKeyWithSeq record.Key seqNo, Value := record.Value, Typ := record.Typ }
      hinv (by omega)
    simp only [commitAppend, List.length_cons]
    generalize db.appendLogRecord
      { Key := logRecordKeyWithSeq record.Key seqNo, Value := record.Value,
        Typ := record.Typ } = res at h1 h2 h3
    obtain ⟨db1, e⟩ := res
    cases e with
    | error e =>
      simp only at h1 h3 ⊢
      exact ⟨h1, by omega⟩
    | ok pos =>
      simp only at h1 h3 ⊢
      obtain ⟨h4, h5⟩ := ih db1 (Index.insert positions record.Key pos) h1 (by omega)
      exact ⟨h4, by omega⟩

theorem Commit_files (wb : WriteBatch) (db : DB) (hinv : db.FilesOrdered)
    (hroom : db.activeId + (wb.pendingWrites.length + 1) < 2 ^ 32) :
    (wb.Commit db).1.1.FilesOrdered := by
  unfold WriteBatch.Commit
  by_cases h0 : wb.pendingWrites.length = 0
  · rw [if_pos h0]
    exact hinv
  · rw [if_neg h0]
    by_cases h1 : wb.pendingWrites.length > wb.options.MaxBatchNum
    · rw [if_pos h1]
      exact hinv
    · rw [if_neg h1]
      have hinv0 : DB.FilesOrdered { db with seqNo := (db.seqNo + 1) % 2 ^ 64 } :=
        FilesOrdered_congr _ db rfl rfl hinv
      have hid : DB.activeId { db with seqNo := (db.seqNo + 1) % 2 ^ 64 } = db.activeId := rfl
      obtain ⟨h2, h3⟩ := commitAppend_files ((db.seqNo + 1) % 2 ^ 64) wb.pendingWrites
        { db with seqNo := (db.seqNo + 1) % 2 ^ 64 } [] hinv0 (by rw [hid]; omega)
      rw [hid] at h3
      simp only
      generalize commitAppend ((db.seqNo + 1) % 2 ^ 64) wb.pendingWrites
        { db with seqNo := (db.seqNo + 1) % 2 ^ 64 } [] = res at h2 h3
      obtain ⟨db1, e⟩ := res
      cases e with
      | error e => exact h2
      | ok positions =>
        simp only at h2 h3 ⊢
        obtain ⟨h4, _, _⟩ := appendLogRecord_files db1
          { Key := logRecordKeyWithSeq txnFinKey ((db.seqNo + 1) % 2 ^ 64), Value := [],
            Typ := LogRecordTxnFinished } h2 (by omega)
        generalize db1.appendLogRecord
          { Key := logRecordKeyWithSeq txnFinKey ((db.seqNo + 1) % 2 ^ 64), Value := [],
            Typ := LogRecordTxnFinished } = res2 at h4
        obtain ⟨db2, e2⟩ := res2
        cases e2 with
        | error e => exact h4
        | ok p =>
          simp only at h4 ⊢
          obtain ⟨c1, c2, _⟩ := commitApply_files positions wb.pendingWrites db2
          exact FilesOrdered_congr _ db2 c1 c2 h4

/-- The live engine after `Merge`: unchanged, or rotated to a new active segment. -/
theorem Merge_state (db db1 : DB) (env : MergeEnv) (out : Option MergeOutput)
    (err : Option Err) (h : db.Merge env = some ((db1, out), err)) :
    db1 = db ∨ ∃ af, db.activeFile = some af ∧
      db1 = DB.setActiveDataFile
        { db with olderFiles := olderSet db.olderFiles af.FileId af, isMerging := false } := by
  unfold DB.Merge at h
  cases haf : db.activeFile with
  | none =>
    rw [haf] at h
    simp only [Option.some.injEq, Prod.mk.injEq] at h
    exact Or.inl h.1.1.symm
  | some af =>
    rw [haf] at h
    simp only at h
    by_cases c1 : db.isMerging = true
    · rw [if_pos c1] at h
      simp only [Option.some.injEq, Prod.mk.injEq] at h
      exact Or.inl h.1.1.symm
    · rw [if_neg c1] at h
      by_cases c2 : env.ratioUnreached = true
      · rw [if_pos c2] at h
        simp only [Option.some.injEq, Prod.mk.injEq] at h
        exact Or.inl h.1.1.symm
      · rw [if_neg c2] at h
        by_cases c3 : toUint64 (env.totalSize - db.reclaimSize) ≥ env.availableDiskSize
        · rw [if_pos c3] at h
          simp only [Option.some.injEq, Prod.mk.injEq] at h
          exact Or.inl h.1.1.symm
        · rw [if_neg c3] at h
          right
          refine ⟨af, rfl, ?_⟩
          generalize Open { db.options with SyncWrites := false } [] = o at h
          rcases o with _ | ⟨e | mdb⟩
          · simp at h
          · simp only [Option.some.injEq, Prod.mk.injEq] at h
            exact h.1.1.symm
          · simp only at h
            generalize mergeFilesLoop _ _ mdb [] = ml at h
            rcases ml with _ | ⟨e | ⟨m1, hint⟩⟩
            · simp at h
            · simp only [Option.some.injEq, Prod.mk.injEq] at h
              exact h.1.1.symm
            · simp only at h
              generalize m1.Sync = sy at h
              obtain ⟨s1, s2⟩ := sy
              cases s2 with
              | some e =>
                simp only [Option.some.injEq, Prod.mk.injEq] at h
                exact h.1.1.symm
              | none =>
                simp only at h
                generalize EncodeLogRecord _ = en at h
                rcases en with _ | ⟨enc, sz⟩
                · simp only [Option.some.injEq, Prod.mk.injEq] at h
                  exact h.1.1.symm
                · simp only [Option.some.injEq, Prod.mk.injEq] at h
                  exact h.1.1.symm

theorem Merge_files (db db1 : DB) (env : MergeEnv) (out : Option MergeOutput)
    (err : Option Err) (h : db.Merge env = some ((db1, out), err))
    (hinv : db.FilesOrdered) (hroom : db.activeId + 1 < 2 ^ 32) : db1.FilesOrdered := by
  rcases Merge_state db db1 env out err h with h1 | ⟨af, haf, h1⟩
  · rw [h1]
    exact hinv
  · have hid : db.activeId = af.FileId := by simp [DB.activeId, haf]
    rw [hid] at hroom
    rw [h1]
    exact FilesOrdered_rotate db af haf hinv hroom _ rfl _ 0 rfl
      (by simp only [DB.setActiveDataFile, haf])

theorem loadDataFilesLoop_older_mem (ids : List Nat) (hlt : ∀ i ∈ ids, i < 2 ^ 32) :
    ∀ (db : DB) (e : Nat × DataFile),
      e ∈ (loadDataFilesLoop (ids.map (fun (i : Nat) => (i : Int))) db).olderFiles →
      e ∈ db.olderFiles ∨ (e.1 ∈ ids.dropLast ∧ e.2 = { FileId := e.1, WriteOff := 0 }) := by
  induction ids with
  | nil =>
    intro db e he
    exact Or.inl he
  | cons fid rest ih =>
    intro db e he
    have hfid : toUint32 (fid : Int) = fid := toUint32_ofNat _ (hlt fid (List.mem_cons_self _ _))
    cases rest with
    | nil =>
      simp only [List.map_cons, List.map_nil] at he
      rw [loadDataFilesLoop_single] at he
      exact Or.inl he
    | cons a rest1 =>
      simp only [List.map_cons] at he
      rw [loadDataFilesLoop_cons2, hfid] at he
      rcases ih (fun i hi => hlt i (List.mem_cons_of_mem _ hi)) _ e
          (by simp only [List.map_cons]; exact he) with h | h
      · rcases mem_olderSet _ _ _ _ h with h1 | h1
        · right
          subst h1
          simp
        · exact Or.inl h1
      · right
        refine ⟨?_, h.2⟩
        rw [List.dropLast_cons₂]
        exact List.mem_cons_of_mem _ h.1

theorem dropLast_lt_getLast (l : List Nat) (h : l.Pairwise (fun a b => a < b)) (hne : l ≠ []) :
    ∀ x ∈ l.dropLast, x < l.getLast hne := by
  induction l with
  | nil => exact absurd rfl hne
  | cons a rest ih =>
    intro x hx
    rw [List.pairwise_cons] at h
    cases rest with
    | nil => simp at hx
    | cons b rest1 =>
      rw [List.dropLast_cons₂] at hx
      rw [List.getLast_cons (by simp)]
      rcases List.mem_cons.mp hx with e | e
      · subst e
        exact h.1 _ (List.getLast_mem _)
      · exact ih h.2 (by simp) x e

theorem sorted_ids_strict (d : Disk) (hwn : d.WellNamed) :
    ((d.map (fun e => e.1)).insertionSort (fun a b => a ≤ b)).Pairwise (fun a b => a < b) ∧
    ∀ i ∈ (d.map (fun e => e.1)).insertionSort (fun a b => a ≤ b), i < 2 ^ 32 := by
  have hperm := List.perm_insertionSort (fun a b : Nat => a ≤ b) (d.map (fun e => e.1))
  have hsorted := List.sorted_insertionSort (fun a b : Nat => a ≤ b) (d.map (fun e => e.1))
  have hnodup : ((d.map (fun e => e.1)).insertionSort (fun a b => a ≤ b)).Nodup :=
    hperm.nodup_iff.mpr hwn.1
  constructor
  · have h2 : ((d.map (fun e => e.1)).insertionSort (fun a b => a ≤ b)).Pairwise
        (fun a b => a ≤ b ∧ a ≠ b) := List.Pairwise.and hsorted hnodup
    exact h2.imp (fun h => Nat.lt_of_le_of_ne h.1 h.2)
  · intro i hi
    obtain ⟨e, he, rfl⟩ := List.mem_map.mp (hperm.mem_iff.mp hi)
    exact hwn.2 e he

theorem loadDataFiles_files (db : DB) (hwn : db.disk.WellNamed) (ho : db.olderFiles = []) :
    db.loadDataFiles.FilesOrdered := by
  obtain ⟨hstrict, hlt⟩ := sorted_ids_strict db.disk hwn
  intro e he
  have hcast : (db.disk.map (fun e => (e.1 : Int))) =
      (db.disk.map (fun e => e.1)).map (fun (i : Nat) => (i : Int)) := by
    rw [List.map_map]
    rfl
  simp only [DB.loadDataFiles] at he ⊢
  rw [hcast, insertionSort_natCast] at he ⊢
  generalize (db.disk.map (fun e => e.1)).insertionSort (fun a b => a ≤ b) = ids at *
  rcases loadDataFilesLoop_older_mem ids hlt _ e he with h | h
  · simp [ho] at h
  · have hne : ids ≠ [] := by
      intro e0
      rw [e0] at h
      simp at h
    obtain ⟨h1, _⟩ := loadDataFilesLoop_spec ids hne hlt
      { db with fileIds := ids.map (fun (i : Nat) => (i : Int)) }
    refine ⟨by rw [h.2], _, h1, ?_⟩
    exact dropLast_lt_getLast ids hstrict hne _ h.1

theorem loadIndexFromDataFiles_files (db db1 : DB)
    (h : db.loadIndexFromDataFiles = some (.ok db1)) :
    db1.olderFiles = db.olderFiles ∧ db1.disk = db.disk ∧ db1.options = db.options ∧
    db1.fileIds = db.fileIds ∧ db1.isMerging = db.isMerging ∧
    (db.activeFile = none → db1.activeFile = none) ∧
    (∀ af, db.activeFile = some af →
      ∃ w, db1.activeFile = some { FileId := af.FileId, WriteOff := w }) := by
  unfold DB.loadIndexFromDataFiles at h
  by_cases h0 : db.fileIds.length = 0
  · rw [if_pos h0] at h
    simp only [Option.some.injEq, Except.ok.injEq] at h
    subst h
    exact ⟨rfl, rfl, rfl, rfl, rfl, fun h => h, fun af h => ⟨af.WriteOff, h⟩⟩
  · rw [if_neg h0] at h
    cases haf : db.activeFile with
    | none =>
      rw [haf] at h
      simp at h
    | some af =>
      rw [haf] at h
      simp only at h
      generalize loadIndexFiles db af db.fileIds _ = r at h
      rcases r with _ | ⟨e | ⟨st, off⟩⟩
      · simp at h
      · simp at h
      · simp only [Option.some.injEq, Except.ok.injEq] at h
        subst h
        refine ⟨rfl, rfl, rfl, rfl, rfl, fun h => by simp at h, ?_⟩
        intro af0 h0
        simp only [Option.some.injEq] at h0
        subst h0
        exact ⟨off, rfl⟩

theorem Open_files (options : Options) (disk : Disk) (db : DB) (hwn : disk.WellNamed)
    (h : Open options disk = some (.ok db)) : db.FilesOrdered := by
  unfold Open at h
  cases hc : checkOptions options with
  | some e =>
    rw [hc] at h
    simp at h
  | none =>
    rw [hc] at h
    simp only at h
    have h1 := loadDataFiles_files
      { options := options, disk := disk, fileIds := [], activeFile := none,
        olderFiles := [], index := [], seqNo := 0, reclaimSize := 0, isMerging := false }
      hwn rfl
    obtain ⟨h2, _, _, _, _, _, h3⟩ := loadIndexFromDataFiles_files _ db h
    exact FilesOrdered_same _ db h1 h2 h3

/-! ## Segment lengths under appends -/

theorem SegmentsBounded_mono (db : DB) (rs rs1 : List LogRecord) (h : db.SegmentsBounded rs)
    (hsub : ∀ r ∈ rs, r ∈ rs1) : db.SegmentsBounded rs1 := by
  refine ⟨?_, h.2⟩
  intro f
  rcases h.1 f with h1 | ⟨r, hr, h1⟩
  · exact Or.inl h1
  · exact Or.inr ⟨r, hsub r hr, h1⟩

/-- Opening segment 0 on a store without an active file keeps the invariant. -/
theorem SegmentsBounded_open (db : DB) (rs : List LogRecord) (h : db.SegmentsBounded rs)
    (haf : db.activeFile = none) :
    DB.SegmentsBounded
      { db with disk := db.disk.openFile 0, activeFile := some { FileId := 0, WriteOff := 0 } }
      rs := by
  obtain ⟨h1, h2⟩ := h
  rw [haf] at h2
  simp only at h2
  refine ⟨?_, ?_⟩
  · intro f
    simp only [Disk.bytes_openFile]
    exact h1 f
  · simp only
    refine ⟨Disk.contents_openFile_self _ _, ?_, ?_⟩
    · simp [Disk.bytes_openFile, h2 0]
    · intro f _
      rw [Disk.bytes_openFile]
      exact h2 f

/-- One append with an active file keeps the invariant, for the record added to the
list, while the next id does not wrap. -/
theorem SegmentsBounded_append_active (db : DB) (rs : List LogRecord) (r : LogRecord)
    (af : DataFile) (haf : db.activeFile = some af) (h : db.SegmentsBounded rs)
    (hroom : af.FileId + 1 < 2 ^ 32) :
    (db.appendLogRecord r).1.SegmentsBounded (rs ++ [r]) ∧
    (db.appendLogRecord r).1.options = db.options ∧
    ∃ af1, (db.appendLogRecord r).1.activeFile = some af1 ∧ af1.FileId ≤ af.FileId + 1 := by
  cases henc : EncodeLogRecord r with
  | none =>
    have : (db.appendLogRecord r).1 = db := by
      simp only [DB.appendLogRecord, haf, henc, Option.isNone_some, Bool.false_eq_true,
        ↓reduceIte]
    rw [this]
    exact ⟨SegmentsBounded_mono db rs _ h (fun x hx => List.mem_append_left _ hx), rfl,
      af, haf, Nat.le_succ _⟩
  | some p =>
    obtain ⟨enc, size⟩ := p
    have hlen := (EncodeLogRecord_length r enc size henc).1
    subst hlen
    obtain ⟨h1, h2⟩ := h
    rw [haf] at h2
    simp only at h2
    obtain ⟨hex, hoff, hnext⟩ := h2
    rw [appendLogRecord_active db r enc _ af haf henc]
    by_cases hrot : af.WriteOff + ((enc.length : Nat) : Int) > db.options.DataFileSize
    · rw [if_pos hrot, Nat.mod_eq_of_lt hroom]
      refine ⟨⟨?_, ?_⟩, rfl, _, rfl, Nat.le_refl _⟩
      · intro f
        simp only
        by_cases hf : f = af.FileId + 1
        · subst hf
          right
          refine ⟨r, List.mem_append_right _ (List.mem_singleton_self r), ?_⟩
          rw [Disk.bytes_write_self _ _ _ (Disk.contents_openFile_self _ _), Disk.bytes_openFile,
            hnext _ (Nat.lt_succ_self _), List.nil_append]
          exact henc
        · rw [Disk.bytes_write_other _ _ _ _ hf, Disk.bytes_openFile]
          rcases h1 f with h3 | ⟨r0, hr0, h3⟩
          · exact Or.inl h3
          · exact Or.inr ⟨r0, List.mem_append_left _ hr0, h3⟩
      · simp only
        refine ⟨?_, ?_, ?_⟩
        · rw [Disk.contents_write_isSome]
          exact Disk.contents_openFile_self _ _
        · rw [Disk.bytes_write_self _ _ _ (Disk.contents_openFile_self _ _), Disk.bytes_openFile,
            hnext _ (Nat.lt_succ_self _)]
          simp
        · intro f hf
          rw [Disk.bytes_write_other _ _ _ _ (by omega), Disk.bytes_openFile]
          exact hnext f (by omega)
    · rw [if_neg hrot]
      refine ⟨⟨?_, ?_⟩, rfl, _, rfl, Nat.le_succ _⟩
      · intro f
        simp only
        by_cases hf : f = af.FileId
        · subst hf
          left
          rw [Disk.bytes_write_self _ _ _ hex, List.length_append]
          push_cast
          omega
        · rw [Disk.bytes_write_other _ _ _ _ hf]
          rcases h1 f with h3 | ⟨r0, hr0, h3⟩
          · exact Or.inl h3
          · exact Or.inr ⟨r0, List.mem_append_left _ hr0, h3⟩
      · simp only
        refine ⟨?_, ?_, ?_⟩
        · rw [Disk.contents_write_isSome]
          exact hex
        · rw [Disk.bytes_write_self _ _ _ hex, List.length_append, hoff]
          push_cast
          rfl
        · intro f hf
          rw [Disk.bytes_write_other _ _ _ _ (by omega)]
          exact hnext f hf

/-- One append keeps the invariant and moves the active id up by at most one. -/
theorem SegmentsBounded_append (db : DB) (rs : List LogRecord) (r : LogRecord)
    (h : db.SegmentsBounded rs) (hroom : db.activeId + 1 < 2 ^ 32) :
    (db.appendLogRecord r).1.SegmentsBounded (rs ++ [r]) ∧
    (db.appendLogRecord r).1.options = db.options ∧
    (db.appendLogRecord r).1.activeId ≤ db.activeId + 1 := by
  cases haf : db.activeFile with
  | some af =>
    have hid : db.activeId = af.FileId := by simp [DB.activeId, haf]
    rw [hid] at hroom ⊢
    obtain ⟨h1, h2, af1, h3, h4⟩ := SegmentsBounded_append_active db rs r af haf h hroom
    refine ⟨h1, h2, ?_⟩
    simp only [DB.activeId, h3]
    exact h4
  | none =>
    have hid : db.activeId = 0 := by simp [DB.activeId, haf]
    rw [hid]
    rw [appendLogRecord_noactive db r haf]
    obtain ⟨h1, h2, af1, h3, h4⟩ := SegmentsBounded_append_active _ rs r ⟨0, 0⟩ rfl
      (SegmentsBounded_open db rs h haf) (by decide)
    refine ⟨h1, h2, ?_⟩
    simp only [DB.activeId, h3]
    exact h4

theorem appendAll_append (db : DB) (rs : List LogRecord) (r : LogRecord) :
    appendAll db (rs ++ [r]) = ((appendAll db rs).appendLogRecord r).1 := by
  simp only [appendAll, List.foldl_append, List.foldl_cons, List.foldl_nil]

theorem SegmentsBounded_appendAll (db : DB) (h0 : db.SegmentsBounded []) (rs : List LogRecord) :
    db.activeId + rs.length < 2 ^ 32 →
    (appendAll db rs).SegmentsBounded rs ∧ (appendAll db rs).options = db.options ∧
    (appendAll db rs).activeId ≤ db.activeId + rs.length := by
  induction rs using List.reverseRecOn with
  | nil =>
    intro _
    exact ⟨h0, rfl, Nat.le_refl _⟩
  | append_singleton rs r ih =>
    intro hroom
    simp only [List.length_append, List.length_singleton] at hroom
    obtain ⟨h1, h2, h3⟩ := ih (by omega)
    rw [appendAll_append]
    obtain ⟨h4, h5, h6⟩ := SegmentsBounded_append (appendAll db rs) rs r h1 (by omega)
    refine ⟨h4, h5.trans h2, ?_⟩
    simp only [List.length_append, List.length_singleton]
    omega

theorem Open_empty_ok (options : Options) (db : DB) (h : Open options [] = some (.ok db)) :
    0 < options.DataFileSize ∧
    db = { options := options, disk := [], fileIds := [], activeFile := none, olderFiles := [],
           index := [], seqNo := 0, reclaimSize := 0, isMerging := false } := by
  have hpos : 0 < options.DataFileSize := by
    by_contra hc
    simp only [Open, checkOptions, if_pos (not_lt.mp hc)] at h
    simp at h
  rcases Open_empty options with h1 | h1
  · rw [h1] at h
    simp at h
  · rw [h1] at h
    simp only [Option.some.injEq, Except.ok.injEq] at h
    exact ⟨hpos, h.symm⟩

theorem appendAll_replicate (r : LogRecord) (n : Nat) :
    ∀ db : DB, appendAll db (List.replicate n r) = (fun d => (d.appendLogRecord r).1)^[n] db := by
  induction n with
  | zero =>
    intro db
    rfl
  | succ n ih =>
    intro db
    rw [List.replicate_succ, Function.iterate_succ_apply]
    simp only [appendAll, List.foldl_cons]
    exact ih _

theorem witnessRecord_encoded : EncodeLogRecord witnessRecord = some (witnessEnc, 11) := by
  decide!

/-- One more 11-byte record on a store whose `DataFileSize` is 5: the active file,
which holds 11 bytes, is rotated. -/
theorem append_rotates (db : DB) (k : Nat) (hD : db.options.DataFileSize = 5)
    (haf : db.activeFile = some { FileId := k, WriteOff := 11 }) :
    (db.appendLogRecord witnessRecord).1.options.DataFileSize = 5 ∧
    (db.appendLogRecord witnessRecord).1.activeFile =
      some { FileId := (k + 1) % 2 ^ 32, WriteOff := 11 } ∧
    (db.appendLogRecord witnessRecord).1.disk =
      (db.disk.openFile ((k + 1) % 2 ^ 32)).write ((k + 1) % 2 ^ 32) witnessEnc := by
  rw [appendLogRecord_active db witnessRecord witnessEnc 11 _ haf witnessRecord_encoded,
    if_pos (by rw [hD]; norm_num)]
  exact ⟨hD, rfl, rfl⟩

theorem iterate_appends (k : Nat) (hk1 : 1 ≤ k) (hk : k < 2 ^ 32) :
    ((fun d => (d.appendLogRecord witnessRecord).1)^[k] (freshDB 5)).options.DataFileSize = 5 ∧
    ((fun d => (d.appendLogRecord witnessRecord).1)^[k] (freshDB 5)).activeFile =
      some { FileId := k, WriteOff := 11 } ∧
    (((fun d => (d.appendLogRecord witnessRecord).1)^[k] (freshDB 5)).disk.contents 1).isSome =
      true ∧
    ((fun d => (d.appendLogRecord witnessRecord).1)^[k] (freshDB 5)).disk.bytes 1 =
      witnessEnc := by
  induction k, hk1 using Nat.le_induction with
  | base =>
    simp only [Function.iterate_one]
    decide!
  | succ n hn ih =>
    obtain ⟨h1, h2, h3, h4⟩ := ih (by omega)
    rw [Function.iterate_succ_apply']
    obtain ⟨a1, a2, a3⟩ := append_rotates _ n h1 h2
    rw [Nat.mod_eq_of_lt hk] at a2 a3
    refine ⟨a1, a2, ?_, ?_⟩
    · rw [a3, Disk.contents_write_isSome]
      exact Disk.contents_openFile_isSome _ _ _ h3
    · rw [a3, Disk.bytes_write_other _ _ _ _ (by omega), Disk.bytes_openFile]
      exact h4

/-- After 2^32 + 1 appends the segment ids have wrapped and segment 1 holds two
records. -/
theorem iterate_appends_wrap (k : Nat) (hk : k + 1 = 2 ^ 32) :
    ((fun d => (d.appendLogRecord witnessRecord).1)^[k + 2] (freshDB 5)).disk.bytes 1 =
      witnessEnc ++ witnessEnc := by
  obtain ⟨h1, h2, h3, h4⟩ := iterate_appends k (by omega) (by omega)
  rw [Function.iterate_succ_apply', Function.iterate_succ_apply']
  generalize (fun d : DB => (d.appendLogRecord witnessRecord).1)^[k] (freshDB 5) = S at *
  obtain ⟨a1, a2, a3⟩ := append_rotates S k h1 h2
  have hz : (k + 1) % 2 ^ 32 = 0 := by rw [hk]; exact Nat.mod_self _
  rw [hz] at a2 a3
  obtain ⟨b1, b2, b3⟩ := append_rotates _ 0 a1 a2
  have h5 : ((S.appendLogRecord witnessRecord).1.disk.contents 1).isSome = true := by
    rw [a3, Disk.contents_write_isSome]
    exact Disk.contents_openFile_isSome _ _ _ h3
  have h6 : (S.appendLogRecord witnessRecord).1.disk.bytes 1 = witnessEnc := by
    rw [a3, Disk.bytes_write_other _ _ _ _ (by decide), Disk.bytes_openFile]
    exact h4
  show (((S.appendLogRecord witnessRecord).1.appendLogRecord witnessRecord).1).disk.bytes 1 = _
  rw [b3]
  have : (0 + 1) % 2 ^ 32 = 1 := by decide
  rw [this, Disk.bytes_write_self _ _ _ (Disk.contents_openFile_isSome _ _ _ h5),
    Disk.bytes_openFile, h6]

/-! ## Accounting of `reclaimSize` -/

theorem Disk.totalSize_openFile (d : Disk) (fid : Nat) :
    (d.openFile fid).totalSize = d.totalSize := by
  unfold Disk.openFile
  split
  · rfl
  · simp [Disk.totalSize]

theorem Disk.totalSize_write (d : Disk) (fid : Nat) (buf : Bytes)
    (h : (d.contents fid).isSome = true) :
    (d.write fid buf).totalSize = d.totalSize + buf.length := by
  induction d with
  | nil => simp [Disk.contents] at h
  | cons e rest ih =>
    obtain ⟨f0, c0⟩ := e
    simp only [Disk.write]
    by_cases h0 : f0 = fid
    · rw [if_pos h0]
      simp only [Disk.totalSize, List.map_cons, List.sum_cons, List.length_append]
      push_cast
      omega
    · rw [if_neg h0]
      simp only [Disk.contents, if_neg h0] at h
      have := ih h
      simp only [Disk.totalSize, List.map_cons, List.sum_cons] at this ⊢
      omega

theorem Index.totalSize_insert (idx : Index) (hwf : idx.WF) (k : Bytes) (p : LogRecordPos) :
    (Index.insert idx k p).totalSize =
      idx.totalSize + p.Size - (match idx.Get k with
        | some old => (old.Size : Int)
        | none => 0) := by
  induction idx with
  | nil => simp [Index.insert, Index.totalSize, Index.Get]
  | cons a rest ih =>
    obtain ⟨k0, p0⟩ := a
    unfold Index.WF at hwf ih
    rw [List.pairwise_cons] at hwf
    simp only [Index.insert, Index.Get]
    by_cases h1 : k = k0
    · rw [if_pos h1, if_pos h1.symm]
      simp only [Index.totalSize, List.map_cons, List.sum_cons]
      omega
    · rw [if_neg h1, if_neg (fun (e : k0 = k) => h1 e.symm)]
      by_cases h2 : k < k0
      · rw [if_pos h2]
        have hnone : Index.Get rest k = none := by
          cases hg : Index.Get rest k with
          | none => rfl
          | some q =>
            have hmem : k ∈ rest.map Prod.fst := by
              rw [← Index.Get_isSome_iff, hg]
              rfl
            obtain ⟨e, he, hek⟩ := List.mem_map.mp hmem
            have := hwf.1 e he
            rw [hek] at this
            exact absurd (lt_trans h2 this) (lt_irrefl _)
        rw [hnone]
        simp only [Index.totalSize, List.map_cons, List.sum_cons]
        omega
      · rw [if_neg h2]
        have := ih hwf.2
        simp only [Index.totalSize, List.map_cons, List.sum_cons] at this ⊢
        rw [this]
        omega

theorem Index.totalSize_erase (idx : Index) (hwf : idx.WF) (k : Bytes) :
    (Index.erase idx k).totalSize =
      idx.totalSize - (match idx.Get k with
        | some old => (old.Size : Int)
        | none => 0) := by
  induction idx with
  | nil => simp [Index.erase, Index.totalSize, Index.Get]
  | cons a rest ih =>
    obtain ⟨k0, p0⟩ := a
    unfold Index.WF at hwf ih
    rw [List.pairwise_cons] at hwf
    simp only [Index.Get]
    by_cases h1 : k0 = k
    · rw [if_pos h1, h1, Index.erase_cons_eq]
      have hnone : Index.Get rest k = none := by
        cases hg : Index.Get rest k with
        | none => rfl
        | some q =>
          have hmem : k ∈ rest.map Prod.fst := by
            rw [← Index.Get_isSome_iff, hg]
            rfl
          obtain ⟨e, he, hek⟩ := List.mem_map.mp hmem
          have := hwf.1 e he
          rw [hek, h1] at this
          exact absurd this (lt_irrefl _)
      have := ih hwf.2
      rw [hnone] at this
      simp only [Index.totalSize, List.map_cons, List.sum_cons] at this ⊢
      rw [this]
      omega
    · rw [if_neg h1, Index.erase_cons_ne _ _ _ _ h1]
      have := ih hwf.2
      simp only [Index.totalSize, List.map_cons, List.sum_cons] at this ⊢
      rw [this]
      omega

/-- What one append does to the quantities of the accounting. -/
theorem appendLogRecord_total (db : DB) (hA : db.ActiveExists) (r : LogRecord) (enc : Bytes)
    (size : Nat) (henc : EncodeLogRecord r = some (enc, size)) :
    ∃ pos, (db.appendLogRecord r).2 = .ok pos ∧ pos.Size = enc.length % 2 ^ 32 ∧
      (db.appendLogRecord r).1.disk.totalSize = db.disk.totalSize + enc.length ∧
      (db.appendLogRecord r).1.index = db.index ∧
      (db.appendLogRecord r).1.reclaimSize = db.reclaimSize ∧
      (db.appendLogRecord r).1.ActiveExists := by
  have hlen := (EncodeLogRecord_length r enc size henc).1
  subst hlen
  have key : ∀ (d : DB) (af : DataFile), d.activeFile = some af →
      (d.disk.contents af.FileId).isSome = true →
      ∃ pos, (d.appendLogRecord r).2 = .ok pos ∧ pos.Size = enc.length % 2 ^ 32 ∧
        (d.appendLogRecord r).1.disk.totalSize = d.disk.totalSize + enc.length ∧
        (d.appendLogRecord r).1.index = d.index ∧
        (d.appendLogRecord r).1.reclaimSize = d.reclaimSize ∧
        (d.appendLogRecord r).1.ActiveExists := by
    intro d af haf hex
    rw [appendLogRecord_active d r enc _ af haf henc]
    by_cases hrot : af.WriteOff + ((enc.length : Nat) : Int) > d.options.DataFileSize
    · rw [if_pos hrot]
      refine ⟨_, rfl, rfl, ?_, rfl, rfl, ?_⟩
      · simp only
        rw [Disk.totalSize_write _ _ _ (Disk.contents_openFile_self _ _),
          Disk.totalSize_openFile]
      · intro af1 h1
        simp only [Option.some.injEq] at h1
        subst h1
        simp only
        rw [Disk.contents_write_isSome]
        exact Disk.contents_openFile_self _ _
    · rw [if_neg hrot]
      refine ⟨_, rfl, rfl, ?_, rfl, rfl, ?_⟩
      · simp only
        rw [Disk.totalSize_write _ _ _ hex]
      · intro af1 h1
        simp only [Option.some.injEq] at h1
        subst h1
        simp only
        rw [Disk.contents_write_isSome]
        exact hex
  cases haf : db.activeFile with
  | some af => exact key db af haf (hA af haf)
  | none =>
    rw [appendLogRecord_noactive db r haf]
    obtain ⟨pos, h1, h2, h3, h4, h5, h6⟩ := key
      { db with disk := db.disk.openFile 0, activeFile := some { FileId := 0, WriteOff := 0 } }
      ⟨0, 0⟩ rfl (Disk.contents_openFile_self _ _)
    refine ⟨pos, h1, h2, ?_, h4, h5, h6⟩
    rw [h3]
    simp only
    rw [Disk.totalSize_openFile]

theorem PutVarint_length_le10_nat (n : Nat) : (PutVarint (n : Int)).length ≤ 10 :=
  PutVarint_length_le10 _

/-- The encoded length of a record whose key and value are short. -/
theorem EncodeLogRecord_small (r : LogRecord) (h : r.Key.length + r.Value.length + 15 < 2 ^ 32) :
    ∃ enc : Bytes, EncodeLogRecord r = some (enc, enc.length) ∧ enc.length < 2 ^ 32 ∧
      enc.length % 2 ^ 32 = enc.length := by
  have henc := EncodeLogRecord_some r (by omega) (by omega)
  obtain ⟨h1, _, h3, h4⟩ := EncodeLogRecord_length r _ _ henc
  refine ⟨_, by rw [henc, h1], ?_, ?_⟩
  · rw [h1]
    omega
  · apply Nat.mod_eq_of_lt
    rw [h1]
    omega

/-- A successful `Put` of a short record keeps the accounting and adds the size of the
position it displaces. -/
theorem Put_accounted (db : DB) (hacc : db.Accounted) (k v : Bytes) (hk : k ≠ [])
    (hsize : k.length + v.length + 16 < 2 ^ 32) :
    (db.Put k v).2 = none ∧ (db.Put k v).1.Accounted ∧
    (db.Put k v).1.reclaimSize = db.reclaimSize + (match db.index.Get k with
      | some old => (old.Size : Int)
      | none => 0) := by
  obtain ⟨hwf, hA, hrs⟩ := hacc
  have hk0 : ¬ k.length = 0 := fun e => hk (List.length_eq_zero.mp e)
  obtain ⟨enc, henc, hlt, hmod⟩ := EncodeLogRecord_small
    ⟨logRecordKeyWithSeq k nonTransactionSeqNo, v, LogRecordNormal⟩
    (by rw [logRecordKeyWithSeq_zero]; simp only [List.length_cons]; omega)
  obtain ⟨pos, h1, h2, h3, h4, h5, h6⟩ := appendLogRecord_total db hA _ enc _ henc
  rw [hmod] at h2
  unfold DB.Put
  rw [if_neg hk0]
  generalize db.appendLogRecord ⟨logRecordKeyWithSeq k nonTransactionSeqNo, v, LogRecordNormal⟩ =
    res at h1 h3 h4 h5 h6
  obtain ⟨db1, e⟩ := res
  simp only at h1 h3 h4 h5 h6
  subst h1
  simp only [Index.Put, h4]
  have hins := Index.totalSize_insert db.index hwf k pos
  cases hg : db.index.Get k with
  | none =>
    rw [hg] at hins
    simp only at hins ⊢
    refine ⟨trivial, ⟨?_, h6, ?_⟩, ?_⟩
    · exact Index.WF_insert _ hwf _ _
    · dsimp only
      rw [h5, hrs, h3, hins, h2]
      omega
    · dsimp only
      rw [h5]
      omega
  | some old =>
    rw [hg] at hins
    simp only at hins ⊢
    refine ⟨trivial, ⟨?_, ?_, ?_⟩, ?_⟩
    · exact Index.WF_insert _ hwf _ _
    · exact h6
    · dsimp only
      rw [h5, hrs, h3, hins, h2]
      omega
    · dsimp only
      rw [h5]

/-- A successful `Delete` of an indexed key keeps the accounting and adds the size of
the tombstone and the size of the position it removes. -/
theorem Delete_accounted (db : DB) (hacc : db.Accounted) (k : Bytes) (hk : k ≠ [])
    (hsize : k.length + 16 < 2 ^ 32) (old : LogRecordPos) (hg : db.index.Get k = some old) :
    (db.Delete k).2 = none ∧ (db.Delete k).1.Accounted ∧
    ∃ tomb : Bytes,
      EncodeLogRecord ⟨logRecordKeyWithSeq k nonTransactionSeqNo, [], LogRecordDeleted⟩ =
        some (tomb, tomb.length) ∧
      (db.Delete k).1.reclaimSize = db.reclaimSize + tomb.length + old.Size := by
  obtain ⟨hwf, hA, hrs⟩ := hacc
  have hk0 : ¬ k.length = 0 := fun e => hk (List.length_eq_zero.mp e)
  obtain ⟨enc, henc, hlt, hmod⟩ := EncodeLogRecord_small
    ⟨logRecordKeyWithSeq k nonTransactionSeqNo, [], LogRecordDeleted⟩
    (by rw [logRecordKeyWithSeq_zero]; simp only [List.length_cons, List.length_nil]; omega)
  obtain ⟨pos, h1, h2, h3, h4, h5, h6⟩ := appendLogRecord_total db hA _ enc _ henc
  rw [hmod] at h2
  unfold DB.Delete
  rw [if_neg hk0, if_neg (by rw [hg]; simp)]
  generalize db.appendLogRecord ⟨logRecordKeyWithSeq k nonTransactionSeqNo, [], LogRecordDeleted⟩ =
    res at h1 h3 h4 h5 h6
  obtain ⟨db1, e⟩ := res
  simp only at h1 h3 h4 h5 h6
  subst h1
  have hers := Index.totalSize_erase db.index hwf k
  rw [hg] at hers
  simp only at hers
  simp only [Index.Delete, h4, hg, Option.isSome_some]
  refine ⟨trivial, ⟨?_, h6, ?_⟩, enc, henc, ?_⟩
  · exact Index.WF_erase _ hwf _
  · dsimp only
    rw [h5, hrs, h3, hers, h2]
    omega
  · dsimp only
    rw [h5, h2]

theorem runOps_accounted (ops : List Op) :
    ∀ (db0 db : DB), db0.Accounted → (∀ op ∈ ops, op.Small) → db0.runOps ops = some db →
      db.Accounted := by
  induction ops with
  | nil =>
    intro db0 db h0 _ hrun
    simp only [DB.runOps, Option.some.injEq] at hrun
    rw [← hrun]
    exact h0
  | cons op rest ih =>
    intro db0 db h0 hsmall hrun
    have hop := hsmall op (List.mem_cons_self _ _)
    have hrest := fun o ho => hsmall o (List.mem_cons_of_mem _ ho)
    simp only [DB.runOps] at hrun
    cases op with
    | put key value =>
      simp only [DB.applyOp] at hrun
      simp only [Op.Small] at hop
      by_cases hk : key = []
      · subst hk
        simp [DB.Put] at hrun
      · obtain ⟨h1, h2, _⟩ := Put_accounted db0 h0 key value hk hop
        generalize db0.Put key value = res at hrun h1 h2
        obtain ⟨db1, e⟩ := res
        simp only at h1 h2
        subst h1
        exact ih db1 db h2 hrest hrun
    | delete key =>
      simp only [DB.applyOp] at hrun
      simp only [Op.Small] at hop
      by_cases hk : key = []
      · subst hk
        simp [DB.Delete] at hrun
      · cases hg : db0.index.Get key with
        | none =>
          have hk0 : ¬ key.length = 0 := fun e => hk (List.length_eq_zero.mp e)
          have : db0.Delete key = (db0, none) := by
            simp only [DB.Delete, if_neg hk0, hg, Option.isNone_none, ↓reduceIte]
          rw [this] at hrun
          exact ih db0 db h0 hrest hrun
        | some old =>
          obtain ⟨h1, h2, _⟩ := Delete_accounted db0 h0 key hk hop old hg
          generalize db0.Delete key = res at hrun h1 h2
          obtain ⟨db1, e⟩ := res
          simp only at h1 h2
          subst h1
          exact ih db1 db h2 hrest hrun

/-- The encoding of a record given by its fields, for sizes below 2^34. -/
theorem EncodeLogRecord_some_mk (k v : Bytes) (t : LogRecordType) (hk : k.length < 2 ^ 34)
    (hv : v.length < 2 ^ 34) :
    EncodeLogRecord ⟨k, v, t⟩ =
      some (putUint32LE (ChecksumIEEE (recordBody ⟨k, v, t⟩)) ++ recordBody ⟨k, v, t⟩,
        5 + (PutVarint (k.length : Int)).length + (PutVarint (v.length : Int)).length +
          k.length + v.length) :=
  EncodeLogRecord_some ⟨k, v, t⟩ hk hv

/-- The state after `Put("n", v)` on a fresh store for a value `v` of 2^32 bytes, given
the encoding of its record. -/
theorem Put_huge_state (enc : Bytes) (size : Nat)
    (henc : EncodeLogRecord
      ⟨logRecordKeyWithSeq [110] nonTransactionSeqNo, hugeValue, LogRecordNormal⟩ =
        some (enc, size))
    (hlen : enc.length = size) (hsize : size = 5 + 1 + 5 + 2 + 2 ^ 32) :
    ((freshDB 100).Put [110] hugeValue).2 = none ∧
    ((freshDB 100).Put [110] hugeValue).1.reclaimSize = 0 ∧
    ((freshDB 100).Put [110] hugeValue).1.disk.totalSize -
      ((freshDB 100).Put [110] hugeValue).1.index.totalSize = 2 ^ 32 := by
  subst hsize
  have happ : (freshDB 100).appendLogRecord
      ⟨logRecordKeyWithSeq [110] nonTransactionSeqNo, hugeValue, LogRecordNormal⟩ =
      ({ (freshDB 100) with
          disk := (((freshDB 100).disk.openFile 0).openFile 1).write 1 enc,
          olderFiles := [(0, { FileId := 0, WriteOff := 0 })],
          activeFile := some { FileId := 1, WriteOff := 0 + (enc.length : Int) } },
       .ok { Fid := 1, Offset := 0, Size := (5 + 1 + 5 + 2 + 2 ^ 32) % 2 ^ 32 }) := by
    rw [appendLogRecord_noactive _ _ rfl, appendLogRecord_active _ _ enc _ ⟨0, 0⟩ rfl henc,
      if_pos (by norm_num [freshDB])]
    rfl
  unfold DB.Put
  rw [if_neg (by decide), happ]
  refine ⟨rfl, rfl, ?_⟩
  have hdisk : ((((freshDB 100).disk.openFile 0).openFile 1).write 1 enc).totalSize =
      (enc.length : Int) := by
    rw [Disk.totalSize_write _ _ _ (Disk.contents_openFile_self _ _), Disk.totalSize_openFile,
      Disk.totalSize_openFile]
    simp [freshDB, Disk.totalSize]
  show ((((freshDB 100).disk.openFile 0).openFile 1).write 1 enc).totalSize -
    Index.totalSize [([110], { Fid := 1, Offset := 0, Size := (5 + 1 + 5 + 2 + 2 ^ 32) % 2 ^ 32 })] =
    2 ^ 32
  rw [hdisk, hlen]
  simp only [Index.totalSize, List.map_cons, List.map_nil, List.sum_cons, List.sum_nil]
  norm_num

/-! ## The records a `Commit` appends -/

theorem appendLogRecord_index (db : DB) (r : LogRecord) :
    (db.appendLogRecord r).1.index = db.index ∧
    (db.appendLogRecord r).1.reclaimSize = db.reclaimSize ∧
    (db.appendLogRecord r).1.seqNo = db.seqNo ∧
    (db.appendLogRecord r).1.options = db.options := by
  cases henc : EncodeLogRecord r with
  | none =>
    cases haf : db.activeFile with
    | some af =>
      simp only [DB.appendLogRecord, haf, henc, Option.isNone_some, Bool.false_eq_true,
        ↓reduceIte, and_self]
    | none =>
      simp only [DB.appendLogRecord, haf, henc, Option.isNone_none, ↓reduceIte,
        DB.setActiveDataFile, and_self]
  | some p =>
    obtain ⟨enc, size⟩ := p
    cases haf : db.activeFile with
    | some af =>
      rw [appendLogRecord_active db r enc size af haf henc]
      split <;> exact ⟨rfl, rfl, rfl, rfl⟩
    | none =>
      rw [appendLogRecord_noactive db r haf,
        appendLogRecord_active _ r enc size ⟨0, 0⟩ rfl henc]
      split <;> exact ⟨rfl, rfl, rfl, rfl⟩

theorem appendEach_index (rs : List LogRecord) :
    ∀ db : DB, (appendEach db rs).1.index = db.index ∧ (appendEach db rs).1.seqNo = db.seqNo := by
  induction rs with
  | nil =>
    intro db
    exact ⟨rfl, rfl⟩
  | cons r rest ih =>
    intro db
    obtain ⟨h3, _, h4, _⟩ := appendLogRecord_index db r
    simp only [appendEach]
    cases hres : db.appendLogRecord r with
    | mk d e =>
      rw [hres] at h3 h4
      cases e with
      | error err => exact ⟨h3, h4⟩
      | ok pos =>
        simp only
        obtain ⟨h1, h2⟩ := ih d
        cases hrest : appendEach d rest with
        | mk d2 e2 =>
          rw [hrest] at h1 h2
          cases e2 <;> exact ⟨h1.trans h3, h2.trans h4⟩

theorem appendEach_snoc (rs : List LogRecord) (r : LogRecord) :
    ∀ (db db1 : DB) (ps : List LogRecordPos), appendEach db rs = (db1, .ok ps) →
      appendEach db (rs ++ [r]) =
        match db1.appendLogRecord r with
        | (db2, .error e) => (db2, .error e)
        | (db2, .ok pos) => (db2, .ok (ps ++ [pos])) := by
  induction rs with
  | nil =>
    intro db db1 ps h
    simp only [appendEach, Prod.mk.injEq, Except.ok.injEq] at h
    obtain ⟨h1, h2⟩ := h
    subst h1; subst h2
    simp only [List.nil_append, appendEach]
  | cons a rest ih =>
    intro db db1 ps h
    simp only [appendEach] at h
    simp only [List.cons_append, appendEach, List.append_eq]
    cases hres : db.appendLogRecord a with
    | mk d e =>
      rw [hres] at h
      cases e with
      | error err => simp at h
      | ok pos =>
        simp only at h ⊢
        cases hrest : appendEach d rest with
        | mk d2 e2 =>
          rw [hrest] at h
          cases e2 with
          | error err => simp at h
          | ok ps2 =>
            simp only [Prod.mk.injEq, Except.ok.injEq] at h
            obtain ⟨h1, h2⟩ := h
            subst h1; subst h2
            rw [ih d d2 ps2 hrest]
            all_goals
              cases d2.appendLogRecord r with
              | mk d3 e3 => cases e3 <;> rfl

/-- The first loop of `Commit`, when it succeeds, is the sequence of appends of the
buffered records with the sequence number in their keys. -/
theorem commitAppend_ok (seqNo : Nat) (pending : List (Bytes × LogRecord)) :
    ∀ (db db1 : DB) (positions positions1 : List (Bytes × LogRecordPos)),
      commitAppend seqNo pending db positions = (db1, .ok positions1) →
      ∃ ps, ps.length = pending.length ∧
        appendEach db (pending.map (fun e =>
          { Key := PutUvarint seqNo ++ e.2.Key, Value := e.2.Value, Typ := e.2.Typ })) =
          (db1, .ok ps) := by
  induction pending with
  | nil =>
    intro db db1 positions positions1 h
    simp only [commitAppend, Prod.mk.injEq, Except.ok.injEq] at h
    exact ⟨[], rfl, by rw [h.1]; rfl⟩
  | cons a rest ih =>
    intro db db1 positions positions1 h
    obtain ⟨k, record⟩ := a
    simp only [commitAppend, logRecordKeyWithSeq] at h
    simp only [List.map_cons, appendEach]
    cases hres : db.appendLogRecord
      { Key := PutUvarint seqNo ++ record.Key, Value := record.Value, Typ := record.Typ } with
    | mk d e =>
      rw [hres] at h
      cases e with
      | error err => simp at h
      | ok pos =>
        simp only at h ⊢
        obtain ⟨ps, h1, h2⟩ := ih d db1 _ positions1 h
        rw [h2]
        exact ⟨pos :: ps, by simp [h1], rfl⟩

/-! ## Files that hold a sequence of encoded records -/

theorem encodeRecord_length (r : LogRecord) :
    (encodeRecord r).length =
      5 + (PutVarint r.Key.length).length + (PutVarint r.Value.length).length +
        r.Key.length + r.Value.length := by
  simp [encodeRecord, recordBody, putUint32LE]
  omega

theorem EncodeLogRecord_framed (r : LogRecord) (h : r.Framed) :
    EncodeLogRecord r = some (encodeRecord r, (encodeRecord r).length) := by
  rw [encodeRecord_length, EncodeLogRecord_some r (by have := h.2.1; omega) (by have := h.2.2; omega)]
  rfl

theorem encodeAll_append (rs : List LogRecord) (r : LogRecord) :
    encodeAll (rs ++ [r]) = encodeAll rs ++ encodeRecord r := by
  induction rs with
  | nil => simp [encodeAll]
  | cons a rest ih => simp [encodeAll, ih]

theorem encodeAll_length_ge (rs : List LogRecord) : rs.length ≤ (encodeAll rs).length := by
  induction rs with
  | nil => simp [encodeAll]
  | cons a rest ih =>
    simp only [encodeAll, List.length_cons, List.length_append, encodeRecord_length]
    omega

/-- The first of the records that follow `pre` in a file is read at offset
`pre.length`. -/
theorem ReadLogRecord_head (r : LogRecord) (h : r.Framed) (pre post : Bytes) :
    ReadLogRecord (pre ++ (encodeRecord r ++ post)) (pre.length : Int) =
      .ok (r, ((encodeRecord r).length : Int)) := by
  have h1 := ReadLogRecord_encoded r h.2.1 h.2.2
    (by rintro ⟨_, h0, _⟩; exact h.1 (List.length_eq_zero.mp h0)) pre post
  rw [encodeRecord_length]
  rw [← h1, List.append_assoc]
  rfl

/-- At the end of a file `ReadLogRecord` returns `io.EOF`. -/
theorem ReadLogRecord_at_end (file : Bytes) :
    ReadLogRecord file (file.length : Int) = .error .EOF := by
  simp only [ReadLogRecord]
  rw [ReadNBytes_header file file.length (Nat.le_refl _)]
  have : decodeLogRecordHeader ((file.drop file.length).take 15) = none := by
    apply decodeLogRecordHeader_short
    simp
  simp only [this]

/-- The loop of `loadIndexFromHintFile` on a file that holds the records `rs` after
`pre`, started at offset `pre.length`. -/
theorem loadHintLoop_frames (rs : List LogRecord) :
    ∀ (pre : Bytes) (fuel : Nat) (idx : Index), rs.length < fuel →
      (∀ r ∈ rs, r.Framed ∧ (DecodeLogRecordPos r.Value).isSome = true) →
      loadHintLoop (pre ++ encodeAll rs) fuel (pre.length : Int) idx =
        some (.ok (rs.foldl (fun i r =>
          Index.insert i r.Key ((DecodeLogRecordPos r.Value).getD ⟨0, 0, 0⟩)) idx)) := by
  induction rs with
  | nil =>
    intro pre fuel idx hf _
    match fuel, hf with
    | f + 1, _ =>
      simp only [encodeAll, List.append_nil, loadHintLoop, ReadLogRecord_at_end, List.foldl_nil]
  | cons r rest ih =>
    intro pre fuel idx hf hall
    match fuel, hf with
    | f + 1, hf =>
      obtain ⟨hfr, hdec⟩ := hall r (List.mem_cons_self _ _)
      simp only [encodeAll, loadHintLoop, ReadLogRecord_head r hfr pre (encodeAll rest)]
      cases hd : DecodeLogRecordPos r.Value with
      | none =>
        rw [hd] at hdec
        simp at hdec
      | some pos =>
        simp only [List.foldl_cons, hd, Option.getD_some, Index.Put]
        have := ih (pre ++ encodeRecord r) f (Index.insert idx r.Key pos)
          (by simp only [List.length_cons] at hf; omega)
          (fun x hx => hall x (List.mem_cons_of_mem _ hx))
        rw [List.append_assoc] at this
        rw [← this]
        simp only [List.length_append]
        push_cast
        rfl
/-! ## The hint file -/


theorem writeHintRecords_cons (k : Bytes) (p : LogRecordPos) (rest : List (Bytes × LogRecordPos))
    (enc file : Bytes) (h1 : WriteHintRecord k p = some enc)
    (h2 : writeHintRecords rest = some file) :
    writeHintRecords ((k, p) :: rest) = some (enc ++ file) := by
  have hu : writeHintRecords ((k, p) :: rest) =
      (WriteHintRecord k p).bind (fun enc =>
        (writeHintRecords rest).map (fun file => enc ++ file)) := rfl
  rw [hu, h1, h2]
  rfl

theorem loadIndexFromHintFile_some (db : DB) (file : Bytes) (idx : Index)
    (h : loadHintLoop file (file.length + 1) 0 db.index = some (.ok idx)) :
    db.loadIndexFromHintFile (some file) = some (.ok { db with index := idx }) := by
  have hu : db.loadIndexFromHintFile (some file) =
      match loadHintLoop file (file.length + 1) 0 db.index with
      | none => none
      | some (.error e) => some (.error e)
      | some (.ok idx) => some (.ok { db with index := idx }) := rfl
  rw [hu, h]

/-- The hint file written for a list of pairs holds one record per pair. -/
theorem writeHintRecords_eq (pairs : List (Bytes × LogRecordPos))
    (h : ∀ e ∈ pairs, e.1 ≠ [] ∧ e.1.length < 2 ^ 32 ∧ e.2.Fid < 2 ^ 32 ∧
      -(2 ^ 63) ≤ e.2.Offset ∧ e.2.Offset < 2 ^ 63 ∧ e.2.Size < 2 ^ 32) :
    writeHintRecords pairs =
      some (encodeAll (pairs.map (fun e =>
        { Key := e.1, Value := EncodeLogRecordPos e.2, Typ := LogRecordNormal }))) := by
  induction pairs with
  | nil => rfl
  | cons a rest ih =>
    obtain ⟨k, p⟩ := a
    obtain ⟨h0, h1, h2, h3, h4, h5⟩ := h (k, p) (List.mem_cons_self _ _)
    dsimp only at h0 h1 h2 h3 h4 h5
    have hl := (LogRecordPos_roundtrip p h2 h3 h4 h5).2.2
    have hfr : LogRecord.Framed
        { Key := k, Value := EncodeLogRecordPos p, Typ := LogRecordNormal } :=
      ⟨h0, h1, by dsimp only; omega⟩
    have hw : WriteHintRecord k p =
        some (encodeRecord { Key := k, Value := EncodeLogRecordPos p, Typ := LogRecordNormal }) := by
      unfold WriteHintRecord
      rw [EncodeLogRecord_framed _ hfr]
      rfl
    rw [writeHintRecords_cons k p rest _ _ hw (ih (fun e he => h e (List.mem_cons_of_mem _ he)))]
    rfl

theorem foldl_insert_Get (pairs : List (Bytes × LogRecordPos)) :
    ∀ (idx : Index) (key : Bytes),
      Index.Get (pairs.foldl (fun i e => Index.insert i e.1 e.2) idx) key =
        match lastPosition pairs key with
        | some p => some p
        | none => Index.Get idx key := by
  induction pairs with
  | nil =>
    intro idx key
    rfl
  | cons a rest ih =>
    intro idx key
    obtain ⟨k, p⟩ := a
    simp only [List.foldl_cons, lastPosition]
    rw [ih]
    cases hl : lastPosition rest key with
    | some q => rfl
    | none =>
      simp only
      by_cases hk : k = key
      · rw [if_pos hk, ← hk, Index.Get_insert_self]
      · rw [if_neg hk, Index.Get_insert_other _ _ _ _ (fun e => hk e.symm)]

/-! ## The scan of recovery -/

theorem ReadNBytes_ok_bound (file : Bytes) (n off : Int) (b : Bytes)
    (h : ReadNBytes file n off = .ok b) (hb : b ≠ []) :
    0 ≤ off ∧ 0 < n ∧ off + n ≤ file.length := by
  simp only [ReadNBytes] at h
  split at h
  · simp at h
  · split at h
    · simp at h
    · split at h
      · simp only [Except.ok.injEq] at h
        exact absurd h.symm hb
      · split at h
        · omega
        · simp at h

/-- A record read by `ReadLogRecord` lies inside the file and has at least five
bytes. -/
theorem ReadLogRecord_advance (file : Bytes) (offset : Int) (rec : LogRecord) (sz : Int)
    (h : ReadLogRecord file offset = .ok (rec, sz)) :
    0 ≤ offset ∧ 5 ≤ sz ∧ offset + sz ≤ file.length := by
  simp only [ReadLogRecord] at h
  split at h
  · simp at h
  · rename_i headerBuf hread
    split at h
    · simp at h
    · simp at h
    · rename_i header headerSize hdec
      have hne : headerBuf ≠ [] := by
        intro e
        rw [e] at hdec
        simp [decodeLogRecordHeader] at hdec
      have hb := ReadNBytes_ok_bound _ _ _ _ hread hne
      have hl := ReadNBytes_length _ _ _ _ hread
      have hl15 : headerBuf.length ≤ 15 := by
        have : (headerBuf.length : Int) ≤ 15 := by
          refine le_trans hl ?_
          split
          · simp only [maxLogRecordHeaderSize] at *
            omega
          · simp [maxLogRecordHeaderSize]
        omega
      have hsz := decodeLogRecordHeader_size _ hl15 _ _ hdec
      split at h
      · simp at h
      · split at h
        · simp at h
        · rename_i key value hkv
          split at h
          · simp at h
          · split at h
            · simp at h
            · simp only [Except.ok.injEq, Prod.mk.injEq] at h
              obtain ⟨_, hsize⟩ := h
              subst hsize
              refine ⟨hb.1, by omega, ?_⟩
              split at hkv
              · rename_i hpos
                split at hkv
                · simp at hkv
                · rename_i kvBuf hread2
                  simp only [ReadNBytes] at hread2
                  split at hread2
                  · simp at hread2
                  · split at hread2
                    · simp at hread2
                    · split at hread2
                      · omega
                      · split at hread2
                        · omega
                        · simp at hread2
              · rename_i hpos
                have hlen : offset + headerBuf.length ≤ file.length := by
                  have h1 := hb.2.2
                  omega
                omega

/-- The scan of a segment returns: the fuel `file.length + 1` is never used up. -/
theorem scanFile_some (file : Bytes) (fileId : Nat) :
    ∀ (fuel : Nat) (offset : Int) (st : LoadState),
      offset ≤ file.length → (file.length : Int) - offset < fuel →
      (scanFile file fileId fuel offset st).isSome = true := by
  intro fuel
  induction fuel with
  | zero =>
    intro offset st h1 h2
    omega
  | succ n ih =>
    intro offset st h1 h2
    simp only [scanFile]
    cases hr : ReadLogRecord file offset with
    | error e => cases e <;> rfl
    | ok p =>
      obtain ⟨r, size⟩ := p
      have ha := ReadLogRecord_advance _ _ _ _ hr
      simp only
      cases processRecord st r { Fid := fileId, Offset := offset, Size := toUint32 size } with
      | none => rfl
      | some st1 =>
        simp only
        exact ih _ _ (by omega) (by omega)

theorem scanFileSkipping_some (s : Nat) (file : Bytes) (fileId : Nat) :
    ∀ (fuel : Nat) (offset : Int) (st : LoadState),
      offset ≤ file.length → (file.length : Int) - offset < fuel →
      (scanFileSkipping s file fileId fuel offset st).isSome = true := by
  intro fuel
  induction fuel with
  | zero =>
    intro offset st h1 h2
    omega
  | succ n ih =>
    intro offset st h1 h2
    simp only [scanFileSkipping]
    cases hr : ReadLogRecord file offset with
    | error e => cases e <;> rfl
    | ok p =>
      obtain ⟨r, size⟩ := p
      have ha := ReadLogRecord_advance _ _ _ _ hr
      simp only
      cases processRecordSkipping s st r
          { Fid := fileId, Offset := offset, Size := toUint32 size } with
      | none => rfl
      | some st1 =>
        simp only
        exact ih _ _ (by omega) (by omega)

theorem loadIndexFiles_cons (db : DB) (af : DataFile) (fid : Int) (rest : List Int)
    (st : LoadState) :
    loadIndexFiles db af (fid :: rest) st =
      match (if af.FileId = toUint32 fid then some af
             else olderGet db.olderFiles (toUint32 fid)) with
      | none => some (.error .Panic)
      | some df =>
        match scanFile (db.disk.bytes df.FileId) (toUint32 fid)
            ((db.disk.bytes df.FileId).length + 1) 0 st with
        | none => none
        | some (.error e) => some (.error e)
        | some (.ok (offset, st1)) =>
          match rest with
          | [] => some (.ok (st1, offset))
          | _ :: _ => loadIndexFiles db af rest st1 := rfl

theorem loadIndexFiles_some (db : DB) (af : DataFile) (ids : List Int) :
    ∀ st, (loadIndexFiles db af ids st).isSome = true := by
  induction ids with
  | nil => intro st; rfl
  | cons fid rest ih =>
    intro st
    rw [loadIndexFiles_cons]
    split
    · rfl
    · rename_i df _
      have hs := scanFile_some (db.disk.bytes df.FileId) (toUint32 fid)
        ((db.disk.bytes df.FileId).length + 1) 0 st (by omega) (by push_cast; omega)
      cases hsc : scanFile (db.disk.bytes df.FileId) (toUint32 fid)
          ((db.disk.bytes df.FileId).length + 1) 0 st with
      | none => rw [hsc] at hs; simp at hs
      | some r =>
        cases r with
        | error e => rfl
        | ok p =>
          obtain ⟨off, st1⟩ := p
          simp only
          cases rest with
          | nil => rfl
          | cons a l => exact ih st1

/-- Recovery returns. -/
theorem loadIndexFromDataFiles_some (db : DB) : (db.loadIndexFromDataFiles).isSome = true := by
  simp only [DB.loadIndexFromDataFiles]
  split
  · rfl
  · cases haf : db.activeFile with
    | none => rfl
    | some af =>
      simp only
      have hs := loadIndexFiles_some db af db.fileIds
        { index := db.index, reclaimSize := db.reclaimSize, transactionRecords := [],
          currentSeqNo := nonTransactionSeqNo }
      cases hl : loadIndexFiles db af db.fileIds
        { index := db.index, reclaimSize := db.reclaimSize, transactionRecords := [],
          currentSeqNo := nonTransactionSeqNo } with
      | none => rw [hl] at hs; simp at hs
      | some r =>
        cases r with
        | error e => rfl
        | ok p => rfl
/-! ## Records of a batch without its sentinel -/

theorem uvarintLoop_value_zero (buf : Bytes) :
    ∀ (i x s : Nat), (uvarintLoop buf i x s).2 ≤ 0 → (uvarintLoop buf i x s).1 = 0 := by
  induction buf with
  | nil => intro i x s _; rfl
  | cons b rest ih =>
    intro i x s h
    simp only [uvarintLoop] at h ⊢
    by_cases h10 : i = 10
    · rw [if_pos h10]
    · rw [if_neg h10] at h ⊢
      by_cases hb : b.val < 0x80
      · rw [if_pos hb] at h ⊢
        by_cases h9 : i = 9 ∧ 1 < b.val
        · rw [if_pos h9]
        · rw [if_neg h9] at h
          simp only at h
          omega
      · rw [if_neg hb] at h ⊢
        exact ih _ _ _ h

/-- A key that carries a non-zero sequence number is parsed without a panic. -/
theorem parseLogRecordKey_of_seqNo (r : LogRecord) (h : seqNoOf r ≠ 0) :
    parseLogRecordKey r.Key = some (r.Key.drop (Uvarint r.Key).2.toNat, seqNoOf r) := by
  simp only [parseLogRecordKey, seqNoOf] at h ⊢
  have : ¬ (Uvarint r.Key).2 < 0 := by
    intro hneg
    exact h (uvarintLoop_value_zero r.Key 0 0 0 (by simp only [Uvarint] at hneg; omega))
  rw [if_neg this]

theorem parseLogRecordKey_seqNo (r : LogRecord) (k : Bytes) (q : Nat)
    (h : parseLogRecordKey r.Key = some (k, q)) : seqNoOf r = q := by
  simp only [parseLogRecordKey] at h
  split at h
  · simp at h
  · simp only [Option.some.injEq, Prod.mk.injEq] at h
    exact h.2

theorem txnGet_txnSet (m : List (Nat × List TransactionRecord)) (a q : Nat)
    (l : List TransactionRecord) :
    txnGet (txnSet m a l) q = if a = q then l else txnGet m q := by
  induction m with
  | nil => simp [txnSet, txnGet]
  | cons e rest ih =>
    obtain ⟨s0, l0⟩ := e
    simp only [txnSet]
    by_cases h : s0 = a
    · subst h
      rw [if_pos rfl]
      by_cases h2 : s0 = q <;> simp [txnGet, h2]
    · rw [if_neg h]
      simp only [txnGet, ih]
      by_cases h2 : s0 = q
      · subst h2
        have : ¬ a = s0 := fun e => h e.symm
        simp [this]
      · simp [h2]

theorem txnGet_txnErase (m : List (Nat × List TransactionRecord)) (a q : Nat) :
    txnGet (txnErase m a) q = if q = a then [] else txnGet m q := by
  induction m with
  | nil => simp [txnErase, txnGet]
  | cons e rest ih =>
    obtain ⟨s0, l0⟩ := e
    simp only [txnErase] at ih ⊢
    by_cases h : s0 = a
    · subst h
      rw [List.filter_cons_of_neg (by simp), ih]
      by_cases h2 : q = s0
      · simp [h2]
      · have : ¬ s0 = q := fun e => h2 e.symm
        simp [h2, txnGet, this]
    · rw [List.filter_cons_of_pos (by simpa using h)]
      simp only [txnGet, ih]
      by_cases h2 : s0 = q
      · subst h2
        simp [h]
      · simp [h2]

/-- The closure `updateIndex` reads and writes only the index and `reclaimSize`. -/
theorem updateIndex_agree (s : Nat) (a b : LoadState) (hab : a.AgreeOff s b) (k : Bytes)
    (t : LogRecordType) (p : LogRecordPos) :
    (updateIndex a k t p = none ∧ updateIndex b k t p = none) ∨
    ∃ a1 b1, updateIndex a k t p = some a1 ∧ updateIndex b k t p = some b1 ∧
      a1.AgreeOff s b1 ∧ a1.transactionRecords = a.transactionRecords ∧
      b1.transactionRecords = b.transactionRecords := by
  obtain ⟨h1, h2, h3⟩ := hab
  simp only [updateIndex, Index.Delete, Index.Put, ← h1, ← h2]
  by_cases ht : t = LogRecordDeleted
  · simp only [if_pos ht]
    cases hg : Index.Get a.index k with
    | none => left; exact ⟨rfl, rfl⟩
    | some old =>
      right
      exact ⟨_, _, rfl, rfl, ⟨rfl, rfl, h3⟩, rfl, rfl⟩
  · simp only [if_neg ht]
    cases hg : Index.Get a.index k with
    | none =>
      right
      exact ⟨_, _, rfl, rfl, ⟨rfl, rfl, h3⟩, rfl, rfl⟩
    | some old =>
      right
      exact ⟨_, _, rfl, rfl, ⟨rfl, rfl, h3⟩, rfl, rfl⟩

theorem applyTxnRecords_agree (s : Nat) (l : List TransactionRecord) :
    ∀ (a b : LoadState), a.AgreeOff s b →
      (applyTxnRecords l a = none ∧ applyTxnRecords l b = none) ∨
      ∃ a1 b1, applyTxnRecords l a = some a1 ∧ applyTxnRecords l b = some b1 ∧
        a1.AgreeOff s b1 ∧ a1.transactionRecords = a.transactionRecords ∧
        b1.transactionRecords = b.transactionRecords := by
  induction l with
  | nil =>
    intro a b hab
    right
    exact ⟨a, b, rfl, rfl, hab, rfl, rfl⟩
  | cons t rest ih =>
    intro a b hab
    simp only [applyTxnRecords]
    rcases updateIndex_agree s a b hab t.Record.Key t.Record.Typ t.Pos with h | h
    · left
      rw [h.1, h.2]
      exact ⟨rfl, rfl⟩
    · obtain ⟨a1, b1, e1, e2, hab1, t1, t2⟩ := h
      rw [e1, e2]
      simp only
      rcases ih a1 b1 hab1 with h | h
      · left; exact h
      · obtain ⟨a2, b2, f1, f2, hab2, u1, u2⟩ := h
        right
        exact ⟨a2, b2, f1, f2, hab2, by rw [u1, t1], by rw [u2, t2]⟩

theorem AgreeOff_seqNo (s : Nat) (a b : LoadState) (hab : a.AgreeOff s b) (q : Nat) :
    LoadState.AgreeOff s (if q > a.currentSeqNo then { a with currentSeqNo := q } else a) b := by
  split
  · exact hab
  · exact hab

theorem AgreeOff_seqNo_both (s : Nat) (a b : LoadState) (hab : a.AgreeOff s b) (q : Nat) :
    LoadState.AgreeOff s (if q > a.currentSeqNo then { a with currentSeqNo := q } else a)
      (if q > b.currentSeqNo then { b with currentSeqNo := q } else b) := by
  split <;> split <;> exact hab

/-- One step of the scan against one step of the scan that skips the records carrying
`s`, for a record that is not a sentinel carrying `s`. -/
theorem processRecord_skipping (s : Nat) (hs : 0 < s) (a b : LoadState) (hab : a.AgreeOff s b)
    (r : LogRecord) (p : LogRecordPos)
    (hfin : seqNoOf r = s → r.Typ ≠ LogRecordTxnFinished) :
    (processRecord a r p = none ∧ processRecordSkipping s b r p = none) ∨
    ∃ a1 b1, processRecord a r p = some a1 ∧ processRecordSkipping s b r p = some b1 ∧
      a1.AgreeOff s b1 := by
  by_cases hq : seqNoOf r = s
  · right
    have hne : seqNoOf r ≠ 0 := by omega
    have hns : ¬ seqNoOf r = nonTransactionSeqNo := hne
    simp only [processRecordSkipping, if_pos hq, processRecord,
      parseLogRecordKey_of_seqNo r hne, if_neg hns, if_neg (hfin hq)]
    refine ⟨_, b, rfl, rfl, ?_⟩
    split <;>
    ( refine ⟨hab.1, hab.2.1, ?_⟩
      intro q hqs
      simp only [txnGet_txnSet]
      rw [if_neg (by rw [hq]; exact fun e => hqs e.symm)]
      exact hab.2.2 q hqs)
  · simp only [processRecordSkipping, if_neg hq, processRecord]
    cases hp : parseLogRecordKey r.Key with
    | none => left; exact ⟨rfl, rfl⟩
    | some kq =>
      obtain ⟨k, q⟩ := kq
      have hqq := parseLogRecordKey_seqNo r k q hp
      have hqs : q ≠ s := by rw [← hqq]; exact hq
      simp only
      by_cases h0 : q = nonTransactionSeqNo
      · simp only [if_pos h0]
        rcases updateIndex_agree s a b hab k r.Typ p with h | h
        · left
          rw [h.1, h.2]
          exact ⟨rfl, rfl⟩
        · obtain ⟨a1, b1, e1, e2, hab1, _, _⟩ := h
          right
          rw [e1, e2]
          exact ⟨_, _, rfl, rfl, AgreeOff_seqNo_both s a1 b1 hab1 q⟩
      · simp only [if_neg h0]
        by_cases hf : r.Typ = LogRecordTxnFinished
        · simp only [if_pos hf]
          rw [hab.2.2 q hqs]
          rcases applyTxnRecords_agree s (txnGet b.transactionRecords q) a b hab with h | h
          · left
            rw [h.1, h.2]
            exact ⟨rfl, rfl⟩
          · obtain ⟨a1, b1, e1, e2, hab1, t1, t2⟩ := h
            right
            rw [e1, e2]
            refine ⟨_, _, rfl, rfl, ?_⟩
            split <;> split <;>
            ( refine ⟨hab1.1, hab1.2.1, ?_⟩
              intro q' hq'
              simp only [txnGet_txnErase]
              by_cases e : q' = q
              · simp [e]
              · simp only [if_neg e]
                exact hab1.2.2 q' hq')
        · simp only [if_neg hf]
          right
          refine ⟨_, _, rfl, rfl, ?_⟩
          split <;> split <;>
          ( refine ⟨hab.1, hab.2.1, ?_⟩
            intro q' hq'
            simp only [txnGet_txnSet]
            by_cases e : q = q'
            · simp only [if_pos e]
              rw [hab.2.2 q hqs]
            · simp only [if_neg e]
              exact hab.2.2 q' hq')
theorem scanFile_skipping (s : Nat) (hs : 0 < s) (file : Bytes) (fileId : Nat) :
    ∀ (fuel : Nat) (offset : Int) (a b : LoadState), a.AgreeOff s b →
      (∀ e ∈ scanRecords file fileId fuel offset,
        seqNoOf e.1 = s → e.1.Typ ≠ LogRecordTxnFinished) →
      (scanFile file fileId fuel offset a = none ∧
        scanFileSkipping s file fileId fuel offset b = none) ∨
      (∃ e, scanFile file fileId fuel offset a = some (.error e) ∧
        scanFileSkipping s file fileId fuel offset b = some (.error e)) ∨
      (∃ off a1 b1, scanFile file fileId fuel offset a = some (.ok (off, a1)) ∧
        scanFileSkipping s file fileId fuel offset b = some (.ok (off, b1)) ∧
        a1.AgreeOff s b1) := by
  intro fuel
  induction fuel with
  | zero =>
    intro offset a b _ _
    left
    exact ⟨rfl, rfl⟩
  | succ n ih =>
    intro offset a b hab hfin
    simp only [scanFile, scanFileSkipping]
    simp only [scanRecords] at hfin
    cases hr : ReadLogRecord file offset with
    | error e =>
      right
      cases e
      case EOF => right; exact ⟨offset, a, b, rfl, rfl, hab⟩
      all_goals (left; exact ⟨_, rfl, rfl⟩)
    | ok p =>
      obtain ⟨r, size⟩ := p
      rw [hr] at hfin
      simp only at hfin ⊢
      rcases processRecord_skipping s hs a b hab r
          { Fid := fileId, Offset := offset, Size := toUint32 size }
          (hfin _ (List.mem_cons_self _ _)) with h | h
      · right; left
        rw [h.1, h.2]
        exact ⟨_, rfl, rfl⟩
      · obtain ⟨a1, b1, e1, e2, hab1⟩ := h
        rw [e1, e2]
        exact ih (offset + size) a1 b1 hab1 (fun e he => hfin e (List.mem_cons_of_mem _ he))

theorem loadIndexFilesSkipping_cons (s : Nat) (db : DB) (af : DataFile) (fid : Int)
    (rest : List Int) (st : LoadState) :
    loadIndexFilesSkipping s db af (fid :: rest) st =
      match (if af.FileId = toUint32 fid then some af
             else olderGet db.olderFiles (toUint32 fid)) with
      | none => some (.error .Panic)
      | some df =>
        match scanFileSkipping s (db.disk.bytes df.FileId) (toUint32 fid)
            ((db.disk.bytes df.FileId).length + 1) 0 st with
        | none => none
        | some (.error e) => some (.error e)
        | some (.ok (offset, st1)) =>
          match rest with
          | [] => some (.ok (st1, offset))
          | _ :: _ => loadIndexFilesSkipping s db af rest st1 := rfl

theorem loadIndexFiles_skipping (s : Nat) (hs : 0 < s) (db : DB) (af : DataFile)
    (ids : List Int) :
    ∀ (a b : LoadState), a.AgreeOff s b →
      (∀ fid ∈ ids, ∀ df,
        (if af.FileId = toUint32 fid then some af
          else olderGet db.olderFiles (toUint32 fid)) = some df →
        ∀ e ∈ scanRecords (db.disk.bytes df.FileId) (toUint32 fid)
            ((db.disk.bytes df.FileId).length + 1) 0,
          seqNoOf e.1 = s → e.1.Typ ≠ LogRecordTxnFinished) →
      (loadIndexFiles db af ids a = none ∧ loadIndexFilesSkipping s db af ids b = none) ∨
      (∃ e, loadIndexFiles db af ids a = some (.error e) ∧
        loadIndexFilesSkipping s db af ids b = some (.error e)) ∨
      (∃ off a1 b1, loadIndexFiles db af ids a = some (.ok (a1, off)) ∧
        loadIndexFilesSkipping s db af ids b = some (.ok (b1, off)) ∧
        a1.AgreeOff s b1) := by
  induction ids with
  | nil =>
    intro a b hab _
    right; right
    exact ⟨0, a, b, rfl, rfl, hab⟩
  | cons fid rest ih =>
    intro a b hab hfin
    rw [loadIndexFiles_cons, loadIndexFilesSkipping_cons]
    cases hdf : (if af.FileId = toUint32 fid then some af
        else olderGet db.olderFiles (toUint32 fid)) with
    | none =>
      right; left
      exact ⟨_, rfl, rfl⟩
    | some df =>
      simp only
      rcases scanFile_skipping s hs (db.disk.bytes df.FileId) (toUint32 fid)
          ((db.disk.bytes df.FileId).length + 1) 0 a b hab
          (hfin fid (List.mem_cons_self _ _) df hdf) with h | h | h
      · left
        rw [h.1, h.2]
        exact ⟨rfl, rfl⟩
      · obtain ⟨e, e1, e2⟩ := h
        right; left
        rw [e1, e2]
        exact ⟨e, rfl, rfl⟩
      · obtain ⟨off, a1, b1, e1, e2, hab1⟩ := h
        rw [e1, e2]
        simp only
        cases rest with
        | nil =>
          right; right
          exact ⟨off, a1, b1, rfl, rfl, hab1⟩
        | cons x l =>
          exact ih a1 b1 hab1 (fun f hf => hfin f (List.mem_cons_of_mem _ hf))

/-- Recovery against recovery that skips the records carrying `s`, when no scanned
record is a sentinel carrying `s`: the same error, or engines with the same index. -/
theorem loadIndexFromDataFiles_skipping (db : DB) (s : Nat) (hs : 0 < s)
    (hfin : ∀ e ∈ db.scannedRecords, seqNoOf e.1 = s → e.1.Typ ≠ LogRecordTxnFinished) :
    (db.loadIndexFromDataFiles).map (Except.map (fun d => d.index)) =
      (db.loadIndexFromDataFilesSkipping s).map (Except.map (fun d => d.index)) := by
  simp only [DB.loadIndexFromDataFiles, DB.loadIndexFromDataFilesSkipping]
  split
  · rfl
  · cases haf : db.activeFile with
    | none => rfl
    | some af =>
      simp only
      have hfin2 : ∀ fid ∈ db.fileIds, ∀ df,
          (if af.FileId = toUint32 fid then some af
            else olderGet db.olderFiles (toUint32 fid)) = some df →
          ∀ e ∈ scanRecords (db.disk.bytes df.FileId) (toUint32 fid)
              ((db.disk.bytes df.FileId).length + 1) 0,
            seqNoOf e.1 = s → e.1.Typ ≠ LogRecordTxnFinished := by
        intro fid hfid df hdf e he
        apply hfin
        simp only [DB.scannedRecords, haf, List.mem_flatMap]
        exact ⟨fid, hfid, by rw [hdf]; exact he⟩
      rcases loadIndexFiles_skipping s hs db af db.fileIds
          { index := db.index, reclaimSize := db.reclaimSize, transactionRecords := [],
            currentSeqNo := nonTransactionSeqNo }
          { index := db.index, reclaimSize := db.reclaimSize, transactionRecords := [],
            currentSeqNo := nonTransactionSeqNo } ⟨rfl, rfl, fun _ _ => rfl⟩ hfin2 with h | h | h
      · rw [h.1, h.2]
      · obtain ⟨e, e1, e2⟩ := h
        rw [e1, e2]
      · obtain ⟨off, a1, b1, e1, e2, hab1⟩ := h
        rw [e1, e2]
        simp only [Option.map_some', Except.map, hab1.1]
/-! ## Recovery as a fold over the scanned records -/

theorem scanFile_processAll (file : Bytes) (fileId : Nat) :
    ∀ (fuel : Nat) (offset : Int) (st : LoadState) (off : Int) (st1 : LoadState),
      scanFile file fileId fuel offset st = some (.ok (off, st1)) →
      processAll (scanRecords file fileId fuel offset) st = some st1 := by
  intro fuel
  induction fuel with
  | zero =>
    intro offset st off st1 h
    simp [scanFile] at h
  | succ n ih =>
    intro offset st off st1 h
    simp only [scanFile] at h
    simp only [scanRecords]
    cases hr : ReadLogRecord file offset with
    | error e =>
      rw [hr] at h
      cases e <;> simp at h
      simp only [processAll, h.2]
    | ok p =>
      obtain ⟨r, size⟩ := p
      rw [hr] at h
      simp only at h ⊢
      simp only [processAll]
      cases hp : processRecord st r { Fid := fileId, Offset := offset, Size := toUint32 size } with
      | none =>
        rw [hp] at h
        simp at h
      | some s1 =>
        rw [hp] at h
        simp only at h ⊢
        exact ih _ _ _ _ h

theorem processAll_append (l1 l2 : List (LogRecord × LogRecordPos)) :
    ∀ (st : LoadState),
      processAll (l1 ++ l2) st = (processAll l1 st).bind (processAll l2) := by
  induction l1 with
  | nil => intro st; rfl
  | cons e rest ih =>
    intro st
    simp only [List.cons_append, processAll]
    cases processRecord st e.1 e.2 with
    | none => rfl
    | some s1 => exact ih s1

theorem loadIndexFiles_processAll (db : DB) (af : DataFile) (ids : List Int) :
    ∀ (st st1 : LoadState) (off : Int),
      loadIndexFiles db af ids st = some (.ok (st1, off)) →
      processAll (ids.flatMap (fun fid =>
        match (if af.FileId = toUint32 fid then some af
               else olderGet db.olderFiles (toUint32 fid)) with
        | none => []
        | some df =>
          scanRecords (db.disk.bytes df.FileId) (toUint32 fid)
            ((db.disk.bytes df.FileId).length + 1) 0)) st = some st1 := by
  induction ids with
  | nil =>
    intro st st1 off h
    have hu : loadIndexFiles db af [] st = some (.ok (st, 0)) := rfl
    rw [hu] at h
    simp only [Option.some.injEq, Except.ok.injEq, Prod.mk.injEq] at h
    simp only [List.flatMap_nil, processAll, h.1]
  | cons fid rest ih =>
    intro st st1 off h
    rw [loadIndexFiles_cons] at h
    rw [List.flatMap_cons, processAll_append]
    cases hdf : (if af.FileId = toUint32 fid then some af
        else olderGet db.olderFiles (toUint32 fid)) with
    | none =>
      rw [hdf] at h
      simp at h
    | some df =>
      rw [hdf] at h
      simp only at h ⊢
      cases hsc : scanFile (db.disk.bytes df.FileId) (toUint32 fid)
          ((db.disk.bytes df.FileId).length + 1) 0 st with
      | none => rw [hsc] at h; simp at h
      | some res =>
        rw [hsc] at h
        cases res with
        | error e => simp at h
        | ok p =>
          obtain ⟨o, s1⟩ := p
          simp only at h
          rw [scanFile_processAll _ _ _ _ _ _ _ hsc]
          simp only [Option.some_bind]
          cases rest with
          | nil =>
            simp only [Option.some.injEq, Except.ok.injEq, Prod.mk.injEq] at h
            simp only [List.flatMap_nil, processAll, h.1]
          | cons a l => exact ih _ _ _ h

/-- A successful recovery on a non-empty list of segments is the fold of the loop body
over the scanned records; the engine differs from the one before only in the index,
`reclaimSize`, `seqNo` and the write offset of the active file. -/
theorem loadIndexFromDataFiles_processAll (db0 db : DB)
    (h : db0.loadIndexFromDataFiles = some (.ok db)) (hne : db0.fileIds ≠ []) :
    ∃ (st : LoadState) (af : DataFile) (off : Int),
      processAll db0.scannedRecords
        { index := db0.index, reclaimSize := db0.reclaimSize, transactionRecords := [],
          currentSeqNo := nonTransactionSeqNo } = some st ∧
      db0.activeFile = some af ∧
      db = { db0 with index := st.index, reclaimSize := st.reclaimSize,
                      seqNo := st.currentSeqNo,
                      activeFile := some { af with WriteOff := off } } := by
  simp only [DB.loadIndexFromDataFiles] at h
  have hl : ¬ db0.fileIds.length = 0 := fun e => hne (List.length_eq_zero.mp e)
  rw [if_neg hl] at h
  cases haf : db0.activeFile with
  | none => rw [haf] at h; simp at h
  | some af =>
    rw [haf] at h
    simp only at h
    cases hres : loadIndexFiles db0 af db0.fileIds
        { index := db0.index, reclaimSize := db0.reclaimSize, transactionRecords := [],
          currentSeqNo := nonTransactionSeqNo } with
    | none => rw [hres] at h; simp at h
    | some res =>
      rw [hres] at h
      cases res with
      | error e => simp at h
      | ok p =>
        obtain ⟨st, off⟩ := p
        simp only [Option.some.injEq, Except.ok.injEq] at h
        refine ⟨st, af, off, ?_, rfl, h.symm⟩
        simp only [DB.scannedRecords, haf]
        exact loadIndexFiles_processAll db0 af db0.fileIds _ _ _ hres

theorem scannedRecords_congr (a b : DB) (af : DataFile) (w : Int)
    (h1 : a.activeFile = some af) (h2 : b.activeFile = some { af with WriteOff := w })
    (h3 : a.fileIds = b.fileIds) (h4 : a.olderFiles = b.olderFiles) (h5 : a.disk = b.disk) :
    a.scannedRecords = b.scannedRecords := by
  simp only [DB.scannedRecords, h1, h2, h3, h4, h5]
  congr 1
  funext fid
  by_cases hf : af.FileId = toUint32 fid
  · simp only [if_pos hf]
  · simp only [if_neg hf]

/-! ## Sequence numbers -/

theorem updateIndex_currentSeqNo (st : LoadState) (k : Bytes) (t : LogRecordType)
    (p : LogRecordPos) (st1 : LoadState) (h : updateIndex st k t p = some st1) :
    st1.currentSeqNo = st.currentSeqNo ∧ st1.transactionRecords = st.transactionRecords := by
  simp only [updateIndex] at h
  split at h
  · split at h
    · simp at h
    · simp only [Option.some.injEq] at h
      subst h
      exact ⟨rfl, rfl⟩
  · split at h
    · simp only [Option.some.injEq] at h
      subst h
      exact ⟨rfl, rfl⟩
    · simp only [Option.some.injEq] at h
      subst h
      exact ⟨rfl, rfl⟩

theorem applyTxnRecords_currentSeqNo (l : List TransactionRecord) :
    ∀ (st st1 : LoadState), applyTxnRecords l st = some st1 →
      st1.currentSeqNo = st.currentSeqNo ∧ st1.transactionRecords = st.transactionRecords := by
  induction l with
  | nil =>
    intro st st1 h
    simp only [applyTxnRecords, Option.some.injEq] at h
    subst h
    exact ⟨rfl, rfl⟩
  | cons t rest ih =>
    intro st st1 h
    simp only [applyTxnRecords] at h
    cases hu : updateIndex st t.Record.Key t.Record.Typ t.Pos with
    | none => rw [hu] at h; simp at h
    | some s1 =>
      rw [hu] at h
      obtain ⟨a1, a2⟩ := updateIndex_currentSeqNo _ _ _ _ _ hu
      obtain ⟨b1, b2⟩ := ih _ _ h
      exact ⟨b1.trans a1, b2.trans a2⟩

/-- One step of the scan leaves in `currentSeqNo` the larger of its former value and
the sequence number the record carries. -/
theorem processRecord_currentSeqNo (st : LoadState) (r : LogRecord) (p : LogRecordPos)
    (st1 : LoadState) (h : processRecord st r p = some st1) :
    st1.currentSeqNo = max st.currentSeqNo (seqNoOf r) := by
  simp only [processRecord] at h
  cases hp : parseLogRecordKey r.Key with
  | none => rw [hp] at h; simp at h
  | some kq =>
    obtain ⟨k, q⟩ := kq
    have hq := parseLogRecordKey_seqNo r k q hp
    rw [hp] at h
    simp only at h
    have key : ∀ (c : Nat) (A B : LoadState), c = st.currentSeqNo → A.currentSeqNo = q →
        B.currentSeqNo = c →
        (if q > c then A else B).currentSeqNo = max st.currentSeqNo (seqNoOf r) := by
      intro c A B hc hA hB
      rw [hq]
      split
      · rw [hA]
        omega
      · rw [hB]
        omega
    by_cases h0 : q = nonTransactionSeqNo
    · rw [if_pos h0] at h
      cases hu : updateIndex st k r.Typ p with
      | none => rw [hu] at h; simp at h
      | some s1 =>
        rw [hu] at h
        simp only [Option.some.injEq] at h
        rw [← h]
        exact key _ _ _ (updateIndex_currentSeqNo _ _ _ _ _ hu).1 rfl rfl
    · rw [if_neg h0] at h
      by_cases hf : r.Typ = LogRecordTxnFinished
      · rw [if_pos hf] at h
        cases ha : applyTxnRecords (txnGet st.transactionRecords q) st with
        | none => rw [ha] at h; simp at h
        | some s1 =>
          rw [ha] at h
          simp only [Option.some.injEq] at h
          rw [← h]
          exact key _ _ _ (applyTxnRecords_currentSeqNo _ _ _ ha).1 rfl rfl
      · rw [if_neg hf] at h
        simp only [Option.some.injEq] at h
        rw [← h]
        exact key _ _ _ rfl rfl rfl

/-- After the fold over a list of records `currentSeqNo` is the largest of its former
value and the sequence numbers the records carry. -/
theorem processAll_currentSeqNo (l : List (LogRecord × LogRecordPos)) :
    ∀ (st st1 : LoadState), processAll l st = some st1 →
      st.currentSeqNo ≤ st1.currentSeqNo ∧
      (∀ e ∈ l, seqNoOf e.1 ≤ st1.currentSeqNo) ∧
      (st1.currentSeqNo = st.currentSeqNo ∨ ∃ e ∈ l, seqNoOf e.1 = st1.currentSeqNo) := by
  induction l with
  | nil =>
    intro st st1 h
    simp only [processAll, Option.some.injEq] at h
    subst h
    exact ⟨le_refl _, fun e he => absurd he (List.not_mem_nil e), Or.inl rfl⟩
  | cons x rest ih =>
    intro st st1 h
    simp only [processAll] at h
    cases hp : processRecord st x.1 x.2 with
    | none => rw [hp] at h; simp at h
    | some s1 =>
      rw [hp] at h
      have h1 := processRecord_currentSeqNo _ _ _ _ hp
      obtain ⟨i1, i2, i3⟩ := ih _ _ h
      refine ⟨by omega, ?_, ?_⟩
      · intro e he
        rcases List.mem_cons.mp he with e1 | e1
        · subst e1
          omega
        · exact i2 e e1
      · rcases i3 with e | ⟨e, he, hs⟩
        · by_cases hc : seqNoOf x.1 ≤ st.currentSeqNo
          · left; omega
          · right
            exact ⟨x, List.mem_cons_self _ _, by omega⟩
        · right
          exact ⟨e, List.mem_cons_of_mem _ he, hs⟩

theorem loadDataFilesLoop_seqNo (ids : List Int) :
    ∀ db : DB, (loadDataFilesLoop ids db).seqNo = db.seqNo ∧
      (loadDataFilesLoop ids db).index = db.index ∧
      (loadDataFilesLoop ids db).reclaimSize = db.reclaimSize ∧
      (loadDataFilesLoop ids db).fileIds = db.fileIds ∧
      (loadDataFilesLoop ids db).options = db.options := by
  induction ids with
  | nil => intro db; exact ⟨rfl, rfl, rfl, rfl, rfl⟩
  | cons fid rest ih =>
    intro db
    cases rest with
    | nil =>
      rw [loadDataFilesLoop_single]
      exact ⟨rfl, rfl, rfl, rfl, rfl⟩
    | cons a l =>
      rw [loadDataFilesLoop_cons2]
      exact ih _

/-- After a successful recovery that started with `seqNo = 0` the engine's `seqNo` is
the largest sequence number carried by a scanned record, 0 when there is none. -/
theorem loadIndexFromDataFiles_seqNo (db0 db : DB)
    (h : db0.loadIndexFromDataFiles = some (.ok db)) (h0 : db0.seqNo = 0) :
    (∀ e ∈ db.scannedRecords, seqNoOf e.1 ≤ db.seqNo) ∧
    (db.seqNo = 0 ∨ ∃ e ∈ db.scannedRecords, seqNoOf e.1 = db.seqNo) := by
  by_cases hne : db0.fileIds = []
  · simp only [DB.loadIndexFromDataFiles, hne, List.length_nil, ↓reduceIte,
      Option.some.injEq, Except.ok.injEq] at h
    subst h
    have hr : db0.scannedRecords = [] := by
      simp only [DB.scannedRecords, hne, List.flatMap_nil]
      split <;> rfl
    rw [hr, h0]
    exact ⟨fun e he => absurd he (List.not_mem_nil e), Or.inl rfl⟩
  · obtain ⟨st, af, off, hp, haf, hdb⟩ := loadIndexFromDataFiles_processAll _ _ h hne
    have hrec : db.scannedRecords = db0.scannedRecords := by
      exact (scannedRecords_congr db0 db af off haf (by rw [hdb]) (by rw [hdb]) (by rw [hdb])
        (by rw [hdb])).symm
    obtain ⟨_, i2, i3⟩ := processAll_currentSeqNo _ _ _ hp
    have hs : db.seqNo = st.currentSeqNo := by rw [hdb]
    rw [hrec, hs]
    refine ⟨i2, ?_⟩
    rcases i3 with e | e
    · left; rw [e]; rfl
    · right; exact e

/-- After `Open` the engine's `seqNo` is the largest sequence number carried by a
scanned record, 0 when there is none. -/
theorem Open_seqNo (options : Options) (disk : Disk) (db : DB)
    (h : Open options disk = some (.ok db)) :
    (∀ e ∈ db.scannedRecords, seqNoOf e.1 ≤ db.seqNo) ∧
    (db.seqNo = 0 ∨ ∃ e ∈ db.scannedRecords, seqNoOf e.1 = db.seqNo) := by
  simp only [Open] at h
  split at h
  · simp at h
  · exact loadIndexFromDataFiles_seqNo _ _ h (loadDataFilesLoop_seqNo _ _).1
/-- A successful `Commit` of a non-empty batch is the sequence of appends of the
records of the batch followed by the second loop of `Commit`. -/
theorem Commit_ok_appends (wb : WriteBatch) (db : DB) (hne : wb.pendingWrites ≠ [])
    (hok : (wb.Commit db).2 = none) :
    ∃ (dbA : DB) (ps : List LogRecordPos) (positions : List (Bytes × LogRecordPos)),
      appendEach { db with seqNo := (db.seqNo + 1) % 2 ^ 64 }
        (batchRecords ((db.seqNo + 1) % 2 ^ 64) wb.pendingWrites) = (dbA, .ok ps) ∧
      ps.length = wb.pendingWrites.length + 1 ∧
      (wb.Commit db).1.1 = commitApply positions wb.pendingWrites dbA ∧
      (wb.Commit db).1.2.pendingWrites = [] := by
  have h0 : ¬ wb.pendingWrites.length = 0 := fun e => hne (List.length_eq_zero.mp e)
  unfold WriteBatch.Commit at hok ⊢
  rw [if_neg h0] at hok ⊢
  by_cases h1 : wb.pendingWrites.length > wb.options.MaxBatchNum
  · rw [if_pos h1] at hok
    simp at hok
  · rw [if_neg h1] at hok ⊢
    dsimp only at hok ⊢
    cases hca : commitAppend ((db.seqNo + 1) % 2 ^ 64) wb.pendingWrites
        { db with seqNo := (db.seqNo + 1) % 2 ^ 64 } [] with
    | mk db1 e =>
      try rw [hca] at hok
      try rw [hca]
      cases e with
      | error err => simp at hok
      | ok positions =>
        dsimp only at hok ⊢
        obtain ⟨ps, c1, c2⟩ := commitAppend_ok _ _ _ _ _ _ hca
        have hsnoc := appendEach_snoc _
          { Key := PutUvarint ((db.seqNo + 1) % 2 ^ 64) ++ txnFinKey, Value := [],
            Typ := LogRecordTxnFinished } _ _ _ c2
        simp only [logRecordKeyWithSeq] at hok ⊢
        cases hfin : db1.appendLogRecord
            { Key := PutUvarint ((db.seqNo + 1) % 2 ^ 64) ++ txnFinKey, Value := [],
              Typ := LogRecordTxnFinished } with
        | mk db2 e2 =>
          try rw [hfin] at hok
          try rw [hfin] at hsnoc
          try rw [hfin]
          cases e2 with
          | error err => simp at hok
          | ok p =>
            dsimp only at hsnoc ⊢
            refine ⟨db2, ps ++ [p], positions, hsnoc, ?_, rfl, rfl⟩
            simp [c1]

/-- The `seqNo` of the engine after a successful `Commit` of a non-empty batch. -/
theorem Commit_seqNo (wb : WriteBatch) (db : DB) (hne : wb.pendingWrites ≠ [])
    (hok : (wb.Commit db).2 = none) :
    (wb.Commit db).1.1.seqNo = (db.seqNo + 1) % 2 ^ 64 := by
  obtain ⟨dbA, ps, positions, h1, _, h3, _⟩ := Commit_ok_appends wb db hne hok
  rw [h3, (commitApply_files positions wb.pendingWrites dbA).2.2.2.1]
  have := (appendEach_index (batchRecords ((db.seqNo + 1) % 2 ^ 64) wb.pendingWrites)
    { db with seqNo := (db.seqNo + 1) % 2 ^ 64 }).2
  rw [h1] at this
  exact this
/-! ## Records stay where they were appended -/

theorem encodeRecord_ne_nil (r : LogRecord) : encodeRecord r ≠ [] := by
  intro h
  have := congrArg List.length h
  rw [encodeRecord_length] at this
  simp at this

/-- Reading at a position that stores a record returns its value. -/
theorem getValueByPosition_stored (db : DB) (pos : LogRecordPos) (r : LogRecord)
    (hf : r.Framed) (h : db.HasRecordAt pos r) :
    db.getValueByPosition pos =
      if r.Typ = LogRecordDeleted then .error .KeyNotFound else .ok r.Value := by
  obtain ⟨⟨pre, post, hb, ho⟩, af, df, haf, hdf, hid⟩ := h
  have hread : ReadLogRecord (db.disk.bytes df.FileId) pos.Offset =
      .ok (r, ((encodeRecord r).length : Int)) := by
    rw [hid, hb, ho]
    exact ReadLogRecord_head r hf pre post
  simp only [DB.getValueByPosition, haf, hdf, hread]

theorem olderGet_olderSet_self (o : List (Nat × DataFile)) (fid : Nat) (df : DataFile) :
    olderGet (olderSet o fid df) fid = some df := by
  rw [olderGet_olderSet]
  simp

theorem olderGet_olderSet_other (o : List (Nat × DataFile)) (fid f : Nat) (df : DataFile)
    (h : f ≠ fid) : olderGet (olderSet o fid df) f = olderGet o f := by
  rw [olderGet_olderSet]
  simp [h]

/-- An append leaves every stored record where it is. -/
theorem HasRecordAt_append (db : DB) (pos : LogRecordPos) (r r2 : LogRecord)
    (h : db.HasRecordAt pos r) : (db.appendLogRecord r2).1.HasRecordAt pos r := by
  obtain ⟨⟨pre, post, hb, ho⟩, af, df, haf, hdf, hid⟩ := h
  cases henc : EncodeLogRecord r2 with
  | none =>
    have : (db.appendLogRecord r2).1 = db := by
      simp only [DB.appendLogRecord, haf, henc, Option.isNone_some, Bool.false_eq_true,
        ↓reduceIte]
    rw [this]
    exact ⟨⟨pre, post, hb, ho⟩, af, df, haf, hdf, hid⟩
  | some p =>
    obtain ⟨enc, size⟩ := p
    rw [appendLogRecord_active db r2 enc size af haf henc]
    by_cases hrot : af.WriteOff + (size : Int) > db.options.DataFileSize
    · rw [if_pos hrot]
      refine ⟨?_, ?_⟩
      · simp only
        by_cases hp : pos.Fid = (af.FileId + 1) % 2 ^ 32
        · rw [hp, Disk.bytes_write_self _ _ _ (Disk.contents_openFile_self _ _),
            Disk.bytes_openFile, ← hp, hb]
          exact ⟨pre, post ++ enc, by simp, ho⟩
        · rw [Disk.bytes_write_other _ _ _ _ hp, Disk.bytes_openFile, hb]
          exact ⟨pre, post, rfl, ho⟩
      · simp only
        by_cases hp : (af.FileId + 1) % 2 ^ 32 = pos.Fid
        · exact ⟨_, _, rfl, by rw [if_pos hp], hp⟩
        · by_cases ha : af.FileId = pos.Fid
          · refine ⟨_, af, rfl, ?_, ha⟩
            rw [if_neg hp, ← ha, olderGet_olderSet_self]
          · refine ⟨_, df, rfl, ?_, hid⟩
            rw [if_neg ha] at hdf
            rw [if_neg hp, olderGet_olderSet_other _ _ _ _ (fun e => ha e.symm)]
            exact hdf
    · rw [if_neg hrot]
      refine ⟨?_, ?_⟩
      · simp only
        by_cases hp : pos.Fid = af.FileId
        · have hex : (db.disk.contents af.FileId).isSome = true := by
            by_contra hno
            have hnone : db.disk.contents af.FileId = none := by
              simpa using hno
            have : db.disk.bytes pos.Fid = [] := by
              rw [hp]
              simp [Disk.bytes, hnone]
            rw [this] at hb
            have := congrArg List.length hb
            simp only [List.length_nil, List.length_append, encodeRecord_length] at this
            omega
          rw [hp, Disk.bytes_write_self _ _ _ hex, ← hp, hb]
          exact ⟨pre, post ++ enc, by simp, ho⟩
        · rw [Disk.bytes_write_other _ _ _ _ hp, hb]
          exact ⟨pre, post, rfl, ho⟩
      · simp only
        by_cases ha : af.FileId = pos.Fid
        · exact ⟨_, _, rfl, if_pos ha, ha⟩
        · rw [if_neg ha] at hdf
          exact ⟨_, df, rfl, by rw [if_neg ha]; exact hdf, hid⟩

theorem HasRecordAt_congr (a b : DB) (pos : LogRecordPos) (r : LogRecord)
    (h1 : a.disk = b.disk) (h2 : a.activeFile = b.activeFile) (h3 : a.olderFiles = b.olderFiles)
    (h : a.HasRecordAt pos r) : b.HasRecordAt pos r := by
  simp only [DB.HasRecordAt] at h ⊢
  rw [← h1, ← h2, ← h3]
  exact h

theorem RoomFor_congr (a b : DB) (n : Nat)
    (h1 : a.disk = b.disk) (h2 : a.activeFile = b.activeFile)
    (h : a.RoomFor n) : b.RoomFor n := by
  simp only [DB.RoomFor] at h ⊢
  rw [← h1, ← h2]
  exact h

theorem RoomFor_mono (db : DB) (n m : Nat) (hle : m ≤ n) (h : db.RoomFor n) : db.RoomFor m := by
  simp only [DB.RoomFor] at h ⊢
  refine ⟨by omega, ?_⟩
  cases haf : db.activeFile with
  | none =>
    rw [haf] at h
    exact fun j hj => h.2 j (by omega)
  | some af =>
    rw [haf] at h
    exact ⟨h.2.1, h.2.2.1, fun j h1 h2 => h.2.2.2 j h1 (by omega)⟩

/-- An append of a framed record in a state with room for `n + 1` appends returns the
position at which the record is stored and leaves room for `n` appends. -/
theorem appendLogRecord_stored_active (db : DB) (n : Nat) (af : DataFile)
    (haf : db.activeFile = some af) (hroom : db.RoomFor (n + 1))
    (r : LogRecord) (hf : r.Framed) :
    ∃ pos, (db.appendLogRecord r).2 = .ok pos ∧
      (db.appendLogRecord r).1.HasRecordAt pos r ∧ (db.appendLogRecord r).1.RoomFor n ∧
      pos.Size = (encodeRecord r).length % 2 ^ 32 := by
  have henc := EncodeLogRecord_framed r hf
  simp only [DB.RoomFor, haf] at hroom
  obtain ⟨hn, hex, hoff, hnext⟩ := hroom
  rw [appendLogRecord_active db r _ _ af haf henc]
  by_cases hrot : af.WriteOff + (((encodeRecord r).length : Nat) : Int) > db.options.DataFileSize
  · rw [if_pos hrot]
    refine ⟨_, rfl, ⟨⟨[], [], ?_, rfl⟩, _, _, rfl, if_pos rfl, rfl⟩, ?_, rfl⟩
    · simp only
      rw [Disk.bytes_write_self _ _ _ (Disk.contents_openFile_self _ _), Disk.bytes_openFile,
        hnext 1 (le_refl _) (by omega)]
      simp
    · simp only [DB.RoomFor]
      refine ⟨by omega, ?_, ?_, ?_⟩
      · rw [Disk.contents_write_isSome]
        exact Disk.contents_openFile_self _ _
      · rw [Disk.bytes_write_self _ _ _ (Disk.contents_openFile_self _ _), Disk.bytes_openFile,
          hnext 1 (le_refl _) (by omega)]
        simp
      · intro j h1 h2
        have hne : ((af.FileId + 1) % 2 ^ 32 + j) % 2 ^ 32 ≠ (af.FileId + 1) % 2 ^ 32 := by
          omega
        rw [Disk.bytes_write_other _ _ _ _ hne, Disk.bytes_openFile]
        have := hnext (1 + j) (by omega) (by omega)
        have e : ((af.FileId + 1) % 2 ^ 32 + j) % 2 ^ 32 = (af.FileId + (1 + j)) % 2 ^ 32 := by
          omega
        rw [e]
        exact this
  · rw [if_neg hrot]
    refine ⟨_, rfl, ⟨⟨db.disk.bytes af.FileId, [], ?_, hoff⟩, _, _, rfl, if_pos rfl, rfl⟩,
      ?_, rfl⟩
    · simp only
      rw [Disk.bytes_write_self _ _ _ hex]
      simp
    · simp only [DB.RoomFor]
      refine ⟨by omega, ?_, ?_, ?_⟩
      · rw [Disk.contents_write_isSome]
        exact hex
      · rw [Disk.bytes_write_self _ _ _ hex, hoff]
        simp
      · intro j h1 h2
        by_cases hne : (af.FileId + j) % 2 ^ 32 = af.FileId
        · exfalso
          omega
        · rw [Disk.bytes_write_other _ _ _ _ hne]
          exact hnext j h1 (by omega)

theorem appendLogRecord_stored (db : DB) (n : Nat) (hroom : db.RoomFor (n + 1))
    (r : LogRecord) (hf : r.Framed) :
    ∃ pos, (db.appendLogRecord r).2 = .ok pos ∧
      (db.appendLogRecord r).1.HasRecordAt pos r ∧ (db.appendLogRecord r).1.RoomFor n ∧
      pos.Size = (encodeRecord r).length % 2 ^ 32 := by
  cases haf : db.activeFile with
  | some af => exact appendLogRecord_stored_active db n af haf hroom r hf
  | none =>
    rw [appendLogRecord_noactive db r haf]
    simp only [DB.RoomFor, haf] at hroom
    apply appendLogRecord_stored_active _ n { FileId := 0, WriteOff := 0 } rfl _ r hf
    simp only [DB.RoomFor]
    refine ⟨hroom.1, Disk.contents_openFile_self _ _, ?_, ?_⟩
    · rw [Disk.bytes_openFile, hroom.2 0 (by omega)]
      rfl
    · intro j h1 h2
      rw [Disk.bytes_openFile]
      have : (0 + j) % 2 ^ 32 = j := by omega
      rw [this]
      exact hroom.2 j h2
/-! ## What a `Commit` leaves in the index -/

theorem PutUvarint_length_le10 (x : Nat) : (PutUvarint x).length ≤ 10 := by
  simp only [PutUvarint]
  apply putUvarintLoop_length_le 9 _ 9
  have := Nat.mod_lt x (show 0 < 2 ^ 64 by norm_num)
  have h2 : (2 : Nat) ^ 64 ≤ 2 ^ (7 * (9 + 1)) := Nat.pow_le_pow_right (by decide) (by decide)
  omega

theorem logRecordKeyWithSeq_framed (s : Nat) (key value : Bytes) (t : LogRecordType)
    (hk : key.length + 10 < 2 ^ 32) (hv : value.length < 2 ^ 32) :
    LogRecord.Framed { Key := logRecordKeyWithSeq key s, Value := value, Typ := t } := by
  have h1 := PutUvarint_length_pos s
  have h2 := PutUvarint_length_le10 s
  refine ⟨?_, ?_, hv⟩
  · intro h
    have := congrArg List.length h
    simp only [logRecordKeyWithSeq, List.length_append, List.length_nil] at this
    omega
  · simp only [logRecordKeyWithSeq, List.length_append]
    omega

/-- The first loop of `Commit` in a state with room for its appends: every append
succeeds, and the map of positions holds for every buffered record the position at
which its record is stored. -/
theorem commitAppend_stored (s : Nat) (pending : List (Bytes × LogRecord)) :
    ∀ (db : DB) (positions : List (Bytes × LogRecordPos)) (m : Nat) (known : List LogRecord),
      db.RoomFor (pending.length + m) →
      (∀ e ∈ pending, e.2.Key.length + 10 < 2 ^ 32 ∧ e.2.Value.length < 2 ^ 32) →
      (pending.map (fun e => e.2.Key)).Nodup →
      (∀ r ∈ known, r.Key ∉ pending.map (fun e => e.2.Key) ∧
        ∃ p, Index.Get positions r.Key = some p ∧
          db.HasRecordAt p
            { Key := logRecordKeyWithSeq r.Key s, Value := r.Value, Typ := r.Typ }) →
      ∃ db1 positions1, commitAppend s pending db positions = (db1, .ok positions1) ∧
        db1.RoomFor m ∧ db1.index = db.index ∧
        ∀ r, (r ∈ known ∨ r ∈ pending.map (fun e => e.2)) →
          ∃ p, Index.Get positions1 r.Key = some p ∧
            db1.HasRecordAt p
              { Key := logRecordKeyWithSeq r.Key s, Value := r.Value, Typ := r.Typ } := by
  induction pending with
  | nil =>
    intro db positions m known hroom _ _ hknown
    refine ⟨db, positions, rfl, ?_, rfl, ?_⟩
    · simpa using hroom
    · intro r hr
      rcases hr with hr | hr
      · exact (hknown r hr).2
      · simp at hr
  | cons x rest ih =>
    intro db positions m known hroom hsize hnd hknown
    obtain ⟨k, record⟩ := x
    have hs := hsize (k, record) (List.mem_cons_self _ _)
    have hfr := logRecordKeyWithSeq_framed s record.Key record.Value record.Typ hs.1 hs.2
    have hroom1 : db.RoomFor (rest.length + m + 1) := by
      have : (List.length ((k, record) :: rest)) + m = rest.length + m + 1 := by
        simp only [List.length_cons]; omega
      rw [this] at hroom
      exact hroom
    obtain ⟨pos, hpos, hst, hroom2, _⟩ := appendLogRecord_stored db (rest.length + m) hroom1 _ hfr
    have hidx := (appendLogRecord_index db
      { Key := logRecordKeyWithSeq record.Key s, Value := record.Value, Typ := record.Typ }).1
    simp only [List.map_cons, List.nodup_cons] at hnd
    simp only [commitAppend]
    cases hres : db.appendLogRecord
        { Key := logRecordKeyWithSeq record.Key s, Value := record.Value, Typ := record.Typ } with
    | mk d e =>
      rw [hres] at hpos hst hroom2 hidx
      simp only at hpos hst hroom2 hidx
      subst hpos
      simp only
      obtain ⟨db1, positions1, h1, h2, h3, h4⟩ := ih d (Index.insert positions record.Key pos) m
        (known ++ [record]) hroom2 (fun e he => hsize e (List.mem_cons_of_mem _ he)) hnd.2
        (by
          intro r hr
          rcases List.mem_append.mp hr with hr | hr
          · obtain ⟨hn, p, hp, hh⟩ := hknown r hr
            simp only [List.map_cons, List.mem_cons, not_or] at hn
            refine ⟨hn.2, p, ?_, ?_⟩
            · rw [Index.Get_insert_other _ _ _ _ hn.1]
              exact hp
            · have := HasRecordAt_append db p _
                { Key := logRecordKeyWithSeq record.Key s, Value := record.Value,
                  Typ := record.Typ } hh
              rw [hres] at this
              exact this
          · simp only [List.mem_singleton] at hr
            subst hr
            exact ⟨hnd.1, pos, Index.Get_insert_self _ _ _, hst⟩)
      refine ⟨db1, positions1, h1, h2, h3.trans hidx, ?_⟩
      intro r hr
      apply h4
      rcases hr with hr | hr
      · left; exact List.mem_append_left _ hr
      · simp only [List.map_cons, List.mem_cons] at hr
        rcases hr with hr | hr
        · left
          rw [hr]
          exact List.mem_append_right _ (List.mem_singleton_self _)
        · right; exact hr

theorem commitApply_step (positions : List (Bytes × LogRecordPos)) (k : Bytes)
    (record : LogRecord) (rest : List (Bytes × LogRecord)) (db : DB) :
    ∃ db1 : DB, commitApply positions ((k, record) :: rest) db = commitApply positions rest db1 ∧
      db1.index =
        (if record.Typ = LogRecordDeleted then
          Index.erase (if record.Typ = LogRecordNormal then
              Index.insert db.index record.Key
                ((Index.Get positions record.Key).getD { Fid := 0, Offset := 0, Size := 0 })
            else db.index) record.Key
        else if record.Typ = LogRecordNormal then
          Index.insert db.index record.Key
            ((Index.Get positions record.Key).getD { Fid := 0, Offset := 0, Size := 0 })
        else db.index) := by
  simp only [commitApply]
  split
  · refine ⟨_, rfl, ?_⟩
    simp only [Index.Delete, Index.Put]
    by_cases hd : record.Typ = LogRecordDeleted
    · simp only [if_pos hd]
      by_cases hn : record.Typ = LogRecordNormal <;> simp only [hn, ↓reduceIte]
    · simp only [if_neg hd]
      by_cases hn : record.Typ = LogRecordNormal <;> simp only [hn, ↓reduceIte]
  · refine ⟨_, rfl, ?_⟩
    simp only [Index.Delete, Index.Put]
    by_cases hd : record.Typ = LogRecordDeleted
    · simp only [if_pos hd]
      by_cases hn : record.Typ = LogRecordNormal <;> simp only [hn, ↓reduceIte]
    · simp only [if_neg hd]
      by_cases hn : record.Typ = LogRecordNormal <;> simp only [hn, ↓reduceIte]

theorem commitApply_Get_other (positions : List (Bytes × LogRecordPos))
    (pending : List (Bytes × LogRecord)) :
    ∀ (db : DB) (key : Bytes), key ∉ pending.map (fun e => e.2.Key) →
      (commitApply positions pending db).index.Get key = db.index.Get key := by
  induction pending with
  | nil => intro db key _; rfl
  | cons x rest ih =>
    intro db key hk
    obtain ⟨k, record⟩ := x
    simp only [List.map_cons, List.mem_cons, not_or] at hk
    obtain ⟨db1, h1, h2⟩ := commitApply_step positions k record rest db
    rw [h1, ih db1 key hk.2, h2]
    by_cases hd : record.Typ = LogRecordDeleted
    · rw [if_pos hd, Index.Get_erase_other _ _ _ hk.1]
      by_cases hn : record.Typ = LogRecordNormal
      · rw [if_pos hn, Index.Get_insert_other _ _ _ _ hk.1]
      · rw [if_neg hn]
    · rw [if_neg hd]
      by_cases hn : record.Typ = LogRecordNormal
      · rw [if_pos hn, Index.Get_insert_other _ _ _ _ hk.1]
      · rw [if_neg hn]

/-- The second loop of `Commit` on a buffer without repeated keys: a `Normal` record
leaves its key at the stored position, a `Deleted` record leaves its key absent. -/
theorem commitApply_Get (positions : List (Bytes × LogRecordPos))
    (pending : List (Bytes × LogRecord)) :
    ∀ (db : DB), (pending.map (fun e => e.2.Key)).Nodup →
      ∀ e ∈ pending,
        (e.2.Typ = LogRecordNormal →
          (commitApply positions pending db).index.Get e.2.Key =
            some ((Index.Get positions e.2.Key).getD { Fid := 0, Offset := 0, Size := 0 })) ∧
        (e.2.Typ = LogRecordDeleted →
          (commitApply positions pending db).index.Get e.2.Key = none) := by
  induction pending with
  | nil => intro db _ e he; exact absurd he (List.not_mem_nil e)
  | cons x rest ih =>
    intro db hnd e he
    obtain ⟨k, record⟩ := x
    simp only [List.map_cons, List.nodup_cons] at hnd
    obtain ⟨db1, h1, h2⟩ := commitApply_step positions k record rest db
    rw [h1]
    rcases List.mem_cons.mp he with he | he
    · subst he
      simp only
      rw [commitApply_Get_other positions rest db1 record.Key hnd.1, h2]
      constructor
      · intro hn
        have hd : ¬ record.Typ = LogRecordDeleted := by rw [hn]; decide
        rw [if_neg hd, if_pos hn, Index.Get_insert_self]
      · intro hd
        rw [if_pos hd, Index.Get_erase_self]
    · exact ih db1 hnd.2 e he

theorem pendingGet_mem (m : List (Bytes × LogRecord)) (k : Bytes) (r : LogRecord)
    (h : pendingGet m k = some r) : (k, r) ∈ m := by
  induction m with
  | nil => simp [pendingGet] at h
  | cons x rest ih =>
    obtain ⟨k0, r0⟩ := x
    simp only [pendingGet] at h
    by_cases hk : k0 = k
    · rw [if_pos hk] at h
      simp only [Option.some.injEq] at h
      rw [hk, h]
      exact List.mem_cons_self _ _
    · rw [if_neg hk] at h
      exact List.mem_cons_of_mem _ (ih h)

theorem Buffered_keys (wb : WriteBatch) (h : wb.Buffered) :
    wb.pendingWrites.map (fun e => e.2.Key) = wb.pendingWrites.map (fun e => e.1) := by
  apply List.map_congr_left
  intro e he
  exact (h.2 e he).1

/-- A successful `Commit` in a state with room for its appends: every buffered
`Normal` record is read back by `Get`, every buffered `Deleted` record leaves its key
absent. -/
theorem Commit_then_Get (db : DB) (wb : WriteBatch)
    (hroom : db.RoomFor (wb.pendingWrites.length + 1)) (hbuf : wb.Buffered)
    (hsize : ∀ e ∈ wb.pendingWrites, e.1.length + 10 < 2 ^ 32 ∧ e.2.Value.length < 2 ^ 32)
    (hok : (wb.Commit db).2 = none) :
    (∀ k v, pendingGet wb.pendingWrites k = some { Key := k, Value := v, Typ := LogRecordNormal } →
      (wb.Commit db).1.1.Get k = .ok v) ∧
    (∀ k v, pendingGet wb.pendingWrites k = some { Key := k, Value := v, Typ := LogRecordDeleted } →
      (wb.Commit db).1.1.Get k = .error .KeyNotFound) := by
  by_cases h0 : wb.pendingWrites.length = 0
  · have hnil : wb.pendingWrites = [] := List.length_eq_zero.mp h0
    rw [hnil]
    constructor <;> intro k v h <;> simp [pendingGet] at h
  · have hkeys := Buffered_keys wb hbuf
    have hnd : (wb.pendingWrites.map (fun e => e.2.Key)).Nodup := by rw [hkeys]; exact hbuf.1
    have hsize2 : ∀ e ∈ wb.pendingWrites,
        e.2.Key.length + 10 < 2 ^ 32 ∧ e.2.Value.length < 2 ^ 32 := by
      intro e he
      rw [(hbuf.2 e he).1]
      exact hsize e he
    obtain ⟨s, hs⟩ : ∃ s, s = (db.seqNo + 1) % 2 ^ 64 := ⟨_, rfl⟩
    obtain ⟨fin, hfe⟩ : ∃ fin : LogRecord,
        fin = ⟨logRecordKeyWithSeq txnFinKey s, [], LogRecordTxnFinished⟩ := ⟨_, rfl⟩
    obtain ⟨db1, positions1, c1, c2, _, c4⟩ := commitAppend_stored s
      wb.pendingWrites { db with seqNo := s } [] 1 [] hroom hsize2 hnd
      (fun r hr => absurd hr (List.not_mem_nil r))
    have hfin : fin.Framed := by
      rw [hfe]
      exact logRecordKeyWithSeq_framed s txnFinKey [] LogRecordTxnFinished (by decide) (by decide)
    obtain ⟨pfin, f1, _, _, _⟩ := appendLogRecord_stored db1 0 c2 fin hfin
    have hcommit : (wb.Commit db).1.1 =
        commitApply positions1 wb.pendingWrites (db1.appendLogRecord fin).1 := by
      unfold WriteBatch.Commit
      rw [if_neg h0]
      by_cases h1 : wb.pendingWrites.length > wb.options.MaxBatchNum
      · unfold WriteBatch.Commit at hok
        rw [if_neg h0, if_pos h1] at hok
        simp at hok
      · rw [if_neg h1]
        dsimp only
        rw [← hs, c1]
        dsimp only
        rw [← hfe]
        cases hres : db1.appendLogRecord fin with
        | mk d e =>
          rw [hres] at f1
          simp only at f1
          subst f1
          rfl
    have hstored : ∀ e ∈ wb.pendingWrites, ∃ p, Index.Get positions1 e.2.Key = some p ∧
        (wb.Commit db).1.1.HasRecordAt p
          { Key := logRecordKeyWithSeq e.2.Key s, Value := e.2.Value, Typ := e.2.Typ } := by
      intro e he
      obtain ⟨p, hp, hh⟩ := c4 e.2 (Or.inr (List.mem_map_of_mem _ he))
      refine ⟨p, hp, ?_⟩
      rw [hcommit]
      have h2 := HasRecordAt_append db1 p _ fin hh
      obtain ⟨e1, e2, e3, _, _⟩ := commitApply_files positions1 wb.pendingWrites
        (db1.appendLogRecord fin).1
      exact HasRecordAt_congr _ _ _ _ e3.symm e2.symm e1.symm h2
    constructor
    · intro k v hget
      have hmem := pendingGet_mem _ _ _ hget
      obtain ⟨hk1, hk2, _⟩ := hbuf.2 _ hmem
      obtain ⟨p, hp, hh⟩ := hstored _ hmem
      have hidx := (commitApply_Get positions1 wb.pendingWrites
        (db1.appendLogRecord fin).1 hnd _ hmem).1 rfl
      rw [← hcommit] at hidx
      simp only at hidx hp hh
      rw [hp] at hidx
      have hk0 : ¬ k.length = 0 := fun e => hk2 (List.length_eq_zero.mp e)
      simp only [DB.Get, if_neg hk0, hidx, Option.getD_some]
      rw [getValueByPosition_stored _ _ _
        (logRecordKeyWithSeq_framed _ _ _ _ (hsize2 _ hmem).1 (hsize2 _ hmem).2) hh]
      have hnd2 : ¬ (LogRecordNormal = LogRecordDeleted) := by decide
      exact if_neg hnd2
    · intro k v hget
      have hmem := pendingGet_mem _ _ _ hget
      obtain ⟨hk1, hk2, _⟩ := hbuf.2 _ hmem
      have hidx := (commitApply_Get positions1 wb.pendingWrites
        (db1.appendLogRecord fin).1 hnd _ hmem).2 rfl
      rw [← hcommit] at hidx
      simp only at hidx
      have hk0 : ¬ k.length = 0 := fun e => hk2 (List.length_eq_zero.mp e)
      simp only [DB.Get, if_neg hk0, hidx]
/-! ## The buffer of a batch is a map -/

theorem pendingSet_keys (m : List (Bytes × LogRecord)) (k : Bytes) (r : LogRecord) :
    (pendingSet m k r).map (fun e => e.1) =
      if k ∈ m.map (fun e => e.1) then m.map (fun e => e.1) else m.map (fun e => e.1) ++ [k] := by
  induction m with
  | nil => simp [pendingSet]
  | cons x rest ih =>
    obtain ⟨k0, r0⟩ := x
    simp only [pendingSet]
    by_cases h : k0 = k
    · subst h
      simp
    · rw [if_neg h]
      simp only [List.map_cons, ih, List.mem_cons]
      have h' : ¬ k = k0 := fun e => h e.symm
      by_cases hm : k ∈ rest.map (fun e => e.1)
      · simp [hm]
      · simp [hm, h']

theorem pendingSet_mem (m : List (Bytes × LogRecord)) (k : Bytes) (r : LogRecord)
    (e : Bytes × LogRecord) (h : e ∈ pendingSet m k r) : e = (k, r) ∨ e ∈ m := by
  induction m with
  | nil =>
    simp only [pendingSet, List.mem_singleton] at h
    exact Or.inl h
  | cons x rest ih =>
    obtain ⟨k0, r0⟩ := x
    simp only [pendingSet] at h
    by_cases hk : k0 = k
    · rw [if_pos hk] at h
      rcases List.mem_cons.mp h with h | h
      · exact Or.inl h
      · exact Or.inr (List.mem_cons_of_mem _ h)
    · rw [if_neg hk] at h
      rcases List.mem_cons.mp h with h | h
      · right
        rw [h]
        exact List.mem_cons_self _ _
      · rcases ih h with h | h
        · exact Or.inl h
        · exact Or.inr (List.mem_cons_of_mem _ h)

theorem pendingSet_pendingSet (m : List (Bytes × LogRecord)) (k : Bytes) (r1 r2 : LogRecord) :
    pendingSet (pendingSet m k r1) k r2 = pendingSet m k r2 := by
  induction m with
  | nil => simp [pendingSet]
  | cons x rest ih =>
    obtain ⟨k0, r0⟩ := x
    simp only [pendingSet]
    by_cases hk : k0 = k
    · simp [hk, pendingSet]
    · simp [hk, pendingSet, ih]

theorem NewWriteBatch_Buffered (opts : WriteBatchOptions) : (NewWriteBatch opts).Buffered :=
  ⟨List.nodup_nil, fun e he => absurd he (List.not_mem_nil e)⟩

theorem Buffered_set (wb : WriteBatch) (h : wb.Buffered) (k : Bytes) (hk : k ≠ [])
    (r : LogRecord) (hr : r.Key = k) (ht : r.Typ = LogRecordNormal ∨ r.Typ = LogRecordDeleted) :
    WriteBatch.Buffered { wb with pendingWrites := pendingSet wb.pendingWrites k r } := by
  constructor
  · simp only
    rw [pendingSet_keys]
    split
    · exact h.1
    · rename_i hm
      exact List.Nodup.append h.1 (List.nodup_singleton _) (by
        intro a ha hb
        simp only [List.mem_singleton] at hb
        subst hb
        exact hm ha)
  · intro e he
    rcases pendingSet_mem _ _ _ _ he with he | he
    · rw [he]
      exact ⟨hr, hk, ht⟩
    · exact h.2 e he

/-- `Put` and `Delete` on a batch keep its buffer a map. -/
theorem Buffered_Put (wb : WriteBatch) (h : wb.Buffered) (k v : Bytes) :
    (wb.Put k v).1.Buffered := by
  simp only [WriteBatch.Put]
  split
  · exact h
  · rename_i hk
    exact Buffered_set wb h k (fun e => hk (by rw [e]; rfl)) _ rfl (Or.inl rfl)

theorem Buffered_Delete (wb : WriteBatch) (h : wb.Buffered) (db : DB) (k : Bytes) :
    (wb.Delete db k).1.Buffered := by
  simp only [WriteBatch.Delete]
  split
  · exact h
  · rename_i hk
    split
    · split
      · constructor
        · simp only [pendingErase]
          exact List.Nodup.sublist (List.Sublist.map _ (List.filter_sublist _)) h.1
        · intro e he
          simp only [pendingErase] at he
          exact h.2 e (List.mem_of_mem_filter he)
      · exact h
    · exact Buffered_set wb h k (fun e => hk (by rw [e]; rfl)) _ rfl (Or.inr rfl)

theorem Commit_empty (wb : WriteBatch) (db : DB) (h : wb.pendingWrites = []) :
    wb.Commit db = ((db, wb), none) := by
  simp only [WriteBatch.Commit, h, List.length_nil, ↓reduceIte]
/-! ## The scan of a segment that holds encoded records -/

theorem toUint32_natCast (n : Nat) : toUint32 (n : Int) = n % 2 ^ 32 := by
  simp only [toUint32]
  omega

/-- The scan of a segment that holds the framed records `rs` after `pre`, started at
the offset `pre.length`: the loop body runs on every record with its position and
the scan ends at the end of the file. -/
theorem scanFile_frames (fileId : Nat) (rs : List LogRecord) :
    ∀ (pre : Bytes) (fuel : Nat) (st : LoadState), rs.length < fuel →
      (∀ r ∈ rs, r.Framed) →
      scanFile (pre ++ encodeAll rs) fileId fuel (pre.length : Int) st =
        match processAll (positionsFrom fileId (pre.length : Int) rs) st with
        | none => some (.error .Panic)
        | some st1 => some (.ok (((pre ++ encodeAll rs).length : Int), st1)) := by
  induction rs with
  | nil =>
    intro pre fuel st hf _
    match fuel, hf with
    | f + 1, _ =>
      simp only [encodeAll, List.append_nil, scanFile, ReadLogRecord_at_end, positionsFrom,
        processAll]
  | cons r rest ih =>
    intro pre fuel st hf hall
    match fuel, hf with
    | f + 1, hf =>
      have hfr := hall r (List.mem_cons_self _ _)
      simp only [encodeAll, scanFile, ReadLogRecord_head r hfr pre (encodeAll rest),
        positionsFrom, processAll]
      cases hp : processRecord st r
          { Fid := fileId, Offset := (pre.length : Int),
            Size := toUint32 ((encodeRecord r).length : Int) } with
      | none => rfl
      | some st1 =>
        simp only
        have := ih (pre ++ encodeRecord r) f st1
          (by simp only [List.length_cons] at hf; omega)
          (fun x hx => hall x (List.mem_cons_of_mem _ hx))
        rw [List.append_assoc] at this
        simp only [List.length_append] at this ⊢
        push_cast at this ⊢
        rw [this]
/-! ## Recovery on a directory of framed segments -/

theorem loadIndexFiles_nil (db : DB) (af : DataFile) (st : LoadState) :
    loadIndexFiles db af [] st = some (.ok (st, 0)) := rfl

/-- The outer loop of recovery over segments that hold framed records: the loop body
runs on all records in scan order. -/
theorem loadIndexFiles_stored (db : DB) (af : DataFile) :
    ∀ (segs : List (List LogRecord)) (i : Nat) (st : LoadState),
      i + segs.length ≤ 2 ^ 32 →
      (∀ j rs, segs[j]? = some rs →
        (∃ df, (if af.FileId = i + j then some af
                else olderGet db.olderFiles (i + j)) = some df ∧ df.FileId = i + j) ∧
        db.disk.bytes (i + j) = encodeAll rs ∧ ∀ r ∈ rs, r.Framed) →
      loadIndexFiles db af ((List.range' i segs.length).map (fun (k : Nat) => (k : Int))) st =
        match processAll (scanListFrom i segs) st with
        | none => some (.error .Panic)
        | some st1 =>
          some (.ok (st1,
            (segs.getLast?.map (fun rs => ((encodeAll rs).length : Int))).getD 0)) := by
  intro segs
  induction segs with
  | nil =>
    intro i st _ _
    simp only [List.length_nil, List.range'_zero, List.map_nil, loadIndexFiles_nil, scanListFrom,
      processAll, List.getLast?_nil, Option.map_none', Option.getD_none]
  | cons rs rest ih =>
    intro i st hle h
    simp only [List.length_cons] at hle
    obtain ⟨⟨df, hdf, hid⟩, hbytes, hfr⟩ := h 0 rs (by simp)
    simp only [Nat.add_zero] at hdf hid hbytes
    have himod : toUint32 (i : Int) = i := toUint32_ofNat i (by omega)
    simp only [List.length_cons, List.range'_succ, List.map_cons]
    rw [loadIndexFiles_cons, himod, hdf]
    simp only [hid, hbytes]
    have hscan := scanFile_frames i rs [] ((encodeAll rs).length + 1) st
      (by have := encodeAll_length_ge rs; omega) hfr
    simp only [List.nil_append, List.length_nil, Nat.cast_zero] at hscan
    rw [hscan]
    simp only [scanListFrom, processAll_append]
    cases hp : processAll (positionsFrom i 0 rs) st with
    | none => simp only [Option.none_bind]
    | some st1 =>
      simp only [Option.some_bind]
      have hrest : ∀ j rs', rest[j]? = some rs' →
          (∃ df, (if af.FileId = i + 1 + j then some af
                  else olderGet db.olderFiles (i + 1 + j)) = some df ∧ df.FileId = i + 1 + j) ∧
          db.disk.bytes (i + 1 + j) = encodeAll rs' ∧ ∀ r ∈ rs', r.Framed := by
        intro j rs' hj
        have := h (j + 1) rs' (by simpa using hj)
        rw [show i + (j + 1) = i + 1 + j by omega] at this
        exact this
      cases rest with
      | nil =>
        simp only [List.length_nil, List.range'_zero, List.map_nil, scanListFrom, processAll,
          List.getLast?_singleton, Option.map_some', Option.getD_some]
      | cons rs2 rest2 =>
        have := ih (i + 1) st1 (by simp only [List.length_cons] at hle ⊢; omega) hrest
        simp only [List.length_cons, List.range'_succ, List.map_cons] at this ⊢
        rw [this]
        simp only [List.getLast?_cons_cons]
/-! ## `Open` on a directory of framed segments -/

theorem diskFrom_ids (segs : List (List LogRecord)) :
    ∀ i, (diskFrom i segs).map (fun e => e.1) = List.range' i segs.length := by
  induction segs with
  | nil => intro i; rfl
  | cons rs rest ih =>
    intro i
    simp only [diskFrom, List.map_cons, List.length_cons, List.range'_succ, ih]

theorem diskFrom_contents_out (segs : List (List LogRecord)) :
    ∀ i f, (f < i ∨ i + segs.length ≤ f) → (diskFrom i segs).contents f = none := by
  induction segs with
  | nil => intro i f _; rfl
  | cons rs rest ih =>
    intro i f h
    simp only [diskFrom, Disk.contents]
    simp only [List.length_cons] at h
    rw [if_neg (by omega)]
    exact ih (i + 1) f (by omega)

theorem diskFrom_contents (segs : List (List LogRecord)) :
    ∀ i j rs, segs[j]? = some rs → (diskFrom i segs).contents (i + j) = some (encodeAll rs) := by
  induction segs with
  | nil => intro i j rs h; simp at h
  | cons rs0 rest ih =>
    intro i j rs h
    simp only [diskFrom, Disk.contents]
    cases j with
    | zero =>
      simp only [List.getElem?_cons_zero, Option.some.injEq] at h
      simp [h]
    | succ k =>
      simp only [List.getElem?_cons_succ] at h
      rw [if_neg (by omega)]
      have := ih (i + 1) k rs h
      rw [show i + 1 + k = i + (k + 1) by omega] at this
      exact this

theorem diskFrom_bytes (segs : List (List LogRecord)) (i j : Nat) (rs : List LogRecord)
    (h : segs[j]? = some rs) : (diskFrom i segs).bytes (i + j) = encodeAll rs := by
  simp only [Disk.bytes, diskFrom_contents segs i j rs h, Option.getD_some]

theorem insertionSort_range' (i n : Nat) :
    (List.range' i n).insertionSort (fun a b => a ≤ b) = List.range' i n :=
  List.Sorted.insertionSort_eq (List.pairwise_le_range' i n)

theorem range'_dropLast (n : Nat) : (List.range' 0 (n + 1)).dropLast = List.range' 0 n := by
  rw [List.range'_1_concat, List.dropLast_concat]

/-- What `loadDataFiles` prepares on a directory that holds the segments `segs`. -/
theorem loadDataFiles_stored (options : Options) (segs : List (List LogRecord)) (n : Nat)
    (hn : segs.length = n + 1) (hle : n < 2 ^ 32) (db0 : DB)
    (h0 : db0 = DB.loadDataFiles
      { options := options, disk := diskFrom 0 segs, fileIds := [], activeFile := none,
        olderFiles := [], index := [], seqNo := 0, reclaimSize := 0, isMerging := false }) :
    db0.fileIds = (List.range' 0 (n + 1)).map (fun (k : Nat) => (k : Int)) ∧
    db0.activeFile = some { FileId := n, WriteOff := 0 } ∧
    (∀ f, f < n → olderGet db0.olderFiles f = some { FileId := f, WriteOff := 0 }) ∧
    (∀ f, db0.disk.bytes f = (diskFrom 0 segs).bytes f) ∧
    db0.index = [] ∧ db0.options = options ∧ db0.seqNo = 0 ∧ db0.reclaimSize = 0 := by
  have hids : ((diskFrom 0 segs).map (fun e => (e.1 : Int))).insertionSort (fun a b => a ≤ b) =
      (List.range' 0 (n + 1)).map (fun (k : Nat) => (k : Int)) := by
    have hcast : ((diskFrom 0 segs).map (fun e => (e.1 : Int))) =
        ((diskFrom 0 segs).map (fun e => e.1)).map (fun (i : Nat) => (i : Int)) := by
      rw [List.map_map]
      rfl
    rw [hcast, insertionSort_natCast, diskFrom_ids, hn, insertionSort_range']
  have hne : List.range' 0 (n + 1) ≠ [] := by simp
  have hlt : ∀ i ∈ List.range' 0 (n + 1), i < 2 ^ 32 := by
    intro i hi
    simp only [List.mem_range'_1] at hi
    omega
  subst h0
  simp only [DB.loadDataFiles, hids]
  obtain ⟨s1, s2, s3, _, _, s6, s7, s8⟩ := loadDataFilesLoop_spec _ hne hlt
    { options := options, disk := diskFrom 0 segs,
      fileIds := (List.range' 0 (n + 1)).map (fun (k : Nat) => (k : Int)),
      activeFile := none, olderFiles := [], index := [], seqNo := 0, reclaimSize := 0,
      isMerging := false }
  obtain ⟨t1, _, t3, _, _⟩ := loadDataFilesLoop_seqNo
    ((List.range' 0 (n + 1)).map (fun (k : Nat) => (k : Int)))
    { options := options, disk := diskFrom 0 segs,
      fileIds := (List.range' 0 (n + 1)).map (fun (k : Nat) => (k : Int)),
      activeFile := none, olderFiles := [], index := [], seqNo := 0, reclaimSize := 0,
      isMerging := false }
  refine ⟨s6, ?_, ?_, s3, s7, s8, t1, t3⟩
  · rw [s1, List.getLast_range']
    simp
  · intro f hf
    rw [s2 f, range'_dropLast]
    have : f ∈ List.range' 0 n := by simp [hf]
    rw [if_pos this]
/-- `Open` on a directory that holds framed segments, when the fold of the loop body
over their records does not panic: the engine it returns. -/
theorem Open_stored (options : Options) (hopt : 0 < options.DataFileSize)
    (olds : List (List LogRecord)) (cur : List LogRecord) (hlen : olds.length < 2 ^ 32)
    (hf1 : ∀ rs ∈ olds, ∀ r ∈ rs, r.Framed) (hf2 : ∀ r ∈ cur, r.Framed) (st : LoadState)
    (hst : processAll (scanListFrom 0 (olds ++ [cur])) initialLoadState = some st) :
    ∃ db1, Open options (diskFrom 0 (olds ++ [cur])) = some (.ok db1) ∧
      db1.index = st.index ∧ db1.seqNo = st.currentSeqNo ∧
      db1.activeFile =
        some { FileId := olds.length, WriteOff := ((encodeAll cur).length : Int) } ∧
      (∀ f, f < olds.length → olderGet db1.olderFiles f = some { FileId := f, WriteOff := 0 }) ∧
      (∀ f, db1.disk.bytes f = (diskFrom 0 (olds ++ [cur])).bytes f) ∧
      db1.options = options := by
  obtain ⟨db0, h0⟩ : ∃ db0, db0 = DB.loadDataFiles
      { options := options, disk := diskFrom 0 (olds ++ [cur]), fileIds := [],
        activeFile := none, olderFiles := [], index := [], seqNo := 0, reclaimSize := 0,
        isMerging := false } := ⟨_, rfl⟩
  have hn : (olds ++ [cur]).length = olds.length + 1 := by simp
  obtain ⟨a1, a2, a3, a4, a5, a6, a7, a8⟩ :=
    loadDataFiles_stored options (olds ++ [cur]) olds.length hn hlen db0 h0
  have hopen : Open options (diskFrom 0 (olds ++ [cur])) = db0.loadIndexFromDataFiles := by
    have hc : checkOptions options = none := by
      simp only [checkOptions]
      rw [if_neg (by omega)]
    simp only [Open, hc]
    rw [h0]
  have hfiles := loadIndexFiles_stored db0 { FileId := olds.length, WriteOff := 0 }
    (olds ++ [cur]) 0 initialLoadState (by rw [hn]; omega) (by
      intro j rs hj
      have hjlt : j < (olds ++ [cur]).length := by
        by_contra hge
        rw [List.getElem?_eq_none (by omega)] at hj
        simp at hj
      rw [hn] at hjlt
      refine ⟨?_, ?_, ?_⟩
      · by_cases hjn : olds.length = 0 + j
        · exact ⟨_, if_pos hjn, by simp only; omega⟩
        · refine ⟨{ FileId := 0 + j, WriteOff := 0 }, ?_, rfl⟩
          simp only
          rw [if_neg hjn]
          exact a3 (0 + j) (by omega)
      · rw [a4, diskFrom_bytes _ 0 j rs hj]
      · have hmem : rs ∈ olds ++ [cur] := List.mem_iff_getElem?.mpr ⟨j, hj⟩
        rcases List.mem_append.mp hmem with h | h
        · exact hf1 rs h
        · simp only [List.mem_singleton] at h
          rw [h]
          exact hf2)
  rw [hn, hst] at hfiles
  simp only [List.getLast?_append, List.getLast?_singleton, Option.or, Option.map_some',
    Option.getD_some] at hfiles
  refine ⟨{ db0 with index := st.index, reclaimSize := st.reclaimSize, seqNo := st.currentSeqNo,
                     activeFile := some { FileId := olds.length,
                                          WriteOff := ((encodeAll cur).length : Int) } },
    ?_, rfl, rfl, rfl, a3, a4, a6⟩
  rw [hopen]
  have hl : ¬ db0.fileIds.length = 0 := by rw [a1]; simp
  simp only [DB.loadIndexFromDataFiles, if_neg hl, a2, a5, a8]
  have hinit : (⟨[], 0, [], nonTransactionSeqNo⟩ : LoadState) = initialLoadState := rfl
  rw [hinit, a1, hfiles]
/-! ## Appends to an engine that stores framed segments -/

theorem diskFrom_append (segs : List (List LogRecord)) (rs : List LogRecord) :
    ∀ i, diskFrom i (segs ++ [rs]) = diskFrom i segs ++ [(i + segs.length, encodeAll rs)] := by
  induction segs with
  | nil => intro i; simp [diskFrom]
  | cons a rest ih =>
    intro i
    have e : i + 1 + rest.length = i + (rest.length + 1) := by omega
    rw [List.cons_append]
    simp only [diskFrom]
    rw [ih, e]
    simp

theorem scanListFrom_append (segs : List (List LogRecord)) (rs : List LogRecord) :
    ∀ i, scanListFrom i (segs ++ [rs]) =
      scanListFrom i segs ++ positionsFrom (i + segs.length) 0 rs := by
  induction segs with
  | nil => intro i; simp [scanListFrom]
  | cons a rest ih =>
    intro i
    have e : i + 1 + rest.length = i + (rest.length + 1) := by omega
    rw [List.cons_append]
    simp only [scanListFrom]
    rw [ih, e]
    simp

theorem positionsFrom_append (fileId : Nat) (rs : List LogRecord) (r : LogRecord) :
    ∀ offset : Int, positionsFrom fileId offset (rs ++ [r]) =
      positionsFrom fileId offset rs ++
        [(r, { Fid := fileId, Offset := offset + ((encodeAll rs).length : Int),
               Size := toUint32 ((encodeRecord r).length : Int) })] := by
  induction rs with
  | nil => intro offset; simp [positionsFrom, encodeAll]
  | cons a rest ih =>
    intro offset
    rw [List.cons_append]
    simp only [positionsFrom]
    rw [ih]
    simp only [encodeAll, List.length_append, List.cons_append]
    push_cast
    rw [Int.add_assoc]

theorem Disk.write_append_last (d : Disk) (f : Nat) (c buf : Bytes)
    (h : d.contents f = none) : Disk.write (d ++ [(f, c)]) f buf = d ++ [(f, c ++ buf)] := by
  induction d with
  | nil => simp [Disk.write]
  | cons e rest ih =>
    obtain ⟨f0, c0⟩ := e
    simp only [Disk.contents] at h
    by_cases hf : f0 = f
    · rw [if_pos hf] at h
      simp at h
    · rw [if_neg hf] at h
      rw [List.cons_append]
      simp only [Disk.write, if_neg hf]
      rw [ih h]
      rfl

theorem Disk.openFile_new (d : Disk) (f : Nat) (h : d.contents f = none) :
    d.openFile f = d ++ [(f, [])] := by
  simp [Disk.openFile, h]

/-- An append of a framed record to an engine that stores framed segments: the
engine stores the segments with the record added, and the position returned is the
one the scan of recovery builds for the record, which comes last in scan order. -/
theorem Stores_append (db : DB) (olds : List (List LogRecord)) (cur : List LogRecord)
    (h : db.Stores olds cur) (hroom : olds.length + 1 < 2 ^ 32) (r : LogRecord)
    (hf : r.Framed) :
    ∃ olds1 cur1 pos, (db.appendLogRecord r).2 = .ok pos ∧
      (db.appendLogRecord r).1.Stores olds1 cur1 ∧
      scanListFrom 0 (olds1 ++ [cur1]) = scanListFrom 0 (olds ++ [cur]) ++ [(r, pos)] ∧
      olds1.length ≤ olds.length + 1 := by
  obtain ⟨hdisk, haf, _, hf1, hf2⟩ := h
  have henc := EncodeLogRecord_framed r hf
  rw [appendLogRecord_active db r _ _ _ haf henc]
  simp only
  have hmod : (olds.length + 1) % 2 ^ 32 = olds.length + 1 := Nat.mod_eq_of_lt hroom
  by_cases hrot : (((encodeAll cur).length : Nat) : Int) + (((encodeRecord r).length : Nat) : Int) >
      db.options.DataFileSize
  · rw [if_pos hrot]
    refine ⟨olds ++ [cur], [r], _, rfl, ⟨?_, ?_, ?_, ?_, ?_⟩, ?_, ?_⟩
    · simp only
      rw [hmod, hdisk]
      have hnone : (diskFrom 0 (olds ++ [cur])).contents (olds.length + 1) = none :=
        diskFrom_contents_out _ 0 _ (Or.inr (by simp))
      rw [Disk.openFile_new _ _ hnone, Disk.write_append_last _ _ _ _ hnone,
        diskFrom_append (olds ++ [cur]) [r] 0]
      simp [encodeAll]
    · simp only
      rw [hmod]
      simp [encodeAll]
    · simp only [List.length_append, List.length_singleton]
      exact hroom
    · intro rs hrs
      rcases List.mem_append.mp hrs with h | h
      · exact hf1 rs h
      · simp only [List.mem_singleton] at h
        rw [h]
        exact hf2
    · intro x hx
      simp only [List.mem_singleton] at hx
      rw [hx]
      exact hf
    · rw [scanListFrom_append (olds ++ [cur]) [r] 0, hmod]
      simp [positionsFrom, toUint32_natCast]
    · simp
  · rw [if_neg hrot]
    refine ⟨olds, cur ++ [r], _, rfl, ⟨?_, ?_, ?_, hf1, ?_⟩, ?_, ?_⟩
    · simp only
      rw [hdisk, diskFrom_append olds cur 0, diskFrom_append olds (cur ++ [r]) 0]
      have hnone : (diskFrom 0 olds).contents olds.length = none :=
        diskFrom_contents_out _ 0 _ (Or.inr (by omega))
      simp only [Nat.zero_add]
      rw [Disk.write_append_last _ _ _ _ hnone, encodeAll_append]
    · simp only [encodeAll_append, List.length_append]
      push_cast
      rfl
    · omega
    · intro x hx
      rcases List.mem_append.mp hx with h | h
      · exact hf2 x h
      · simp only [List.mem_singleton] at h
        rw [h]
        exact hf
    · rw [scanListFrom_append olds (cur ++ [r]) 0, scanListFrom_append olds cur 0,
        positionsFrom_append, List.append_assoc]
      simp [toUint32_natCast]
    · omega
/-! ## Replay of `Put` and `Delete` -/

theorem parseLogRecordKey_zero (key : Bytes) : parseLogRecordKey (0 :: key) = some (key, 0) := by
  simp [parseLogRecordKey, Uvarint, uvarintLoop]

/-- The loop body of recovery on a record without a sequence number. -/
theorem processRecord_zero (st : LoadState) (key value : Bytes) (t : LogRecordType)
    (pos : LogRecordPos) :
    processRecord st { Key := 0 :: key, Value := value, Typ := t } pos =
      (updateIndex st key t pos).map (fun s =>
        if 0 > s.currentSeqNo then { s with currentSeqNo := 0 } else s) := by
  simp only [processRecord, parseLogRecordKey_zero, nonTransactionSeqNo, ↓reduceIte]
  cases updateIndex st key t pos <;> rfl

theorem processRecord_zero_index (st : LoadState) (key value : Bytes) (t : LogRecordType)
    (pos : LogRecordPos) :
    (processRecord st { Key := 0 :: key, Value := value, Typ := t } pos).map (fun s => s.index) =
      (updateIndex st key t pos).map (fun s => s.index) := by
  rw [processRecord_zero]
  cases updateIndex st key t pos with
  | none => rfl
  | some s =>
    simp only [Option.map_some']
    split <;> rfl

theorem Put_ok_state (db db1 : DB) (k v : Bytes) (pos : LogRecordPos) (hk : k ≠ [])
    (h : db.appendLogRecord { Key := 0 :: k, Value := v, Typ := LogRecordNormal } =
      (db1, .ok pos)) :
    ∃ rs, db.Put k v = ({ db1 with index := Index.insert db1.index k pos, reclaimSize := rs }, none) := by
  have hk0 : ¬ k.length = 0 := fun e => hk (List.length_eq_zero.mp e)
  simp only [DB.Put, if_neg hk0, logRecordKeyWithSeq_zero, h, Index.Put]
  cases Index.Get db1.index k with
  | none => exact ⟨db1.reclaimSize, rfl⟩
  | some old => exact ⟨_, rfl⟩

theorem Delete_ok_state (db db1 : DB) (k : Bytes) (pos old : LogRecordPos) (hk : k ≠ [])
    (hold : db.index.Get k = some old)
    (h : db.appendLogRecord { Key := 0 :: k, Value := [], Typ := LogRecordDeleted } =
      (db1, .ok pos)) :
    ∃ rs, db.Delete k = ({ db1 with index := Index.erase db1.index k, reclaimSize := rs }, none) := by
  have hk0 : ¬ k.length = 0 := fun e => hk (List.length_eq_zero.mp e)
  have hidx : db1.index = db.index := by
    have := (appendLogRecord_index db { Key := 0 :: k, Value := [], Typ := LogRecordDeleted }).1
    rw [h] at this
    exact this
  simp only [DB.Delete, if_neg hk0, hold, Option.isNone_some, Bool.false_eq_true, ↓reduceIte,
    logRecordKeyWithSeq_zero, h, Index.Delete, hidx, Option.isSome_some]
  exact ⟨_, rfl⟩

theorem Stores_congr (a b : DB) (olds : List (List LogRecord)) (cur : List LogRecord)
    (h1 : a.disk = b.disk) (h2 : a.activeFile = b.activeFile) (h : a.Stores olds cur) :
    b.Stores olds cur := by
  simp only [DB.Stores] at h ⊢
  rw [← h1, ← h2]
  exact h

theorem Stores_RoomFor (db : DB) (olds : List (List LogRecord)) (cur : List LogRecord)
    (h : db.Stores olds cur) (hroom : olds.length + 1 < 2 ^ 32) : db.RoomFor 1 := by
  obtain ⟨hdisk, haf, _, _, _⟩ := h
  simp only [DB.RoomFor, haf]
  refine ⟨by norm_num, ?_, ?_, ?_⟩
  · rw [hdisk]
    have := diskFrom_contents (olds ++ [cur]) 0 olds.length cur (by simp)
    simp only [Nat.zero_add] at this
    rw [this]
    rfl
  · rw [hdisk]
    have := diskFrom_bytes (olds ++ [cur]) 0 olds.length cur (by simp)
    simp only [Nat.zero_add] at this
    rw [this]
  · intro j h1 h2
    have hj : j = 1 := by omega
    subst hj
    rw [Nat.mod_eq_of_lt hroom, hdisk]
    simp only [Disk.bytes]
    rw [diskFrom_contents_out _ 0 _ (Or.inr (by simp))]
    rfl

/-- The state `appendLogRecord` starts from on an engine without an active file
stores one empty segment. -/
theorem Stores_fresh (db : DB) (h1 : db.disk = []) :
    DB.Stores { db with disk := db.disk.openFile 0,
                        activeFile := some { FileId := 0, WriteOff := 0 } } [] [] := by
  refine ⟨?_, rfl, by norm_num, fun rs h => absurd h (List.not_mem_nil rs),
    fun r h => absurd h (List.not_mem_nil r)⟩
  simp only [h1]
  rfl
theorem updateIndex_normal (st : LoadState) (k : Bytes) (pos : LogRecordPos) :
    ∃ s, updateIndex st k LogRecordNormal pos = some s ∧ s.index = Index.insert st.index k pos := by
  have hnd : ¬ (LogRecordNormal = LogRecordDeleted) := by decide
  simp only [updateIndex, if_neg hnd, Index.Put]
  cases Index.Get st.index k with
  | none => exact ⟨_, rfl, rfl⟩
  | some old => exact ⟨_, rfl, rfl⟩

theorem updateIndex_deleted (st : LoadState) (k : Bytes) (pos old : LogRecordPos)
    (h : st.index.Get k = some old) :
    ∃ s, updateIndex st k LogRecordDeleted pos = some s ∧ s.index = Index.erase st.index k := by
  simp only [updateIndex, ↓reduceIte, Index.Delete, h]
  exact ⟨_, rfl, rfl⟩

theorem processAll_snoc (l : List (LogRecord × LogRecordPos)) (r : LogRecord) (pos : LogRecordPos)
    (st0 st : LoadState) (h : processAll l st0 = some st) :
    processAll (l ++ [(r, pos)]) st0 = processRecord st r pos := by
  rw [processAll_append, h]
  simp only [Option.some_bind, processAll]
  cases processRecord st r pos <;> rfl

/-- An append of a framed record without a sequence number to an engine that stores
framed segments. -/
theorem Stores_append_zero (db : DB) (olds : List (List LogRecord)) (cur : List LogRecord)
    (n : Nat) (hst : db.Stores olds cur) (hle : olds.length ≤ n) (hn : n + 1 < 2 ^ 32)
    (r : LogRecord) (hf : r.Framed) :
    ∃ db1 pos olds1 cur1, db.appendLogRecord r = (db1, .ok pos) ∧ db1.Stores olds1 cur1 ∧
      olds1.length ≤ n + 1 ∧ db1.index = db.index ∧ db1.HasRecordAt pos r ∧
      (∀ p r0, db.HasRecordAt p r0 → db1.HasRecordAt p r0) ∧
      scanListFrom 0 (olds1 ++ [cur1]) = scanListFrom 0 (olds ++ [cur]) ++ [(r, pos)] := by
  obtain ⟨olds1, cur1, pos, a1, a2, a3, a4⟩ := Stores_append db olds cur hst (by omega) r hf
  obtain ⟨pos2, b1, b2, _, _⟩ := appendLogRecord_stored db 0
    (Stores_RoomFor db olds cur hst (by omega)) r hf
  rw [a1] at b1
  simp only [Except.ok.injEq] at b1
  subst b1
  refine ⟨(db.appendLogRecord r).1, pos, olds1, cur1, ?_, a2, by omega,
    (appendLogRecord_index db r).1, b2, fun p r0 h => HasRecordAt_append db p r0 r h, a3⟩
  rw [← a1]

/-- `Put` on an engine that stores framed segments whose replay gives its index. -/
theorem Replays_put (db : DB) (model : Bytes → Option Bytes) (n : Nat)
    (olds : List (List LogRecord)) (cur : List LogRecord) (st : LoadState)
    (hst : db.Stores olds cur) (hle : olds.length ≤ n)
    (hp : processAll (scanListFrom 0 (olds ++ [cur])) initialLoadState = some st)
    (hidx : st.index = db.index)
    (hmodel : ∀ key, match model key with
      | none => db.index.Get key = none
      | some v =>
        key ≠ [] ∧ key.length + 1 < 2 ^ 32 ∧ v.length < 2 ^ 32 ∧
        ∃ p, db.index.Get key = some p ∧
          db.HasRecordAt p { Key := 0 :: key, Value := v, Typ := LogRecordNormal })
    (hn : n + 1 < 2 ^ 32) (k v : Bytes) (hk : k ≠ []) (hkl : k.length + 1 < 2 ^ 32)
    (hvl : v.length < 2 ^ 32) :
    (db.Put k v).2 = none ∧ (db.Put k v).1.Replays (Op.update model (.put k v)) (n + 1) := by
  have hf : LogRecord.Framed { Key := 0 :: k, Value := v, Typ := LogRecordNormal } :=
    ⟨by simp, by simpa using hkl, hvl⟩
  obtain ⟨db1, pos, olds1, cur1, a1, a2, a3, a4, a5, a6, a7⟩ :=
    Stores_append_zero db olds cur n hst hle hn _ hf
  obtain ⟨rs, hput⟩ := Put_ok_state db db1 k v pos hk a1
  rw [hput]
  refine ⟨rfl, ?_, ?_⟩
  · right
    obtain ⟨s, hs1, hs2⟩ := updateIndex_normal st k pos
    have hproc := processRecord_zero_index st k v LogRecordNormal pos
    rw [hs1] at hproc
    simp only [Option.map_some'] at hproc
    cases hpr : processRecord st { Key := 0 :: k, Value := v, Typ := LogRecordNormal } pos with
    | none => rw [hpr] at hproc; simp at hproc
    | some s2 =>
      rw [hpr] at hproc
      simp only [Option.map_some', Option.some.injEq] at hproc
      refine ⟨olds1, cur1, s2, Stores_congr db1 _ olds1 cur1 rfl rfl a2, a3, ?_, ?_⟩
      · rw [a7, processAll_snoc _ _ _ _ _ hp, hpr]
      · simp only
        rw [hproc, hs2, hidx, a4]
  · intro key
    simp only [Op.update]
    by_cases hkey : key = k
    · subst hkey
      simp only [↓reduceIte]
      exact ⟨hk, hkl, hvl, pos, Index.Get_insert_self _ _ _,
        HasRecordAt_congr db1 _ _ _ rfl rfl rfl a5⟩
    · simp only [if_neg hkey]
      have hm := hmodel key
      cases hmk : model key with
      | none =>
        rw [hmk] at hm
        simp only at hm ⊢
        rw [Index.Get_insert_other _ _ _ _ hkey, a4]
        exact hm
      | some v0 =>
        rw [hmk] at hm
        simp only at hm ⊢
        obtain ⟨h1, h2, h3, p, h4, h5⟩ := hm
        refine ⟨h1, h2, h3, p, ?_, HasRecordAt_congr db1 _ _ _ rfl rfl rfl (a6 _ _ h5)⟩
        rw [Index.Get_insert_other _ _ _ _ hkey, a4]
        exact h4

/-- `Delete` of a key in the index of an engine that stores framed segments whose
replay gives its index. -/
theorem Replays_delete (db : DB) (model : Bytes → Option Bytes) (n : Nat)
    (olds : List (List LogRecord)) (cur : List LogRecord) (st : LoadState)
    (hst : db.Stores olds cur) (hle : olds.length ≤ n)
    (hp : processAll (scanListFrom 0 (olds ++ [cur])) initialLoadState = some st)
    (hidx : st.index = db.index)
    (hmodel : ∀ key, match model key with
      | none => db.index.Get key = none
      | some v =>
        key ≠ [] ∧ key.length + 1 < 2 ^ 32 ∧ v.length < 2 ^ 32 ∧
        ∃ p, db.index.Get key = some p ∧
          db.HasRecordAt p { Key := 0 :: key, Value := v, Typ := LogRecordNormal })
    (hn : n + 1 < 2 ^ 32) (k : Bytes) (hk : k ≠ []) (hkl : k.length + 1 < 2 ^ 32)
    (old : LogRecordPos) (hold : db.index.Get k = some old) :
    (db.Delete k).2 = none ∧ (db.Delete k).1.Replays (Op.update model (.delete k)) (n + 1) := by
  have hf : LogRecord.Framed { Key := 0 :: k, Value := [], Typ := LogRecordDeleted } :=
    ⟨by simp, by simpa using hkl, by simp⟩
  obtain ⟨db1, pos, olds1, cur1, a1, a2, a3, a4, a5, a6, a7⟩ :=
    Stores_append_zero db olds cur n hst hle hn _ hf
  obtain ⟨rs, hdel⟩ := Delete_ok_state db db1 k pos old hk hold a1
  rw [hdel]
  refine ⟨rfl, ?_, ?_⟩
  · right
    obtain ⟨s, hs1, hs2⟩ := updateIndex_deleted st k pos old (by rw [hidx]; exact hold)
    have hproc := processRecord_zero_index st k [] LogRecordDeleted pos
    rw [hs1] at hproc
    simp only [Option.map_some'] at hproc
    cases hpr : processRecord st { Key := 0 :: k, Value := [], Typ := LogRecordDeleted } pos with
    | none => rw [hpr] at hproc; simp at hproc
    | some s2 =>
      rw [hpr] at hproc
      simp only [Option.map_some', Option.some.injEq] at hproc
      refine ⟨olds1, cur1, s2, Stores_congr db1 _ olds1 cur1 rfl rfl a2, a3, ?_, ?_⟩
      · rw [a7, processAll_snoc _ _ _ _ _ hp, hpr]
      · simp only
        rw [hproc, hs2, hidx, a4]
  · intro key
    simp only [Op.update]
    by_cases hkey : key = k
    · subst hkey
      simp only [↓reduceIte]
      exact Index.Get_erase_self _ _
    · simp only [if_neg hkey]
      have hm := hmodel key
      cases hmk : model key with
      | none =>
        rw [hmk] at hm
        simp only at hm ⊢
        rw [Index.Get_erase_other _ _ _ hkey, a4]
        exact hm
      | some v0 =>
        rw [hmk] at hm
        simp only at hm ⊢
        obtain ⟨h1, h2, h3, p, h4, h5⟩ := hm
        refine ⟨h1, h2, h3, p, ?_, HasRecordAt_congr db1 _ _ _ rfl rfl rfl (a6 _ _ h5)⟩
        rw [Index.Get_erase_other _ _ _ hkey, a4]
        exact h4
theorem Put_noactive (db : DB) (k v : Bytes) (hk : k ≠ []) (haf : db.activeFile = none) :
    db.Put k v =
      DB.Put { db with disk := db.disk.openFile 0,
                       activeFile := some { FileId := 0, WriteOff := 0 } } k v := by
  have hk0 : ¬ k.length = 0 := fun e => hk (List.length_eq_zero.mp e)
  simp only [DB.Put, if_neg hk0]
  rw [appendLogRecord_noactive db _ haf]

theorem Replays_mono (db : DB) (model : Bytes → Option Bytes) (n m : Nat) (hle : n ≤ m)
    (h : db.Replays model n) : db.Replays model m := by
  refine ⟨?_, h.2⟩
  rcases h.1 with h1 | ⟨olds, cur, st, a1, a2, a3, a4⟩
  · exact Or.inl h1
  · exact Or.inr ⟨olds, cur, st, a1, by omega, a3, a4⟩

/-- One successful call of `Put` or `Delete` keeps the engine one whose replay gives
its index, with the expected contents updated by the call. -/
theorem Replays_step (db : DB) (model : Bytes → Option Bytes) (n : Nat)
    (h : db.Replays model n) (hn : n + 1 < 2 ^ 32) (op : Op) (hf : op.Framed) (db1 : DB)
    (hop : db.applyOp op = (db1, none)) : db1.Replays (Op.update model op) (n + 1) := by
  cases op with
  | put k v =>
    simp only [DB.applyOp] at hop
    simp only [Op.Framed] at hf
    by_cases hk : k = []
    · subst hk
      simp [DB.Put] at hop
    · rcases h.1 with ⟨h1, h2, h3⟩ | ⟨olds, cur, st, a1, a2, a3, a4⟩
      · rw [Put_noactive db k v hk h2] at hop
        have hres := Replays_put
          { db with disk := db.disk.openFile 0, activeFile := some { FileId := 0, WriteOff := 0 } }
          model n [] [] initialLoadState (Stores_fresh db h1) (Nat.zero_le _) rfl
          (by simp only [h3]; rfl)
          (by
            intro key
            have hm := h.2 key
            cases hmk : model key with
            | none =>
              rw [hmk] at hm
              exact hm
            | some v0 =>
              rw [hmk] at hm
              obtain ⟨_, _, _, p, hp, _⟩ := hm
              rw [h3] at hp
              simp [Index.Get] at hp)
          hn k v hk hf.1 hf.2
        rw [hop] at hres
        exact hres.2
      · have hres := Replays_put db model n olds cur st a1 a2 a3 a4 h.2 hn k v hk hf.1 hf.2
        rw [hop] at hres
        exact hres.2
  | delete k =>
    simp only [DB.applyOp] at hop
    simp only [Op.Framed] at hf
    by_cases hk : k = []
    · subst hk
      simp [DB.Delete] at hop
    · cases hold : db.index.Get k with
      | none =>
        have hk0 : ¬ k.length = 0 := fun e => hk (List.length_eq_zero.mp e)
        simp only [DB.Delete, if_neg hk0, hold, Option.isNone_none, ↓reduceIte, Prod.mk.injEq,
          and_true] at hop
        subst hop
        refine ⟨(Replays_mono db model n (n + 1) (by omega) h).1, ?_⟩
        intro key
        simp only [Op.update]
        by_cases hkey : key = k
        · subst hkey
          simp only [↓reduceIte]
          exact hold
        · simp only [if_neg hkey]
          exact h.2 key
      | some old =>
        rcases h.1 with ⟨h1, h2, h3⟩ | ⟨olds, cur, st, a1, a2, a3, a4⟩
        · rw [h3] at hold
          simp [Index.Get] at hold
        · have hres := Replays_delete db model n olds cur st a1 a2 a3 a4 h.2 hn k hk hf old hold
          rw [hop] at hres
          exact hres.2

/-- A sequence of successful calls keeps the engine one whose replay gives its
index. -/
theorem runOps_replays (ops : List Op) :
    ∀ (db : DB) (model : Bytes → Option Bytes) (n : Nat) (db1 : DB),
      db.Replays model n → n + ops.length < 2 ^ 32 → (∀ op ∈ ops, op.Framed) →
      db.runOps ops = some db1 → db1.Replays (ops.foldl Op.update model) (n + ops.length) := by
  induction ops with
  | nil =>
    intro db model n db1 h _ _ hrun
    simp only [DB.runOps, Option.some.injEq] at hrun
    subst hrun
    exact h
  | cons op rest ih =>
    intro db model n db1 h hn hf hrun
    simp only [DB.runOps] at hrun
    simp only [List.length_cons] at hn
    cases hop : db.applyOp op with
    | mk d e =>
      rw [hop] at hrun
      cases e with
      | some err => simp at hrun
      | none =>
        simp only at hrun
        have hstep := Replays_step db model n h (by omega) op (hf op (List.mem_cons_self _ _)) d hop
        have := ih d (Op.update model op) (n + 1) db1 hstep (by omega)
          (fun o ho => hf o (List.mem_cons_of_mem _ ho)) hrun
        simp only [List.foldl_cons, List.length_cons]
        rw [show n + (rest.length + 1) = n + 1 + rest.length by omega]
        exact this

theorem applyOp_options (db : DB) (op : Op) : (db.applyOp op).1.options = db.options := by
  cases op with
  | put k v =>
    simp only [DB.applyOp, DB.Put]
    split
    · rfl
    · have := (appendLogRecord_index db
        ⟨logRecordKeyWithSeq k nonTransactionSeqNo, v, LogRecordNormal⟩).2.2.2
      generalize db.appendLogRecord ⟨logRecordKeyWithSeq k nonTransactionSeqNo, v, LogRecordNormal⟩
        = res at this
      obtain ⟨d, e⟩ := res
      cases e with
      | error e => exact this
      | ok pos =>
        simp only at this ⊢
        generalize d.index.Put k pos = ip
        obtain ⟨o, idx⟩ := ip
        cases o <;> exact this
  | delete k =>
    simp only [DB.applyOp, DB.Delete]
    split
    · rfl
    · split
      · rfl
      · have := (appendLogRecord_index db
          ⟨logRecordKeyWithSeq k nonTransactionSeqNo, [], LogRecordDeleted⟩).2.2.2
        generalize db.appendLogRecord
          ⟨logRecordKeyWithSeq k nonTransactionSeqNo, [], LogRecordDeleted⟩ = res at this
        obtain ⟨d, e⟩ := res
        cases e with
        | error e => exact this
        | ok pos =>
          simp only at this ⊢
          generalize Index.Delete d.index k = ip
          obtain ⟨⟨o, b⟩, idx⟩ := ip
          cases o <;> cases b <;> exact this

theorem runOps_options (ops : List Op) :
    ∀ (db db1 : DB), db.runOps ops = some db1 → db1.options = db.options := by
  induction ops with
  | nil =>
    intro db db1 h
    simp only [DB.runOps, Option.some.injEq] at h
    rw [h]
  | cons op rest ih =>
    intro db db1 h
    simp only [DB.runOps] at h
    have ho := applyOp_options db op
    cases hop : db.applyOp op with
    | mk d e =>
      rw [hop] at h ho
      cases e with
      | some err => simp at h
      | none => exact (ih d db1 h).trans ho

/-- A record stored in an engine that stores framed segments is stored in the engine
`Open` returns on its directory. -/
theorem HasRecordAt_reopened (db db1 : DB) (olds : List (List LogRecord)) (cur : List LogRecord)
    (hst : db.Stores olds cur) (w : Int)
    (haf : db1.activeFile = some { FileId := olds.length, WriteOff := w })
    (hold : ∀ f, f < olds.length → olderGet db1.olderFiles f = some { FileId := f, WriteOff := 0 })
    (hbytes : ∀ f, db1.disk.bytes f = (diskFrom 0 (olds ++ [cur])).bytes f)
    (p : LogRecordPos) (r : LogRecord) (h : db.HasRecordAt p r) : db1.HasRecordAt p r := by
  obtain ⟨⟨pre, post, hb, ho⟩, _⟩ := h
  rw [hst.1] at hb
  have hfid : p.Fid ≤ olds.length := by
    by_contra hgt
    have hnone : (diskFrom 0 (olds ++ [cur])).contents p.Fid = none :=
      diskFrom_contents_out _ 0 _ (Or.inr (by simp; omega))
    simp only [Disk.bytes, hnone, Option.getD_none] at hb
    have := congrArg List.length hb
    simp only [List.length_nil, List.length_append, encodeRecord_length] at this
    omega
  refine ⟨⟨pre, post, by rw [hbytes, hb], ho⟩, ?_⟩
  by_cases hp : olds.length = p.Fid
  · exact ⟨_, { FileId := olds.length, WriteOff := w }, haf, if_pos hp, hp⟩
  · refine ⟨_, { FileId := p.Fid, WriteOff := 0 }, haf, ?_, rfl⟩
    simp only
    rw [if_neg hp]
    exact hold p.Fid (by omega)
/-- Recovery after a sequence of successful calls of `Put` and `Delete` on a fresh
store: `Open` on the directory returns an engine with the index of the live engine,
and `Get` answers on both with the expected contents. -/
theorem reopen_after_ops (options : Options) (db0 : DB)
    (hopen : Open options [] = some (.ok db0)) (ops : List Op) (hlen : ops.length < 2 ^ 32)
    (hf : ∀ op ∈ ops, op.Framed) (db : DB) (hrun : db0.runOps ops = some db) :
    ∃ db1, Open db.options db.disk = some (.ok db1) ∧ db1.index = db.index ∧
      ∀ k, k ≠ [] →
        db1.Get k = (match lastValue ops k with
          | some v => .ok v
          | none => .error .KeyNotFound) ∧
        db.Get k = db1.Get k := by
  have hopt : 0 < options.DataFileSize := by
    by_contra hle
    have : Open options [] = some (.error .InvalidOptions) := by
      simp only [Open, checkOptions]
      rw [if_pos (by omega)]
    rw [this] at hopen
    simp at hopen
  have hdb0 : db0 = ⟨options, [], [], none, [], [], 0, 0, false⟩ := by
    rcases Open_empty options with h | h
    · rw [h] at hopen
      simp at hopen
    · rw [h] at hopen
      simp only [Option.some.injEq, Except.ok.injEq] at hopen
      exact hopen.symm
  have h0 : db0.Replays (fun _ => none) 0 := by
    rw [hdb0]
    exact ⟨Or.inl ⟨rfl, rfl, rfl⟩, fun key => rfl⟩
  have hrep := runOps_replays ops db0 (fun _ => none) 0 db h0 (by omega) hf hrun
  have hoptions : db.options = options := by
    rw [runOps_options ops db0 db hrun, hdb0]
  have hget : ∀ (d : DB) (k : Bytes), k ≠ [] → d.index = db.index →
      (∀ p r, db.HasRecordAt p r → d.HasRecordAt p r) →
      d.Get k = (match lastValue ops k with
        | some v => .ok v
        | none => .error .KeyNotFound) := by
    intro d k hk hidx htr
    have hk0 : ¬ k.length = 0 := fun e => hk (List.length_eq_zero.mp e)
    have hm := hrep.2 k
    simp only [DB.Get, if_neg hk0, hidx]
    change match lastValue ops k with
      | none => db.index.Get k = none
      | some v => k ≠ [] ∧ k.length + 1 < 2 ^ 32 ∧ v.length < 2 ^ 32 ∧
          ∃ p, db.index.Get k = some p ∧
            db.HasRecordAt p { Key := 0 :: k, Value := v, Typ := LogRecordNormal } at hm
    cases hl : lastValue ops k with
    | none =>
      rw [hl] at hm
      simp only at hm ⊢
      rw [hm]
    | some v =>
      rw [hl] at hm
      simp only at hm ⊢
      obtain ⟨_, h2, h3, p, h4, h5⟩ := hm
      rw [h4]
      simp only
      rw [getValueByPosition_stored d p _ ⟨by simp, by simpa using h2, h3⟩ (htr _ _ h5)]
      have hnd : ¬ (LogRecordNormal = LogRecordDeleted) := by decide
      exact if_neg hnd
  rcases hrep.1 with ⟨h1, h2, h3⟩ | ⟨olds, cur, st, a1, a2, a3, a4⟩
  · refine ⟨db0, by rw [hoptions, h1]; exact hopen, by rw [h3, hdb0], ?_⟩
    intro k hk
    have hk0 : ¬ k.length = 0 := fun e => hk (List.length_eq_zero.mp e)
    have hm := hrep.2 k
    change match lastValue ops k with
      | none => db.index.Get k = none
      | some v => k ≠ [] ∧ k.length + 1 < 2 ^ 32 ∧ v.length < 2 ^ 32 ∧
          ∃ p, db.index.Get k = some p ∧
            db.HasRecordAt p { Key := 0 :: k, Value := v, Typ := LogRecordNormal } at hm
    cases hl : lastValue ops k with
    | none =>
      simp only [DB.Get, if_neg hk0, h3, hdb0, Index.Get, and_self]
    | some v =>
      rw [hl] at hm
      obtain ⟨_, _, _, p, h4, _⟩ := hm
      rw [h3] at h4
      simp [Index.Get] at h4
  · obtain ⟨db1, b1, b2, _, b4, b5, b6, _⟩ := Open_stored options hopt olds cur a1.2.2.1
      a1.2.2.2.1 a1.2.2.2.2 st a3
    refine ⟨db1, by rw [hoptions, a1.1]; exact b1, by rw [b2, a4], ?_⟩
    intro k hk
    have g1 := hget db1 k hk (by rw [b2, a4])
      (fun p r h => HasRecordAt_reopened db db1 olds cur a1 _ b4 b5 b6 p r h)
    have g2 := hget db k hk rfl (fun p r h => h)
    exact ⟨g1, g2.trans g1.symm⟩
/-! ## Claims on the record codec -/

theorem checksum_empty_record_ne_zero :
    ChecksumIEEE [0, 0, 0] ≠ 0 ∧ ChecksumIEEE [1, 0, 0] ≠ 0 ∧ ChecksumIEEE [2, 0, 0] ≠ 0 := by
  decide!

theorem recordBody_empty (r : LogRecord) (hk : r.Key.length = 0) (hv : r.Value.length = 0) :
    recordBody r = [r.Typ, 0, 0] := by
  have e1 : r.Key = [] := List.length_eq_zero.mp hk
  have e2 : r.Value = [] := List.length_eq_zero.mp hv
  simp only [recordBody, e1, e2, List.length_nil, List.append_nil]
  rfl

/-- C3: a record of type Normal, Deleted or TxnFinished whose key and value are shorter
than 2^31 bytes is encoded by `EncodeLogRecord`, and `ReadLogRecord` at the offset of
the encoded bytes inside any file (arbitrary bytes before and after) returns the same
record (key, value and type) together with the byte count `EncodeLogRecord` returned. -/
theorem C3_read_encoded_roundtrip (r : LogRecord)
    (htyp : r.Typ = LogRecordNormal ∨ r.Typ = LogRecordDeleted ∨ r.Typ = LogRecordTxnFinished)
    (hk : r.Key.length < 2 ^ 31) (hv : r.Value.length < 2 ^ 31) (pre post : Bytes) :
    ∃ enc size, EncodeLogRecord r = some (enc, size) ∧
      ReadLogRecord (pre ++ enc ++ post) (pre.length : Int) = .ok (r, (size : Int)) := by
  refine ⟨_, _, EncodeLogRecord_some r (by omega) (by omega), ?_⟩
  apply ReadLogRecord_encoded r (by omega) (by omega)
  rintro ⟨hc, hk0, hv0⟩
  rw [recordBody_empty r hk0 hv0] at hc
  obtain ⟨c0, c1, c2⟩ := checksum_empty_record_ne_zero
  rcases htyp with h | h | h <;> rw [h] at hc
  · exact c0 hc
  · exact c1 hc
  · exact c2 hc

/-- Witness of C3 on the record a `Put("n", [1, 2])` appends, stored after one foreign
byte and before another. -/
theorem C3_read_encoded_roundtrip_witness :
    (LogRecordNormal = LogRecordNormal ∨ LogRecordNormal = LogRecordDeleted ∨
      LogRecordNormal = LogRecordTxnFinished) ∧
    ∃ enc size,
      EncodeLogRecord { Key := [0, 110], Value := [1, 2], Typ := LogRecordNormal } =
        some (enc, size) ∧
      ReadLogRecord ([9] ++ enc ++ [7]) (([9] : Bytes).length : Int) =
        .ok ({ Key := [0, 110], Value := [1, 2], Typ := LogRecordNormal }, (size : Int)) :=
  ⟨Or.inl rfl,
   C3_read_encoded_roundtrip { Key := [0, 110], Value := [1, 2], Typ := LogRecordNormal }
    (Or.inl rfl) (by decide) (by decide) [9] [7]⟩

/-- C8: where the header read at `offset` decodes to a header `h` of length `hs` that
is not the end-of-log header and the announced key and value bytes are all in the
file, `ReadLogRecord` returns `ErrInvalidCRC` exactly when the stored crc differs from
the CRC32-IEEE of the bytes from the type byte through the end of the value, and
returns the record otherwise; the incremental checksum of `getLogRecordCRC` is the
one-shot checksum of header, key and value. -/
theorem C8_invalid_crc_iff (file : Bytes) (offset : Nat) (hoff : offset ≤ file.length)
    (h : logRecordHeader) (hs : Int)
    (hdec : decodeLogRecordHeader ((file.drop offset).take 15) = some (some (h, hs)))
    (hnz : ¬ (h.crc = 0 ∧ h.keySize = 0 ∧ h.valueSize = 0))
    (hpres : (offset : Int) + hs + h.keySize + h.valueSize ≤ file.length) :
    (ReadLogRecord file (offset : Int) = .error .InvalidCRC ↔
      h.crc ≠ ChecksumIEEE ((file.drop (offset + 4)).take
        (hs.toNat - 4 + h.keySize + h.valueSize))) ∧
    (h.crc = ChecksumIEEE ((file.drop (offset + 4)).take
        (hs.toNat - 4 + h.keySize + h.valueSize)) →
      ReadLogRecord file (offset : Int) =
        .ok ({ Key := (file.drop (offset + hs.toNat)).take h.keySize,
               Value := (file.drop (offset + hs.toNat + h.keySize)).take h.valueSize,
               Typ := h.recordType }, hs + h.keySize + h.valueSize)) ∧
    (∀ (lr : LogRecord) (header : Bytes),
      getLogRecordCRC lr header = ChecksumIEEE (header ++ lr.Key ++ lr.Value)) := by
  have hsz := decodeLogRecordHeader_size _ (by simp) h hs hdec
  obtain ⟨n, rfl⟩ := Int.eq_ofNat_of_zero_le (show 0 ≤ hs by omega)
  have hmain := ReadLogRecord_eq file offset hoff h n hdec hnz (by omega)
  simp only [Int.toNat_ofNat]
  refine ⟨?_, ?_, getLogRecordCRC_eq⟩
  · rw [hmain]
    constructor
    · intro hr heq
      rw [if_neg (by simpa using heq.symm)] at hr
      simp at hr
    · intro hne
      rw [if_pos (fun e => hne e.symm)]
  · intro heq
    rw [hmain, if_neg (by simpa using heq.symm)]
    push_cast
    rfl

/-- Witness of C8: the record `Put("n", [1, 2])` appends, read at offset 1 of a file
that holds it between two foreign bytes. -/
theorem C8_invalid_crc_iff_witness :
    decodeLogRecordHeader ((witnessFile.drop 1).take 15) = some (some (witnessHeader, 7)) ∧
    ¬ (witnessHeader.crc = 0 ∧ witnessHeader.keySize = 0 ∧ witnessHeader.valueSize = 0) ∧
    ReadLogRecord witnessFile 1 =
      .ok ({ Key := [0, 110], Value := [1, 2], Typ := LogRecordNormal }, 11) :=
  ⟨by decide!, by decide,
   (C8_invalid_crc_iff witnessFile 1 (by decide) witnessHeader 7 (by decide!) (by decide)
      (by decide)).2.1 (by decide!)⟩

/-- C9 (amended): for an encoded record, with key and value shorter than 2^32 bytes,
stored at any offset of a segment, replacing one byte of its crc field, its type
byte, its key or its value by a different value makes `ReadLogRecord` at the record's
offset return `ErrInvalidCRC`, or `io.EOF` only when the corrupted header has crc,
keySize and valueSize all zero; the corrupted record is never returned. -/
theorem C9_changed_byte_detected (r : LogRecord) (hk : r.Key.length < 2 ^ 32)
    (hv : r.Value.length < 2 ^ 32) (enc : Bytes) (size : Nat)
    (henc : EncodeLogRecord r = some (enc, size)) (pre post : Bytes)
    (i : Nat) (hi : i < enc.length) (b : Byte) (hb : enc[i]? ≠ some b)
    (hpos : i < 5 ∨
      5 + (PutVarint r.Key.length).length + (PutVarint r.Value.length).length ≤ i) :
    ReadLogRecord (pre ++ enc.set i b ++ post) (pre.length : Int) = .error .InvalidCRC ∨
    (ReadLogRecord (pre ++ enc.set i b ++ post) (pre.length : Int) = .error .EOF ∧
      ∃ h hs, decodeLogRecordHeader (((pre ++ enc.set i b ++ post).drop pre.length).take 15) =
          some (some (h, hs)) ∧ h.crc = 0 ∧ h.keySize = 0 ∧ h.valueSize = 0) := by
  obtain ⟨_, henc', _, _⟩ := EncodeLogRecord_length r enc size henc
  have hcrc := uint32LE_putUint32LE _ (ChecksumIEEE_lt (recordBody r))
  have hbody : recordBody r =
      r.Typ :: (PutVarint r.Key.length ++ (PutVarint r.Value.length ++ (r.Key ++ r.Value))) := by
    simp [recordBody, List.append_assoc]
  have hencx : enc = byteOf (ChecksumIEEE (recordBody r)) ::
      byteOf (ChecksumIEEE (recordBody r) >>> 8) :: byteOf (ChecksumIEEE (recordBody r) >>> 16) ::
      byteOf (ChecksumIEEE (recordBody r) >>> 24) :: r.Typ ::
        (PutVarint r.Key.length ++ (PutVarint r.Value.length ++ (r.Key ++ r.Value))) := by
    rw [henc', hbody]; rfl
  subst hencx
  rw [uint32LE_eq] at hcrc
  rcases hpos with h5 | hge
  · -- crc field or type byte
    have hcases : i = 0 ∨ i = 1 ∨ i = 2 ∨ i = 3 ∨ i = 4 := by omega
    rcases hcases with rfl | rfl | rfl | rfl | rfl
    · simp only [List.set_cons_zero]
      apply ReadLogRecord_framed_bad _ _ _ _ _ _ _ _ (by simp) hk hv
      rw [← hbody, uint32LE_eq]
      have : b.val ≠ (byteOf (ChecksumIEEE (recordBody r))).val := by
        intro e; apply hb; simp [Fin.ext e]
      omega
    · simp only [List.set_cons_succ, List.set_cons_zero]
      apply ReadLogRecord_framed_bad _ _ _ _ _ _ _ _ (by simp) hk hv
      rw [← hbody, uint32LE_eq]
      have : b.val ≠ (byteOf (ChecksumIEEE (recordBody r) >>> 8)).val := by
        intro e; apply hb; simp [Fin.ext e]
      omega
    · simp only [List.set_cons_succ, List.set_cons_zero]
      apply ReadLogRecord_framed_bad _ _ _ _ _ _ _ _ (by simp) hk hv
      rw [← hbody, uint32LE_eq]
      have : b.val ≠ (byteOf (ChecksumIEEE (recordBody r) >>> 16)).val := by
        intro e; apply hb; simp [Fin.ext e]
      omega
    · simp only [List.set_cons_succ, List.set_cons_zero]
      apply ReadLogRecord_framed_bad _ _ _ _ _ _ _ _ (by simp) hk hv
      rw [← hbody, uint32LE_eq]
      have : b.val ≠ (byteOf (ChecksumIEEE (recordBody r) >>> 24)).val := by
        intro e; apply hb; simp [Fin.ext e]
      omega
    · simp only [List.set_cons_succ, List.set_cons_zero]
      apply ReadLogRecord_framed_bad _ _ _ _ _ _ _ _ (by simp) hk hv
      rw [uint32LE_eq, hcrc, hbody]
      have hne : b ≠ r.Typ := by
        intro e; apply hb; simp [e]
      exact ChecksumIEEE_change_byte [] _ hne
  · -- a key or value byte
    obtain ⟨j, rfl⟩ : ∃ j, i = 5 + (PutVarint (r.Key.length : Int)).length +
        (PutVarint (r.Value.length : Int)).length + j := ⟨_, (Nat.add_sub_cancel' hge).symm⟩
    simp only [List.length_cons, List.length_append] at hi
    have hj : j < (r.Key ++ r.Value).length := by
      simp only [List.length_append]; omega
    have hidx : 5 + (PutVarint (r.Key.length : Int)).length +
        (PutVarint (r.Value.length : Int)).length + j =
        (j + (PutVarint (r.Value.length : Int)).length +
          (PutVarint (r.Key.length : Int)).length) + 1 + 1 + 1 + 1 + 1 := by omega
    have hset : (byteOf (ChecksumIEEE (recordBody r)) ::
        byteOf (ChecksumIEEE (recordBody r) >>> 8) :: byteOf (ChecksumIEEE (recordBody r) >>> 16) ::
        byteOf (ChecksumIEEE (recordBody r) >>> 24) :: r.Typ ::
        (PutVarint r.Key.length ++ (PutVarint r.Value.length ++ (r.Key ++ r.Value)))).set
          (5 + (PutVarint (r.Key.length : Int)).length +
            (PutVarint (r.Value.length : Int)).length + j) b =
        byteOf (ChecksumIEEE (recordBody r)) ::
        byteOf (ChecksumIEEE (recordBody r) >>> 8) :: byteOf (ChecksumIEEE (recordBody r) >>> 16) ::
        byteOf (ChecksumIEEE (recordBody r) >>> 24) :: r.Typ ::
        (PutVarint r.Key.length ++ (PutVarint r.Value.length ++ (r.Key ++ r.Value).set j b)) := by
      rw [hidx]
      simp only [List.set_cons_succ]
      rw [List.set_append_right _ _ (by omega), List.set_append_right _ _ (by omega)]
      congr 8
      omega
    have hgetj : (r.Key ++ r.Value)[j]? ≠ some b := by
      intro e
      apply hb
      rw [hidx]
      simp only [List.getElem?_cons_succ]
      rw [List.getElem?_append_right (by omega), List.getElem?_append_right (by omega), ← e]
      congr 1
      omega
    rw [hset]
    apply ReadLogRecord_framed_bad _ _ _ _ _ _ _ _ (by simp) hk hv
    rw [uint32LE_eq, hcrc, hbody]
    have := ChecksumIEEE_set_ne_right
      (r.Typ :: (PutVarint r.Key.length ++ PutVarint r.Value.length)) (r.Key ++ r.Value) j hj b hgetj
    simpa [List.append_assoc] using this

/-- Witness of C9: the second value byte (position 10) of the record
`Put("n", [1, 2])` appends, stored between two foreign bytes, is replaced by 5. -/
theorem C9_changed_byte_detected_witness :
    EncodeLogRecord witnessRecord = some (witnessEnc, 11) ∧
    witnessEnc[10]? ≠ some 5 ∧
    ReadLogRecord ([9] ++ witnessEnc.set 10 5 ++ [7]) 1 = .error .InvalidCRC :=
  ⟨by decide!, by decide,
   (C9_changed_byte_detected witnessRecord (by decide) (by decide) witnessEnc 11 (by decide!)
      [9] [7] 10 (by decide) 5 (by decide) (Or.inr (by decide))).resolve_right
      (fun h => absurd h.1 (by decide!))⟩

/-- Counterexample to C9 as stated: replacing the keySize byte (position 5, value 4)
of the record `Put("n", [1, 2])` appends by 126 announces a key of 63 bytes; the
body read runs past the end of the segment, `ReadLogRecord` returns `io.EOF` although
the crc and keySize of the corrupted header are not zero, and `Open` on the segment
succeeds with an empty index. -/
theorem C9_counterexample :
    EncodeLogRecord witnessRecord = some (witnessEnc, 11) ∧
    witnessEnc[5]? ≠ some 126 ∧
    ReadLogRecord (witnessEnc.set 5 126) 0 = .error .EOF ∧
    decodeLogRecordHeader ((witnessEnc.set 5 126).take 15) =
      some (some ({ crc := 1176604143, recordType := 0, keySize := 63, valueSize := 2 }, 7)) ∧
    Open witnessOptions [(0, witnessEnc.set 5 126)] =
      some (.ok { options := witnessOptions, disk := [(0, witnessEnc.set 5 126)],
                  fileIds := [0], activeFile := some { FileId := 0, WriteOff := 0 },
                  olderFiles := [], index := [], seqNo := 0, reclaimSize := 0,
                  isMerging := false }) := by
  decide!

/-- C10, evaluated at a failing input: a segment that holds the record
`Put("n", [1, 2])` appends followed by the first five bytes (crc and type) of the
record `Put("o", [3])` appends.  `Open` returns `ErrInvalidCRC` instead of treating the
cut as end-of-log; the same happens when the cut falls after the first byte of a
two-byte keySize varint. -/
theorem C10_cut_header_invalid_crc :
    (EncodeLogRecord { Key := [0, 111], Value := [3], Typ := LogRecordNormal }).map
        (fun e => Open witnessOptions [(0, witnessEnc ++ e.1.take 5)]) =
      some (some (.error .InvalidCRC)) ∧
    (EncodeLogRecord { Key := 0 :: List.replicate 63 97, Value := [3], Typ := LogRecordNormal }).map
        (fun e => (e.1.drop 5 |>.take 2, Open witnessOptions [(0, witnessEnc ++ e.1.take 6)])) =
      some ([128, 1], some (.error .InvalidCRC)) := by
  decide!
/-- C11: at an offset not beyond the end of the file, `ReadLogRecord` returns `io.EOF`
when fewer than 5 bytes remain, and when the decoded header has crc, keySize and
valueSize zero, whatever its type byte is. -/
theorem C11_end_of_log (file : Bytes) (offset : Nat) (hoff : offset ≤ file.length) :
    (file.length - offset < 5 → ReadLogRecord file (offset : Int) = .error .EOF) ∧
    (∀ (h : logRecordHeader) (hs : Int),
      decodeLogRecordHeader ((file.drop offset).take 15) = some (some (h, hs)) →
      h.crc = 0 → h.keySize = 0 → h.valueSize = 0 →
      ReadLogRecord file (offset : Int) = .error .EOF) := by
  constructor
  · intro hlt
    simp only [ReadLogRecord]
    rw [ReadNBytes_header file offset hoff]
    have : decodeLogRecordHeader ((file.drop offset).take 15) = none := by
      apply decodeLogRecordHeader_short
      simp only [List.length_take, List.length_drop]
      omega
    simp only [this]
  · intro h hs hdec h1 h2 h3
    exact ReadLogRecord_header_eof file offset hoff h hs hdec ⟨h1, h2, h3⟩

/-- Witness of C11: four bytes remain after offset 11 of a segment; and a header of
zero crc and sizes with type byte 7 at offset 0. -/
theorem C11_end_of_log_witness :
    ReadLogRecord (witnessEnc ++ [1, 2, 3, 4]) 11 = .error .EOF ∧
    ReadLogRecord [0, 0, 0, 0, 7, 0, 0, 9, 9] 0 = .error .EOF :=
  ⟨(C11_end_of_log (witnessEnc ++ [1, 2, 3, 4]) 11 (by decide)).1 (by decide),
   (C11_end_of_log [0, 0, 0, 0, 7, 0, 0, 9, 9] 0 (by decide)).2
     { crc := 0, recordType := 7, keySize := 0, valueSize := 0 } 7 (by decide) rfl rfl rfl⟩

/-- C12: whenever `EncodeLogRecord` returns, the bytes are
`crc ++ [type] ++ varint(len key) ++ varint(len value) ++ key ++ value` with the size
fields written by `binary.PutVarint`, `crc` is the 4-byte little-endian CRC32-IEEE of
everything that follows it, and the returned size is the length of the returned
slice; it returns for every record whose key and value are shorter than 2^34 bytes. -/
theorem C12_encode_layout (r : LogRecord) :
    (∀ (enc : Bytes) (size : Nat), EncodeLogRecord r = some (enc, size) →
      enc = putUint32LE (ChecksumIEEE (enc.drop 4)) ++
        ([r.Typ] ++ PutVarint r.Key.length ++ PutVarint r.Value.length ++ r.Key ++ r.Value) ∧
      uint32LE (enc.getD 0 0) (enc.getD 1 0) (enc.getD 2 0) (enc.getD 3 0) =
        ChecksumIEEE (enc.drop 4) ∧
      size = enc.length) ∧
    (r.Key.length < 2 ^ 34 → r.Value.length < 2 ^ 34 → (EncodeLogRecord r).isSome = true) := by
  constructor
  · intro enc size henc
    obtain ⟨hlen, hform, _, _⟩ := EncodeLogRecord_length r enc size henc
    have hdrop : enc.drop 4 = recordBody r := by
      rw [hform]; rfl
    have hbody : recordBody r =
        [r.Typ] ++ PutVarint r.Key.length ++ PutVarint r.Value.length ++ r.Key ++ r.Value := by
      simp [recordBody, List.append_assoc]
    refine ⟨?_, ?_, hlen.symm⟩
    · rw [hdrop, ← hbody]; exact hform
    · rw [hdrop, hform]
      exact uint32LE_putUint32LE _ (ChecksumIEEE_lt _)
  · intro hk hv
    rw [EncodeLogRecord_some r hk hv]
    rfl

/-- C13 (amended): the keySize and valueSize fields written by `EncodeLogRecord` are
the lengths written by `binary.PutVarint`, that is zig-zag followed by base-128: for
every length `n < 64` the field is the single byte `2 * n` (a key of length 1 is
announced by the byte 0x02), and `binary.Varint`, which `decodeLogRecordHeader` uses,
reads the length back. -/
theorem C13_size_fields_zigzag (n : Nat) (hn : n < 64) :
    PutVarint (n : Int) = [byteOf (2 * n)] ∧
    (∀ (r : LogRecord) (enc : Bytes) (size : Nat), r.Key.length = n →
      EncodeLogRecord r = some (enc, size) → enc[5]? = some (byteOf (2 * n))) ∧
    (∀ rest : Bytes, Varint (PutVarint (n : Int) ++ rest) = ((n : Int), 1)) := by
  have hput : PutVarint (n : Int) = [byteOf (2 * n)] := by
    rw [PutVarint_nat n (by omega)]
    simp only [PutUvarint]
    rw [Nat.mod_eq_of_lt (by omega)]
    simp only [putUvarintLoop]
    rw [if_neg (by omega)]
  refine ⟨hput, ?_, ?_⟩
  · intro r enc size hlen henc
    obtain ⟨_, hform, _, _⟩ := EncodeLogRecord_length r enc size henc
    rw [hform]
    simp only [putUint32LE, recordBody, hlen, hput]
    simp
  · intro rest
    have := Varint_PutVarint_nat n (by omega) rest
    rw [this, hput]
    rfl

/-- Witness of C13 for a key of length 1. -/
theorem C13_size_fields_zigzag_witness :
    PutVarint ((1 : Nat) : Int) = [byteOf (2 * 1)] ∧ byteOf (2 * 1) = 2 :=
  ⟨(C13_size_fields_zigzag 1 (by decide)).1, rfl⟩

/-- Counterexample to C13 as stated: the record with the one-byte key `61` and empty
value announces its key by the byte 0x02, not 0x01. -/
theorem C13_counterexample :
    (EncodeLogRecord { Key := [97], Value := [], Typ := LogRecordNormal }).map
      (fun e => e.1[5]?) = some (some 2) ∧ PutVarint 1 ≠ [1] := by
  decide!

/-- C15: for every key and every `uint64` sequence number, `parseLogRecordKey` of
`logRecordKeyWithSeq` returns the key and the sequence number; for sequence number 0
the encoded key is the byte 0x00 followed by the key. -/
theorem C15_key_with_seq_roundtrip (key : Bytes) (seqNo : Nat) (hs : seqNo < 2 ^ 64) :
    parseLogRecordKey (logRecordKeyWithSeq key seqNo) = some (key, seqNo) ∧
    logRecordKeyWithSeq key 0 = 0 :: key := by
  constructor
  · simp only [parseLogRecordKey, logRecordKeyWithSeq, Uvarint_PutUvarint seqNo hs key]
    rw [if_neg (by omega)]
    simp
  · exact logRecordKeyWithSeq_zero key

/-- Witness of C15 with sequence number 300. -/
theorem C15_key_with_seq_roundtrip_witness :
    parseLogRecordKey (logRecordKeyWithSeq [110] 300) = some ([110], 300) ∧
    logRecordKeyWithSeq [110] 0 = 0 :: [110] :=
  C15_key_with_seq_roundtrip [110] 300 (by decide)

/-- Witness of C12 on the record `Put("n", [1, 2])` appends. -/
theorem C12_encode_layout_witness :
    EncodeLogRecord witnessRecord = some (witnessEnc, 11) ∧
    witnessEnc = putUint32LE (ChecksumIEEE (witnessEnc.drop 4)) ++
      ([witnessRecord.Typ] ++ PutVarint witnessRecord.Key.length ++
        PutVarint witnessRecord.Value.length ++ witnessRecord.Key ++ witnessRecord.Value) ∧
    11 = witnessEnc.length :=
  ⟨by decide!, ((C12_encode_layout witnessRecord).1 witnessEnc 11 (by decide!)).1,
    ((C12_encode_layout witnessRecord).1 witnessEnc 11 (by decide!)).2.2⟩
/-! ## Claims on `Put`, `Get` and `Delete` -/

theorem hugeValue_length : hugeValue.length = 2 ^ 32 := by
  unfold hugeValue
  exact List.length_replicate _ _


/-- C1 (amended): in every engine state in which the offset recorded for the active
segment is the length of that segment on disk and the segment a rotation opens next
is empty or absent, for every non-empty key of fewer than 2^32 - 1 bytes and every
value (possibly empty) of fewer than 2^32 bytes, `Put(k, v)` returns no error and an
immediately following `Get(k)` returns exactly `v`, whatever `DataFileSize` is (the
append may rotate to a new segment, and the record may be larger than
`DataFileSize`). -/
theorem C1_put_then_get (db : DB) (hc : db.Consistent) (k v : Bytes) (hk : k ≠ [])
    (hkl : k.length + 1 < 2 ^ 32) (hvl : v.length < 2 ^ 32) :
    (db.Put k v).2 = none ∧ (db.Put k v).1.Get k = .ok v :=
  Put_then_Get db hc k v hk hkl hvl

/-- Witness of C1: `Put("name", "bitcask")` and `Get("name")` on the engine opened
on an empty directory with `DataFileSize = 5`, so that the record is larger than a
segment and the append rotates. -/
theorem C1_put_then_get_witness :
    Open { DataFileSize := 5, SyncWrites := false } [] = some (.ok (freshDB 5)) ∧
    (freshDB 5).Consistent ∧
    ((freshDB 5).Put [110, 97, 109, 101] [98, 105, 116, 99, 97, 115, 107]).2 = none ∧
    ((freshDB 5).Put [110, 97, 109, 101] [98, 105, 116, 99, 97, 115, 107]).1.Get
      [110, 97, 109, 101] = .ok [98, 105, 116, 99, 97, 115, 107] :=
  ⟨by decide, ⟨rfl, rfl⟩,
   C1_put_then_get (freshDB 5) ⟨rfl, rfl⟩ [110, 97, 109, 101] [98, 105, 116, 99, 97, 115, 107]
     (by decide) (by decide) (by decide)⟩

/-- Counterexample to C1 as stated.  After `Open` on a directory whose last segment
ends in a cut record, `Put("n", [1, 2])` succeeds and `Get("n")` fails; and on a fresh
engine a `Put` of a value of 2^32 bytes succeeds while `Get` does not return it. -/
theorem C1_counterexample :
    (Open { DataFileSize := 100, SyncWrites := false } [(0, [1, 2, 3])] = some (.ok crashDB) ∧
      (crashDB.Put [110] [1, 2]).2 = none ∧
      (crashDB.Put [110] [1, 2]).1.Get [110] = .error .EOF) ∧
    (((freshDB 100).Put [110] hugeValue).2 = none ∧
      ((freshDB 100).Put [110] hugeValue).1.Get [110] ≠ .ok hugeValue) := by
  refine ⟨by decide!, ?_, ?_⟩
  · exact Put_no_error _ _ _ (by decide) (by decide) (by rw [hugeValue_length]; norm_num)
  · intro h
    have := Get_value_length_lt _ _ _ h
    rw [hugeValue_length] at this
    exact absurd this (by norm_num)

theorem EncodeLogRecord_some_of_header (r : LogRecord)
    (h : (PutVarint r.Key.length).length + (PutVarint r.Value.length).length ≤ 10) :
    EncodeLogRecord r =
      some (putUint32LE (ChecksumIEEE (recordBody r)) ++ recordBody r,
        5 + (PutVarint r.Key.length).length + (PutVarint r.Value.length).length +
          r.Key.length + r.Value.length) := by
  simp only [EncodeLogRecord, maxLogRecordHeaderSize]
  rw [if_neg (by omega)]

theorem EncodeLogRecord_none_of_header (r : LogRecord)
    (h : 10 < (PutVarint r.Key.length).length + (PutVarint r.Value.length).length) :
    EncodeLogRecord r = none := by
  simp only [EncodeLogRecord, maxLogRecordHeaderSize]
  rw [if_pos (by omega)]

theorem appendLogRecord_panic (db : DB) (r : LogRecord) (h : EncodeLogRecord r = none) :
    (db.appendLogRecord r).2 = .error .Panic := by
  simp only [DB.appendLogRecord, h]

theorem PutVarint_nat_length_le9 (n : Nat) (hn : n < 2 ^ 62) :
    (PutVarint (n : Int)).length ≤ 9 := by
  rw [PutVarint_nat n (by omega)]
  exact PutUvarint_length_le (2 * n) 8 (by norm_num; omega) (by omega)

theorem PutVarint_zero_length : (PutVarint ((0 : Nat) : Int)).length = 1 := by decide

/-- `Delete` of a key that is in the index. -/
theorem Delete_present (db : DB) (k : Bytes) (hk : k ≠ []) (hkl : k.length + 1 < 2 ^ 62)
    (hin : db.index.Get k ≠ none) :
    (db.Delete k).2 = none ∧ (db.Delete k).1.index.Get k = none ∧
      (db.Delete k).1.Get k = .error .KeyNotFound := by
  have hk0 : ¬ k.length = 0 := fun e => hk (List.length_eq_zero.mp e)
  have hsome : ¬ ((db.index.Get k).isNone = true) := by
    simpa using hin
  have henc := EncodeLogRecord_some_of_header
    { Key := logRecordKeyWithSeq k nonTransactionSeqNo, Value := [], Typ := LogRecordDeleted }
    (by
      have h9 := PutVarint_nat_length_le9 (logRecordKeyWithSeq k nonTransactionSeqNo).length
        (by rw [logRecordKeyWithSeq_zero]; simpa using hkl)
      have h1 := PutVarint_zero_length
      simp only [List.length_nil]
      omega)
  obtain ⟨pos, hpos⟩ := appendLogRecord_ok db _ _ _ henc
  have hidx : (db.appendLogRecord
      { Key := logRecordKeyWithSeq k nonTransactionSeqNo, Value := [],
        Typ := LogRecordDeleted }).1.index = db.index := by
    cases haf : db.activeFile with
    | some af =>
      rw [appendLogRecord_active db _ _ _ af haf henc]
      split <;> rfl
    | none =>
      rw [appendLogRecord_noactive db _ haf,
        appendLogRecord_active _ _ _ _ { FileId := 0, WriteOff := 0 } rfl henc]
      split <;> rfl
  have hpair : db.appendLogRecord
      { Key := logRecordKeyWithSeq k nonTransactionSeqNo, Value := [], Typ := LogRecordDeleted } =
      ((db.appendLogRecord
        { Key := logRecordKeyWithSeq k nonTransactionSeqNo, Value := [],
          Typ := LogRecordDeleted }).1, .ok pos) := by
    rw [← hpos]
  obtain ⟨old, hold⟩ := Option.ne_none_iff_exists'.mp hin
  simp only [DB.Delete, if_neg hk0, if_neg hsome]
  rw [hpair]
  simp only [Index.Delete, hidx, hold, Option.isSome_some]
  refine ⟨by trivial, Index.Get_erase_self _ _, ?_⟩
  simp only [DB.Get, if_neg hk0, Index.Get_erase_self]

/-- C7 (amended): for every engine state and every non-empty key `k` of fewer than
2^62 - 1 bytes that is present in the index, `Delete(k)` returns no error, removes
`k` from the index, and a following `Get(k)` returns `ErrKeyNotFound`. -/
theorem C7_delete_present_key (db : DB) (k : Bytes) (hk : k ≠ [])
    (hkl : k.length + 1 < 2 ^ 62) (hin : db.index.Get k ≠ none) :
    (db.Delete k).2 = none ∧ (db.Delete k).1.index.Get k = none ∧
      (db.Delete k).1.Get k = .error .KeyNotFound :=
  Delete_present db k hk hkl hin

/-- Witness of C7: `Delete("n")` after `Put("n", [1, 2])` on a fresh engine. -/
theorem C7_delete_present_key_witness :
    (((freshDB 100).Put [110] [1, 2]).1.index.Get [110] ≠ none) ∧
    ((((freshDB 100).Put [110] [1, 2]).1.Delete [110]).2 = none ∧
      (((freshDB 100).Put [110] [1, 2]).1.Delete [110]).1.index.Get [110] = none ∧
      (((freshDB 100).Put [110] [1, 2]).1.Delete [110]).1.Get [110] = .error .KeyNotFound) :=
  ⟨by decide!,
   C7_delete_present_key ((freshDB 100).Put [110] [1, 2]).1 [110] (by decide) (by decide)
     (by decide!)⟩

/-- Counterexample to C7 as stated.  After `Open` on a directory whose segment holds
a record with the empty user key, that key is in the index and `Delete` of it
returns `ErrKeyIsEmpty`, leaving it in the index. -/
theorem C7_counterexample :
    Open { DataFileSize := 100, SyncWrites := false }
        [(0, [119, 31, 197, 31, 0, 2, 2, 0, 5])] = some (.ok emptyKeyDB) ∧
      emptyKeyDB.index.Get [] ≠ none ∧
      (emptyKeyDB.Delete []).2 = some .KeyIsEmpty ∧
      (emptyKeyDB.Delete []).1.index.Get [] ≠ none := by
  decide!
/-! ## Claims on batches and recovery -/

/-- C5, evaluated at a failing history: `Put("n", [1, 2])`; a batch buffers
`Delete("n")`; `DB.Delete("n")`; the batch commits.  `Commit` returns success and the
live engine answers `ErrKeyNotFound` for "n", but re-opening the store panics: the
batch tombstone is applied to an index that no longer holds the key, and `updateIndex`
reads the size of the nil position. -/
theorem C5_reopen_after_commit_panics :
    tombstoneHistory.2 = none ∧
    tombstoneHistory.1.1.Get [110] = .error .KeyNotFound ∧
    Open witnessOptions tombstoneHistory.1.1.disk = some (.error .Panic) := by
  decide!
theorem pendingGet_set_self (m : List (Bytes × LogRecord)) (k : Bytes) (r : LogRecord) :
    pendingGet (pendingSet m k r) k = some r := by
  induction m with
  | nil => simp [pendingSet, pendingGet]
  | cons e rest ih =>
    obtain ⟨k0, r0⟩ := e
    simp only [pendingSet]
    by_cases h : k0 = k
    · simp [h, pendingGet]
    · simp [h, pendingGet, ih]

theorem pendingGet_set_other (m : List (Bytes × LogRecord)) (k k' : Bytes) (r : LogRecord)
    (h : k' ≠ k) : pendingGet (pendingSet m k r) k' = pendingGet m k' := by
  have h' : ¬ k = k' := fun e => h e.symm
  induction m with
  | nil => simp [pendingSet, pendingGet, h']
  | cons e rest ih =>
    obtain ⟨k0, r0⟩ := e
    simp only [pendingSet]
    by_cases h0 : k0 = k
    · subst h0
      simp [pendingGet, h']
    · simp only [h0, ↓reduceIte, pendingGet, ih]

theorem pendingErase_cons_eq (rest : List (Bytes × LogRecord)) (k : Bytes) (r0 : LogRecord) :
    pendingErase ((k, r0) :: rest) k = pendingErase rest k := by
  simp only [pendingErase]
  exact List.filter_cons_of_neg (by simp)

theorem pendingErase_cons_ne (rest : List (Bytes × LogRecord)) (k k0 : Bytes) (r0 : LogRecord)
    (h : k0 ≠ k) : pendingErase ((k0, r0) :: rest) k = (k0, r0) :: pendingErase rest k := by
  simp only [pendingErase]
  exact List.filter_cons_of_pos (by simpa using h)

theorem pendingGet_erase_self (m : List (Bytes × LogRecord)) (k : Bytes) :
    pendingGet (pendingErase m k) k = none := by
  induction m with
  | nil => simp [pendingErase, pendingGet]
  | cons e rest ih =>
    obtain ⟨k0, r0⟩ := e
    by_cases h : k0 = k
    · subst h
      rw [pendingErase_cons_eq]; exact ih
    · rw [pendingErase_cons_ne _ _ _ _ h]
      simp only [pendingGet, if_neg h, ih]

theorem pendingGet_erase_other (m : List (Bytes × LogRecord)) (k k' : Bytes) (h : k' ≠ k) :
    pendingGet (pendingErase m k) k' = pendingGet m k' := by
  induction m with
  | nil => simp [pendingErase, pendingGet]
  | cons e rest ih =>
    obtain ⟨k0, r0⟩ := e
    by_cases h1 : k0 = k
    · subst h1
      have : ¬ k0 = k' := fun e => h e.symm
      rw [pendingErase_cons_eq]
      simp only [pendingGet, if_neg this, ih]
    · rw [pendingErase_cons_ne _ _ _ _ h1]
      simp only [pendingGet, ih]

/-- C20: for every batch, engine and non-empty key `k`, `WriteBatch.Delete(k)` returns
success; if `k` is neither in the index nor in the buffer the batch is unchanged; if
`k` is absent from the index but buffered, its buffered record is removed; if `k` is
in the index the buffer maps `k` to a `Deleted` record with empty value.  No other
buffered key is affected, and the call only returns a batch: the engine (its log and
index) is not modified. -/
theorem C20_batch_delete (wb : WriteBatch) (db : DB) (k : Bytes) (hk : k ≠ []) :
    (wb.Delete db k).2 = none ∧
    (db.index.Get k = none → pendingGet wb.pendingWrites k = none → (wb.Delete db k).1 = wb) ∧
    (db.index.Get k = none → pendingGet wb.pendingWrites k ≠ none →
      pendingGet (wb.Delete db k).1.pendingWrites k = none) ∧
    (db.index.Get k ≠ none →
      pendingGet (wb.Delete db k).1.pendingWrites k =
        some { Key := k, Value := [], Typ := LogRecordDeleted }) ∧
    (∀ k', k' ≠ k →
      pendingGet (wb.Delete db k).1.pendingWrites k' = pendingGet wb.pendingWrites k') ∧
    (wb.Delete db k).1.options = wb.options := by
  have hk0 : ¬ k.length = 0 := fun e => hk (List.length_eq_zero.mp e)
  simp only [WriteBatch.Delete, if_neg hk0]
  cases hidx : db.index.Get k with
  | none =>
    cases hp : pendingGet wb.pendingWrites k with
    | none =>
      simp
    | some r =>
      simp only [Option.isSome_some, ↓reduceIte, ne_eq, not_true_eq_false, false_implies,
        true_and, reduceCtorEq, not_false_eq_true, forall_const, and_true]
      refine ⟨pendingGet_erase_self _ _, ?_⟩
      intro k' hk'
      exact pendingGet_erase_other _ _ _ hk'
  | some p =>
    simp only [ne_eq, reduceCtorEq, not_false_eq_true, forall_const, false_implies, true_and,
      and_true]
    refine ⟨pendingGet_set_self _ _ _, ?_⟩
    intro k' hk'
    exact pendingGet_set_other _ _ _ _ hk'

/-- Witness of C20: `Delete("n")` on an empty batch over an engine that holds "n". -/
theorem C20_batch_delete_witness :
    ((NewWriteBatch witnessBatchOptions).Delete onePutDB [110]).2 = none ∧
    pendingGet ((NewWriteBatch witnessBatchOptions).Delete onePutDB [110]).1.pendingWrites [110] =
      some { Key := [110], Value := [], Typ := LogRecordDeleted } :=
  ⟨(C20_batch_delete (NewWriteBatch witnessBatchOptions) onePutDB [110] (by decide)).1,
   (C20_batch_delete (NewWriteBatch witnessBatchOptions) onePutDB [110] (by decide)).2.2.2.1
     (by decide!)⟩

theorem appendLogRecord_error (db : DB) (r : LogRecord) (e : Err)
    (h : (db.appendLogRecord r).2 = .error e) : e = .Panic := by
  cases henc : EncodeLogRecord r with
  | none =>
    rw [appendLogRecord_panic db r henc] at h
    simp only [Except.error.injEq] at h
    exact h.symm
  | some p =>
    obtain ⟨enc, size⟩ := p
    obtain ⟨pos, hpos⟩ := appendLogRecord_ok db r enc size henc
    rw [hpos] at h
    simp at h

theorem commitAppend_error (seqNo : Nat) (l : List (Bytes × LogRecord)) :
    ∀ (db : DB) (positions : List (Bytes × LogRecordPos)) (e : Err),
      (commitAppend seqNo l db positions).2 = .error e → e = .Panic := by
  induction l with
  | nil => intro db positions e h; simp [commitAppend] at h
  | cons x rest ih =>
    intro db positions e h
    obtain ⟨k, record⟩ := x
    simp only [commitAppend] at h
    split at h
    · rename_i db1 e1 heq
      simp only [Except.error.injEq] at h
      subst h
      exact appendLogRecord_error db _ e1 (by rw [heq])
    · exact ih _ _ _ h

/-- C21: `Commit` returns `ErrExceedMaxBatchNum` exactly when the number of buffered
records is strictly greater than `MaxBatchNum`; then nothing is appended and engine
and buffer are unchanged.  A `Commit` of an empty buffer returns success and changes
nothing. -/
theorem C21_commit_max_batch (wb : WriteBatch) (db : DB) :
    ((wb.Commit db).2 = some .ExceedMaxBatchNum ↔
      wb.pendingWrites.length > wb.options.MaxBatchNum) ∧
    (wb.pendingWrites.length > wb.options.MaxBatchNum → (wb.Commit db).1 = (db, wb)) ∧
    (wb.pendingWrites = [] → wb.Commit db = ((db, wb), none)) := by
  refine ⟨?_, ?_, ?_⟩
  · constructor
    · intro h
      by_contra hle
      unfold WriteBatch.Commit at h
      by_cases h0 : wb.pendingWrites.length = 0
      · rw [if_pos h0] at h
        simp at h
      · rw [if_neg h0, if_neg hle] at h
        simp only at h
        split at h
        · rename_i db1 e heq
          simp only [Option.some.injEq] at h
          have := commitAppend_error _ _ _ _ e (by rw [heq])
          rw [this] at h
          simp at h
        · split at h
          · rename_i db2 e heq
            simp only [Option.some.injEq] at h
            have := appendLogRecord_error _ _ e (by rw [heq])
            rw [this] at h
            simp at h
          · simp at h
    · intro h
      have h0 : ¬ wb.pendingWrites.length = 0 := by omega
      simp only [WriteBatch.Commit, if_neg h0, if_pos h]
  · intro h
    have h0 : ¬ wb.pendingWrites.length = 0 := by omega
    simp only [WriteBatch.Commit, if_neg h0, if_pos h]
  · intro h
    simp only [WriteBatch.Commit, h, List.length_nil, ↓reduceIte]

/-- C22: for every engine state and every non-empty key that is not in the index,
`Delete` returns success and leaves the whole state (segments, index, `reclaimSize`)
unchanged. -/
theorem C22_delete_absent_key (db : DB) (k : Bytes) (hk : k ≠ [])
    (habs : db.index.Get k = none) : db.Delete k = (db, none) := by
  have hk0 : ¬ k.length = 0 := fun e => hk (List.length_eq_zero.mp e)
  simp only [DB.Delete, if_neg hk0, habs, Option.isNone_none, ↓reduceIte]

/-- Witness of C22: `Delete("o")` on the engine that holds only "n". -/
theorem C22_delete_absent_key_witness :
    onePutDB.index.Get [111] = none ∧ onePutDB.Delete [111] = (onePutDB, none) :=
  ⟨by decide!, C22_delete_absent_key onePutDB [111] (by decide) (by decide!)⟩

/-- C23: with a zero-length key, `DB.Put`, `DB.Delete`, `WriteBatch.Put` and
`WriteBatch.Delete` return `ErrKeyIsEmpty` and leave engine and batch unchanged, and
`DB.Get` returns `ErrKeyIsEmpty`. -/
theorem C23_empty_key (db : DB) (wb : WriteBatch) (v : Bytes) :
    db.Put [] v = (db, some .KeyIsEmpty) ∧
    db.Delete [] = (db, some .KeyIsEmpty) ∧
    wb.Put [] v = (wb, some .KeyIsEmpty) ∧
    wb.Delete db [] = (wb, some .KeyIsEmpty) ∧
    db.Get [] = .error .KeyIsEmpty := by
  refine ⟨?_, ?_, ?_, ?_, ?_⟩ <;>
    simp [DB.Put, DB.Delete, WriteBatch.Put, WriteBatch.Delete, DB.Get]
/-! ## Claims on `Merge` -/

theorem ReadNBytes_error (file : Bytes) (n off : Int) (e : Err)
    (h : ReadNBytes file n off = .error e) : e = .Panic ∨ e = .IOError ∨ e = .EOF := by
  simp only [ReadNBytes] at h
  split at h
  · simp only [Except.error.injEq] at h; exact Or.inl h.symm
  · split at h
    · simp only [Except.error.injEq] at h; exact Or.inr (Or.inl h.symm)
    · split at h
      · simp at h
      · split at h
        · simp at h
        · simp only [Except.error.injEq] at h; exact Or.inr (Or.inr h.symm)

/-- The errors `ReadLogRecord` can return. -/
theorem ReadLogRecord_error (file : Bytes) (offset : Int) (e : Err)
    (h : ReadLogRecord file offset = .error e) :
    e = .Panic ∨ e = .IOError ∨ e = .EOF ∨ e = .InvalidCRC := by
  simp only [ReadLogRecord] at h
  split at h
  · rename_i e1 he1
    simp only [Except.error.injEq] at h
    subst h
    rcases ReadNBytes_error _ _ _ _ he1 with h | h | h <;> simp [h]
  · split at h
    · simp only [Except.error.injEq] at h; simp [← h]
    · simp only [Except.error.injEq] at h; simp [← h]
    · split at h
      · simp only [Except.error.injEq] at h; simp [← h]
      · split at h
        · rename_i e1 hkv
          simp only [Except.error.injEq] at h
          subst h
          split at hkv
          · split at hkv
            · rename_i e2 he2
              simp only [Except.error.injEq] at hkv
              subst hkv
              rcases ReadNBytes_error _ _ _ _ he2 with h | h | h <;> simp [h]
            · simp at hkv
          · simp at hkv
        · split at h
          · simp only [Except.error.injEq] at h; simp [← h]
          · split at h
            · simp only [Except.error.injEq] at h; simp [← h]
            · simp at h

theorem mergeScanFile_error (db : DB) (fileId : Nat) (file : Bytes) :
    ∀ (fuel : Nat) (offset : Int) (mergeDB : DB) (hint : Bytes) (e : Err),
      mergeScanFile db fileId file fuel offset mergeDB hint = some (.error e) →
      e ≠ .NoEnoughSpaceForMerge := by
  intro fuel
  induction fuel with
  | zero => intro offset mergeDB hint e h; simp [mergeScanFile] at h
  | succ fuel ih =>
    intro offset mergeDB hint e h
    simp only [mergeScanFile] at h
    split at h
    · simp at h
    · rename_i e1 hne he1
      simp only [Option.some.injEq, Except.error.injEq] at h
      subst h
      rcases ReadLogRecord_error _ _ _ he1 with h | h | h | h <;> simp [h]
    · split at h
      · simp only [Option.some.injEq, Except.error.injEq] at h
        simp [← h]
      · split at h
        · split at h
          · rename_i e1 heq
            simp only [Option.some.injEq, Except.error.injEq] at h
            subst h
            have := appendLogRecord_error _ _ e1 (by rw [heq])
            simp [this]
          · split at h
            · simp only [Option.some.injEq, Except.error.injEq] at h
              simp [← h]
            · exact ih _ _ _ _ h
        · exact ih _ _ _ _ h

theorem mergeFilesLoop_nil (db : DB) (mergeDB : DB) (hint : Bytes) :
    mergeFilesLoop db [] mergeDB hint = some (.ok (mergeDB, hint)) := by
  rfl
theorem mergeFilesLoop_cons (db : DB) (f : DataFile) (rest : List DataFile) (mergeDB : DB) (hint : Bytes) :
    mergeFilesLoop db (f :: rest) mergeDB hint =
    match mergeScanFile db f.FileId (db.disk.bytes f.FileId) ((db.disk.bytes f.FileId).length + 1) 0 mergeDB hint with
    | none => none
    | some (.error e) => some (.error e)
    | some (.ok (mergeDB1, hint1)) => mergeFilesLoop db rest mergeDB1 hint1 := by
  rfl

theorem mergeFilesLoop_error (db : DB) (files : List DataFile) :
    ∀ (mergeDB : DB) (hint : Bytes) (e : Err),
      mergeFilesLoop db files mergeDB hint = some (.error e) → e ≠ .NoEnoughSpaceForMerge := by
  induction files with
  | nil =>
    intro mergeDB hint e h
    rw [mergeFilesLoop_nil] at h
    simp at h
  | cons f rest ih =>
    intro mergeDB hint e h
    rw [mergeFilesLoop_cons] at h
    split at h
    · simp at h
    · rename_i e1 he1
      simp only [Option.some.injEq, Except.error.injEq] at h
      subst h
      exact mergeScanFile_error _ _ _ _ _ _ _ _ he1
    · exact ih _ _ _ h

/-! ## The scan of `Merge` as a sequence of `Put` calls on the merge engine -/

theorem SameFiles_refl (a : DB) : a.SameFiles a := ⟨rfl, rfl, rfl, rfl⟩

/-- `appendLogRecord` reads and writes only the data directory, the file handles and
the options. -/
theorem appendLogRecord_sameFiles (a b : DB) (h : a.SameFiles b) (r : LogRecord) :
    (a.appendLogRecord r).2 = (b.appendLogRecord r).2 ∧
    DB.SameFiles (a.appendLogRecord r).1 (b.appendLogRecord r).1 := by
  obtain ⟨h1, h2, h3, h4⟩ := h
  have key : ∀ (a b : DB) (af : DataFile), a.disk = b.disk → a.activeFile = some af →
      b.activeFile = some af → a.olderFiles = b.olderFiles → a.options = b.options →
      (a.appendLogRecord r).2 = (b.appendLogRecord r).2 ∧
      DB.SameFiles (a.appendLogRecord r).1 (b.appendLogRecord r).1 := by
    intro a b af h1 ha hb h3 h4
    cases henc : EncodeLogRecord r with
    | none =>
      simp only [DB.appendLogRecord, ha, hb, henc, Option.isNone_some, Bool.false_eq_true,
        ↓reduceIte]
      exact ⟨trivial, h1, by rw [ha, hb], h3, h4⟩
    | some p =>
      obtain ⟨enc, size⟩ := p
      rw [appendLogRecord_active a r enc size af ha henc,
        appendLogRecord_active b r enc size af hb henc, h4]
      split
      · exact ⟨rfl, by simp only [h1], rfl, by simp only [h3], rfl⟩
      · exact ⟨rfl, by simp only [h1], rfl, h3, rfl⟩
  cases ha : a.activeFile with
  | some af => exact key a b af h1 ha (by rw [← h2, ha]) h3 h4
  | none =>
    rw [appendLogRecord_noactive a r ha, appendLogRecord_noactive b r (by rw [← h2, ha])]
    exact key _ _ { FileId := 0, WriteOff := 0 } (by simp only [h1]) rfl rfl h3 h4

theorem Put_sameFiles (a b : DB) (h : a.SameFiles b) (k v : Bytes) (hk : k ≠ [])
    (hkl : k.length + 1 < 2 ^ 32) (hvl : v.length < 2 ^ 32) :
    ∃ pos, a.appendLogRecord { Key := 0 :: k, Value := v, Typ := LogRecordNormal } =
        ((a.appendLogRecord { Key := 0 :: k, Value := v, Typ := LogRecordNormal }).1, .ok pos) ∧
      (b.Put k v).2 = none ∧
      DB.SameFiles (a.appendLogRecord { Key := 0 :: k, Value := v, Typ := LogRecordNormal }).1
        (b.Put k v).1 := by
  have hf : LogRecord.Framed { Key := 0 :: k, Value := v, Typ := LogRecordNormal } :=
    ⟨by simp, by simpa using hkl, hvl⟩
  obtain ⟨pos, hpos⟩ := appendLogRecord_ok a _ _ _ (EncodeLogRecord_framed _ hf)
  obtain ⟨s1, s2⟩ := appendLogRecord_sameFiles a b h
    { Key := 0 :: k, Value := v, Typ := LogRecordNormal }
  have hb : b.appendLogRecord { Key := 0 :: k, Value := v, Typ := LogRecordNormal } =
      ((b.appendLogRecord { Key := 0 :: k, Value := v, Typ := LogRecordNormal }).1, .ok pos) := by
    rw [← hpos, s1]
  obtain ⟨rs, hput⟩ := Put_ok_state b _ k v pos hk hb
  refine ⟨pos, by rw [← hpos], by rw [hput], ?_⟩
  rw [hput]
  exact ⟨s2.1, s2.2.1, s2.2.2.1, s2.2.2.2⟩

theorem WriteHintRecord_some (key : Bytes) (pos : LogRecordPos) (hk : key.length < 2 ^ 32) :
    (WriteHintRecord key pos).isSome = true := by
  simp only [WriteHintRecord]
  have hv : (EncodeLogRecordPos pos).length ≤ 30 := by
    simp only [EncodeLogRecordPos, List.length_append]
    have := PutVarint_length_le10 (pos.Fid : Int)
    have := PutVarint_length_le10 pos.Offset
    have := PutVarint_length_le10 (pos.Size : Int)
    omega
  rw [EncodeLogRecord_some _ (by simp only; omega) (by simp only; omega)]
  rfl

theorem realKeyOf_parse (r : LogRecord) (k : Bytes) (s : Nat)
    (h : parseLogRecordKey r.Key = some (k, s)) : realKeyOf r = k := by
  simp only [realKeyOf, h]

theorem mergeRecords_cons_live (db : DB) (e : LogRecord × LogRecordPos)
    (rest : List (LogRecord × LogRecordPos)) (mdb : DB) (hint : Bytes) (k : Bytes) (q : Nat)
    (hkq : parseLogRecordKey e.1.Key = some (k, q)) (hl : db.isLive e = true) :
    mergeRecords db (e :: rest) mdb hint =
      match mdb.appendLogRecord { Key := 0 :: k, Value := e.1.Value, Typ := e.1.Typ } with
      | (_, .error err) => .error err
      | (mergeDB1, .ok pos) =>
        match WriteHintRecord k pos with
        | none => .error .Panic
        | some enc => mergeRecords db rest mergeDB1 (hint ++ enc) := by
  simp only [DB.isLive, hkq] at hl
  simp only [mergeRecords, hkq, logRecordKeyWithSeq_zero]
  rw [if_pos hl]

theorem mergeRecords_cons_dead (db : DB) (e : LogRecord × LogRecordPos)
    (rest : List (LogRecord × LogRecordPos)) (mdb : DB) (hint : Bytes) (k : Bytes) (q : Nat)
    (hkq : parseLogRecordKey e.1.Key = some (k, q)) (hl : ¬ db.isLive e = true) :
    mergeRecords db (e :: rest) mdb hint = mergeRecords db rest mdb hint := by
  simp only [DB.isLive, hkq] at hl
  simp only [mergeRecords, hkq]
  rw [if_neg hl]

theorem mergeOps_cons_live (db : DB) (e : LogRecord × LogRecordPos)
    (rest : List (LogRecord × LogRecordPos)) (hl : db.isLive e = true) :
    mergeOps db (e :: rest) = Op.put (realKeyOf e.1) e.1.Value :: mergeOps db rest := by
  simp only [mergeOps, List.filter_cons, hl, ↓reduceIte, List.map_cons]

theorem mergeOps_cons_dead (db : DB) (e : LogRecord × LogRecordPos)
    (rest : List (LogRecord × LogRecordPos)) (hl : ¬ db.isLive e = true) :
    mergeOps db (e :: rest) = mergeOps db rest := by
  simp only [mergeOps, List.filter_cons, hl, Bool.false_eq_true, ↓reduceIte]

/-- The scan loop of `Merge` over records whose live ones are `Normal` records with
non-empty keys: it ends without an error, and the merge engine has the files of an
engine on which `Put` was called with the key and value of every live record. -/
theorem mergeRecords_runOps (db : DB) (l : List (LogRecord × LogRecordPos)) :
    ∀ (mdb mdbI : DB) (hint : Bytes), mdb.SameFiles mdbI →
      (∀ e ∈ l, (parseLogRecordKey e.1.Key).isSome = true ∧
        (realKeyOf e.1).length + 1 < 2 ^ 32) →
      (∀ e ∈ l, db.isLive e = true →
        realKeyOf e.1 ≠ [] ∧ e.1.Value.length < 2 ^ 32 ∧ e.1.Typ = LogRecordNormal) →
      ∃ mdb1 hint1 X, mergeRecords db l mdb hint = .ok (mdb1, hint1) ∧
        mdbI.runOps (mergeOps db l) = some X ∧ mdb1.SameFiles X := by
  induction l with
  | nil =>
    intro mdb mdbI hint hs _ _
    exact ⟨mdb, hint, mdbI, rfl, rfl, hs⟩
  | cons e rest ih =>
    intro mdb mdbI hint hs hparse hlive
    obtain ⟨hp, hkl⟩ := hparse e (List.mem_cons_self _ _)
    obtain ⟨kq, hkq⟩ := Option.isSome_iff_exists.mp hp
    obtain ⟨k, q⟩ := kq
    have hrk := realKeyOf_parse e.1 k q hkq
    rw [hrk] at hkl
    by_cases hl : db.isLive e = true
    · obtain ⟨l1, l2, l3⟩ := hlive e (List.mem_cons_self _ _) hl
      rw [hrk] at l1
      obtain ⟨pos, a1, a2, a3⟩ := Put_sameFiles mdb mdbI hs k e.1.Value l1 hkl l2
      obtain ⟨enc, henc⟩ := Option.isSome_iff_exists.mp (WriteHintRecord_some k pos (by omega))
      obtain ⟨mdb1, hint1, X, b1, b2, b3⟩ := ih
        (mdb.appendLogRecord { Key := 0 :: k, Value := e.1.Value, Typ := LogRecordNormal }).1
        (mdbI.Put k e.1.Value).1 (hint ++ enc) a3
        (fun x hx => hparse x (List.mem_cons_of_mem _ hx))
        (fun x hx => hlive x (List.mem_cons_of_mem _ hx))
      refine ⟨mdb1, hint1, X, ?_, ?_, b3⟩
      · rw [mergeRecords_cons_live db e rest mdb hint k q hkq hl, l3, a1]
        simp only [henc]
        exact b1
      · rw [mergeOps_cons_live db e rest hl, hrk]
        simp only [DB.runOps, DB.applyOp]
        have hput : mdbI.Put k e.1.Value = ((mdbI.Put k e.1.Value).1, none) := by
          rw [← a2]
        rw [hput]
        exact b2
    · obtain ⟨mdb1, hint1, X, b1, b2, b3⟩ := ih mdb mdbI hint hs
        (fun x hx => hparse x (List.mem_cons_of_mem _ hx))
        (fun x hx => hlive x (List.mem_cons_of_mem _ hx))
      refine ⟨mdb1, hint1, X, ?_, ?_, b3⟩
      · rw [mergeRecords_cons_dead db e rest mdb hint k q hkq hl]
        exact b1
      · rw [mergeOps_cons_dead db e rest hl]
        exact b2
theorem mergeRecords_append (db : DB) (l1 l2 : List (LogRecord × LogRecordPos)) :
    ∀ (mdb : DB) (hint : Bytes),
      mergeRecords db (l1 ++ l2) mdb hint =
        match mergeRecords db l1 mdb hint with
        | .error e => .error e
        | .ok (m1, h1) => mergeRecords db l2 m1 h1 := by
  induction l1 with
  | nil => intro mdb hint; rfl
  | cons e rest ih =>
    intro mdb hint
    rw [List.cons_append]
    cases hkq : parseLogRecordKey e.1.Key with
    | none => simp only [mergeRecords, hkq]
    | some kq =>
      obtain ⟨k, q⟩ := kq
      by_cases hl : db.isLive e = true
      · rw [mergeRecords_cons_live db e _ mdb hint k q hkq hl,
          mergeRecords_cons_live db e _ mdb hint k q hkq hl]
        cases mdb.appendLogRecord { Key := 0 :: k, Value := e.1.Value, Typ := e.1.Typ } with
        | mk m1 res =>
          cases res with
          | error err => rfl
          | ok pos =>
            simp only
            cases WriteHintRecord k pos with
            | none => rfl
            | some enc => exact ih m1 (hint ++ enc)
      · rw [mergeRecords_cons_dead db e _ mdb hint k q hkq hl,
          mergeRecords_cons_dead db e _ mdb hint k q hkq hl]
        exact ih mdb hint

/-- The scan loop of `Merge` on a segment that holds the framed records `rs` after
`pre`, started at the offset `pre.length`. -/
theorem mergeScanFile_frames (db : DB) (fileId : Nat) (rs : List LogRecord) :
    ∀ (pre : Bytes) (fuel : Nat) (mdb : DB) (hint : Bytes), rs.length < fuel →
      (∀ r ∈ rs, r.Framed) →
      mergeScanFile db fileId (pre ++ encodeAll rs) fuel (pre.length : Int) mdb hint =
        some (mergeRecords db (positionsFrom fileId (pre.length : Int) rs) mdb hint) := by
  induction rs with
  | nil =>
    intro pre fuel mdb hint hf _
    match fuel, hf with
    | f + 1, _ =>
      simp only [encodeAll, List.append_nil, mergeScanFile, ReadLogRecord_at_end, positionsFrom,
        mergeRecords]
  | cons r rest ih =>
    intro pre fuel mdb hint hf hall
    match fuel, hf with
    | f + 1, hf =>
      have hfr := hall r (List.mem_cons_self _ _)
      have hnext : ∀ (m : DB) (h : Bytes),
          mergeScanFile db fileId (pre ++ (encodeRecord r ++ encodeAll rest)) f
            ((pre.length : Int) + ((encodeRecord r).length : Int)) m h =
          some (mergeRecords db (positionsFrom fileId
            ((pre.length : Int) + ((encodeRecord r).length : Int)) rest) m h) := by
        intro m h
        have := ih (pre ++ encodeRecord r) f m h
          (by simp only [List.length_cons] at hf; omega)
          (fun x hx => hall x (List.mem_cons_of_mem _ hx))
        rw [List.append_assoc] at this
        simp only [List.length_append] at this
        push_cast at this
        exact this
      simp only [encodeAll, mergeScanFile, ReadLogRecord_head r hfr pre (encodeAll rest),
        positionsFrom, mergeRecords, hnext]
      cases parseLogRecordKey r.Key with
      | none => rfl
      | some kq =>
        obtain ⟨k, q⟩ := kq
        simp only
        cases db.index.Get k with
        | none => simp only [Bool.false_eq_true, ↓reduceIte]
        | some p =>
          simp only
          by_cases hc : p.Fid = fileId ∧ p.Offset = (pre.length : Int)
          · simp only [hc, and_self, decide_True, ↓reduceIte]
            cases mdb.appendLogRecord
                { Key := logRecordKeyWithSeq k nonTransactionSeqNo, Value := r.Value,
                  Typ := r.Typ } with
            | mk m1 res =>
              cases res with
              | error err => rfl
              | ok pos =>
                simp only
                cases WriteHintRecord k pos <;> rfl
          · simp only [hc, decide_False, Bool.false_eq_true, ↓reduceIte]

/-- The outer loop of `Merge` over the files of segments that hold framed records. -/
theorem mergeFilesLoop_stored (db : DB) :
    ∀ (segs : List (List LogRecord)) (i : Nat) (files : List DataFile) (mdb : DB) (hint : Bytes),
      files.map (fun f => f.FileId) = List.range' i segs.length →
      (∀ j rs, segs[j]? = some rs →
        db.disk.bytes (i + j) = encodeAll rs ∧ ∀ r ∈ rs, r.Framed) →
      mergeFilesLoop db files mdb hint =
        some (mergeRecords db (scanListFrom i segs) mdb hint) := by
  intro segs
  induction segs with
  | nil =>
    intro i files mdb hint hfiles _
    simp only [List.length_nil, List.range'_zero, List.map_eq_nil_iff] at hfiles
    rw [hfiles, mergeFilesLoop_nil]
    rfl
  | cons rs rest ih =>
    intro i files mdb hint hfiles h
    simp only [List.length_cons, List.range'_succ] at hfiles
    cases files with
    | nil => simp at hfiles
    | cons f frest =>
      simp only [List.map_cons, List.cons.injEq] at hfiles
      obtain ⟨hf1, hf2⟩ := hfiles
      obtain ⟨hbytes, hfr⟩ := h 0 rs (by simp)
      simp only [Nat.add_zero] at hbytes
      rw [mergeFilesLoop_cons, hf1, hbytes]
      have hscan := mergeScanFile_frames db i rs [] ((encodeAll rs).length + 1) mdb hint
        (by have := encodeAll_length_ge rs; omega) hfr
      simp only [List.nil_append, List.length_nil, Nat.cast_zero] at hscan
      rw [hscan]
      simp only [scanListFrom]
      rw [mergeRecords_append]
      cases mergeRecords db (positionsFrom i 0 rs) mdb hint with
      | error e => rfl
      | ok p =>
        obtain ⟨m1, h1⟩ := p
        simp only
        exact ih (i + 1) frest m1 h1 hf2 (by
          intro j rs' hj
          have := h (j + 1) rs' (by simpa using hj)
          rw [show i + (j + 1) = i + 1 + j by omega] at this
          exact this)
/-! ## Records of stored segments and their positions -/

theorem encodeAll_split (pre : List LogRecord) (r : LogRecord) (post : List LogRecord) :
    encodeAll (pre ++ r :: post) = encodeAll pre ++ (encodeRecord r ++ encodeAll post) := by
  induction pre with
  | nil => rfl
  | cons a rest ih =>
    rw [List.cons_append]
    simp only [encodeAll, ih, List.append_assoc]

theorem positionsFrom_mem (fileId : Nat) (rs : List LogRecord) :
    ∀ (offset : Int) (e : LogRecord × LogRecordPos), e ∈ positionsFrom fileId offset rs →
      ∃ pre post, rs = pre ++ e.1 :: post ∧ e.2.Fid = fileId ∧
        e.2.Offset = offset + ((encodeAll pre).length : Int) := by
  induction rs with
  | nil => intro offset e h; simp [positionsFrom] at h
  | cons r rest ih =>
    intro offset e h
    simp only [positionsFrom, List.mem_cons] at h
    rcases h with h | h
    · subst h
      exact ⟨[], rest, rfl, rfl, by simp [encodeAll]⟩
    · obtain ⟨pre, post, h1, h2, h3⟩ := ih _ e h
      refine ⟨r :: pre, post, by rw [h1]; rfl, h2, ?_⟩
      rw [h3]
      simp only [encodeAll, List.length_append]
      push_cast
      omega

theorem scanListFrom_mem (segs : List (List LogRecord)) :
    ∀ (i : Nat) (e : LogRecord × LogRecordPos), e ∈ scanListFrom i segs →
      ∃ j pre post, segs[j]? = some (pre ++ e.1 :: post) ∧ e.2.Fid = i + j ∧
        e.2.Offset = ((encodeAll pre).length : Int) := by
  induction segs with
  | nil => intro i e h; simp [scanListFrom] at h
  | cons rs rest ih =>
    intro i e h
    simp only [scanListFrom, List.mem_append] at h
    rcases h with h | h
    · obtain ⟨pre, post, h1, h2, h3⟩ := positionsFrom_mem i rs 0 e h
      exact ⟨0, pre, post, by simp [h1], by simpa using h2, by simpa using h3⟩
    · obtain ⟨j, pre, post, h1, h2, h3⟩ := ih (i + 1) e h
      exact ⟨j + 1, pre, post, by simpa using h1, by omega, h3⟩

/-- A record of the scan list of an engine that stores framed segments lies in the
data directory at its position. -/
theorem Stores_mem_bytes (db : DB) (olds : List (List LogRecord)) (cur : List LogRecord)
    (h : db.Stores olds cur) (e : LogRecord × LogRecordPos)
    (he : e ∈ scanListFrom 0 (olds ++ [cur])) :
    (∃ pre post : Bytes, db.disk.bytes e.2.Fid = pre ++ (encodeRecord e.1 ++ post) ∧
      e.2.Offset = (pre.length : Int)) ∧ e.2.Fid ≤ olds.length ∧ e.1.Framed := by
  obtain ⟨j, pre, post, h1, h2, h3⟩ := scanListFrom_mem _ 0 e he
  have hj : j < (olds ++ [cur]).length := by
    by_contra hge
    rw [List.getElem?_eq_none (by omega)] at h1
    simp at h1
  simp only [List.length_append, List.length_singleton] at hj
  have hmem : pre ++ e.1 :: post ∈ olds ++ [cur] := List.mem_iff_getElem?.mpr ⟨j, h1⟩
  have hfr : e.1.Framed := by
    rcases List.mem_append.mp hmem with hm | hm
    · exact h.2.2.2.1 _ hm e.1 (by simp)
    · simp only [List.mem_singleton] at hm
      exact h.2.2.2.2 e.1 (by rw [← hm]; simp)
  refine ⟨⟨encodeAll pre, encodeAll post, ?_, h3⟩, by omega, hfr⟩
  rw [h.1, h2, diskFrom_bytes _ 0 j _ h1, encodeAll_split]

/-- Two framed records that lie at the same offset of a segment are equal. -/
theorem record_at_unique (file : Bytes) (r1 r2 : LogRecord) (hf1 : r1.Framed) (hf2 : r2.Framed)
    (pre1 post1 pre2 post2 : Bytes)
    (h1 : file = pre1 ++ (encodeRecord r1 ++ post1))
    (h2 : file = pre2 ++ (encodeRecord r2 ++ post2))
    (hlen : (pre1.length : Int) = (pre2.length : Int)) : r1 = r2 := by
  have a := ReadLogRecord_head r1 hf1 pre1 post1
  have b := ReadLogRecord_head r2 hf2 pre2 post2
  rw [← h1] at a
  rw [← h2, ← hlen, a] at b
  simp only [Except.ok.injEq, Prod.mk.injEq] at b
  exact b.1

theorem olderGet_of_mem_keys (o : List (Nat × DataFile)) (f : Nat)
    (h : f ∈ o.map (fun e => e.1)) : ∃ df, olderGet o f = some df ∧ (f, df) ∈ o := by
  induction o with
  | nil => simp at h
  | cons x rest ih =>
    obtain ⟨f0, d0⟩ := x
    simp only [olderGet]
    by_cases hf : f0 = f
    · subst hf
      exact ⟨d0, by simp, List.mem_cons_self _ _⟩
    · simp only [List.map_cons, List.mem_cons] at h
      rcases h with h | h
      · exact absurd h.symm hf
      · obtain ⟨df, h1, h2⟩ := ih h
        exact ⟨df, by rw [if_neg hf]; exact h1, List.mem_cons_of_mem _ h2⟩

/-- In a sound engine state every record of the scan list is stored at its position. -/
theorem Sound_stored (db : DB) (olds : List (List LogRecord)) (cur : List LogRecord)
    (h : db.Sound olds cur) (e : LogRecord × LogRecordPos)
    (he : e ∈ scanListFrom 0 (olds ++ [cur])) : db.HasRecordAt e.2 e.1 ∧ e.1.Framed := by
  obtain ⟨hst, _, hperm, hid, _, _⟩ := h
  obtain ⟨hb, hle, hfr⟩ := Stores_mem_bytes db olds cur hst e he
  refine ⟨⟨hb, ?_⟩, hfr⟩
  by_cases hp : olds.length = e.2.Fid
  · exact ⟨_, _, hst.2.1, if_pos hp, hp⟩
  · have hmem : e.2.Fid ∈ db.olderFiles.map (fun x => x.1) := by
      rw [hperm.mem_iff]
      simp only [List.mem_range'_1]
      omega
    obtain ⟨df, h1, h2⟩ := olderGet_of_mem_keys _ _ hmem
    refine ⟨_, df, hst.2.1, ?_, hid _ h2⟩
    simp only
    rw [if_neg hp]
    exact h1
/-! ## What `Merge` copies from a sound engine state -/

theorem HasRecordAt_same_place (db : DB) (p q : LogRecordPos) (r : LogRecord)
    (h1 : p.Fid = q.Fid) (h2 : p.Offset = q.Offset) (h : db.HasRecordAt q r) :
    db.HasRecordAt p r := by
  simp only [DB.HasRecordAt] at h ⊢
  rw [h1, h2]
  exact h

/-- In a sound engine state a record that the scan of `Merge` takes as live is the
`Normal` record of an index entry, and `Get` of its key returns its value. -/
theorem Sound_live (db : DB) (olds : List (List LogRecord)) (cur : List LogRecord)
    (h : db.Sound olds cur) (e : LogRecord × LogRecordPos)
    (he : e ∈ scanListFrom 0 (olds ++ [cur])) (hl : db.isLive e = true) :
    realKeyOf e.1 ≠ [] ∧ e.1.Value.length < 2 ^ 32 ∧ e.1.Typ = LogRecordNormal ∧
    db.index.Get (realKeyOf e.1) ≠ none ∧ db.Get (realKeyOf e.1) = .ok e.1.Value := by
  simp only [DB.isLive] at hl
  cases hkq : parseLogRecordKey e.1.Key with
  | none => rw [hkq] at hl; simp at hl
  | some kq =>
    obtain ⟨k, q⟩ := kq
    rw [hkq] at hl
    simp only at hl
    have hrk := realKeyOf_parse e.1 k q hkq
    cases hg : db.index.Get k with
    | none => rw [hg] at hl; simp at hl
    | some p =>
      rw [hg] at hl
      simp only [decide_eq_true_eq] at hl
      obtain ⟨hk, e', he', c1, c2, c3, c4⟩ := h.2.2.2.2.2 k p hg
      obtain ⟨⟨pre, post, b1, b2⟩, _, f1⟩ := Stores_mem_bytes db olds cur h.1 e he
      obtain ⟨⟨pre', post', b1', b2'⟩, _, f1'⟩ := Stores_mem_bytes db olds cur h.1 e' he'
      have hfid : e'.2.Fid = e.2.Fid := by rw [c1, hl.1]
      have hoff : e'.2.Offset = e.2.Offset := by rw [c2, hl.2]
      rw [hfid] at b1'
      have heq : e.1 = e'.1 := record_at_unique _ e.1 e'.1 f1 f1' pre post pre' post' b1 b1'
        (by rw [← b2, ← b2', hoff])
      have hstored := (Sound_stored db olds cur h e he).1
      have hp : db.HasRecordAt p e.1 := HasRecordAt_same_place db p e.2 e.1 hl.1 hl.2 hstored
      have hk0 : ¬ k.length = 0 := fun x => hk (List.length_eq_zero.mp x)
      have htyp : e.1.Typ = LogRecordNormal := by rw [heq]; exact c4
      refine ⟨by rw [hrk]; exact hk, f1.2.2, htyp, by rw [hrk, hg]; simp, ?_⟩
      rw [hrk]
      simp only [DB.Get, if_neg hk0, hg]
      rw [getValueByPosition_stored db p e.1 f1 hp, htyp]
      have hnd : ¬ (LogRecordNormal = LogRecordDeleted) := by decide
      exact if_neg hnd

/-- In a sound engine state the record of every index entry is taken as live by the
scan of `Merge`. -/
theorem Sound_indexed_live (db : DB) (olds : List (List LogRecord)) (cur : List LogRecord)
    (h : db.Sound olds cur) (k : Bytes) (p : LogRecordPos) (hg : db.index.Get k = some p) :
    ∃ e ∈ scanListFrom 0 (olds ++ [cur]), db.isLive e = true ∧ realKeyOf e.1 = k := by
  obtain ⟨_, e, he, c1, c2, c3, _⟩ := h.2.2.2.2.2 k p hg
  refine ⟨e, he, ?_, c3⟩
  obtain ⟨hp, _⟩ := h.2.2.2.2.1 e he
  obtain ⟨kq, hkq⟩ := Option.isSome_iff_exists.mp hp
  obtain ⟨k', q⟩ := kq
  have hrk := realKeyOf_parse e.1 k' q hkq
  rw [c3] at hrk
  subst hrk
  simp only [DB.isLive, hkq, hg, decide_eq_true_eq]
  exact ⟨c1.symm, c2.symm⟩

theorem foldl_update_other (ops : List Op) (k : Bytes) :
    ∀ model : Bytes → Option Bytes, (∀ op ∈ ops, ∃ k' v', op = Op.put k' v' ∧ k' ≠ k) →
      ops.foldl Op.update model k = model k := by
  induction ops with
  | nil => intro model _; rfl
  | cons op rest ih =>
    intro model h
    obtain ⟨k', v', hop, hne⟩ := h op (List.mem_cons_self _ _)
    rw [List.foldl_cons, ih _ (fun o ho => h o (List.mem_cons_of_mem _ ho)), hop]
    simp only [Op.update]
    rw [if_neg (fun e => hne e.symm)]

theorem foldl_update_put (ops : List Op) (k v : Bytes) :
    ∀ model : Bytes → Option Bytes, (∀ op ∈ ops, ∃ k' v', op = Op.put k' v' ∧ (k' = k → v' = v)) →
      (∃ v', Op.put k v' ∈ ops) → ops.foldl Op.update model k = some v := by
  induction ops with
  | nil => intro model _ h; simp at h
  | cons op rest ih =>
    intro model h hex
    rw [List.foldl_cons]
    by_cases hrest : ∃ v', Op.put k v' ∈ rest
    · exact ih _ (fun o ho => h o (List.mem_cons_of_mem _ ho)) hrest
    · obtain ⟨v', hv'⟩ := hex
      rcases List.mem_cons.mp hv' with hv' | hv'
      · obtain ⟨k1, v1, hop, himp⟩ := h op (List.mem_cons_self _ _)
        rw [foldl_update_other rest k _ (by
          intro o ho
          obtain ⟨k2, v2, ho2, _⟩ := h o (List.mem_cons_of_mem _ ho)
          refine ⟨k2, v2, ho2, ?_⟩
          intro e
          apply hrest
          exact ⟨v2, by rw [← e, ← ho2]; exact ho⟩)]
        rw [← hv'] at hop
        simp only [Op.put.injEq] at hop
        rw [← hv']
        simp only [Op.update, ↓reduceIte]
        rw [himp hop.1.symm] at hop
        rw [hop.2]
      · exact absurd ⟨v', hv'⟩ hrest

theorem mem_mergeOps (db : DB) (l : List (LogRecord × LogRecordPos)) (op : Op) :
    op ∈ mergeOps db l ↔
      ∃ e ∈ l, db.isLive e = true ∧ op = Op.put (realKeyOf e.1) e.1.Value := by
  simp only [mergeOps, List.mem_map, List.mem_filter]
  constructor
  · rintro ⟨e, ⟨h1, h2⟩, h3⟩
    exact ⟨e, h1, h2, h3.symm⟩
  · rintro ⟨e, h1, h2, h3⟩
    exact ⟨e, ⟨h1, h2⟩, h3.symm⟩

/-- In a sound engine state the `Put` calls that write what `Merge` copies leave, for
every key, what `Get` returns on the engine. -/
theorem Sound_lastValue (db : DB) (olds : List (List LogRecord)) (cur : List LogRecord)
    (h : db.Sound olds cur) (k : Bytes) (hk : k ≠ []) :
    (lastValue (mergeOps db (scanListFrom 0 (olds ++ [cur]))) k).isSome =
      (db.index.Get k).isSome ∧
    (match lastValue (mergeOps db (scanListFrom 0 (olds ++ [cur]))) k with
      | some v => .ok v
      | none => .error .KeyNotFound) = db.Get k := by
  have hk0 : ¬ k.length = 0 := fun x => hk (List.length_eq_zero.mp x)
  cases hg : db.index.Get k with
  | none =>
    have hnone : lastValue (mergeOps db (scanListFrom 0 (olds ++ [cur]))) k = none := by
      simp only [lastValue]
      rw [foldl_update_other _ k]
      intro op hop
      obtain ⟨e, he, hl, hop⟩ := (mem_mergeOps db _ op).mp hop
      refine ⟨_, _, hop, ?_⟩
      intro hkey
      have := (Sound_live db olds cur h e he hl).2.2.2.1
      rw [hkey, hg] at this
      exact this rfl
    rw [hnone]
    simp only [Option.isSome_none, DB.Get, if_neg hk0, hg, and_self]
  | some p =>
    obtain ⟨e, he, hl, hrk⟩ := Sound_indexed_live db olds cur h k p hg
    have hget := (Sound_live db olds cur h e he hl).2.2.2.2
    rw [hrk] at hget
    have hsome : lastValue (mergeOps db (scanListFrom 0 (olds ++ [cur]))) k =
        some e.1.Value := by
      simp only [lastValue]
      apply foldl_update_put
      · intro op hop
        obtain ⟨e', he', hl', hop'⟩ := (mem_mergeOps db _ op).mp hop
        refine ⟨_, _, hop', ?_⟩
        intro hkey
        have hget' := (Sound_live db olds cur h e' he' hl').2.2.2.2
        rw [hkey, hget] at hget'
        simp only [Except.ok.injEq] at hget'
        exact hget'.symm
      · exact ⟨e.1.Value, (mem_mergeOps db _ _).mpr ⟨e, he, hl, by rw [hrk]⟩⟩
    rw [hsome, hget]
    simp
/-! ## The run of `Merge` -/

/-- The files `Merge` scans, sorted by id, when the older files are the segments
`0, ..., n - 1`. -/
theorem mergeFiles_sorted (o : List (Nat × DataFile)) (n : Nat)
    (hperm : (o.map (fun e => e.1)).Perm (List.range' 0 n))
    (hid : ∀ e ∈ o, e.2.FileId = e.1) :
    (((o.map (fun e => e.2)).insertionSort (fun a b => a.FileId ≤ b.FileId)).map
      (fun f => f.FileId)) = List.range' 0 n := by
  haveI : IsTotal DataFile (fun a b => a.FileId ≤ b.FileId) := ⟨fun a b => Nat.le_total _ _⟩
  haveI : IsTrans DataFile (fun a b => a.FileId ≤ b.FileId) := ⟨fun a b c => Nat.le_trans⟩
  have hp := (List.perm_insertionSort (fun a b : DataFile => a.FileId ≤ b.FileId)
    (o.map (fun e => e.2))).map (fun f => f.FileId)
  have hs := List.sorted_insertionSort (fun a b : DataFile => a.FileId ≤ b.FileId)
    (o.map (fun e => e.2))
  have hmap : (o.map (fun e => e.2)).map (fun f => f.FileId) = o.map (fun e => e.1) := by
    rw [List.map_map]
    apply List.map_congr_left
    intro e he
    exact hid e he
  rw [hmap] at hp
  apply List.eq_of_perm_of_sorted (hp.trans hperm) (r := fun a b : Nat => a ≤ b)
  · rw [List.Sorted, List.pairwise_map]
    exact hs
  · exact List.pairwise_le_range' 0 n

theorem olderSet_keys_new (o : List (Nat × DataFile)) (fid : Nat) (df : DataFile)
    (h : fid ∉ o.map (fun e => e.1)) :
    olderSet o fid df = o ++ [(fid, df)] := by
  induction o with
  | nil => rfl
  | cons x rest ih =>
    obtain ⟨f0, d0⟩ := x
    simp only [List.map_cons, List.mem_cons, not_or] at h
    simp only [olderSet]
    rw [if_neg (fun e => h.1 e.symm), ih h.2]
    rfl

theorem mergeRecords_congr (a b : DB) (h : a.index = b.index)
    (l : List (LogRecord × LogRecordPos)) :
    ∀ (mdb : DB) (hint : Bytes), mergeRecords a l mdb hint = mergeRecords b l mdb hint := by
  induction l with
  | nil => intro mdb hint; rfl
  | cons e rest ih =>
    intro mdb hint
    simp only [mergeRecords, h, ih]

/-- `Merge` on an engine that passes its checks, when the merge engine opens and the
scan ends without an error: the merge directory holds what the scan wrote. -/
theorem Merge_proceeds (db : DB) (af : DataFile) (env : MergeEnv)
    (haf : db.activeFile = some af) (hm : db.isMerging = false)
    (hr : env.ratioUnreached = false)
    (hsp : ¬ toUint64 (env.totalSize - db.reclaimSize) ≥ env.availableDiskSize)
    (db1 : DB)
    (hdb1 : db1 = DB.setActiveDataFile
      { db with olderFiles := olderSet db.olderFiles af.FileId af, isMerging := false })
    (mdb0 : DB) (hopen : Open { db.options with SyncWrites := false } [] = some (.ok mdb0))
    (mdb1 : DB) (hint : Bytes)
    (hloop : mergeFilesLoop db1
      ((db1.olderFiles.map (fun e => e.2)).insertionSort (fun a b => a.FileId ≤ b.FileId))
      mdb0 [] = some (.ok (mdb1, hint))) :
    ∃ fin err, db.Merge env = some ((db1, some ⟨mdb1, hint, fin⟩), err) := by
  subst hdb1
  unfold DB.Merge
  rw [haf] at hloop ⊢
  simp only
  rw [if_neg (by rw [hm]; simp), if_neg (by rw [hr]; simp), if_neg hsp, hopen]
  simp only
  rw [hloop]
  simp only
  cases hact : mdb1.activeFile with
  | none =>
    simp only [DB.Sync, hact]
    exact ⟨none, some .Panic, rfl⟩
  | some maf =>
    simp only [DB.Sync, hact]
    cases EncodeLogRecord _ with
    | none => exact ⟨none, some .Panic, rfl⟩
    | some p => exact ⟨some p.1, none, rfl⟩

/-- The index after a sequence of successful calls of `Put` and `Delete` on a fresh
store holds the keys with a last value. -/
theorem fresh_runOps_keys (options : Options) (db0 : DB)
    (hopen : Open options [] = some (.ok db0)) (ops : List Op) (hlen : ops.length < 2 ^ 32)
    (hf : ∀ op ∈ ops, op.Framed) (db : DB) (hrun : db0.runOps ops = some db) (k : Bytes) :
    (db.index.Get k).isSome = (lastValue ops k).isSome := by
  have hdb0 : db0 = ⟨options, [], [], none, [], [], 0, 0, false⟩ := by
    rcases Open_empty options with h | h
    · rw [h] at hopen
      simp at hopen
    · rw [h] at hopen
      simp only [Option.some.injEq, Except.ok.injEq] at hopen
      exact hopen.symm
  have h0 : db0.Replays (fun _ => none) 0 := by
    rw [hdb0]
    exact ⟨Or.inl ⟨rfl, rfl, rfl⟩, fun key => rfl⟩
  have hrep := runOps_replays ops db0 (fun _ => none) 0 db h0 (by omega) hf hrun
  have hm := hrep.2 k
  change match lastValue ops k with
    | none => db.index.Get k = none
    | some v => k ≠ [] ∧ k.length + 1 < 2 ^ 32 ∧ v.length < 2 ^ 32 ∧
        ∃ p, db.index.Get k = some p ∧
          db.HasRecordAt p { Key := 0 :: k, Value := v, Typ := LogRecordNormal } at hm
  cases hl : lastValue ops k with
  | none =>
    rw [hl] at hm
    simp only at hm
    rw [hm]
    rfl
  | some v =>
    rw [hl] at hm
    obtain ⟨_, _, _, p, h4, _⟩ := hm
    rw [h4]
    rfl

theorem Open_empty_pos (options : Options) (hopt : 0 < options.DataFileSize) :
    Open options [] = some (.ok ⟨options, [], [], none, [], [], 0, 0, false⟩) := by
  simp only [Open, checkOptions]
  rw [if_neg (by omega)]
  rfl

theorem Sound_lastValue_none (db : DB) (olds : List (List LogRecord)) (cur : List LogRecord)
    (h : db.Sound olds cur) (k : Bytes) (hg : db.index.Get k = none) :
    lastValue (mergeOps db (scanListFrom 0 (olds ++ [cur]))) k = none := by
  simp only [lastValue]
  rw [foldl_update_other _ k]
  intro op hop
  obtain ⟨e, he, hl, hop⟩ := (mem_mergeOps db _ op).mp hop
  refine ⟨_, _, hop, ?_⟩
  intro hkey
  have := (Sound_live db olds cur h e he hl).2.2.2.1
  rw [hkey, hg] at this
  exact this rfl

/-- The scan of `Merge` on a sound engine state ends without an error, and what it
writes to the merge directory is what the `Put` calls of the live records write on a
fresh store. -/
theorem Merge_scan_sound (db : DB) (olds : List (List LogRecord)) (cur : List LogRecord)
    (h : db.Sound olds cur) (db1 : DB)
    (hdb1 : db1 = DB.setActiveDataFile
      { db with olderFiles :=
                  olderSet db.olderFiles olds.length
                    { FileId := olds.length, WriteOff := ((encodeAll cur).length : Int) },
                isMerging := false })
    (mdb0 : DB) :
    ∃ mdb1 hint X,
      mergeFilesLoop db1
        ((db1.olderFiles.map (fun e => e.2)).insertionSort (fun a b => a.FileId ≤ b.FileId))
        mdb0 [] = some (.ok (mdb1, hint)) ∧
      mdb0.runOps (mergeOps db (scanListFrom 0 (olds ++ [cur]))) = some X ∧
      mdb1.SameFiles X := by
  obtain ⟨hst, hopt, hperm, hid, hkeys, hidx⟩ := h
  have hS : db.Sound olds cur := ⟨hst, hopt, hperm, hid, hkeys, hidx⟩
  have hnew : olds.length ∉ db.olderFiles.map (fun e => e.1) := by
    intro hmem
    have := (hperm.mem_iff).mp hmem
    simp only [List.mem_range', Nat.zero_add, Nat.one_mul] at this
    obtain ⟨i, hi, hx⟩ := this
    omega
  have hold : db1.olderFiles = db.olderFiles ++
      [(olds.length, { FileId := olds.length, WriteOff := ((encodeAll cur).length : Int) })] := by
    rw [hdb1, ← olderSet_keys_new _ _ _ hnew]
    rfl
  have hfiles := mergeFiles_sorted db1.olderFiles (olds.length + 1)
    (by
      rw [hold, List.map_append, List.range'_concat]
      simp only [List.map_cons, List.map_nil, Nat.zero_add, Nat.one_mul]
      exact hperm.append_right _)
    (by
      intro e he
      rw [hold] at he
      rcases List.mem_append.mp he with he | he
      · exact hid e he
      · simp only [List.mem_singleton] at he
        rw [he])
  have hbytes : ∀ j rs, (olds ++ [cur])[j]? = some rs →
      db1.disk.bytes (0 + j) = encodeAll rs ∧ ∀ r ∈ rs, r.Framed := by
    intro j rs hj
    constructor
    · have : db1.disk = db.disk.openFile ((olds.length + 1) % 2 ^ 32) := by
        rw [hdb1]
        simp only [DB.setActiveDataFile, hst.2.1]
      rw [this, Disk.bytes_openFile, hst.1]
      exact diskFrom_bytes _ 0 j rs hj
    · have hmem : rs ∈ olds ++ [cur] := List.mem_iff_getElem?.mpr ⟨j, hj⟩
      rcases List.mem_append.mp hmem with hm | hm
      · exact hst.2.2.2.1 rs hm
      · simp only [List.mem_singleton] at hm
        rw [hm]
        exact hst.2.2.2.2
  have hloop := mergeFilesLoop_stored db1 (olds ++ [cur]) 0 _ mdb0 []
    (by rw [hfiles]; simp) hbytes
  rw [mergeRecords_congr db1 db (by rw [hdb1]; rfl)] at hloop
  obtain ⟨mdb1, hint1, X, e1, e2, e3⟩ := mergeRecords_runOps db
    (scanListFrom 0 (olds ++ [cur])) mdb0 mdb0 [] (SameFiles_refl mdb0) hkeys
    (fun e he hl =>
      ⟨(Sound_live db olds cur hS e he hl).1, (Sound_live db olds cur hS e he hl).2.1,
        (Sound_live db olds cur hS e he hl).2.2.1⟩)
  exact ⟨mdb1, hint1, X, by rw [hloop, e1], e2, e3⟩

/-- `Merge` on a sound engine state that passes the checks of `Merge`: the merge
directory is written, `Open` on its data files returns an engine, the index of that
engine holds exactly the keys of the live index, and `Get` returns for every key what
it returns on the live engine. -/
theorem Merge_sound (db : DB) (env : MergeEnv) (olds : List (List LogRecord))
    (cur : List LogRecord) (h : db.Sound olds cur)
    (hlen : (scanListFrom 0 (olds ++ [cur])).length < 2 ^ 32)
    (hm : db.isMerging = false) (hr : env.ratioUnreached = false)
    (hsp : ¬ toUint64 (env.totalSize - db.reclaimSize) ≥ env.availableDiskSize) :
    ∃ db1 out err mdb, db.Merge env = some ((db1, some out), err) ∧
      db1.index = db.index ∧
      Open { db.options with SyncWrites := false } out.mergeDB.disk = some (.ok mdb) ∧
      (∀ k, (mdb.index.Get k).isSome = (db.index.Get k).isSome) ∧
      ∀ k, mdb.Get k = db.Get k := by
  obtain ⟨db1, hdb1⟩ : ∃ d, d = DB.setActiveDataFile
      { db with olderFiles :=
                  olderSet db.olderFiles olds.length
                    { FileId := olds.length, WriteOff := ((encodeAll cur).length : Int) },
                isMerging := false } := ⟨_, rfl⟩
  obtain ⟨mopt, hmopt⟩ : ∃ o : Options, o = { db.options with SyncWrites := false } := ⟨_, rfl⟩
  have hopt : 0 < mopt.DataFileSize := by rw [hmopt]; exact h.2.1
  have hopen := Open_empty_pos mopt hopt
  obtain ⟨mdb1, hint, X, hloop, hrun, hsame⟩ := Merge_scan_sound db olds cur h db1 hdb1
    ⟨mopt, [], [], none, [], [], 0, 0, false⟩
  obtain ⟨fin, err, hmerge⟩ := Merge_proceeds db _ env h.1.2.1 hm hr hsp db1 hdb1 _
    (by rw [← hmopt]; exact hopen) mdb1 hint hloop
  have hopsLen : (mergeOps db (scanListFrom 0 (olds ++ [cur]))).length < 2 ^ 32 := by
    simp only [mergeOps, List.length_map]
    exact lt_of_le_of_lt (List.length_filter_le _ _) hlen
  have hframed : ∀ op ∈ mergeOps db (scanListFrom 0 (olds ++ [cur])), op.Framed := by
    intro op hop
    obtain ⟨e, he, hl, hop⟩ := (mem_mergeOps db _ op).mp hop
    rw [hop]
    exact ⟨(h.2.2.2.2.1 e he).2, (Sound_live db olds cur h e he hl).2.1⟩
  obtain ⟨mdb, o1, o2, o3⟩ := reopen_after_ops mopt _ hopen _ hopsLen hframed X hrun
  have hkeys := fresh_runOps_keys mopt _ hopen _ hopsLen hframed X hrun
  have hXopt : X.options = mopt := runOps_options _ _ X hrun
  refine ⟨db1, ⟨mdb1, hint, fin⟩, err, mdb, hmerge, by rw [hdb1]; rfl, ?_, ?_, ?_⟩
  · rw [← hmopt]
    show Open mopt mdb1.disk = some (.ok mdb)
    rw [hsame.1, ← hXopt]
    exact o1
  · intro k
    rw [o2, hkeys k]
    cases hg : db.index.Get k with
    | none =>
      rw [Sound_lastValue_none db olds cur h k hg]
      rfl
    | some p =>
      have hk := (h.2.2.2.2.2 k p hg).1
      rw [(Sound_lastValue db olds cur h k hk).1, hg]
  · intro k
    by_cases hk : k = []
    · subst hk
      simp [DB.Get]
    · rw [(o3 k hk).1]
      exact (Sound_lastValue db olds cur h k hk).2
/-! ## Sound engine states are reached by `Put` and `Delete` -/

/-- The older files after an append to an engine whose older files are the segments
below the active one. -/
theorem appendLogRecord_older (db : DB) (olds : List (List LogRecord)) (cur : List LogRecord)
    (hst : db.Stores olds cur) (hroom : olds.length + 1 < 2 ^ 32) (r : LogRecord)
    (hf : r.Framed)
    (hperm : (db.olderFiles.map (fun e => e.1)).Perm (List.range' 0 olds.length))
    (hid : ∀ e ∈ db.olderFiles, e.2.FileId = e.1) (af1 : DataFile)
    (haf1 : (db.appendLogRecord r).1.activeFile = some af1) :
    ((db.appendLogRecord r).1.olderFiles.map (fun e => e.1)).Perm (List.range' 0 af1.FileId) ∧
    ∀ e ∈ (db.appendLogRecord r).1.olderFiles, e.2.FileId = e.1 := by
  obtain ⟨hdisk, haf, _, hf1, hf2⟩ := hst
  have henc := EncodeLogRecord_framed r hf
  rw [appendLogRecord_active db r _ _ _ haf henc] at haf1 ⊢
  simp only at haf1 ⊢
  have hmod : (olds.length + 1) % 2 ^ 32 = olds.length + 1 := Nat.mod_eq_of_lt hroom
  have hnew : olds.length ∉ db.olderFiles.map (fun e => e.1) := by
    intro hmem
    have := (hperm.mem_iff).mp hmem
    simp only [List.mem_range', Nat.zero_add, Nat.one_mul] at this
    obtain ⟨i, hi, hx⟩ := this
    omega
  by_cases hrot : (((encodeAll cur).length : Nat) : Int) + (((encodeRecord r).length : Nat) : Int) >
      db.options.DataFileSize
  · rw [if_pos hrot] at haf1 ⊢
    simp only [Option.some.injEq] at haf1
    rw [← haf1]
    simp only
    rw [hmod, olderSet_keys_new _ _ _ hnew]
    constructor
    · rw [List.map_append, List.range'_concat]
      simp only [List.map_cons, List.map_nil, Nat.zero_add, Nat.one_mul]
      exact hperm.append_right _
    · intro e he
      rcases List.mem_append.mp he with he | he
      · exact hid e he
      · simp only [List.mem_singleton] at he
        rw [he]
  · rw [if_neg hrot] at haf1 ⊢
    simp only [Option.some.injEq] at haf1
    rw [← haf1]
    exact ⟨hperm, hid⟩

/-- An append of a record without a sequence number to a sound engine state, followed
by an update of the index that adds at most the entry of the record: the state is
sound again, with one more record. -/
theorem Sound_append (db : DB) (olds : List (List LogRecord)) (cur : List LogRecord)
    (h : db.Sound olds cur) (hroom : olds.length + 1 < 2 ^ 32) (k v : Bytes)
    (t : LogRecordType) (hk : k ≠ [])
    (hf : LogRecord.Framed { Key := 0 :: k, Value := v, Typ := t }) (db1 : DB)
    (pos : LogRecordPos)
    (happ : db.appendLogRecord { Key := 0 :: k, Value := v, Typ := t } = (db1, .ok pos))
    (d : DB) (hd1 : d.disk = db1.disk) (hd2 : d.activeFile = db1.activeFile)
    (hd3 : d.olderFiles = db1.olderFiles) (hd4 : d.options = db1.options)
    (hidx : ∀ key p, d.index.Get key = some p →
      (key = k ∧ p = pos ∧ t = LogRecordNormal) ∨ db.index.Get key = some p) :
    ∃ olds1 cur1, d.Sound olds1 cur1 ∧ olds1.length ≤ olds.length + 1 ∧
      (scanListFrom 0 (olds1 ++ [cur1])).length =
        (scanListFrom 0 (olds ++ [cur])).length + 1 := by
  obtain ⟨hst, hopt, hperm, hid, hkeys, hix⟩ := h
  obtain ⟨db1', pos', olds1, cur1, a1, a2, a3, a4, a5, a6, a7⟩ :=
    Stores_append_zero db olds cur olds.length hst (le_refl _) hroom _ hf
  rw [happ] at a1
  simp only [Prod.mk.injEq, Except.ok.injEq] at a1
  obtain ⟨e1, e2⟩ := a1
  subst e1
  subst e2
  have holder := appendLogRecord_older db olds cur hst hroom _ hf hperm hid _
    (by rw [happ]; exact a2.2.1)
  rw [happ] at holder
  simp only at holder
  have hopt1 : db1.options = db.options := by
    have := (appendLogRecord_index db { Key := 0 :: k, Value := v, Typ := t }).2.2.2
    rw [happ] at this
    exact this
  have hrk : realKeyOf { Key := 0 :: k, Value := v, Typ := t } = k :=
    realKeyOf_parse _ k 0 (parseLogRecordKey_zero k)
  refine ⟨olds1, cur1, ⟨Stores_congr db1 d olds1 cur1 hd1.symm hd2.symm a2, ?_, ?_, ?_, ?_, ?_⟩,
    a3, by rw [a7]; simp⟩
  · rw [hd4, hopt1]
    exact hopt
  · rw [hd3]
    exact holder.1
  · rw [hd3]
    exact holder.2
  · intro e he
    rw [a7] at he
    rcases List.mem_append.mp he with he | he
    · exact hkeys e he
    · simp only [List.mem_singleton] at he
      rw [he]
      simp only
      rw [hrk]
      refine ⟨by rw [parseLogRecordKey_zero]; rfl, ?_⟩
      have := hf.2.1
      simp only [List.length_cons] at this
      exact this
  · intro key p hg
    rcases hidx key p hg with ⟨c1, c2, c3⟩ | hold
    · subst c1
      subst c2
      subst c3
      refine ⟨hk, ({ Key := 0 :: key, Value := v, Typ := LogRecordNormal }, p), ?_, rfl, rfl,
        hrk, rfl⟩
      rw [a7]
      exact List.mem_append_right _ (List.mem_singleton_self _)
    · obtain ⟨b1, e, he, b2⟩ := hix key p hold
      refine ⟨b1, e, ?_, b2⟩
      rw [a7]
      exact List.mem_append_left _ he

/-- One successful call of `Put` or `Delete` on a sound engine state leads to a sound
engine state. -/
theorem Sound_step (db : DB) (olds : List (List LogRecord)) (cur : List LogRecord)
    (h : db.Sound olds cur) (hroom : olds.length + 1 < 2 ^ 32) (op : Op) (hf : op.Framed)
    (db1 : DB) (hop : db.applyOp op = (db1, none)) :
    ∃ olds1 cur1, db1.Sound olds1 cur1 ∧ olds1.length ≤ olds.length + 1 ∧
      (scanListFrom 0 (olds1 ++ [cur1])).length ≤
        (scanListFrom 0 (olds ++ [cur])).length + 1 := by
  cases op with
  | put k v =>
    simp only [DB.applyOp] at hop
    simp only [Op.Framed] at hf
    by_cases hk : k = []
    · subst hk
      simp [DB.Put] at hop
    · have hfr : LogRecord.Framed { Key := 0 :: k, Value := v, Typ := LogRecordNormal } :=
        ⟨by simp, by simpa using hf.1, hf.2⟩
      obtain ⟨d1, pos, _, _, a1, _⟩ :=
        Stores_append_zero db olds cur olds.length h.1 (le_refl _) hroom _ hfr
      obtain ⟨rs, hput⟩ := Put_ok_state db d1 k v pos hk a1
      rw [hput] at hop
      simp only [Prod.mk.injEq, and_true] at hop
      obtain ⟨o1, c1, s1, s2, s3⟩ := Sound_append db olds cur h hroom k v LogRecordNormal hk hfr
        d1 pos a1 db1 (by rw [← hop]) (by rw [← hop]) (by rw [← hop]) (by rw [← hop])
        (by
          intro key p hg
          rw [← hop] at hg
          simp only at hg
          by_cases hkey : key = k
          · subst hkey
            rw [Index.Get_insert_self] at hg
            simp only [Option.some.injEq] at hg
            exact Or.inl ⟨rfl, hg.symm, rfl⟩
          · rw [Index.Get_insert_other _ _ _ _ hkey] at hg
            have hi := (appendLogRecord_index db
              { Key := 0 :: k, Value := v, Typ := LogRecordNormal }).1
            rw [a1] at hi
            rw [hi] at hg
            exact Or.inr hg)
      exact ⟨o1, c1, s1, s2, by omega⟩
  | delete k =>
    simp only [DB.applyOp] at hop
    simp only [Op.Framed] at hf
    by_cases hk : k = []
    · subst hk
      simp [DB.Delete] at hop
    · cases hold : db.index.Get k with
      | none =>
        have hk0 : ¬ k.length = 0 := fun e => hk (List.length_eq_zero.mp e)
        simp only [DB.Delete, if_neg hk0, hold, Option.isNone_none, ↓reduceIte, Prod.mk.injEq,
          and_true] at hop
        subst hop
        exact ⟨olds, cur, h, by omega, by omega⟩
      | some old =>
        have hfr : LogRecord.Framed { Key := 0 :: k, Value := [], Typ := LogRecordDeleted } :=
          ⟨by simp, by simpa using hf, by simp⟩
        obtain ⟨d1, pos, _, _, a1, _⟩ :=
          Stores_append_zero db olds cur olds.length h.1 (le_refl _) hroom _ hfr
        obtain ⟨rs, hdel⟩ := Delete_ok_state db d1 k pos old hk hold a1
        rw [hdel] at hop
        simp only [Prod.mk.injEq, and_true] at hop
        obtain ⟨o1, c1, s1, s2, s3⟩ := Sound_append db olds cur h hroom k [] LogRecordDeleted hk
          hfr d1 pos a1 db1 (by rw [← hop]) (by rw [← hop]) (by rw [← hop]) (by rw [← hop])
          (by
            intro key p hg
            rw [← hop] at hg
            simp only at hg
            by_cases hkey : key = k
            · subst hkey
              rw [Index.Get_erase_self] at hg
              simp at hg
            · rw [Index.Get_erase_other _ _ _ hkey] at hg
              have hi := (appendLogRecord_index db
                { Key := 0 :: k, Value := [], Typ := LogRecordDeleted }).1
              rw [a1] at hi
              rw [hi] at hg
              exact Or.inr hg)
        exact ⟨o1, c1, s1, s2, by omega⟩
theorem Sound_fresh (db : DB) (h1 : db.disk = []) (h3 : db.index = [])
    (h4 : db.olderFiles = []) (h5 : 0 < db.options.DataFileSize) :
    DB.Sound { db with disk := db.disk.openFile 0,
                       activeFile := some { FileId := 0, WriteOff := 0 } } [] [] := by
  refine ⟨Stores_fresh db h1, h5, ?_, ?_, ?_, ?_⟩
  · simp only [h4]
    exact List.Perm.refl _
  · simp only [h4]
    intro e he
    exact absurd he (List.not_mem_nil e)
  · intro e he
    exact absurd he (List.not_mem_nil e)
  · intro k p hg
    simp only [h3] at hg
    simp [Index.Get] at hg

/-- A sequence of successful calls of `Put` and `Delete` on an engine that is new or
in a sound state leaves it new or in a sound state. -/
theorem runOps_sound (ops : List Op) :
    ∀ (db : DB) (n : Nat) (db1 : DB),
      ((db.disk = [] ∧ db.activeFile = none ∧ db.index = [] ∧ db.olderFiles = [] ∧
          0 < db.options.DataFileSize) ∨
        ∃ olds cur, db.Sound olds cur ∧ olds.length ≤ n ∧
          (scanListFrom 0 (olds ++ [cur])).length ≤ n) →
      n + ops.length < 2 ^ 32 → (∀ op ∈ ops, op.Framed) → db.runOps ops = some db1 →
      (db1.activeFile = none ∨
        ∃ olds cur, db1.Sound olds cur ∧ olds.length ≤ n + ops.length ∧
          (scanListFrom 0 (olds ++ [cur])).length ≤ n + ops.length) := by
  induction ops with
  | nil =>
    intro db n db1 h _ _ hrun
    simp only [DB.runOps, Option.some.injEq] at hrun
    subst hrun
    rcases h with h | h
    · exact Or.inl h.2.1
    · exact Or.inr h
  | cons op rest ih =>
    intro db n db1 h hn hf hrun
    simp only [DB.runOps] at hrun
    simp only [List.length_cons] at hn
    cases hop : db.applyOp op with
    | mk d e =>
      rw [hop] at hrun
      cases e with
      | some err => simp at hrun
      | none =>
        simp only at hrun
        have hfop := hf op (List.mem_cons_self _ _)
        have hstep : (d.disk = [] ∧ d.activeFile = none ∧ d.index = [] ∧ d.olderFiles = [] ∧
              0 < d.options.DataFileSize) ∨
            ∃ olds cur, d.Sound olds cur ∧ olds.length ≤ n + 1 ∧
              (scanListFrom 0 (olds ++ [cur])).length ≤ n + 1 := by
          rcases h with ⟨h1, h2, h3, h4, h5⟩ | ⟨olds, cur, s1, s2, s3⟩
          · cases op with
            | put k v =>
              by_cases hk : k = []
              · subst hk
                simp [DB.applyOp, DB.Put] at hop
              · simp only [DB.applyOp] at hop
                rw [Put_noactive db k v hk h2] at hop
                obtain ⟨o1, c1, t1, t2, t3⟩ := Sound_step _ [] [] (Sound_fresh db h1 h3 h4 h5)
                  (by norm_num) (.put k v) hfop d hop
                refine Or.inr ⟨o1, c1, t1, ?_, ?_⟩
                · simp only [List.length_nil] at t2
                  omega
                · simp only [List.nil_append, scanListFrom, positionsFrom, List.append_nil,
                    List.length_nil] at t3
                  omega
            | delete k =>
              left
              by_cases hk : k = []
              · subst hk
                simp [DB.applyOp, DB.Delete] at hop
              · have hk0 : ¬ k.length = 0 := fun e => hk (List.length_eq_zero.mp e)
                have hg : db.index.Get k = none := by rw [h3]; rfl
                simp only [DB.applyOp, DB.Delete, if_neg hk0, hg, Option.isNone_none, ↓reduceIte,
                  Prod.mk.injEq, and_true] at hop
                subst hop
                exact ⟨h1, h2, h3, h4, h5⟩
          · obtain ⟨o1, c1, t1, t2, t3⟩ := Sound_step db olds cur s1 (by omega) op hfop d hop
            exact Or.inr ⟨o1, c1, t1, by omega, by omega⟩
        have := ih d (n + 1) db1 hstep (by omega)
          (fun o ho => hf o (List.mem_cons_of_mem _ ho)) hrun
        simp only [List.length_cons]
        rw [show n + (rest.length + 1) = n + 1 + rest.length by omega]
        exact this

/-- Every sequence of successful calls of `Put` and `Delete` on a fresh store that
leaves an active file leads to a sound engine state. -/
theorem fresh_runOps_sound (options : Options) (db0 : DB)
    (hopen : Open options [] = some (.ok db0)) (ops : List Op)
    (hlen : ops.length + 1 < 2 ^ 32) (hf : ∀ op ∈ ops, op.Framed) (db : DB)
    (hrun : db0.runOps ops = some db) (hact : db.activeFile ≠ none) :
    ∃ olds cur, db.Sound olds cur ∧ olds.length + 1 < 2 ^ 32 ∧
      (scanListFrom 0 (olds ++ [cur])).length < 2 ^ 32 := by
  obtain ⟨hopt, hdb0⟩ := Open_empty_ok options db0 hopen
  have h0 : (db0.disk = [] ∧ db0.activeFile = none ∧ db0.index = [] ∧ db0.olderFiles = [] ∧
      0 < db0.options.DataFileSize) := by
    rw [hdb0]
    exact ⟨rfl, rfl, rfl, rfl, hopt⟩
  rcases runOps_sound ops db0 0 db (Or.inl h0) (by omega) hf hrun with h | ⟨o, c, s1, s2, s3⟩
  · exact absurd h hact
  · exact ⟨o, c, s1, by omega, by omega⟩
/-- C29 (amended): when an active file exists, no merge is in progress and the ratio
check passes, `Merge` returns `ErrNoEnoughSpaceForMerge` exactly when the available
disk bytes are less than or equal to `uint64(dirSize - reclaimSize)`; in particular
when they are equal `Merge` fails with that error, and it leaves the engine
unchanged. -/
theorem C29_merge_space_check (db : DB) (env : MergeEnv) (af : DataFile)
    (haf : db.activeFile = some af) (hm : db.isMerging = false)
    (hr : env.ratioUnreached = false) :
    ((∃ r, db.Merge env = some (r, some .NoEnoughSpaceForMerge)) ↔
      env.availableDiskSize ≤ toUint64 (env.totalSize - db.reclaimSize)) ∧
    (env.availableDiskSize = toUint64 (env.totalSize - db.reclaimSize) →
      db.Merge env = some ((db, none), some .NoEnoughSpaceForMerge)) := by
  have hpos : env.availableDiskSize ≤ toUint64 (env.totalSize - db.reclaimSize) →
      db.Merge env = some ((db, none), some .NoEnoughSpaceForMerge) := by
    intro h
    simp only [DB.Merge, haf, hm, hr, Bool.false_eq_true, ↓reduceIte, ge_iff_le, h]
  refine ⟨⟨?_, fun h => ⟨_, hpos h⟩⟩, fun h => hpos (by omega)⟩
  rintro ⟨r, h⟩
  by_contra hlt
  simp only [DB.Merge, haf, hm, hr, Bool.false_eq_true, ↓reduceIte, ge_iff_le, hlt] at h
  rcases Open_empty { db.options with SyncWrites := false } with ho | ho
  · rw [ho] at h
    simp at h
  · rw [ho] at h
    simp only at h
    generalize hml : mergeFilesLoop _ _ _ _ = ml at h
    rcases ml with _ | (e | ⟨m1, hint⟩)
    · simp at h
    · have := mergeFilesLoop_error _ _ _ _ _ hml
      simp only [Option.some.injEq, Prod.mk.injEq] at h
      exact this h.2
    · simp only [DB.Sync] at h
      cases ha : m1.activeFile with
      | none => simp [ha] at h
      | some a =>
        simp only [ha] at h
        generalize EncodeLogRecord _ = enc at h
        rcases enc with _ | ⟨enc, sz⟩ <;> simp at h

/-- Witness of C29: the engine that holds "n" (11 bytes on disk), 11 bytes of free
disk space. -/
theorem C29_merge_space_check_witness :
    onePutDB.activeFile = some { FileId := 0, WriteOff := 11 } ∧
    onePutDB.Merge { totalSize := 11, ratioUnreached := false, availableDiskSize := 11 } =
      some ((onePutDB, none), some .NoEnoughSpaceForMerge) :=
  ⟨by decide!,
   (C29_merge_space_check onePutDB
      { totalSize := 11, ratioUnreached := false, availableDiskSize := 11 }
      { FileId := 0, WriteOff := 11 } (by decide!) (by decide!) rfl).2 (by decide!)⟩

/-- Counterexample to C29 as stated: with exactly `dirSize - reclaimSize = 11` bytes
of free disk space `Merge` returns `ErrNoEnoughSpaceForMerge`; with 12 bytes it runs. -/
theorem C29_counterexample :
    onePutDB.reclaimSize = 0 ∧
    onePutDB.Merge { totalSize := 11, ratioUnreached := false, availableDiskSize := 11 } =
      some ((onePutDB, none), some .NoEnoughSpaceForMerge) ∧
    (onePutDB.Merge { totalSize := 11, ratioUnreached := false, availableDiskSize := 12 }).map
      (fun r => r.2) = some none := by
  decide!
/-- C14: for every position (a `uint32` Fid, an `int64` Offset, a `uint32` Size),
`DecodeLogRecordPos` of `EncodeLogRecordPos` is the position, and the encoding, three
signed varints, fits the 20-byte buffer `EncodeLogRecordPos` allocates. -/
theorem C14_pos_roundtrip (p : LogRecordPos) (hf : p.Fid < 2 ^ 32)
    (hlo : -(2 ^ 63) ≤ p.Offset) (hhi : p.Offset < 2 ^ 63) (hs : p.Size < 2 ^ 32) :
    DecodeLogRecordPos (EncodeLogRecordPos p) = some p ∧
    EncodeLogRecordPos p = PutVarint p.Fid ++ PutVarint p.Offset ++ PutVarint p.Size ∧
    (EncodeLogRecordPos p).length ≤ 20 :=
  LogRecordPos_roundtrip p hf hlo hhi hs

/-- Witness of C14 at a position with a negative offset. -/
theorem C14_pos_roundtrip_witness :
    DecodeLogRecordPos (EncodeLogRecordPos { Fid := 4294967295, Offset := -5, Size := 300 }) =
      some { Fid := 4294967295, Offset := -5, Size := 300 } ∧
    (EncodeLogRecordPos { Fid := 4294967295, Offset := -5, Size := 300 }).length ≤ 20 :=
  ⟨(C14_pos_roundtrip { Fid := 4294967295, Offset := -5, Size := 300 } (by decide) (by decide)
      (by decide) (by decide)).1,
   (C14_pos_roundtrip { Fid := 4294967295, Offset := -5, Size := 300 } (by decide) (by decide)
      (by decide) (by decide)).2.2⟩
/-- C16 (amended): a successful `appendLogRecord` returns the position of the record:
`Size` is the encoded length as a `uint32`; without an active file segment 0 is opened
first with `WriteOff` 0; then, if `WriteOff + size > DataFileSize`, the active file is
stored in `olderFiles` under its own id and the record goes to offset 0 of a new
active segment with id `(previous + 1) mod 2^32`, otherwise it goes to the active
segment at its `WriteOff`, which advances by the encoded length.  When `WriteOff` is
the length of the active segment and the segment a rotation opens is empty, the bytes
of the segment from the returned offset on are the encoded record. -/
theorem C16_append_position (db db1 : DB) (r : LogRecord) (pos : LogRecordPos)
    (h : db.appendLogRecord r = (db1, .ok pos)) :
    ∃ enc : Bytes, EncodeLogRecord r = some (enc, enc.length) ∧
      pos.Size = enc.length % 2 ^ 32 ∧
      (if (db.activeFile.getD ⟨0, 0⟩).WriteOff + (enc.length : Int) > db.options.DataFileSize then
        pos.Fid = ((db.activeFile.getD ⟨0, 0⟩).FileId + 1) % 2 ^ 32 ∧ pos.Offset = 0 ∧
        db1.olderFiles = olderSet db.olderFiles (db.activeFile.getD ⟨0, 0⟩).FileId
          (db.activeFile.getD ⟨0, 0⟩) ∧
        db1.activeFile = some ⟨pos.Fid, (enc.length : Int)⟩
      else
        pos.Fid = (db.activeFile.getD ⟨0, 0⟩).FileId ∧
        pos.Offset = (db.activeFile.getD ⟨0, 0⟩).WriteOff ∧
        db1.olderFiles = db.olderFiles ∧
        db1.activeFile = some ⟨pos.Fid, pos.Offset + (enc.length : Int)⟩) ∧
      (db.Consistent →
        0 ≤ pos.Offset ∧ (db1.disk.bytes pos.Fid).drop pos.Offset.toNat = enc ∧
        ((db1.disk.bytes pos.Fid).drop pos.Offset.toNat).take enc.length = enc) := by
  cases henc : EncodeLogRecord r with
  | none =>
    have := appendLogRecord_panic db r henc
    rw [h] at this
    simp at this
  | some p =>
    obtain ⟨enc, size⟩ := p
    have hlen := (EncodeLogRecord_length r enc size henc).1
    subst hlen
    refine ⟨enc, rfl, ?_, ?_, ?_⟩
    · cases haf : db.activeFile with
      | some af =>
        rw [appendLogRecord_active db r enc _ af haf henc] at h
        split at h <;>
        · simp only [Prod.mk.injEq, Except.ok.injEq] at h
          rw [← h.2]
      | none =>
        rw [appendLogRecord_noactive db r haf,
          appendLogRecord_active _ r enc _ ⟨0, 0⟩ rfl henc] at h
        split at h <;>
        · simp only [Prod.mk.injEq, Except.ok.injEq] at h
          rw [← h.2]
    · cases haf : db.activeFile with
      | some af =>
        rw [appendLogRecord_active db r enc _ af haf henc] at h
        simp only [Option.getD_some]
        by_cases hrot : af.WriteOff + (enc.length : Int) > db.options.DataFileSize
        · rw [if_pos hrot] at h
          rw [if_pos hrot]
          simp only [Prod.mk.injEq, Except.ok.injEq] at h
          obtain ⟨h1, h2⟩ := h
          subst h1; subst h2
          simp
        · rw [if_neg hrot] at h
          rw [if_neg hrot]
          simp only [Prod.mk.injEq, Except.ok.injEq] at h
          obtain ⟨h1, h2⟩ := h
          subst h1; subst h2
          simp
      | none =>
        rw [appendLogRecord_noactive db r haf,
          appendLogRecord_active _ r enc _ ⟨0, 0⟩ rfl henc] at h
        simp only [Option.getD_none]
        by_cases hrot : (0 : Int) + (enc.length : Int) > db.options.DataFileSize
        · rw [if_pos hrot] at h
          rw [if_pos hrot]
          simp only [Prod.mk.injEq, Except.ok.injEq] at h
          obtain ⟨h1, h2⟩ := h
          subst h1; subst h2
          simp
        · rw [if_neg hrot] at h
          rw [if_neg hrot]
          simp only [Prod.mk.injEq, Except.ok.injEq] at h
          obtain ⟨h1, h2⟩ := h
          subst h1; subst h2
          simp
    · intro hc
      have key : (db1.disk.bytes pos.Fid).drop pos.Offset.toNat = enc ∧ 0 ≤ pos.Offset := by
        cases haf : db.activeFile with
        | some af =>
          simp only [DB.Consistent, haf] at hc
          exact appendLogRecord_bytes_active db af haf hc.1 hc.2.1 hc.2.2 r enc _ henc db1 pos h
        | none =>
          simp only [DB.Consistent, haf] at hc
          rw [appendLogRecord_noactive db r haf] at h
          refine appendLogRecord_bytes_active _ ⟨0, 0⟩ rfl ?_ ?_ ?_ r enc _ henc db1 pos h
          · exact Disk.contents_openFile_self _ _
          · simp only [Disk.bytes_openFile, hc.1]
            rfl
          · simp only [Disk.bytes_openFile]
            exact hc.2
      refine ⟨key.2, key.1, ?_⟩
      rw [key.1, List.take_length]

/-- Witness of C16: the second `Put` on a store that holds one record. -/
theorem C16_append_position_witness :
    ∃ enc : Bytes, EncodeLogRecord witnessRecord = some (enc, enc.length) ∧
      ({ Fid := 0, Offset := 11, Size := 11 } : LogRecordPos).Size = enc.length % 2 ^ 32 :=
  (C16_append_position onePutDB (onePutDB.appendLogRecord witnessRecord).1 witnessRecord
    { Fid := 0, Offset := 11, Size := 11 } (by decide!)).imp (fun _ hx => ⟨hx.1, hx.2.1⟩)

/-- Counterexample to C16 as stated: on a fresh store whose `DataFileSize` is 5 the
first record, 11 bytes long, goes to segment 1, not to segment 0; after the segment
with the largest `uint32` id the next segment is 0, not the previous id plus one; and
on the engine opened on a segment that ends in a cut record the bytes at the returned
position are not the encoded record. -/
theorem C16_counterexample :
    EncodeLogRecord witnessRecord = some (witnessEnc, 11) ∧
    ((freshDB 5).appendLogRecord witnessRecord).2 = .ok { Fid := 1, Offset := 0, Size := 11 } ∧
    (DB.appendLogRecord
      { options := { DataFileSize := 5, SyncWrites := false }, disk := [(4294967295, [])],
        fileIds := [4294967295], activeFile := some { FileId := 4294967295, WriteOff := 0 },
        olderFiles := [], index := [], seqNo := 0, reclaimSize := 0, isMerging := false }
      witnessRecord).2 = .ok { Fid := 0, Offset := 0, Size := 11 } ∧
    (crashDB.appendLogRecord witnessRecord).2 = .ok { Fid := 0, Offset := 0, Size := 11 } ∧
    (((crashDB.appendLogRecord witnessRecord).1.disk.bytes 0).drop 0).take 11 ≠ witnessEnc := by
  decide!
/-- C26: the index is a finite map from keys (the empty key included) to positions.
On an index with unique, ordered keys: `Put(k, p)` returns nil when `k` was absent and
the position stored for `k` otherwise, leaves exactly one entry for `k`, keeps the
other keys, and a following `Get(k)` returns `p`; `Delete(k)` returns the stored
position and true on a present key and (nil, false) on an absent one, and a following
`Get(k)` returns nil; `Size` is the number of distinct keys; both operations keep the
keys unique and ordered. -/
theorem C26_index_finite_map (idx : Index) (hwf : idx.WF) (k : Bytes) (p : LogRecordPos) :
    ((idx.Get k = none → (idx.Put k p).1 = none) ∧
      (∀ q, idx.Get k = some q → (idx.Put k p).1 = some q)) ∧
    (idx.Put k p).2.filter (fun e => e.1 = k) = [(k, p)] ∧
    (idx.Put k p).2.Get k = some p ∧
    (∀ k1, k1 ≠ k → (idx.Put k p).2.Get k1 = idx.Get k1) ∧
    (∀ q, idx.Get k = some q → (idx.Delete k).1 = (some q, true)) ∧
    (idx.Get k = none → (idx.Delete k).1 = (none, false) ∧ (idx.Delete k).2 = idx) ∧
    (idx.Delete k).2.Get k = none ∧
    (∀ k1, k1 ≠ k → (idx.Delete k).2.Get k1 = idx.Get k1) ∧
    idx.Size = (idx.map Prod.fst).toFinset.card ∧
    (∀ k1, k1 ∈ (idx.map Prod.fst).toFinset ↔ idx.Get k1 ≠ none) ∧
    (idx.Put k p).2.WF ∧ (idx.Delete k).2.WF := by
  refine ⟨⟨?_, ?_⟩, ?_, ?_, ?_, ?_, ?_, ?_, ?_, ?_, ?_, ?_, ?_⟩
  · intro h
    simp only [Index.Put, h]
  · intro q h
    simp only [Index.Put, h]
  · exact Index.filter_key _ (Index.WF_insert idx hwf k p) k p (Index.Get_insert_self idx k p)
  · exact Index.Get_insert_self idx k p
  · intro k1 h
    exact Index.Get_insert_other idx k k1 p h
  · intro q h
    simp only [Index.Delete, h, Option.isSome_some]
  · intro h
    refine ⟨by simp only [Index.Delete, h, Option.isSome_none], ?_⟩
    simp only [Index.Delete, Index.erase]
    rw [List.filter_eq_self]
    intro e he
    simp only [ne_eq, decide_not, Bool.not_eq_eq_eq_not, Bool.not_true, decide_eq_false_iff_not]
    intro hk
    have : (Index.Get idx k).isSome = true := by
      rw [Index.Get_isSome_iff]
      exact List.mem_map.mpr ⟨e, he, hk⟩
    rw [h] at this
    simp at this
  · exact Index.Get_erase_self idx k
  · intro k1 h
    exact Index.Get_erase_other idx k k1 h
  · rw [List.toFinset_card_of_nodup (Index.WF_nodup idx hwf)]
    simp only [Index.Size, List.length_map]
  · intro k1
    rw [List.mem_toFinset, ← Index.Get_isSome_iff, Option.isSome_iff_ne_none]
  · exact Index.WF_insert idx hwf k p
  · exact Index.WF_erase idx hwf k

/-- Witness of C26: the steps of `TestBtree_Put` on the index that holds the nil key. -/
theorem C26_index_finite_map_witness :
    Index.WF [([], { Fid := 1, Offset := 100, Size := 0 })] ∧
    (Index.Put [([], { Fid := 1, Offset := 100, Size := 0 })] [97]
      { Fid := 1, Offset := 2, Size := 0 }).2.Get [97] = some { Fid := 1, Offset := 2, Size := 0 } :=
  ⟨by decide, (C26_index_finite_map [([], { Fid := 1, Offset := 100, Size := 0 })] (by decide) [97]
    { Fid := 1, Offset := 2, Size := 0 }).2.2.1⟩

/-- C25: on an index with unique, ordered keys `ListKeys` returns every key of the
index exactly once in ascending lexicographic byte order; the snapshot of an iterator
created with `reverse = true` is the forward snapshot reversed, and iterating it
yields the same keys in the reverse order. -/
theorem C25_list_keys_order (idx : Index) (hwf : idx.WF) :
    ∃ keys : List Bytes, idx.ListKeys = some (some keys) ∧
      keys.Pairwise (fun a b => a < b) ∧ keys.Nodup ∧ keys.length = idx.Size ∧
      (∀ k, k ∈ keys ↔ idx.Get k ≠ none) ∧
      (∃ fwd rev : artIterator, NewARTIterator idx false = some fwd ∧
        NewARTIterator idx true = some rev ∧ rev.values = fwd.values.reverse) ∧
      iteratorKeys idx.Size (NewARTIterator idx true) = some (some keys.reverse) := by
  refine ⟨idx.map Prod.fst, ?_, ?_, Index.WF_nodup idx hwf, ?_, ?_, ?_, ?_⟩
  · rw [Index.ListKeys, NewARTIterator_forward]
    exact iteratorKeys_items idx false
  · rw [List.pairwise_map]
    exact hwf
  · simp only [Index.Size, List.length_map]
  · intro k
    rw [← Index.Get_isSome_iff, Option.isSome_iff_ne_none]
  · refine ⟨_, _, NewARTIterator_forward idx, NewARTIterator_reverse idx, ?_⟩
    simp only [List.map_reverse]
  · rw [NewARTIterator_reverse]
    have h := iteratorKeys_items idx.reverse true
    rw [List.length_reverse] at h
    rw [← List.map_reverse]
    exact h

/-- Witness of C25 on an index of three keys, one a prefix of another. -/
theorem C25_list_keys_order_witness :
    Index.WF [([1], ⟨0, 0, 1⟩), ([1, 2], ⟨0, 0, 1⟩), ([3], ⟨0, 0, 1⟩)] ∧
    Index.ListKeys [([1], ⟨0, 0, 1⟩), ([1, 2], ⟨0, 0, 1⟩), ([3], ⟨0, 0, 1⟩)] =
      some (some [[1], [1, 2], [3]]) ∧
    ∃ keys : List Bytes,
      Index.ListKeys [([1], ⟨0, 0, 1⟩), ([1, 2], ⟨0, 0, 1⟩), ([3], ⟨0, 0, 1⟩)] =
        some (some keys) ∧
      iteratorKeys 3 (NewARTIterator [([1], ⟨0, 0, 1⟩), ([1, 2], ⟨0, 0, 1⟩), ([3], ⟨0, 0, 1⟩)]
        true) = some (some keys.reverse) :=
  ⟨by decide, by decide,
    (C25_list_keys_order [([1], ⟨0, 0, 1⟩), ([1, 2], ⟨0, 0, 1⟩), ([3], ⟨0, 0, 1⟩)]
      (by decide)).imp (fun _ hx => ⟨hx.1, hx.2.2.2.2.2.2⟩)⟩
/-- C30 (amended): `loadDataFiles` returns `ErrDataDirectoryCorrupted` exactly when
the listing has a name with the suffix ".data" whose part before its first "." is
rejected by `strconv.Atoi`, and it returns no other error; a name of decimal digits
that denote a number below 2^63, followed by ".data", gives that number; and when the
names with the suffix give ids from 0 to 2^32 - 1, the segments with those ids are
opened, `fileIds` is the ids in ascending order, the largest id is the active file
with `WriteOff` 0 and every id before the last is in `olderFiles` under its own id. -/
theorem C30_load_data_files (db : DB) (names : List (List Char)) :
    (DB.loadDataFilesOfNames db names = .error .DataDirectoryCorrupted ↔
      ∃ n ∈ names, HasSuffix n DataFileNameSuffix = true ∧
        Atoi ((SplitDot n).headD []) = none) ∧
    (∀ e, DB.loadDataFilesOfNames db names = .error e → e = .DataDirectoryCorrupted) ∧
    (∀ ds : List Char, ds ≠ [] → (∀ c ∈ ds, 48 ≤ c.toNat ∧ c.toNat ≤ 57) →
      decimalValue ds < 2 ^ 63 →
      HasSuffix (ds ++ DataFileNameSuffix) DataFileNameSuffix = true ∧
      Atoi ((SplitDot (ds ++ DataFileNameSuffix)).headD []) = some (decimalValue ds : Int)) ∧
    (∀ ids : List Nat, ids ≠ [] → (∀ i ∈ ids, i < 2 ^ 32) →
      (names.filter (fun n => HasSuffix n DataFileNameSuffix)).map
        (fun n => Atoi ((SplitDot n).headD [])) = ids.map (fun (i : Nat) => some (i : Int)) →
      ∃ (db1 : DB) (af : DataFile), DB.loadDataFilesOfNames db names = .ok db1 ∧
        db1.fileIds.Pairwise (fun a b => a ≤ b) ∧
        db1.fileIds.Perm (ids.map (fun (i : Nat) => (i : Int))) ∧
        db1.activeFile = some af ∧ af.WriteOff = 0 ∧ af.FileId ∈ ids ∧
        (∀ i ∈ ids, i ≤ af.FileId) ∧
        (∀ f : Nat, olderGet db1.olderFiles f =
          if (f : Int) ∈ db1.fileIds.dropLast then some { FileId := f, WriteOff := 0 }
          else olderGet db.olderFiles f) ∧
        (∀ f ∈ ids, (db1.disk.contents f).isSome = true) ∧
        (∀ f, db1.disk.bytes f = db.disk.bytes f)) := by
  have herr : (∃ n ∈ names, HasSuffix n DataFileNameSuffix = true ∧
      Atoi ((SplitDot n).headD []) = none) →
      DB.loadDataFilesOfNames db names = .error .DataDirectoryCorrupted := by
    intro h
    simp only [DB.loadDataFilesOfNames, loadFileIds_error names [] h]
  have hok : (¬ ∃ n ∈ names, HasSuffix n DataFileNameSuffix = true ∧
      Atoi ((SplitDot n).headD []) = none) →
      ∃ db1, DB.loadDataFilesOfNames db names = .ok db1 := by
    intro h
    have h1 : ∀ n ∈ names, HasSuffix n DataFileNameSuffix = true →
        Atoi ((SplitDot n).headD []) ≠ none := fun n hn hs hx => h ⟨n, hn, hs, hx⟩
    simp only [DB.loadDataFilesOfNames, loadFileIds_ok names [] h1]
    exact ⟨_, rfl⟩
  refine ⟨⟨?_, herr⟩, ?_, ?_, ?_⟩
  · intro h
    by_contra hc
    obtain ⟨db1, h1⟩ := hok hc
    rw [h1] at h
    simp at h
  · intro e h
    by_cases hc : ∃ n ∈ names, HasSuffix n DataFileNameSuffix = true ∧
        Atoi ((SplitDot n).headD []) = none
    · rw [herr hc] at h
      simp only [Except.error.injEq] at h
      exact h.symm
    · obtain ⟨db1, h1⟩ := hok hc
      rw [h1] at h
      simp at h
  · intro ds hne hd hv
    refine ⟨HasSuffix_append _ _, ?_⟩
    have hdot : ∀ c ∈ ds, c ≠ '.' := by
      intro c hc e
      have := hd c hc
      rw [e] at this
      exact absurd this.1 (by decide)
    have : ds ++ DataFileNameSuffix = ds ++ '.' :: ['d', 'a', 't', 'a'] := rfl
    rw [this, SplitDot_head ds _ hdot]
    exact Atoi_digits ds hne hd hv
  · intro ids hne hlt hids
    have h1 : ∀ n ∈ names, HasSuffix n DataFileNameSuffix = true →
        Atoi ((SplitDot n).headD []) ≠ none := by
      intro n hn hs hx
      have hm : Atoi ((SplitDot n).headD []) ∈
          (names.filter (fun n => HasSuffix n DataFileNameSuffix)).map
            (fun n => Atoi ((SplitDot n).headD [])) :=
        List.mem_map.mpr ⟨n, List.mem_filter.mpr ⟨hn, hs⟩, rfl⟩
      rw [hids, hx] at hm
      simp at hm
    have hfm : (names.filter (fun n => HasSuffix n DataFileNameSuffix)).filterMap
        (fun n => Atoi ((SplitDot n).headD [])) = ids.map (fun (i : Nat) => (i : Int)) := by
      have e1 : (names.filter (fun n => HasSuffix n DataFileNameSuffix)).filterMap
          (fun n => Atoi ((SplitDot n).headD [])) =
          ((names.filter (fun n => HasSuffix n DataFileNameSuffix)).map
            (fun n => Atoi ((SplitDot n).headD []))).filterMap id := by
        rw [List.filterMap_map]
        rfl
      rw [e1, hids, List.filterMap_map]
      exact congrFun (List.filterMap_eq_map (fun (i : Nat) => (i : Int))) ids
    have hperm := List.perm_insertionSort (fun a b : Nat => a ≤ b) ids
    have hsorted : (ids.insertionSort (fun a b => a ≤ b)).Pairwise (fun a b => a ≤ b) :=
      List.sorted_insertionSort (fun a b : Nat => a ≤ b) ids
    have hne2 : ids.insertionSort (fun a b => a ≤ b) ≠ [] := by
      intro e
      rw [e] at hperm
      exact hne (List.Perm.nil_eq hperm).symm
    have hlt2 : ∀ i ∈ ids.insertionSort (fun a b => a ≤ b), i < 2 ^ 32 :=
      fun i hi => hlt i (hperm.mem_iff.mp hi)
    obtain ⟨s1, s2, s3, s4, s5, s6, s7, s8⟩ := loadDataFilesLoop_spec _ hne2 hlt2
      { db with fileIds := (ids.insertionSort (fun a b => a ≤ b)).map (fun (i : Nat) => (i : Int)) }
    refine ⟨_, _, ?_, ?_, ?_, s1, rfl, ?_, ?_, ?_, ?_, ?_⟩
    · simp only [DB.loadDataFilesOfNames, loadFileIds_ok names [] h1, hfm, List.nil_append,
        insertionSort_natCast]
    · rw [s6]
      simp only
      rw [List.pairwise_map]
      exact hsorted.imp (fun h => Int.ofNat_le.mpr h)
    · rw [s6]
      exact hperm.map _
    · exact hperm.mem_iff.mp (List.getLast_mem _)
    · intro i hi
      exact sorted_le_getLast _ hsorted hne2 i (hperm.mem_iff.mpr hi)
    · intro f
      rw [s2 f, s6]
      simp only
      have hiff : (f : Int) ∈ ((ids.insertionSort (fun a b => a ≤ b)).map
          (fun (i : Nat) => (i : Int))).dropLast ↔
          f ∈ (ids.insertionSort (fun a b => a ≤ b)).dropLast := by
        rw [← List.map_dropLast, List.mem_map]
        constructor
        · rintro ⟨i, hi, e⟩
          have : i = f := Int.ofNat_inj.mp e
          rw [← this]
          exact hi
        · intro h
          exact ⟨f, h, rfl⟩
      by_cases hf : f ∈ (ids.insertionSort (fun a b => a ≤ b)).dropLast
      · rw [if_pos hf, if_pos (hiff.mpr hf)]
      · rw [if_neg hf, if_neg (fun h => hf (hiff.mp h))]
    · intro f hf
      exact s4 f (hperm.mem_iff.mpr hf)
    · intro f
      exact s3 f

/-- Witness of C30: a listing with two segments and one other file. -/
theorem C30_load_data_files_witness :
    (DB.loadDataFilesOfNames (freshDB 100)
        ["000000002.data".toList, "LOCK".toList, "000000001.data".toList]).toOption.map
      (fun d => (d.fileIds, d.activeFile, d.olderFiles)) =
      some ([1, 2], some { FileId := 2, WriteOff := 0 }, [(1, { FileId := 1, WriteOff := 0 })]) ∧
    DB.loadDataFilesOfNames (freshDB 100) ["abc.data".toList] = .error .DataDirectoryCorrupted :=
  ⟨by decide,
    (C30_load_data_files (freshDB 100) ["abc.data".toList]).1.mpr
      ⟨"abc.data".toList, by decide, by decide, by decide⟩⟩

/-- Counterexample to C30 as stated: the listing with the single name "1.2.data" is
not rejected, it is read as segment 1; and for the name "4294967296.data", a decimal
integer, `fileIds` holds 4294967296 and the segment opened as the active file is
segment 0, the id after the conversion `uint32(fid)`. -/
theorem C30_counterexample :
    (DB.loadDataFilesOfNames (freshDB 100) ["1.2.data".toList]).toOption.map
      (fun d => (d.fileIds, d.activeFile)) = some ([1], some { FileId := 1, WriteOff := 0 }) ∧
    (DB.loadDataFilesOfNames (freshDB 100) ["4294967296.data".toList]).toOption.map
      (fun d => (d.fileIds, d.activeFile, d.disk)) =
      some ([4294967296], some { FileId := 0, WriteOff := 0 }, [(0, [])]) := by
  decide
set_option maxRecDepth 100000 in
/-- C28, evaluated: `Merge` on the engine that holds the single record of
`Put("n", [1, 2])` completes and writes a hint record and the `merge-finished` marker,
whose value is "1", the id of the first segment the merge does not cover.  `Open` is
a function of the options and the data directory alone: on the data directory left by
that `Merge` it opens segment 0, which the merge covers, next to segment 1, scans it
and takes the position of "n" from it; nothing is deleted and no hint file is read. -/
theorem C28_open_skips_finalization :
    (onePutDB.Merge { totalSize := 11, ratioUnreached := false, availableDiskSize := 100 }).map
      (fun r => r.2) = some none ∧
    ((onePutDB.Merge { totalSize := 11, ratioUnreached := false, availableDiskSize := 100 }).bind
      (fun r => r.1.2)).map (fun out => out.hintFile.length) = some 11 ∧
    (((onePutDB.Merge { totalSize := 11, ratioUnreached := false, availableDiskSize := 100 }).bind
      (fun r => r.1.2)).bind (fun out => out.mergeFinishedFile)).map
        (fun m => (ReadLogRecord m 0).toOption.map (fun x => x.1.Value)) = some (some [49]) ∧
    ((onePutDB.Merge { totalSize := 11, ratioUnreached := false, availableDiskSize := 100 }).bind
      (fun r => Open witnessOptions r.1.1.disk)).map
      (fun o => o.toOption.map (fun db2 =>
        (db2.fileIds, db2.disk.bytes 0, db2.index.Get [110]))) =
      some (some ([0, 1], witnessEnc, some { Fid := 0, Offset := 0, Size := 11 })) := by
  decide!
/-- C17 (amended): in every engine state reached from `Open` on a directory of
well-named segments by `Put`, `Delete`, `Commit` and `Merge`, where every step starts
with the active file's id (0 without an active file) so far below 2^32 that the ids of
the segments the step can create do not wrap (one segment for `Put`, `Delete` and
`Merge`, one per buffered record and one for the sentinel for `Commit`), the active
file's id is strictly greater than every key of `olderFiles`, and every file in
`olderFiles` is stored under its own `FileId`. -/
theorem C17_active_id_greatest (db : DB) (h : Reachable db) :
    ∀ e ∈ db.olderFiles,
      e.2.FileId = e.1 ∧ ∃ af, db.activeFile = some af ∧ e.1 < af.FileId := by
  have key : db.FilesOrdered := by
    induction h with
    | opened options disk db hwn hopen => exact Open_files options disk db hwn hopen
    | put db key value _ hroom ih =>
      obtain ⟨h1, _, _⟩ := appendLogRecord_files db
        ⟨logRecordKeyWithSeq key nonTransactionSeqNo, value, LogRecordNormal⟩ ih hroom
      rcases Put_files db key value with ⟨a, b⟩ | ⟨a, b⟩
      · exact FilesOrdered_congr _ _ a b ih
      · exact FilesOrdered_congr _ _ a b h1
    | delete db key _ hroom ih =>
      obtain ⟨h1, _, _⟩ := appendLogRecord_files db
        ⟨logRecordKeyWithSeq key nonTransactionSeqNo, [], LogRecordDeleted⟩ ih hroom
      rcases Delete_files db key with ⟨a, b⟩ | ⟨a, b⟩
      · exact FilesOrdered_congr _ _ a b ih
      · exact FilesOrdered_congr _ _ a b h1
    | commit db wb _ hroom ih => exact Commit_files wb db ih hroom
    | merge db db1 env out err _ hroom hm ih => exact Merge_files db db1 env out err hm ih hroom
  exact key

/-- Witness of C17: on a fresh store whose `DataFileSize` is 5 the first `Put` rotates,
so that segment 0 is in `olderFiles` and segment 1 is the active file. -/
theorem C17_active_id_greatest_witness :
    ((freshDB 5).Put [110] [1, 2]).1.olderFiles = [(0, { FileId := 0, WriteOff := 0 })] ∧
    ∀ e ∈ ((freshDB 5).Put [110] [1, 2]).1.olderFiles,
      e.2.FileId = e.1 ∧ ∃ af,
        ((freshDB 5).Put [110] [1, 2]).1.activeFile = some af ∧ e.1 < af.FileId :=
  ⟨by decide!,
    C17_active_id_greatest _
      (Reachable.put (freshDB 5) [110] [1, 2]
        (Reachable.opened { DataFileSize := 5, SyncWrites := false } [] (freshDB 5)
          ⟨List.nodup_nil, fun e he => absurd he (List.not_mem_nil e)⟩ (by decide))
        (by decide))⟩

/-- Counterexample to C17 as stated.  The directory holds the one well-named segment
4294967295, empty, and segments take 5 bytes: `Put("n", [1, 2])` on the opened engine
creates one segment, whose id is `uint32(4294967295 + 1) = 0`.  The active file then
has the id 0 and `olderFiles` holds the key 4294967295, which is not below it. -/
theorem C17_counterexample :
    Disk.WellNamed [(4294967295, [])] ∧
    (Open { DataFileSize := 5, SyncWrites := false } [(4294967295, [])]).map
        (Except.map (fun d => d.Put [110] [1, 2])) = some (.ok (lastIdPutDB, none)) ∧
    lastIdPutDB.activeFile = some { FileId := 0, WriteOff := 11 } ∧
    lastIdPutDB.olderFiles = [(4294967295, { FileId := 4294967295, WriteOff := 0 })] ∧
    ¬ lastIdPutDB.FilesOrdered := by
  have hact : lastIdPutDB.activeFile = some { FileId := 0, WriteOff := 11 } := by decide!
  have hold : lastIdPutDB.olderFiles =
      [(4294967295, { FileId := 4294967295, WriteOff := 0 })] := by decide!
  refine ⟨⟨by decide, ?_⟩, by decide!, hact, hold, ?_⟩
  · intro e he
    simp only [List.mem_singleton] at he
    rw [he]
    decide
  · intro hfo
    obtain ⟨_, af, haf, hlt⟩ := hfo (4294967295, { FileId := 4294967295, WriteOff := 0 })
      (by rw [hold]; exact List.mem_singleton_self _)
    rw [hact] at haf
    simp only [Option.some.injEq] at haf
    rw [← haf] at hlt
    exact absurd hlt (by decide)

/-- C18 (amended): for every sequence of fewer than 2^32 appends on a fresh store,
every segment's length is at most `DataFileSize + m`, where `m` bounds the encoded
size of the records appended; a segment longer than `DataFileSize` holds exactly one
of the records. -/
theorem C18_segment_length (options : Options) (db : DB) (rs : List LogRecord)
    (hopen : Open options [] = some (.ok db)) (hn : rs.length < 2 ^ 32) (m : Nat)
    (hm : ∀ r ∈ rs, ∀ (enc : Bytes) (sz : Nat), EncodeLogRecord r = some (enc, sz) → sz ≤ m)
    (f : Nat) :
    (((appendAll db rs).disk.bytes f).length : Int) ≤ options.DataFileSize + m ∧
    (options.DataFileSize < (((appendAll db rs).disk.bytes f).length : Int) →
      ∃ r ∈ rs, EncodeLogRecord r =
        some ((appendAll db rs).disk.bytes f, ((appendAll db rs).disk.bytes f).length)) := by
  obtain ⟨hpos, hdb⟩ := Open_empty_ok options db hopen
  have h0 : db.SegmentsBounded [] := by
    subst hdb
    refine ⟨fun f => Or.inl ?_, fun f => rfl⟩
    simp only [Disk.bytes, Disk.contents, Option.getD_none, List.length_nil]
    exact le_of_lt hpos
  have hid : db.activeId = 0 := by
    subst hdb
    rfl
  obtain ⟨h1, h2, _⟩ := SegmentsBounded_appendAll db h0 rs (by rw [hid]; omega)
  have hopt : db.options = options := by
    subst hdb
    rfl
  rw [hopt] at h2
  have h3 := h1.1 f
  rw [h2] at h3
  constructor
  · rcases h3 with h3 | ⟨r, hr, h3⟩
    · omega
    · have := hm r hr _ _ h3
      omega
  · intro hlong
    rcases h3 with h3 | h3
    · omega
    · exact h3

/-- Witness of C18: two records of 11 bytes on a fresh store whose `DataFileSize` is
100 share segment 0. -/
theorem C18_segment_length_witness :
    (((appendAll (freshDB 100) [witnessRecord, witnessRecord]).disk.bytes 0).length : Int) ≤
      100 + (11 : Nat) :=
  (C18_segment_length witnessOptions (freshDB 100) [witnessRecord, witnessRecord] (by decide)
    (by decide) 11
    (fun r hr enc sz he => by
      have hr1 : r = witnessRecord := by
        rcases List.mem_cons.mp hr with e | e
        · exact e
        · exact List.mem_singleton.mp e
      rw [hr1, witnessRecord_encoded] at he
      simp only [Option.some.injEq, Prod.mk.injEq] at he
      exact Nat.le_of_eq he.2.symm) 0).1

/-- Counterexample to C18 as stated: 2^32 + 1 appends of an 11-byte record on a fresh
store whose `DataFileSize` is 5.  Every append rotates; the segment ids, which are
`uint32`, wrap after 2^32 - 1, and the last append adds a second record to segment 1,
which is then 22 bytes long, more than 5 + 11. -/
theorem C18_counterexample :
    Open { DataFileSize := 5, SyncWrites := false } [] = some (.ok (freshDB 5)) ∧
    EncodeLogRecord witnessRecord = some (witnessEnc, 11) ∧
    (appendAll (freshDB 5) (List.replicate (4294967295 + 2) witnessRecord)).disk.bytes 1 =
      witnessEnc ++ witnessEnc ∧
    (witnessEnc ++ witnessEnc).length = 22 := by
  refine ⟨by decide, witnessRecord_encoded, ?_, by decide⟩
  rw [appendAll_replicate]
  exact iterate_appends_wrap 4294967295 (by norm_num)
/-- C24 (amended): for every sequence of successful `Put` and `Delete` calls on a fresh
store whose records are shorter than 2^32 bytes, `reclaimSize` is the number of bytes
in all segments minus the sum of the sizes of the positions held in the index; on the
state reached, an overwriting `Put` adds exactly the displaced position's size, and a
`Delete` of an indexed key adds exactly the encoded size of the tombstone plus the
removed position's size. -/
theorem C24_reclaim_size (options : Options) (db0 db : DB) (ops : List Op)
    (hopen : Open options [] = some (.ok db0)) (hsmall : ∀ op ∈ ops, op.Small)
    (hrun : db0.runOps ops = some db) :
    db.reclaimSize = db.disk.totalSize - db.index.totalSize ∧
    (∀ (k v : Bytes) (old : LogRecordPos), k ≠ [] → k.length + v.length + 16 < 2 ^ 32 →
      db.index.Get k = some old →
      (db.Put k v).2 = none ∧ (db.Put k v).1.reclaimSize = db.reclaimSize + old.Size) ∧
    (∀ (k : Bytes) (old : LogRecordPos), k ≠ [] → k.length + 16 < 2 ^ 32 →
      db.index.Get k = some old →
      (db.Delete k).2 = none ∧
      ∃ tomb : Bytes,
        EncodeLogRecord ⟨logRecordKeyWithSeq k nonTransactionSeqNo, [], LogRecordDeleted⟩ =
          some (tomb, tomb.length) ∧
        (db.Delete k).1.reclaimSize = db.reclaimSize + tomb.length + old.Size) := by
  obtain ⟨_, hdb⟩ := Open_empty_ok options db0 hopen
  have h0 : db0.Accounted := by
    subst hdb
    refine ⟨List.Pairwise.nil, ?_, rfl⟩
    intro af haf
    simp at haf
  have hacc := runOps_accounted ops db0 db h0 hsmall hrun
  refine ⟨hacc.2.2, ?_, ?_⟩
  · intro k v old hk hs hg
    obtain ⟨h1, _, h3⟩ := Put_accounted db hacc k v hk hs
    rw [hg] at h3
    exact ⟨h1, h3⟩
  · intro k old hk hs hg
    obtain ⟨h1, _, h3⟩ := Delete_accounted db hacc k hk hs old hg
    exact ⟨h1, h3⟩

/-- Witness of C24: `Put("n", [1, 2])`, an overwriting `Put("n", [])` and `Delete("n")`
on a fresh store. -/
theorem C24_reclaim_size_witness :
    ((freshDB 100).runOps [.put [110] [1, 2], .put [110] [], .delete [110]]).map
      (fun d => (d.reclaimSize, d.disk.totalSize, d.index.totalSize)) = some (29, 29, 0) ∧
    ∀ d, (freshDB 100).runOps [.put [110] [1, 2], .put [110] [], .delete [110]] = some d →
      d.reclaimSize = d.disk.totalSize - d.index.totalSize :=
  ⟨by decide!, fun d hd =>
    (C24_reclaim_size witnessOptions (freshDB 100) d
      [.put [110] [1, 2], .put [110] [], .delete [110]] (by decide)
      (fun op hop => by
        rcases List.mem_cons.mp hop with e | hop
        · subst e; simp [Op.Small]
        · rcases List.mem_cons.mp hop with e | hop
          · subst e; simp [Op.Small]
          · rw [List.mem_singleton.mp hop]; simp [Op.Small])
      hd).1⟩

/-- Counterexample to C24 as stated: after a successful `Put` of a value of 2^32 bytes
on a fresh store `reclaimSize` is 0, while the bytes in the segments exceed the size
held in the index by 2^32: the `Size` of a position is a `uint32`. -/
theorem C24_counterexample :
    Open witnessOptions [] = some (.ok (freshDB 100)) ∧
    ((freshDB 100).Put [110] hugeValue).2 = none ∧
    ((freshDB 100).Put [110] hugeValue).1.reclaimSize = 0 ∧
    ((freshDB 100).Put [110] hugeValue).1.disk.totalSize -
      ((freshDB 100).Put [110] hugeValue).1.index.totalSize = 2 ^ 32 := by
  have henc := EncodeLogRecord_some_mk (logRecordKeyWithSeq [110] nonTransactionSeqNo) hugeValue
    LogRecordNormal (by decide) (by rw [hugeValue_length]; norm_num)
  have h1 := (EncodeLogRecord_length _ _ _ henc).1
  have hv1 :
      (PutVarint ((logRecordKeyWithSeq [110] nonTransactionSeqNo).length : Int)).length = 1 := by
    decide
  have hv2 : (PutVarint ((2 ^ 32 : Nat) : Int)).length = 5 := by decide
  have hk : (logRecordKeyWithSeq [110] nonTransactionSeqNo).length = 2 := by decide
  refine ⟨by decide, Put_huge_state _ _ henc h1 ?_⟩
  rw [hugeValue_length, hv1, hv2, hk]
/-- C31, evaluated: the guard of `Close` and of `Sync` is inverted.  With an active
file both return `nil` at once: no segment is closed and none is fsynced.  Without an
active file, as on the store `Open` returns for an empty directory, both go on to
call a method of the nil active file, a nil dereference. -/
theorem C31_close_sync_guard_inverted (db : DB) :
    (db.activeFile ≠ none → db.Close = ([], none) ∧ db.Sync = ([], none)) ∧
    (db.activeFile = none → db.Close = ([], some .Panic) ∧ db.Sync = ([], some .Panic)) ∧
    onePutDB.Close = ([], none) ∧ onePutDB.Sync = ([], none) ∧
    Open witnessOptions [] = some (.ok (freshDB 100)) ∧
    (freshDB 100).Close = ([], some .Panic) ∧ (freshDB 100).Sync = ([], some .Panic) := by
  refine ⟨?_, ?_, by decide!, by decide!, by decide, rfl, rfl⟩
  · intro h
    cases haf : db.activeFile with
    | none => exact absurd haf h
    | some af => simp only [DB.Close, DB.Sync, haf, and_self]
  · intro h
    simp only [DB.Close, DB.Sync, h, and_self]

/-- C34, evaluated: recovery of the segment written by `Put("n", [1, 2])`,
`Delete("n")` credits the removed position twice (11 + 11 instead of 11), and the
closure `updateIndex` applied to a `Deleted` record whose key is not in the index
dereferences the nil position that `index.Delete` returns. -/
theorem C34_update_index_deleted :
    updateIndex { index := [([110], { Fid := 0, Offset := 0, Size := 11 })], reclaimSize := 0,
                  transactionRecords := [], currentSeqNo := 0 }
      [110] LogRecordDeleted { Fid := 0, Offset := 11, Size := 9 } =
      some { index := [], reclaimSize := 22, transactionRecords := [], currentSeqNo := 0 } ∧
    updateIndex { index := [], reclaimSize := 0, transactionRecords := [], currentSeqNo := 0 }
      [110] LogRecordDeleted { Fid := 0, Offset := 11, Size := 9 } = none ∧
    ((Open witnessOptions ((onePutDB.Delete [110]).1.disk)).map
      (fun r => r.toOption.map (fun d => (d.index, d.reclaimSize)))) = some (some ([], 22)) ∧
    (onePutDB.Delete [110]).1.reclaimSize = 20 := by
  decide!
set_option maxRecDepth 100000 in
/-- C36, evaluated: on the store left by `Put("n", [1, 2])`, `Delete("n")`, whose only
segment holds no live record, `Merge` passes its preconditions, rotates the active
file and scans segment 0 without appending anything to the merge engine; the merge
engine then has no active file, and `mergeDB.Sync()` goes past its inverted guard to
a nil dereference.  No `merge-finished` marker is written. -/
theorem C36_merge_without_live_records :
    (onePutDB.Delete [110]).1.index = [] ∧
    ((onePutDB.Delete [110]).1.Merge
        { totalSize := 20, ratioUnreached := false, availableDiskSize := 100 }).map
      (fun r => (r.2, r.1.2.map (fun out =>
        (out.mergeDB.activeFile, out.hintFile.length, out.mergeFinishedFile.isSome)))) =
      some (some .Panic, some (none, 0, false)) := by
  decide!
set_option maxRecDepth 100000 in
/-- C32, evaluated: `Set("k", 1s, [7])` at time 1700000000000000000 ns on a fresh store.
The header handed to `Put` is ten zero bytes, not the type byte followed by the varint
of the expiry time (the copy reads `buf[idx:]`, the unused tail of the buffer), and a
`Get` at the same time, before the expiry, returns eight zero bytes followed by the
value.  With `ttl = 0` the header is `00 00`, which is also the intended one, and `Get`
returns the value. -/
theorem C32_set_copies_buffer_tail :
    (RedisDS.Set (freshDB 100) 1700000000000000000 [107] 1000000000 (some [7])).2 = none ∧
    (RedisDS.Set (freshDB 100) 1700000000000000000 [107] 1000000000 (some [7])).1.Get [107] =
      .ok [0, 0, 0, 0, 0, 0, 0, 0, 0, 0, 7] ∧
    redisString :: PutVarint (1700000000000000000 + 1000000000) ++ [7] =
      [0, 128, 168, 166, 156, 206, 191, 206, 151, 47, 7] ∧
    RedisDS.Get (RedisDS.Set (freshDB 100) 1700000000000000000 [107] 1000000000 (some [7])).1
      1700000000000000000 [107] = .ok (some [0, 0, 0, 0, 0, 0, 0, 0, 7]) ∧
    RedisDS.Get (RedisDS.Set (freshDB 100) 1700000000000000000 [107] 0 (some [7])).1
      1700000000000000000 [107] = .ok (some [7]) ∧
    RedisDS.Get (freshDB 100) 1700000000000000000 [107] = .error (.engine .KeyNotFound) := by
  decide!
/-- C33: a successful `Commit` of a non-empty batch of `n` records, with sequence
number `s = seqNo + 1` (as a `uint64`), appends exactly the `n + 1` records of the
batch one after the other: every append succeeds and returns a position, the index
after the last of them is the index before the `Commit`, the state returned is the
second loop of `Commit` applied to the state after the sentinel, and the buffer is
empty afterwards. -/
theorem C33_commit_appends (wb : WriteBatch) (db : DB) (hne : wb.pendingWrites ≠ [])
    (hok : (wb.Commit db).2 = none) :
    ∃ (dbA : DB) (ps : List LogRecordPos) (positions : List (Bytes × LogRecordPos)),
      appendEach { db with seqNo := (db.seqNo + 1) % 2 ^ 64 }
        (batchRecords ((db.seqNo + 1) % 2 ^ 64) wb.pendingWrites) = (dbA, .ok ps) ∧
      ps.length = wb.pendingWrites.length + 1 ∧
      (batchRecords ((db.seqNo + 1) % 2 ^ 64) wb.pendingWrites).length =
        wb.pendingWrites.length + 1 ∧
      dbA.index = db.index ∧
      (wb.Commit db).1.1 = commitApply positions wb.pendingWrites dbA ∧
      (wb.Commit db).1.2.pendingWrites = [] := by
  have h0 : ¬ wb.pendingWrites.length = 0 := fun e => hne (List.length_eq_zero.mp e)
  unfold WriteBatch.Commit at hok ⊢
  rw [if_neg h0] at hok ⊢
  by_cases h1 : wb.pendingWrites.length > wb.options.MaxBatchNum
  · rw [if_pos h1] at hok
    simp at hok
  · rw [if_neg h1] at hok ⊢
    dsimp only at hok ⊢
    cases hca : commitAppend ((db.seqNo + 1) % 2 ^ 64) wb.pendingWrites
        { db with seqNo := (db.seqNo + 1) % 2 ^ 64 } [] with
    | mk db1 e =>
      try rw [hca] at hok
      try rw [hca]
      cases e with
      | error err => simp at hok
      | ok positions =>
        dsimp only at hok ⊢
        obtain ⟨ps, c1, c2⟩ := commitAppend_ok _ _ _ _ _ _ hca
        have hsnoc := appendEach_snoc _
          { Key := PutUvarint ((db.seqNo + 1) % 2 ^ 64) ++ txnFinKey, Value := [],
            Typ := LogRecordTxnFinished } _ _ _ c2
        simp only [logRecordKeyWithSeq] at hok ⊢
        cases hfin : db1.appendLogRecord
            { Key := PutUvarint ((db.seqNo + 1) % 2 ^ 64) ++ txnFinKey, Value := [],
              Typ := LogRecordTxnFinished } with
        | mk db2 e2 =>
          try rw [hfin] at hok
          try rw [hfin] at hsnoc
          try rw [hfin]
          cases e2 with
          | error err => simp at hok
          | ok p =>
            dsimp only at hsnoc ⊢
            refine ⟨db2, ps ++ [p], positions, hsnoc, ?_, ?_, ?_, rfl, rfl⟩
            · simp [c1]
            · simp [batchRecords]
            · have := (appendEach_index
                (batchRecords ((db.seqNo + 1) % 2 ^ 64) wb.pendingWrites)
                { db with seqNo := (db.seqNo + 1) % 2 ^ 64 }).1
              unfold batchRecords at this
              rw [hsnoc] at this
              exact this

/-- Witness of C33: a batch with `Put("n", [1, 2])` on a fresh store. -/
theorem C33_commit_appends_witness :
    ∃ (dbA : DB) (ps : List LogRecordPos),
      appendEach { freshDB 100 with seqNo := 1 } (batchRecords 1 [([110], ⟨[110], [1, 2], 0⟩)]) =
        (dbA, .ok ps) ∧ ps.length = 2 :=
  (C33_commit_appends ⟨witnessBatchOptions, [([110], ⟨[110], [1, 2], 0⟩)]⟩ (freshDB 100)
    (by decide) (by decide!)).elim
    (fun dbA h => h.elim (fun ps h2 => h2.elim (fun _ h3 => ⟨dbA, ps, h3.1, h3.2.1⟩)))

/-- Every key the loop of `loadIndexFromHintFile` adds to the index is shorter than
2^32 bytes: its length was read from a `uint32` header field. -/
theorem loadHintLoop_keys_short (file : Bytes) :
    ∀ (fuel : Nat) (offset : Int) (idx idx1 : Index),
      loadHintLoop file fuel offset idx = some (.ok idx1) →
      ∀ k, Index.Get idx1 k ≠ none → Index.Get idx k ≠ none ∨ k.length < 2 ^ 32 := by
  intro fuel
  induction fuel with
  | zero =>
    intro offset idx idx1 h
    simp [loadHintLoop] at h
  | succ f ih =>
    intro offset idx idx1 h k hk
    simp only [loadHintLoop] at h
    cases hr : ReadLogRecord file offset with
    | error e =>
      rw [hr] at h
      cases e <;> simp at h
      subst h
      exact Or.inl hk
    | ok rs =>
      obtain ⟨r, size⟩ := rs
      rw [hr] at h
      simp only at h
      have hlen := (ReadLogRecord_lengths_lt file offset r size hr).1
      cases hd : DecodeLogRecordPos r.Value with
      | none =>
        rw [hd] at h
        simp at h
      | some pos =>
        rw [hd] at h
        simp only [Index.Put] at h
        rcases ih _ _ _ h k hk with h1 | h1
        · by_cases hkr : k = r.Key
          · right
            rw [hkr]
            exact hlen
          · left
            rw [Index.Get_insert_other _ _ _ _ hkr] at h1
            exact h1
        · exact Or.inr h1

theorem loadIndexFromHintFile_ok (db db1 : DB) (file : Bytes)
    (h : db.loadIndexFromHintFile (some file) = some (.ok db1)) :
    loadHintLoop file (file.length + 1) 0 db.index = some (.ok db1.index) := by
  have hu : db.loadIndexFromHintFile (some file) =
      match loadHintLoop file (file.length + 1) 0 db.index with
      | none => none
      | some (.error e) => some (.error e)
      | some (.ok idx) => some (.ok { db with index := idx }) := rfl
  rw [hu] at h
  cases hl : loadHintLoop file (file.length + 1) 0 db.index with
  | none =>
    rw [hl] at h
    simp at h
  | some r =>
    rw [hl] at h
    cases r with
    | error e => simp at h
    | ok idx =>
      simp only [Option.some.injEq, Except.ok.injEq] at h
      rw [← h]

theorem WriteHintRecord_huge :
    (WriteHintRecord hugeValue { Fid := 0, Offset := 0, Size := 1 }).isSome = true := by
  have hu : WriteHintRecord hugeValue { Fid := 0, Offset := 0, Size := 1 } =
      (EncodeLogRecord ⟨hugeValue, EncodeLogRecordPos { Fid := 0, Offset := 0, Size := 1 },
        LogRecordNormal⟩).map (fun e => e.1) := rfl
  rw [hu, EncodeLogRecord_some_mk hugeValue _ LogRecordNormal
    (by rw [hugeValue_length]; norm_num) (by decide)]
  rfl


/-- C35 (amended): for every list of pairs of a non-empty key shorter than 2^32 bytes
and a position, the hint file produced by `WriteHintRecord` for each pair in order
is read back by `loadIndexFromHintFile` without error; the index then maps every key
of the list to the position of its last pair, and holds no other key than those it
held before. -/
theorem C35_hint_file_roundtrip (db : DB) (pairs : List (Bytes × LogRecordPos))
    (h : ∀ e ∈ pairs, e.1 ≠ [] ∧ e.1.length < 2 ^ 32 ∧ e.2.Fid < 2 ^ 32 ∧
      -(2 ^ 63) ≤ e.2.Offset ∧ e.2.Offset < 2 ^ 63 ∧ e.2.Size < 2 ^ 32) :
    ∃ (file : Bytes) (db1 : DB), writeHintRecords pairs = some file ∧
      db.loadIndexFromHintFile (some file) = some (.ok db1) ∧
      (∀ key, db1.index.Get key =
        match lastPosition pairs key with
        | some p => some p
        | none => db.index.Get key) ∧
      (db.index = [] → ∀ key, db1.index.Get key = lastPosition pairs key) := by
  have hw := writeHintRecords_eq pairs h
  have hall : ∀ r ∈ pairs.map (fun e =>
      ({ Key := e.1, Value := EncodeLogRecordPos e.2, Typ := LogRecordNormal } : LogRecord)),
      r.Framed ∧ (DecodeLogRecordPos r.Value).isSome = true := by
    intro r hr
    obtain ⟨e, he, rfl⟩ := List.mem_map.mp hr
    obtain ⟨h0, h1, h2, h3, h4, h5⟩ := h e he
    obtain ⟨hrt, _, hl⟩ := LogRecordPos_roundtrip e.2 h2 h3 h4 h5
    refine ⟨⟨h0, h1, ?_⟩, ?_⟩
    · simp only
      omega
    · simp only [hrt, Option.isSome_some]
  have hloop := loadHintLoop_frames _ [] ((encodeAll (pairs.map (fun e =>
      ({ Key := e.1, Value := EncodeLogRecordPos e.2, Typ := LogRecordNormal } : LogRecord)))).length
      + 1) db.index
    (Nat.lt_succ_of_le (encodeAll_length_ge _)) hall
  rw [List.nil_append] at hloop
  have hz : ((([] : Bytes).length : Nat) : Int) = 0 := rfl
  rw [hz] at hloop
  have hfold : (pairs.map (fun e =>
      ({ Key := e.1, Value := EncodeLogRecordPos e.2, Typ := LogRecordNormal } : LogRecord))).foldl
      (fun i r => Index.insert i r.Key ((DecodeLogRecordPos r.Value).getD ⟨0, 0, 0⟩)) db.index =
      pairs.foldl (fun i e => Index.insert i e.1 e.2) db.index := by
    rw [List.foldl_map]
    have hgen : ∀ (l : List (Bytes × LogRecordPos)) (idx : Index),
        (∀ e ∈ l, e.2.Fid < 2 ^ 32 ∧ -(2 ^ 63) ≤ e.2.Offset ∧ e.2.Offset < 2 ^ 63 ∧
          e.2.Size < 2 ^ 32) →
        l.foldl (fun i e => Index.insert i e.1
          ((DecodeLogRecordPos (EncodeLogRecordPos e.2)).getD ⟨0, 0, 0⟩)) idx =
        l.foldl (fun i e => Index.insert i e.1 e.2) idx := by
      intro l
      induction l with
      | nil =>
        intro idx _
        rfl
      | cons a rest ih =>
        intro idx hl
        obtain ⟨h2, h3, h4, h5⟩ := hl a (List.mem_cons_self _ _)
        simp only [List.foldl_cons, (LogRecordPos_roundtrip a.2 h2 h3 h4 h5).1, Option.getD_some]
        exact ih _ (fun e he => hl e (List.mem_cons_of_mem _ he))
    exact hgen pairs db.index (fun e he => (h e he).2.2)
  refine ⟨_, { db with index := pairs.foldl (fun i e => Index.insert i e.1 e.2) db.index }, hw,
    ?_, ?_, ?_⟩
  · rw [← hfold]
    exact loadIndexFromHintFile_some db _ _ hloop
  · intro key
    exact foldl_insert_Get pairs db.index key
  · intro hidx key
    have := foldl_insert_Get pairs db.index key
    rw [hidx] at this
    simp only at this ⊢
    rw [hidx, this]
    cases lastPosition pairs key <;> rfl

/-- Witness of C35: two pairs for the key "n" and one for "o". -/
theorem C35_hint_file_roundtrip_witness :
    ∃ (file : Bytes) (db1 : DB),
      writeHintRecords [([110], ⟨0, 0, 11⟩), ([111], ⟨0, 11, 9⟩), ([110], ⟨1, 0, 12⟩)] =
        some file ∧
      (freshDB 100).loadIndexFromHintFile (some file) = some (.ok db1) ∧
      db1.index.Get [110] = some ⟨1, 0, 12⟩ :=
  (C35_hint_file_roundtrip (freshDB 100)
    [([110], ⟨0, 0, 11⟩), ([111], ⟨0, 11, 9⟩), ([110], ⟨1, 0, 12⟩)] (by decide)).elim
    (fun file hf => hf.elim (fun db1 h1 => ⟨file, db1, h1.1, h1.2.1, by
      rw [h1.2.2.2 rfl [110]]
      decide⟩))

/-- Counterexample to C35 as stated: for a key of 2^32 bytes `WriteHintRecord` writes a
hint record, but no index loaded from a hint file holds that key, whatever the file. -/
theorem C35_counterexample :
    (WriteHintRecord hugeValue { Fid := 0, Offset := 0, Size := 1 }).isSome = true ∧
    ¬ ∃ (file : Bytes) (db1 : DB),
      (freshDB 100).loadIndexFromHintFile (some file) = some (.ok db1) ∧
      db1.index.Get hugeValue = some { Fid := 0, Offset := 0, Size := 1 } := by
  refine ⟨WriteHintRecord_huge, ?_⟩
  rintro ⟨file, db1, h1, h2⟩
  have h3 := loadHintLoop_keys_short file _ _ _ _ (loadIndexFromHintFile_ok _ _ _ h1) hugeValue
    (by rw [h2]; simp)
  rcases h3 with h3 | h3
  · exact h3 rfl
  · rw [hugeValue_length] at h3
    exact absurd h3 (by norm_num)
/-! ## Claims on recovery -/

/-- C4: for every engine on which recovery runs and every sequence number `s > 0`, if
no record of the scanned segments is a `TxnFinished` record carrying `s`, recovery
returns, and it returns what recovery returns when the records carrying `s` are
skipped: the same error, or an engine with the same index. -/
theorem C4_unfinished_batch_discarded (db : DB) (s : Nat) (hs : 0 < s)
    (hfin : ∀ e ∈ db.scannedRecords, seqNoOf e.1 = s → e.1.Typ ≠ LogRecordTxnFinished) :
    (db.loadIndexFromDataFiles).isSome = true ∧
    (db.loadIndexFromDataFiles).map (Except.map (fun d => d.index)) =
      (db.loadIndexFromDataFilesSkipping s).map (Except.map (fun d => d.index)) :=
  ⟨loadIndexFromDataFiles_some db, loadIndexFromDataFiles_skipping db s hs hfin⟩

set_option maxRecDepth 100000 in
/-- Witness of C4: the directory left by a `Commit` of `Put("n", [1, 2])` with sequence
number 1 that was cut before its sentinel; the segment holds one record carrying 1. -/
theorem C4_unfinished_batch_discarded_witness :
    (cutBatchDB.scannedRecords.map (fun e => seqNoOf e.1) = [1]) ∧
    ((cutBatchDB.loadIndexFromDataFiles).isSome = true ∧
      (cutBatchDB.loadIndexFromDataFiles).map (Except.map (fun d => d.index)) =
        (cutBatchDB.loadIndexFromDataFilesSkipping 1).map (Except.map (fun d => d.index))) :=
  ⟨by decide!, C4_unfinished_batch_discarded cutBatchDB 1 (by decide) (by decide!)⟩
/-- C19 (amended): a successful `Commit` of a non-empty batch appends the records of
the batch with the sequence number `(seqNo + 1) mod 2^64` and leaves it in the engine's
`seqNo`: exactly one more than the engine's `seqNo` before, unless that was 2^64 - 1.
After `Open` the engine's `seqNo` is the largest sequence number carried by a record
of the scanned segments (0 when there is none; records of batches without a sentinel
count), so that the sequence number of the next `Commit` is greater than every
sequence number in the log unless that maximum is 2^64 - 1. -/
theorem C19_sequence_numbers (db : DB) :
    (∀ wb : WriteBatch, wb.pendingWrites ≠ [] → (wb.Commit db).2 = none →
      (∃ (dbA : DB) (ps : List LogRecordPos) (positions : List (Bytes × LogRecordPos)),
        appendEach { db with seqNo := (db.seqNo + 1) % 2 ^ 64 }
          (batchRecords ((db.seqNo + 1) % 2 ^ 64) wb.pendingWrites) = (dbA, .ok ps) ∧
        (wb.Commit db).1.1 = commitApply positions wb.pendingWrites dbA) ∧
      (wb.Commit db).1.1.seqNo = (db.seqNo + 1) % 2 ^ 64 ∧
      (db.seqNo + 1 < 2 ^ 64 → (wb.Commit db).1.1.seqNo = db.seqNo + 1)) ∧
    (∀ (options : Options) (disk : Disk), Open options disk = some (.ok db) →
      (∀ e ∈ db.scannedRecords, seqNoOf e.1 ≤ db.seqNo) ∧
      (db.seqNo = 0 ∨ ∃ e ∈ db.scannedRecords, seqNoOf e.1 = db.seqNo) ∧
      (db.seqNo + 1 < 2 ^ 64 →
        ∀ e ∈ db.scannedRecords, seqNoOf e.1 < (db.seqNo + 1) % 2 ^ 64)) := by
  constructor
  · intro wb hne hok
    obtain ⟨dbA, ps, positions, h1, _, h3, _⟩ := Commit_ok_appends wb db hne hok
    refine ⟨⟨dbA, ps, positions, h1, h3⟩, Commit_seqNo wb db hne hok, ?_⟩
    intro hlt
    rw [Commit_seqNo wb db hne hok, Nat.mod_eq_of_lt hlt]
  · intro options disk hopen
    obtain ⟨h1, h2⟩ := Open_seqNo options disk db hopen
    refine ⟨h1, h2, ?_⟩
    intro hlt e he
    rw [Nat.mod_eq_of_lt hlt]
    exact Nat.lt_succ_of_le (h1 e he)

set_option maxRecDepth 100000 in
/-- Witness of C19: the engine opened on the directory left by one committed batch
has `seqNo = 1`, the sequence number both records carry, and the next `Commit` leaves
`seqNo = 2`. -/
theorem C19_sequence_numbers_witness :
    Open witnessOptions oneBatchDisk = some (.ok reopenedBatchDB) ∧
    reopenedBatchDB.seqNo = 1 ∧
    reopenedBatchDB.scannedRecords.map (fun e => seqNoOf e.1) = [1, 1] ∧
    (WriteBatch.Commit ⟨witnessBatchOptions, [([110], ⟨[110], [3], 0⟩)]⟩ reopenedBatchDB).1.1.seqNo =
      (reopenedBatchDB.seqNo + 1) % 2 ^ 64 ∧
    (∀ e ∈ reopenedBatchDB.scannedRecords, seqNoOf e.1 ≤ reopenedBatchDB.seqNo) :=
  ⟨by decide!, by decide!, by decide!,
   ((C19_sequence_numbers reopenedBatchDB).1 ⟨witnessBatchOptions, [([110], ⟨[110], [3], 0⟩)]⟩
      (by decide) (by decide!)).2.1,
   ((C19_sequence_numbers reopenedBatchDB).2 witnessOptions oneBatchDisk (by decide!)).1⟩

set_option maxRecDepth 100000 in
/-- Counterexample to C19 as stated.  The records of `lastSeqNoDisk` carry the
sequence number 2^64 - 1; `Open` leaves it in `seqNo`, and the next `Commit` succeeds
with the sequence number 0, which is neither one greater than the engine's `seqNo`
nor greater than the sequence numbers in the log. -/
theorem C19_counterexample :
    (Open witnessOptions lastSeqNoDisk).map (Except.map (fun d =>
      (d.seqNo, d.scannedRecords.map (fun e => seqNoOf e.1),
        (WriteBatch.Commit ⟨witnessBatchOptions, [([110], ⟨[110], [3], 0⟩)]⟩ d).2,
        (WriteBatch.Commit ⟨witnessBatchOptions, [([110], ⟨[110], [3], 0⟩)]⟩ d).1.1.seqNo))) =
      some (.ok (18446744073709551615, [18446744073709551615, 18446744073709551615], none, 0)) := by
  decide!
/-! ## Claims on the outcome of a `Commit` -/

/-- C6 (amended): in every engine state in which the offset recorded for the active
segment is the length of that segment on disk and the segments that the appends of
the `Commit` can open are empty or absent, for every batch whose buffer is a map from
non-empty keys to records (as `NewWriteBatch`, `Put` and `Delete` build it, which also
replace the record of a key buffered before) with keys of fewer than 2^32 - 10 bytes
and values of fewer than 2^32 bytes: after `Commit` returns success, `Get(k)` returns
the buffered value of a key whose buffered record is a `Put`, `Get(k)` returns
`ErrKeyNotFound` for a key whose buffered record is a `Delete`, and the buffer is
empty, so that a second `Commit` changes nothing. -/
theorem C6_commit_then_get (db : DB) (wb : WriteBatch)
    (hroom : db.RoomFor (wb.pendingWrites.length + 1)) (hbuf : wb.Buffered)
    (hsize : ∀ e ∈ wb.pendingWrites, e.1.length + 10 < 2 ^ 32 ∧ e.2.Value.length < 2 ^ 32)
    (hok : (wb.Commit db).2 = none) :
    (∀ k v, pendingGet wb.pendingWrites k = some { Key := k, Value := v, Typ := LogRecordNormal } →
      (wb.Commit db).1.1.Get k = .ok v) ∧
    (∀ k v, pendingGet wb.pendingWrites k = some { Key := k, Value := v, Typ := LogRecordDeleted } →
      (wb.Commit db).1.1.Get k = .error .KeyNotFound) ∧
    (wb.Commit db).1.2.pendingWrites = [] ∧
    (wb.Commit db).1.2.Commit (wb.Commit db).1.1 = ((wb.Commit db).1, none) ∧
    (∀ k v1 v2, ((wb.Put k v1).1.Put k v2).1 = (wb.Put k v2).1) ∧
    (∀ k v, (wb.Put k v).1.Buffered) ∧ (∀ d k, (wb.Delete d k).1.Buffered) := by
  have hempty : (wb.Commit db).1.2.pendingWrites = [] := by
    by_cases h0 : wb.pendingWrites = []
    · simp only [WriteBatch.Commit, h0, List.length_nil, ↓reduceIte]
    · exact (Commit_ok_appends wb db h0 hok).choose_spec.choose_spec.choose_spec.2.2.2
  refine ⟨(Commit_then_Get db wb hroom hbuf hsize hok).1,
    (Commit_then_Get db wb hroom hbuf hsize hok).2, hempty, ?_, ?_,
    fun k v => Buffered_Put wb hbuf k v, fun d k => Buffered_Delete wb hbuf d k⟩
  · exact Commit_empty _ _ hempty
  · intro k v1 v2
    simp only [WriteBatch.Put]
    by_cases hk : k.length = 0
    · simp only [if_pos hk]
    · simp only [if_neg hk, pendingSet_pendingSet]

set_option maxRecDepth 100000 in
/-- Witness of C6: on a fresh store the batch built by `Put("n", [1])`, `Put("n", [2])`,
`Put("o", [3])` buffers two records; after `Commit`, `Get("n")` returns `[2]`. -/
theorem C6_commit_then_get_witness :
    witnessBatch.pendingWrites.length = 2 ∧
    (witnessBatch.Commit (freshDB 100)).2 = none ∧
    (witnessBatch.Commit (freshDB 100)).1.1.Get [110] = .ok [2] :=
  ⟨by decide, by decide!,
   (C6_commit_then_get (freshDB 100) witnessBatch ⟨by decide, fun j _ => rfl⟩
      (Buffered_Put _ (Buffered_Put _ (Buffered_Put _ (NewWriteBatch_Buffered _) _ _) _ _) _ _)
      (by decide) (by decide!)).1 [110] [2] (by decide)⟩

set_option maxRecDepth 100000 in
/-- Counterexample to C6 as stated.  On the engine opened with `DataFileSize = 5` on
a directory that holds the segments 0 and 2^32 - 1, the first append of a `Commit`
rotates to the segment after 2^32 - 1, which is segment 0: the record is written
after the one segment 0 holds already and indexed at offset 0.  `Commit` of the
batch `Put("n", [1, 2])` returns success and `Get("n")` returns `[9]`, the value
stored for "a". -/
theorem C6_counterexample :
    (Open { DataFileSize := 5, SyncWrites := false } lastSegmentDisk).map (Except.map (fun d =>
      ((WriteBatch.Commit ((NewWriteBatch witnessBatchOptions).Put [110] [1, 2]).1 d).2,
       (WriteBatch.Commit ((NewWriteBatch witnessBatchOptions).Put [110] [1, 2]).1 d).1.1.Get
         [110]))) =
      some (.ok (none, .ok [9])) := by
  decide!
/-! ## Claims on re-opening a store -/

/-- C2 (amended): for every sequence of fewer than 2^32 successful `Put` and `Delete`
calls, with keys of fewer than 2^32 - 1 bytes and values of fewer than 2^32 bytes,
applied to the engine `Open` returns on an empty directory, `Open` on the resulting
segments succeeds and rebuilds an index equal to the live index; `Get(k)` after the
reopen returns the last value put for `k`, or `ErrKeyNotFound` if `k` was never put or
its last call is a `Delete`, as `Get(k)` does on the live engine. -/
theorem C2_reopen_after_puts_and_deletes (options : Options) (db0 : DB)
    (hopen : Open options [] = some (.ok db0)) (ops : List Op) (hlen : ops.length < 2 ^ 32)
    (hf : ∀ op ∈ ops, op.Framed) (db : DB) (hrun : db0.runOps ops = some db) :
    ∃ db1, Open db.options db.disk = some (.ok db1) ∧ db1.index = db.index ∧
      ∀ k, k ≠ [] →
        db1.Get k = (match lastValue ops k with
          | some v => .ok v
          | none => .error .KeyNotFound) ∧
        db.Get k = db1.Get k :=
  reopen_after_ops options db0 hopen ops hlen hf db hrun

set_option maxRecDepth 100000 in
/-- Witness of C2: the calls `Put("n", [1, 2])`, `Put("o", [3])`, `Delete("n")`,
`Put("n", [4])`, `Delete("p")` on a fresh store whose segments take 30 bytes, so that
the records spread over several segments. -/
theorem C2_reopen_after_puts_and_deletes_witness :
    (witnessOpsDB.disk.map (fun e => e.1) = [0, 1] ∧ lastValue witnessOps [110] = some [4] ∧
      lastValue witnessOps [111] = some [3] ∧ lastValue witnessOps [112] = none) ∧
    ∃ db1, Open witnessOpsDB.options witnessOpsDB.disk = some (.ok db1) ∧
      db1.index = witnessOpsDB.index ∧
      ∀ k, k ≠ [] →
        db1.Get k = (match lastValue witnessOps k with
          | some v => .ok v
          | none => .error .KeyNotFound) ∧
        witnessOpsDB.Get k = db1.Get k :=
  ⟨by decide!,
   C2_reopen_after_puts_and_deletes { DataFileSize := 30, SyncWrites := false } (freshDB 30)
    (by decide) witnessOps (by decide)
    (by
      intro op hop
      simp only [witnessOps, List.mem_cons, List.mem_singleton, List.not_mem_nil, or_false] at hop
      rcases hop with h | h | h | h | h <;> rw [h] <;> simp [Op.Framed])
    witnessOpsDB (by decide!)⟩

/-- Counterexample to C2 as stated: `Put("n", v)` with a value of 2^32 bytes on a
fresh store returns success, and whatever `Open` returns on the resulting segment,
`Get("n")` on it does not return `v`. -/
theorem C2_counterexample :
    ((freshDB 100).Put [110] hugeValue).2 = none ∧
    ∀ db1, Open witnessOptions ((freshDB 100).Put [110] hugeValue).1.disk = some (.ok db1) →
      db1.Get [110] ≠ .ok hugeValue := by
  refine ⟨?_, ?_⟩
  · exact Put_no_error _ _ _ (by decide) (by decide) (by rw [hugeValue_length]; norm_num)
  · intro db1 _ h
    have := Get_value_length_lt _ _ _ h
    rw [hugeValue_length] at this
    exact absurd this (by norm_num)
/-! ## The output of `Merge` -/

/-- C27, as amended.  For every engine state that passes the checks of `Merge` and is
sound (it stores framed segments `0, ..., n` with fewer than 2^32 records, its older
files are the segments below the active one, every record key parses, and every index
entry has a non-empty key and holds the segment and offset of a `Normal` record with
that key), `Merge` writes its output, `Open` on the data files of the merge directory
returns an engine, the index of that engine holds exactly the keys of the live index,
which `Merge` leaves as it is, and `Get` returns for every key what it returns on the
live engine. -/
theorem C27_merge_output_equivalent (db : DB) (env : MergeEnv)
    (hsound : ∃ olds cur, db.Sound olds cur ∧
      (scanListFrom 0 (olds ++ [cur])).length < 2 ^ 32)
    (hm : db.isMerging = false) (hr : env.ratioUnreached = false)
    (hsp : ¬ toUint64 (env.totalSize - db.reclaimSize) ≥ env.availableDiskSize) :
    ∃ db1 out err mdb, db.Merge env = some ((db1, some out), err) ∧
      db1.index = db.index ∧
      Open { db.options with SyncWrites := false } out.mergeDB.disk = some (.ok mdb) ∧
      (∀ k, (mdb.index.Get k).isSome = (db.index.Get k).isSome) ∧
      ∀ k, mdb.Get k = db.Get k := by
  obtain ⟨olds, cur, h, hlen⟩ := hsound
  exact Merge_sound db env olds cur h hlen hm hr hsp

set_option maxRecDepth 100000 in
/-- Witness for C27: the engine after `Put("n", [1, 2])`, `Put("o", [3])`,
`Delete("n")`, `Put("n", [4])`, `Delete("p")` on a fresh store with segments of 30
bytes is sound and passes the checks of `Merge`. -/
theorem C27_merge_output_equivalent_witness :
    (∃ olds cur, witnessOpsDB.Sound olds cur ∧
      (scanListFrom 0 (olds ++ [cur])).length < 2 ^ 32) ∧
    witnessOpsDB.isMerging = false ∧
    ∃ db1 out err mdb,
      witnessOpsDB.Merge { totalSize := 100, ratioUnreached := false,
                           availableDiskSize := 1000000 } = some ((db1, some out), err) ∧
      db1.index = witnessOpsDB.index ∧
      Open { witnessOpsDB.options with SyncWrites := false } out.mergeDB.disk =
        some (.ok mdb) ∧
      (∀ k, (mdb.index.Get k).isSome = (witnessOpsDB.index.Get k).isSome) ∧
      ∀ k, mdb.Get k = witnessOpsDB.Get k :=
  have hs : ∃ olds cur, witnessOpsDB.Sound olds cur ∧
      (scanListFrom 0 (olds ++ [cur])).length < 2 ^ 32 :=
    (fresh_runOps_sound { DataFileSize := 30, SyncWrites := false } (freshDB 30) (by decide!)
      witnessOps (by decide) (by simp [witnessOps, Op.Framed]) witnessOpsDB (by decide!)
      (by decide!)).imp (fun _ h => h.imp (fun _ h2 => ⟨h2.1, h2.2.2⟩))
  ⟨hs, by decide!,
    C27_merge_output_equivalent witnessOpsDB _ hs (by decide!) rfl (by decide!)⟩

set_option maxRecDepth 100000 in
/-- Counterexample to C27 as stated.  The directory holds segment 0 with the record of
"a" and an empty segment 4294967295, and segments take 5 bytes: `Put("n", [1, 2])`
on the opened engine rotates to segment id 0 (`uint32` wrap-around), where the record is
appended after the record of "a" and indexed at offset 0.  The engine passes the
checks of `Merge`, its index holds "n" at a position in segment 0 and `Get("n")`
returns `[9]`; `Merge` returns success with segment 0 among the merged files, and the
engine opened on the data files it wrote does not hold "n". -/
theorem C27_counterexample :
    (Open { DataFileSize := 5, SyncWrites := false } lastSegmentDisk).map
        (Except.map (fun d => (d.Put [110] [1, 2]))) = some (.ok (wrapLiveDB, none)) ∧
    (wrapLiveDB.isMerging, wrapLiveDB.index.Get [110], wrapLiveDB.Get [110]) =
      (false, some { Fid := 0, Offset := 0, Size := 11 }, .ok [9]) ∧
    (wrapLiveDB.Merge
        { totalSize := 100, ratioUnreached := false, availableDiskSize := 1000000 }).map
      (fun res => (res.2, (olderGet res.1.1.olderFiles 0).isSome)) = some (none, true) ∧
    ((wrapLiveDB.Merge
        { totalSize := 100, ratioUnreached := false, availableDiskSize := 1000000 }).bind
      (fun res => res.1.2.bind (fun out =>
        Open { wrapLiveDB.options with SyncWrites := false } out.mergeDB.disk))).map
      (Except.map (fun m => (m.index.Get [110], m.Get [110]))) =
      some (.ok (none, .error .KeyNotFound)) := by
  refine ⟨?_, ?_, ?_, ?_⟩
  · decide!
  · decide!
  · decide!
  · decide!
end ApertureKV
